import Mathlib

/-!
# CacheSim: a shallow embedding of the memory hierarchy simulator

The C sources embedded here are `common.h`, `common.c`, `statistics.c`,
`memory.c`, `direct_cache.c`, `full_cache.c`, `random.c`, `parse_config.c`,
`trace.c` and `cachesim.c`.

Conventions of the embedding.

* A C `int` is a Lean `Int`.  The operations whose result depends on the
  machine width are modelled on 32-bit two's complement words: the bitwise `&`
  used for address alignment (`int_and`), and the arithmetic of the clock, that
  is the sum and the product of `memory_read` and `memory_write` and the `+=`
  of `statistics_add_counter`, whose results are reduced to 32 bits
  (`int_wrap`) as the compiled program does.  The event counters, which move
  by one per event, are mathematical integers.
* The `double` expression of `random_next` is modelled in IEEE 754 binary64
  arithmetic, rounding to nearest with ties to even (`round_to_double`).
* A C array is a `List`; a pointer to a block of a cache is an index into the
  list of blocks.  An access outside an array (undefined behaviour in C) makes
  the embedded function return `none`, and so does a division by zero.
* The shared `StatisticsInfo` record, which every layer reaches through a
  pointer, is passed in and returned explicitly.
* The table of function pointers `AbstractMemoryOps` of a lower layer becomes a
  record of functions over the state type `L` of that layer; a cache layer is
  generic in `L`, which gives the stacking of layers of the C code.
* The function pointers stored inside a cache (`b.ops`, `finalize`,
  `cache_place`) are represented by the tag `write_strategy` that selects them.
-/

namespace CacheSim

/-! ## common.h -/

/-- The type of addresses, `typedef int memaddr_t`. -/
abbrev memaddr_t := Int

/-- One memory cell: `value` is the byte, `flags` is 0 while the value is
unknown and 1 once it is known. -/
structure MemoryCell where
  value : Nat
  flags : Nat
deriving DecidableEq, Repr

/-- The constant `KiB` of `common.h`. -/
def KiB : Int := 1024

/-- The constant `MiB` of `common.h`. -/
def MiB : Int := 1024 * 1024

/-- The constant `GiB` of `common.h`. -/
def GiB : Int := 1024 * 1024 * 1024

/-! ## Machine-level helpers -/

/-- Reinterpret a 32-bit word as a signed two's complement `int`. -/
def to_int32 (u : Nat) : Int :=
  if u < 2147483648 then (u : Int) else (u : Int) - 4294967296

/-- The value that `int` arithmetic leaves where the mathematical result is
`x`: the result reduced to 32 bits, two's complement.  It is `x` itself when
`x` is in the range of `int`. -/
def int_wrap (x : Int) : Int := to_int32 (x % 4294967296).toNat

/-- The C operator `&` on two 32-bit `int` values. -/
def int_and (a b : Int) : Int :=
  to_int32 (Nat.land (a % 4294967296).toNat (b % 4294967296).toNat)

/-- Element `i` of a C array, `none` when the index is outside the array. -/
def at_index {α : Type} (l : List α) (i : Int) : Option α :=
  if i < 0 then none else l[i.toNat]?

/-- The library call `memcpy(dst + doff, src + soff, n * sizeof(cell))`: the
result is the new contents of the destination array.  It is `none` when the
copied range leaves either array or `n` is negative. -/
def memcpy (dst : List MemoryCell) (doff : Int) (src : List MemoryCell) (soff : Int)
    (n : Int) : Option (List MemoryCell) :=
  if 0 ≤ doff ∧ 0 ≤ soff ∧ 0 ≤ n ∧ doff + n ≤ dst.length ∧ soff + n ≤ src.length then
    some (dst.take doff.toNat ++ (src.drop soff.toNat).take n.toNat
      ++ dst.drop (doff + n).toNat)
  else none

/-! ## statistics.c -/

/-- The accounting record `StatisticsInfo`. -/
structure StatisticsInfo where
  clock_counter : Int
  read_counter : Int
  write_counter : Int
  hit_counter : Int
  write_back_counter : Int
  hit_counter_needed : Int
  write_back_needed : Int
deriving DecidableEq, Repr

/-- Embeds `statistics_add_counter`: `info->clock_counter += clock_counter` on
`int` fields. -/
def statistics_add_counter (info : StatisticsInfo) (clock_counter : Int) : StatisticsInfo :=
  { info with clock_counter := int_wrap (info.clock_counter + clock_counter) }

/-- Embeds `statistics_add_hit_counter`. -/
def statistics_add_hit_counter (info : StatisticsInfo) : StatisticsInfo :=
  { info with hit_counter := info.hit_counter + 1 }

/-- Embeds `statistics_add_read`. -/
def statistics_add_read (info : StatisticsInfo) : StatisticsInfo :=
  { info with read_counter := info.read_counter + 1 }

/-- Embeds `statistics_add_write`. -/
def statistics_add_write (info : StatisticsInfo) : StatisticsInfo :=
  { info with write_counter := info.write_counter + 1 }

/-- Embeds `statistics_add_write_back_counter`. -/
def statistics_add_write_back_counter (info : StatisticsInfo) : StatisticsInfo :=
  { info with write_back_counter := info.write_back_counter + 1 }

/-! ## The interface of a layer -/

/-- The operations of a layer whose state has type `L` (the C table
`AbstractMemoryOps`, without `free` and `print_dump`).  The destination of
`read` is `none` for a null pointer; the returned destination is its new
contents. -/
structure AbstractMemoryOps (L : Type) where
  read : L → StatisticsInfo → memaddr_t → Int → Option (List MemoryCell) →
    Option (L × StatisticsInfo × Option (List MemoryCell))
  write : L → StatisticsInfo → memaddr_t → Int → List MemoryCell →
    Option (L × StatisticsInfo)
  reveal : L → StatisticsInfo → memaddr_t → Int → List MemoryCell →
    Option (L × StatisticsInfo)
  flush : L → StatisticsInfo → Option (L × StatisticsInfo)

/-! ## memory.c -/

/-- The constant `MAX_MEM_SIZE` of `memory.c`. -/
def MAX_MEM_SIZE : Int := 1 * GiB

/-- The descriptor `struct Memory` of the backing store. -/
structure Memory where
  mem : List MemoryCell
  memory_size : Int
  memory_read_time : Int
  memory_write_time : Int
  memory_width : Int
deriving DecidableEq, Repr

/-- The copy loop of `memory_read`,
`for (; size; ++addr, --size, ++dst) { if (addr >= memory_size) break; *dst = mem[addr]; }`.
The list argument is the destination array from the current position on. -/
def memory_read_loop (m : Memory) : List MemoryCell → memaddr_t → Int → Option (List MemoryCell)
  | [], addr, size => if size = 0 ∨ addr ≥ m.memory_size then some [] else none
  | d :: rest, addr, size =>
    if size = 0 then some (d :: rest)
    else if addr ≥ m.memory_size then some (d :: rest)
    else
      match at_index m.mem addr with
      | none => none
      | some cell =>
        match memory_read_loop m rest (addr + 1) (size - 1) with
        | none => none
        | some rest' => some (cell :: rest')

/-- The local variable `blocks_count` of `memory_read` and `memory_write`,
`(size + m->memory_width - 1) / m->memory_width` in `int` arithmetic. -/
def blocks_count (size memory_width : Int) : Int :=
  Int.tdiv (int_wrap (size + memory_width - 1)) memory_width

/-- Embeds `memory_read`. -/
def memory_read (m : Memory) (info : StatisticsInfo) (addr : memaddr_t) (size : Int)
    (dst : Option (List MemoryCell)) :
    Option (Memory × StatisticsInfo × Option (List MemoryCell)) :=
  if m.memory_width = 0 then none
  else
    let info := statistics_add_counter info
      (int_wrap (blocks_count size m.memory_width * m.memory_read_time))
    match dst with
    | none => some (m, info, none)
    | some d =>
      match memory_read_loop m d addr size with
      | none => none
      | some d' => some (m, info, some d')

/-- The copy loop shared, with the same text, by `memory_write` and
`memory_reveal`:
`for (; size; ++addr, --size, ++src) { if (addr >= memory_size) break; mem[addr] = *src; }`.
The first list is the source array from the current position on, the second
one the cells of the memory. -/
def memory_store_loop (memory_size : Int) :
    List MemoryCell → List MemoryCell → memaddr_t → Int → Option (List MemoryCell)
  | [], mem, addr, size => if size = 0 ∨ addr ≥ memory_size then some mem else none
  | s :: rest, mem, addr, size =>
    if size = 0 then some mem
    else if addr ≥ memory_size then some mem
    else if 0 ≤ addr ∧ addr < mem.length then
      memory_store_loop memory_size rest (mem.set addr.toNat s) (addr + 1) (size - 1)
    else none

/-- Embeds `memory_write`. -/
def memory_write (m : Memory) (info : StatisticsInfo) (addr : memaddr_t) (size : Int)
    (src : List MemoryCell) : Option (Memory × StatisticsInfo) :=
  if m.memory_width = 0 then none
  else
    let info := statistics_add_counter info
      (int_wrap (blocks_count size m.memory_width * m.memory_write_time))
    match memory_store_loop m.memory_size src m.mem addr size with
    | none => none
    | some mem' => some ({ m with mem := mem' }, info)

/-- Embeds `memory_reveal`. -/
def memory_reveal (m : Memory) (info : StatisticsInfo) (addr : memaddr_t) (size : Int)
    (src : List MemoryCell) : Option (Memory × StatisticsInfo) :=
  match memory_store_loop m.memory_size src m.mem addr size with
  | none => none
  | some mem' => some ({ m with mem := mem' }, info)

/-- Embeds `memory_flush`. -/
def memory_flush (m : Memory) (info : StatisticsInfo) : Option (Memory × StatisticsInfo) :=
  some (m, info)

/-- The table `memory_ops`. -/
def memory_ops : AbstractMemoryOps Memory where
  read := memory_read
  write := memory_write
  reveal := memory_reveal
  flush := memory_flush

/-! ## direct_cache.c -/

/-- The constant `NO_BLOCK`: the `addr` field of a free block. -/
def NO_BLOCK : Int := -1

/-- The constant `MAX_CACHE_SIZE`. -/
def MAX_CACHE_SIZE : Int := 16 * MiB

/-- The constant `MAX_READ_TIME` of the caches. -/
def MAX_READ_TIME : Int := 100000

/-- The constant `MAX_WRITE_TIME` of the caches. -/
def MAX_WRITE_TIME : Int := MAX_READ_TIME

/-- One block of a cache.  `struct DirectCacheBlock` and `struct FullCacheBlock`
have the same three fields; `addr` is a `memaddr_t`. -/
structure CacheBlock where
  addr : Int
  mem : List MemoryCell
  dirty : Int
deriving DecidableEq, Repr

/-- The block type of the direct-mapped cache. -/
abbrev DirectCacheBlock := CacheBlock

/-- The write strategy chosen at construction; it stands for the function
pointers (`b.ops` and `finalize`) that construction installs. -/
inductive WriteStrategy where
  | write_through
  | write_back
deriving DecidableEq, Repr

/-- The descriptor `struct DirectCache`; `mem` is the state of the lower layer. -/
structure DirectCache (L : Type) where
  write_strategy : WriteStrategy
  blocks : List DirectCacheBlock
  mem : L
  cache_size : Int
  block_size : Int
  block_count : Int
  cache_read_time : Int
  cache_write_time : Int
deriving DecidableEq, Repr

/-- Embeds `direct_cache_find`: `none` is undefined behaviour, `some none` the
null pointer, `some (some i)` a pointer to block `i`. -/
def direct_cache_find {L : Type} (c : DirectCache L) (aligned_addr : memaddr_t) :
    Option (Option Nat) :=
  if c.block_size = 0 ∨ c.block_count = 0 then none
  else
    let index := Int.tmod (Int.tdiv aligned_addr c.block_size) c.block_count
    match at_index c.blocks index with
    | none => none
    | some b => if b.addr ≠ aligned_addr then some none else some (some index.toNat)

/-- Embeds `direct_cache_wt_finalize`. -/
def direct_cache_wt_finalize {L : Type} (c : DirectCache L) (info : StatisticsInfo)
    (_b : Nat) : Option (DirectCache L × StatisticsInfo) :=
  some (c, info)

/-- Embeds `direct_cache_wb_finalize`; `i` is the index of the block `b`. -/
def direct_cache_wb_finalize {L : Type} (ops : AbstractMemoryOps L) (c : DirectCache L)
    (info : StatisticsInfo) (i : Nat) : Option (DirectCache L × StatisticsInfo) :=
  match c.blocks[i]? with
  | none => none
  | some b =>
    if b.dirty ≠ 0 then
      let info := statistics_add_write_back_counter info
      match ops.write c.mem info b.addr c.block_size b.mem with
      | none => none
      | some (lower, info) =>
        some ({ c with mem := lower, blocks := c.blocks.set i { b with dirty := 0 } }, info)
    else some (c, info)

/-- The call `c->direct_ops.finalize(c, b)`. -/
def direct_ops_finalize {L : Type} (ops : AbstractMemoryOps L) (c : DirectCache L)
    (info : StatisticsInfo) (i : Nat) : Option (DirectCache L × StatisticsInfo) :=
  match c.write_strategy with
  | WriteStrategy.write_through => direct_cache_wt_finalize c info i
  | WriteStrategy.write_back => direct_cache_wb_finalize ops c info i

/-- Embeds `direct_cache_place`; the result carries the index of the block. -/
def direct_cache_place {L : Type} (ops : AbstractMemoryOps L) (c : DirectCache L)
    (info : StatisticsInfo) (aligned_addr : memaddr_t) :
    Option (DirectCache L × StatisticsInfo × Nat) :=
  if c.block_size = 0 ∨ c.block_count = 0 then none
  else
    let index := Int.tmod (Int.tdiv aligned_addr c.block_size) c.block_count
    match at_index c.blocks index with
    | none => none
    | some b =>
      match (if b.addr ≠ NO_BLOCK then direct_ops_finalize ops c info index.toNat
             else some (c, info)) with
      | none => none
      | some (c1, info1) =>
        match c1.blocks[index.toNat]? with
        | none => none
        | some b1 =>
          match ops.read c1.mem info1 aligned_addr c1.block_size (some b1.mem) with
          | none => none
          | some (lower, info2, d) =>
            some ({ c1 with
                    mem := lower,
                    blocks := c1.blocks.set index.toNat
                      { b1 with addr := aligned_addr, mem := d.getD b1.mem } },
                  info2, index.toNat)

/-- Embeds `direct_cache_read`. -/
def direct_cache_read {L : Type} (ops : AbstractMemoryOps L) (c : DirectCache L)
    (info : StatisticsInfo) (addr : memaddr_t) (size : Int) (dst : Option (List MemoryCell)) :
    Option (DirectCache L × StatisticsInfo × Option (List MemoryCell)) :=
  let aligned_addr := int_and addr (-c.block_size)
  let info := statistics_add_counter info c.cache_read_time
  match direct_cache_find c aligned_addr with
  | none => none
  | some found =>
    match (match found with
           | some i => some (c, statistics_add_hit_counter info, i)
           | none => direct_cache_place ops c info aligned_addr) with
    | none => none
    | some (c1, info1, i) =>
      match dst with
      | none => some (c1, info1, none)
      | some d =>
        match c1.blocks[i]? with
        | none => none
        | some b =>
          match memcpy d 0 b.mem (addr - aligned_addr) size with
          | none => none
          | some d' => some (c1, info1, some d')

/-- Embeds `direct_cache_wt_write`. -/
def direct_cache_wt_write {L : Type} (ops : AbstractMemoryOps L) (c : DirectCache L)
    (info : StatisticsInfo) (addr : memaddr_t) (size : Int) (src : List MemoryCell) :
    Option (DirectCache L × StatisticsInfo) :=
  let aligned_addr := int_and addr (-c.block_size)
  match direct_cache_find c aligned_addr with
  | none => none
  | some found =>
    let info := statistics_add_counter info c.cache_write_time
    match (match found with
           | some i =>
             match c.blocks[i]? with
             | none => none
             | some b =>
               match memcpy b.mem (addr - aligned_addr) src 0 size with
               | none => none
               | some cells => some (c.blocks.set i { b with mem := cells })
           | none => some c.blocks) with
    | none => none
    | some blocks1 =>
      match ops.write c.mem info addr size src with
      | none => none
      | some (lower, info1) => some ({ c with mem := lower, blocks := blocks1 }, info1)

/-- Embeds `direct_cache_wb_write`. -/
def direct_cache_wb_write {L : Type} (ops : AbstractMemoryOps L) (c : DirectCache L)
    (info : StatisticsInfo) (addr : memaddr_t) (size : Int) (src : List MemoryCell) :
    Option (DirectCache L × StatisticsInfo) :=
  let aligned_addr := int_and addr (-c.block_size)
  let info := statistics_add_counter info c.cache_write_time
  match direct_cache_find c aligned_addr with
  | none => none
  | some found =>
    match (match found with
           | some i => some (c, info, i)
           | none => direct_cache_place ops c info aligned_addr) with
    | none => none
    | some (c1, info1, i) =>
      match c1.blocks[i]? with
      | none => none
      | some b =>
        match memcpy b.mem (addr - aligned_addr) src 0 size with
        | none => none
        | some cells =>
          some ({ c1 with blocks := c1.blocks.set i { b with mem := cells, dirty := 1 } }, info1)

/-- Embeds `direct_cache_reveal`. -/
def direct_cache_reveal {L : Type} (ops : AbstractMemoryOps L) (c : DirectCache L)
    (info : StatisticsInfo) (addr : memaddr_t) (size : Int) (src : List MemoryCell) :
    Option (DirectCache L × StatisticsInfo) :=
  let aligned_addr := int_and addr (-c.block_size)
  match direct_cache_find c aligned_addr with
  | none => none
  | some found =>
    match (match found with
           | some i =>
             match c.blocks[i]? with
             | none => none
             | some b =>
               match memcpy b.mem (addr - aligned_addr) src 0 size with
               | none => none
               | some cells => some (c.blocks.set i { b with mem := cells })
           | none => some c.blocks) with
    | none => none
    | some blocks1 =>
      match ops.reveal c.mem info addr size src with
      | none => none
      | some (lower, info1) => some ({ c with mem := lower, blocks := blocks1 }, info1)

/-- The loop of `direct_cache_flush`,
`for (int i = 0; i < block_count; i++) if (blocks[i].addr != NO_BLOCK) finalize(c, &blocks[i]);`
with `n` iterations left and the loop variable at `i`. -/
def direct_cache_flush_loop {L : Type} (ops : AbstractMemoryOps L) :
    Nat → Nat → DirectCache L → StatisticsInfo → Option (DirectCache L × StatisticsInfo)
  | 0, _, c, info => some (c, info)
  | n + 1, i, c, info =>
    match c.blocks[i]? with
    | none => none
    | some b =>
      match (if b.addr ≠ NO_BLOCK then direct_ops_finalize ops c info i
             else some (c, info)) with
      | none => none
      | some (c1, info1) => direct_cache_flush_loop ops n (i + 1) c1 info1

/-- Embeds `direct_cache_flush`. -/
def direct_cache_flush {L : Type} (ops : AbstractMemoryOps L) (c : DirectCache L)
    (info : StatisticsInfo) : Option (DirectCache L × StatisticsInfo) :=
  match direct_cache_flush_loop ops c.block_count.toNat 0 c info with
  | none => none
  | some (c1, info1) =>
    match ops.flush c1.mem info1 with
    | none => none
    | some (lower, info2) => some ({ c1 with mem := lower }, info2)

/-- The tables `direct_cache_wt_ops` and `direct_cache_wb_ops`: the one in use
is selected by the write strategy of the cache. -/
def direct_cache_ops {L : Type} (ops : AbstractMemoryOps L) :
    AbstractMemoryOps (DirectCache L) where
  read := direct_cache_read ops
  write := fun c =>
    match c.write_strategy with
    | WriteStrategy.write_through => direct_cache_wt_write ops c
    | WriteStrategy.write_back => direct_cache_wb_write ops c
  reveal := direct_cache_reveal ops
  flush := direct_cache_flush ops

/-- Embeds `is_correct_block_size`. -/
def is_correct_block_size (block_size : Int) : Bool :=
  (block_size == 16) || (block_size == 32) || (block_size == 64)

/-- A block as construction leaves it: `addr = NO_BLOCK`, and `block_size`
cells and a dirty flag that `calloc` has zero-filled. -/
def free_block (block_size : Int) : CacheBlock :=
  { addr := NO_BLOCK, mem := List.replicate block_size.toNat { value := 0, flags := 0 },
    dirty := 0 }

/-- The state that `direct_cache_create` returns once every parameter has
passed validation: `block_count = cache_size / block_size` free blocks. -/
def direct_cache_alloc {L : Type} (write_strategy : WriteStrategy) (block_size cache_size
    cache_read_time cache_write_time : Int) (mem : L) : DirectCache L where
  write_strategy := write_strategy
  blocks := List.replicate (Int.tdiv cache_size block_size).toNat (free_block block_size)
  mem := mem
  cache_size := cache_size
  block_size := block_size
  block_count := Int.tdiv cache_size block_size
  cache_read_time := cache_read_time
  cache_write_time := cache_write_time

/-! ## random.c -/

/-- The constant `RAND_MAX` of the C library (its value in glibc). -/
def RAND_MAX : Int := 2147483647

/-- The generator `struct Random`.  The C library generator behind `rand()` is
external: `raw k` is the value returned by the `k`-th call of `rand()` and
`calls` counts the calls made so far. -/
structure Random where
  seed : Int
  raw : Nat → Int
  calls : Nat

/-- The number of bits of `a` beyond 53, the width of the significand of a
`double`: the least `e` with `a < 2^(53 + e)`.  The first argument bounds the
number of halvings; `a` itself is enough. -/
def excess_bits : Nat → Nat → Nat
  | 0, _ => 0
  | fuel + 1, a => if a < 9007199254740992 then 0 else excess_bits fuel (a / 2) + 1

/-- Rounding of the natural number `a` to the nearest number with at most 53
significant bits, ties going to the even significand: the rounding of IEEE 754
binary64 arithmetic. -/
def round_to_double (a : Nat) : Nat :=
  let e := excess_bits a a
  let q := a / 2 ^ e
  let r := a % 2 ^ e
  if 2 * r < 2 ^ e then q * 2 ^ e
  else if 2 * r = 2 ^ e ∧ q % 2 = 0 then q * 2 ^ e
  else (q + 1) * 2 ^ e

/-- Embeds `random_next`, `(int) (rand() / (RAND_MAX + 1.0) * n)`.  The
quotient `rand() / 2^31` is exact in `double`; its product with `n` is the
exact product `rand() * n / 2^31` rounded to 53 significant bits, which is
`round_to_double |rand() * n| / 2^31` with the sign of the product; the
conversion to `int` drops the fraction. -/
def random_next (rnd : Random) (n : Int) : Int × Random :=
  let p := rnd.raw rnd.calls * n
  (Int.sign p * ((round_to_double p.natAbs / 2147483648 : Nat) : Int),
    { rnd with calls := rnd.calls + 1 })

/-! ## full_cache.c -/

/-- The block type of the fully-associative cache. -/
abbrev FullCacheBlock := CacheBlock

/-- The descriptor `struct FullCache`; `mem` is the state of the lower layer and
`rnd` the generator lent by the driver. -/
structure FullCache (L : Type) where
  write_strategy : WriteStrategy
  rnd : Random
  blocks : List FullCacheBlock
  mem : L
  cache_size : Int
  block_size : Int
  block_count : Int
  cache_read_time : Int
  cache_write_time : Int

/-- The scan `for (int i = 0; i < block_count; i++) if (blocks[i].addr == a) ...`
of `full_cache_find` (and, with `a = NO_BLOCK`, of `full_cache_random_place`),
with `n` iterations left and the loop variable at `i`. -/
def full_cache_find_loop (blocks : List FullCacheBlock) (a : memaddr_t) :
    Nat → Nat → Option (Option Nat)
  | 0, _ => some none
  | n + 1, i =>
    match blocks[i]? with
    | none => none
    | some b => if b.addr = a then some (some i) else full_cache_find_loop blocks a n (i + 1)

/-- Embeds `full_cache_find`: `none` is undefined behaviour, `some none` the
null pointer, `some (some i)` a pointer to block `i`. -/
def full_cache_find {L : Type} (c : FullCache L) (aligned_addr : memaddr_t) :
    Option (Option Nat) :=
  full_cache_find_loop c.blocks aligned_addr c.block_count.toNat 0

/-- Embeds `full_cache_wt_finalize`. -/
def full_cache_wt_finalize {L : Type} (c : FullCache L) (info : StatisticsInfo)
    (_b : Nat) : Option (FullCache L × StatisticsInfo) :=
  some (c, info)

/-- Embeds `full_cache_wb_finalize`; `i` is the index of the block `b`. -/
def full_cache_wb_finalize {L : Type} (ops : AbstractMemoryOps L) (c : FullCache L)
    (info : StatisticsInfo) (i : Nat) : Option (FullCache L × StatisticsInfo) :=
  match c.blocks[i]? with
  | none => none
  | some b =>
    if b.dirty ≠ 0 then
      let info := statistics_add_write_back_counter info
      match ops.write c.mem info b.addr c.block_size b.mem with
      | none => none
      | some (lower, info) =>
        some ({ c with mem := lower, blocks := c.blocks.set i { b with dirty := 0 } }, info)
    else some (c, info)

/-- The call `c->full_ops.finalize(c, b)`. -/
def full_ops_finalize {L : Type} (ops : AbstractMemoryOps L) (c : FullCache L)
    (info : StatisticsInfo) (i : Nat) : Option (FullCache L × StatisticsInfo) :=
  match c.write_strategy with
  | WriteStrategy.write_through => full_cache_wt_finalize c info i
  | WriteStrategy.write_back => full_cache_wb_finalize ops c info i

/-- Embeds `full_cache_random_place`; the result carries the index of the
block. -/
def full_cache_random_place {L : Type} (ops : AbstractMemoryOps L) (c : FullCache L)
    (info : StatisticsInfo) (aligned_addr : memaddr_t) :
    Option (FullCache L × StatisticsInfo × Nat) :=
  match full_cache_find_loop c.blocks NO_BLOCK c.block_count.toNat 0 with
  | none => none
  | some free =>
    match (match free with
           | some i => some (c, info, i)
           | none =>
             let random_index := (random_next c.rnd c.block_count).1
             let c0 := { c with rnd := (random_next c.rnd c.block_count).2 }
             match at_index c0.blocks random_index with
             | none => none
             | some _ =>
               match full_ops_finalize ops c0 info random_index.toNat with
               | none => none
               | some (c1, info1) => some (c1, info1, random_index.toNat)) with
    | none => none
    | some (c1, info1, i) =>
      match c1.blocks[i]? with
      | none => none
      | some b1 =>
        match ops.read c1.mem info1 aligned_addr c1.block_size (some b1.mem) with
        | none => none
        | some (lower, info2, d) =>
          some ({ c1 with
                  mem := lower,
                  blocks := c1.blocks.set i
                    { b1 with addr := aligned_addr, mem := d.getD b1.mem } },
                info2, i)

/-- Embeds `full_cache_read`; `cache_place` is `full_cache_random_place`, the
only placement function that construction installs. -/
def full_cache_read {L : Type} (ops : AbstractMemoryOps L) (c : FullCache L)
    (info : StatisticsInfo) (addr : memaddr_t) (size : Int) (dst : Option (List MemoryCell)) :
    Option (FullCache L × StatisticsInfo × Option (List MemoryCell)) :=
  let aligned_addr := int_and addr (-c.block_size)
  let info := statistics_add_counter info c.cache_read_time
  match full_cache_find c aligned_addr with
  | none => none
  | some found =>
    match (match found with
           | some i => some (c, statistics_add_hit_counter info, i)
           | none => full_cache_random_place ops c info aligned_addr) with
    | none => none
    | some (c1, info1, i) =>
      match dst with
      | none => some (c1, info1, none)
      | some d =>
        match c1.blocks[i]? with
        | none => none
        | some b =>
          match memcpy d 0 b.mem (addr - aligned_addr) size with
          | none => none
          | some d' => some (c1, info1, some d')

/-- Embeds `full_cache_wt_write`. -/
def full_cache_wt_write {L : Type} (ops : AbstractMemoryOps L) (c : FullCache L)
    (info : StatisticsInfo) (addr : memaddr_t) (size : Int) (src : List MemoryCell) :
    Option (FullCache L × StatisticsInfo) :=
  let aligned_addr := int_and addr (-c.block_size)
  match full_cache_find c aligned_addr with
  | none => none
  | some found =>
    let info := statistics_add_counter info c.cache_write_time
    match (match found with
           | some i =>
             match c.blocks[i]? with
             | none => none
             | some b =>
               match memcpy b.mem (addr - aligned_addr) src 0 size with
               | none => none
               | some cells => some (c.blocks.set i { b with mem := cells })
           | none => some c.blocks) with
    | none => none
    | some blocks1 =>
      match ops.write c.mem info addr size src with
      | none => none
      | some (lower, info1) => some ({ c with mem := lower, blocks := blocks1 }, info1)

/-- Embeds `full_cache_wb_write`. -/
def full_cache_wb_write {L : Type} (ops : AbstractMemoryOps L) (c : FullCache L)
    (info : StatisticsInfo) (addr : memaddr_t) (size : Int) (src : List MemoryCell) :
    Option (FullCache L × StatisticsInfo) :=
  let aligned_addr := int_and addr (-c.block_size)
  let info := statistics_add_counter info c.cache_write_time
  match full_cache_find c aligned_addr with
  | none => none
  | some found =>
    match (match found with
           | some i => some (c, info, i)
           | none => full_cache_random_place ops c info aligned_addr) with
    | none => none
    | some (c1, info1, i) =>
      match c1.blocks[i]? with
      | none => none
      | some b =>
        match memcpy b.mem (addr - aligned_addr) src 0 size with
        | none => none
        | some cells =>
          some ({ c1 with blocks := c1.blocks.set i { b with mem := cells, dirty := 1 } }, info1)

/-- Embeds `full_cache_reveal`. -/
def full_cache_reveal {L : Type} (ops : AbstractMemoryOps L) (c : FullCache L)
    (info : StatisticsInfo) (addr : memaddr_t) (size : Int) (src : List MemoryCell) :
    Option (FullCache L × StatisticsInfo) :=
  let aligned_addr := int_and addr (-c.block_size)
  match full_cache_find c aligned_addr with
  | none => none
  | some found =>
    match (match found with
           | some i =>
             match c.blocks[i]? with
             | none => none
             | some b =>
               match memcpy b.mem (addr - aligned_addr) src 0 size with
               | none => none
               | some cells => some (c.blocks.set i { b with mem := cells })
           | none => some c.blocks) with
    | none => none
    | some blocks1 =>
      match ops.reveal c.mem info addr size src with
      | none => none
      | some (lower, info1) => some ({ c with mem := lower, blocks := blocks1 }, info1)

/-- The loop of `full_cache_flush`, with `n` iterations left and the loop
variable at `i`. -/
def full_cache_flush_loop {L : Type} (ops : AbstractMemoryOps L) :
    Nat → Nat → FullCache L → StatisticsInfo → Option (FullCache L × StatisticsInfo)
  | 0, _, c, info => some (c, info)
  | n + 1, i, c, info =>
    match c.blocks[i]? with
    | none => none
    | some b =>
      match (if b.addr ≠ NO_BLOCK then full_ops_finalize ops c info i
             else some (c, info)) with
      | none => none
      | some (c1, info1) => full_cache_flush_loop ops n (i + 1) c1 info1

/-- Embeds `full_cache_flush`. -/
def full_cache_flush {L : Type} (ops : AbstractMemoryOps L) (c : FullCache L)
    (info : StatisticsInfo) : Option (FullCache L × StatisticsInfo) :=
  match full_cache_flush_loop ops c.block_count.toNat 0 c info with
  | none => none
  | some (c1, info1) =>
    match ops.flush c1.mem info1 with
    | none => none
    | some (lower, info2) => some ({ c1 with mem := lower }, info2)

/-- The tables `full_cache_wt_ops` and `full_cache_wb_ops`: the one in use is
selected by the write strategy of the cache. -/
def full_cache_ops {L : Type} (ops : AbstractMemoryOps L) :
    AbstractMemoryOps (FullCache L) where
  read := full_cache_read ops
  write := fun c =>
    match c.write_strategy with
    | WriteStrategy.write_through => full_cache_wt_write ops c
    | WriteStrategy.write_back => full_cache_wb_write ops c
  reveal := full_cache_reveal ops
  flush := full_cache_flush ops

/-- The state that `full_cache_create` returns once every parameter has passed
validation: `block_count = cache_size / block_size` free blocks. -/
def full_cache_alloc {L : Type} (write_strategy : WriteStrategy) (block_size cache_size
    cache_read_time cache_write_time : Int) (mem : L) (rnd : Random) : FullCache L where
  write_strategy := write_strategy
  rnd := rnd
  blocks := List.replicate (Int.tdiv cache_size block_size).toNat (free_block block_size)
  mem := mem
  cache_size := cache_size
  block_size := block_size
  block_count := Int.tdiv cache_size block_size
  cache_read_time := cache_read_time
  cache_write_time := cache_write_time

/-! ## Specification vocabulary -/

/-- The rounded-up quotient `ceil(a / b)` of the timing model. -/
def ceil_div (a b : Int) : Int := ⌈(a : ℚ) / (b : ℚ)⌉

/-- The value `x` lies in the range of a C `int`. -/
def in_int_range (x : Int) : Prop := -2147483648 ≤ x ∧ x ≤ 2147483647

instance (x : Int) : Decidable (in_int_range x) := by
  unfold in_int_range; infer_instance

/-- A memory as `memory_create` builds it: the cell array has `memory_size`
cells and the bus width is positive. -/
def Memory.wf (m : Memory) : Prop :=
  (m.mem.length : Int) = m.memory_size ∧ 0 < m.memory_width

/-- The array `cells'` is `cells` after `src[0 .. size)` has been stored from
address `addr` on, the store being cut off at address `limit`. -/
def stored_at (cells' cells : List MemoryCell) (addr size limit : Int)
    (src : List MemoryCell) : Prop :=
  cells'.length = cells.length ∧
  ∀ j : Nat, cells'[j]? =
    if addr ≤ j ∧ (j : Int) < addr + size ∧ (j : Int) < limit
    then src[((j : Int) - addr).toNat]? else cells[j]?

/-- The array `d'` is `d` after the cells `[addr, addr + size)` of `cells`,
cut off at address `limit`, have been loaded into its first positions. -/
def loaded_from (d' d : List MemoryCell) (cells : List MemoryCell) (addr size limit : Int) :
    Prop :=
  d'.length = d.length ∧
  ∀ j : Nat, d'[j]? =
    if (j : Int) < size ∧ addr + j < limit then cells[(addr + j).toNat]? else d[j]?

/-! ## Operation sequences -/

/-- One call on the interface of a layer. -/
inductive MemOp where
  | read (addr : Int) (size : Int) (dst : Option (List MemoryCell))
  | write (addr : Int) (size : Int) (src : List MemoryCell)
  | reveal (addr : Int) (size : Int) (src : List MemoryCell)
  | flush

/-- Perform one call on a layer; the cells a read copies out are dropped. -/
def apply_op {L : Type} (ops : AbstractMemoryOps L) (st : L × StatisticsInfo) :
    MemOp → Option (L × StatisticsInfo)
  | MemOp.read a s dst =>
    match ops.read st.1 st.2 a s dst with
    | none => none
    | some r => some (r.1, r.2.1)
  | MemOp.write a s src => ops.write st.1 st.2 a s src
  | MemOp.reveal a s src => ops.reveal st.1 st.2 a s src
  | MemOp.flush => ops.flush st.1 st.2

/-- Perform a sequence of calls, first to last. -/
def run_ops {L : Type} (ops : AbstractMemoryOps L) :
    List MemOp → L × StatisticsInfo → Option (L × StatisticsInfo)
  | [], st => some st
  | op :: rest, st =>
    match apply_op ops st op with
    | none => none
    | some st' => run_ops ops rest st'

/-- An access `[addr, addr + size)` that starts at a non-negative address, ends
inside a memory of `msz` cells and stays inside one block of `bs` cells. -/
def access_ok (bs msz : Int) (addr size : Int) : Prop :=
  0 ≤ addr ∧ 0 ≤ size ∧ addr + size ≤ msz ∧ addr % bs + size ≤ bs

/-- A call whose access is `access_ok` and whose buffer holds at least `size`
cells. -/
def op_ok (bs msz : Int) : MemOp → Prop
  | MemOp.read a s dst => access_ok bs msz a s ∧ ∀ d, dst = some d → s ≤ (d.length : Int)
  | MemOp.write a s src => access_ok bs msz a s ∧ s ≤ (src.length : Int)
  | MemOp.reveal a s src => access_ok bs msz a s ∧ s ≤ (src.length : Int)
  | MemOp.flush => True

/-- The map from addresses to the cell most recently stored there, after one
more store of `src[0 .. size)` at `addr`. -/
def record_store (last : Int → Option MemoryCell) (addr size : Int) (src : List MemoryCell) :
    Int → Option MemoryCell :=
  fun x => if addr ≤ x ∧ x < addr + size then src[(x - addr).toNat]? else last x

/-- The cell most recently written to each address by the `write` calls of a
sequence, starting from the map `last`. -/
def last_written_from (last : Int → Option MemoryCell) : List MemOp → Int → Option MemoryCell
  | [] => last
  | MemOp.write a s src :: rest => last_written_from (record_store last a s src) rest
  | _ :: rest => last_written_from last rest

/-- The cell most recently written to each address by the `write` calls of a
sequence; `none` for an address that no write has touched. -/
def last_written (ops : List MemOp) : Int → Option MemoryCell :=
  last_written_from (fun _ => none) ops

/-- The cell most recently stored at each address by the `write` and `reveal`
calls of a sequence, starting from the map `last`. -/
def last_stored_from (last : Int → Option MemoryCell) : List MemOp → Int → Option MemoryCell
  | [] => last
  | MemOp.write a s src :: rest => last_stored_from (record_store last a s src) rest
  | MemOp.reveal a s src :: rest => last_stored_from (record_store last a s src) rest
  | _ :: rest => last_stored_from last rest

/-- The cell most recently stored at each address by a `write` or a `reveal`. -/
def last_stored (ops : List MemOp) : Int → Option MemoryCell :=
  last_stored_from (fun _ => none) ops

/-! ## Well-formed cache states -/

/-- Every block holds `bs` cells, as allocated at construction. -/
def blocks_sized (bs : Int) (blocks : List CacheBlock) : Prop :=
  ∀ b ∈ blocks, (b.mem.length : Int) = bs

/-- Every block is either free and not dirty, or tagged with a non-negative
multiple of `bs`. -/
def blocks_tagged (bs : Int) (blocks : List CacheBlock) : Prop :=
  ∀ b ∈ blocks, (b.addr = NO_BLOCK ∧ b.dirty = 0) ∨ (0 ≤ b.addr ∧ b.addr % bs = 0)

/-- No two blocks hold the same tag, free blocks apart. -/
def blocks_unique (blocks : List CacheBlock) : Prop :=
  ∀ (i j : Nat) (b b' : CacheBlock), blocks[i]? = some b → blocks[j]? = some b' →
    b.addr = b'.addr → b.addr ≠ NO_BLOCK → i = j

/-- The parameters of a cache as construction validates them, over a memory as
`memory_create` builds it. -/
def cache_params_ok (block_size block_count : Int) (blocks : List CacheBlock) (m : Memory) :
    Prop :=
  is_correct_block_size block_size = true ∧ 0 < block_count ∧
  (blocks.length : Int) = block_count ∧ blocks_sized block_size blocks ∧
  m.wf ∧ m.memory_size ≤ MAX_MEM_SIZE

/-! ## Sample states -/

/-- A memory of 32 unknown cells with read time 3, write time 5 and width 4. -/
def sample_memory : Memory := ⟨List.replicate 32 ⟨0, 0⟩, 32, 3, 5, 4⟩

/-- A dirty block tagged 16 whose cells all hold the known value 7. -/
def sample_dirty_block : CacheBlock := ⟨16, List.replicate 16 ⟨7, 1⟩, 1⟩

/-- A write-back direct-mapped cache of two blocks of 16 cells: block 0 is
free, block 1 is `sample_dirty_block`. -/
def sample_direct_wb : DirectCache Memory :=
  ⟨WriteStrategy.write_back, [⟨-1, List.replicate 16 ⟨0, 0⟩, 0⟩, sample_dirty_block],
    sample_memory, 32, 16, 2, 1, 2⟩

/-- The statistics record with every counter at zero. -/
def sample_info : StatisticsInfo := ⟨0, 0, 0, 0, 0, 0, 0⟩

/-! ## Vocabulary for placement -/

/-- The index `(aligned_addr / block_size) % block_count` of the direct-mapped
cache, as a position in the list of blocks. -/
def direct_index (bs bc : Int) (a : memaddr_t) : Nat :=
  (Int.tmod (Int.tdiv a bs) bc).toNat

/-- The block with tag `a`, if any, sits at position `i`. -/
def resident_at (blocks : List CacheBlock) (a : memaddr_t) (i : Nat) : Prop :=
  ∃ b, blocks[i]? = some b ∧ b.addr = a

/-- No block is tagged `a`. -/
def not_resident (blocks : List CacheBlock) (a : memaddr_t) : Prop :=
  ∀ (i : Nat) (b : CacheBlock), blocks[i]? = some b → b.addr ≠ a

/-- The outcome of placing the aligned address `a` into block `i` of a cache
with write strategy `ws` and block size `bs` over the memory `m`: under
write-back a resident dirty occupant is first stored into the memory (one
write-back, one memory write of `bs` cells) and its dirty flag cleared; then
the block is tagged `a` and loaded from the memory (one memory read of `bs`
cells). -/
def placed (ws : WriteStrategy) (bs : Int) (m : Memory) (blocks : List CacheBlock)
    (info : StatisticsInfo) (a : memaddr_t) (i : Nat) (blocks' : List CacheBlock)
    (cells' : List MemoryCell) (info' : StatisticsInfo) : Prop :=
  ∃ b d', blocks[i]? = some b ∧
    (if ws = WriteStrategy.write_back ∧ b.addr ≠ NO_BLOCK ∧ b.dirty ≠ 0 then
      stored_at cells' m.mem b.addr bs m.memory_size b.mem ∧
      info' = statistics_add_counter
        (statistics_add_counter (statistics_add_write_back_counter info)
          (blocks_count bs m.memory_width * m.memory_write_time))
        (blocks_count bs m.memory_width * m.memory_read_time)
     else
      cells' = m.mem ∧
      info' = statistics_add_counter info
        (blocks_count bs m.memory_width * m.memory_read_time)) ∧
    loaded_from d' b.mem cells' a bs m.memory_size ∧
    blocks' = blocks.set i
      { addr := a, mem := d',
        dirty := if ws = WriteStrategy.write_back ∧ b.addr ≠ NO_BLOCK then 0 else b.dirty }

/-- The blocks after the cells `src[0 .. size)` have been mirrored at offset
`off` into the block that a lookup returned (`r = some i`), or left alone when
the lookup returned the null pointer (`r = none`). -/
def mirrored (bs : Int) (blocks : List CacheBlock) (r : Option Nat) (off size : Int)
    (src : List MemoryCell) (blocks' : List CacheBlock) : Prop :=
  match r with
  | some i => ∃ b cellsB, blocks[i]? = some b ∧ stored_at cellsB b.mem off size bs src ∧
      blocks' = blocks.set i { b with mem := cellsB }
  | none => blocks' = blocks

/-- The value `INT_MAX` of a 32-bit `int`. -/
def INT_MAX : Int := 2147483647

/-- A write-through direct-mapped cache of two blocks of 16 cells over
`sample_memory`: block 0 holds the block of address 0, block 1 is free. -/
def sample_direct_wt : DirectCache Memory :=
  ⟨WriteStrategy.write_through,
    [⟨0, List.replicate 16 ⟨0, 0⟩, 0⟩, ⟨-1, List.replicate 16 ⟨0, 0⟩, 0⟩],
    sample_memory, 32, 16, 2, 1, 2⟩

/-- A generator whose library calls all return 0. -/
def sample_random : Random := ⟨1, fun _ => 0, 0⟩

/-- A write-through fully-associative cache of two blocks of 16 cells over
`sample_memory`: block 0 is free, block 1 holds the block of address 16. -/
def sample_full_wt : FullCache Memory :=
  ⟨WriteStrategy.write_through, sample_random,
    [⟨-1, List.replicate 16 ⟨0, 0⟩, 0⟩, ⟨16, List.replicate 16 ⟨0, 0⟩, 0⟩],
    sample_memory, 32, 16, 2, 1, 2⟩

/-- Two known cells, used as the source of sample writes. -/
def sample_src : List MemoryCell := [⟨170, 1⟩, ⟨187, 1⟩]

/-- A write-back fully-associative cache of two blocks of 16 cells over
`sample_memory`, both resident: block 0 holds the block of address 0 and is
clean, block 1 is `sample_dirty_block`. -/
def sample_full_wb : FullCache Memory :=
  ⟨WriteStrategy.write_back, sample_random,
    [⟨0, List.replicate 16 ⟨0, 0⟩, 0⟩, sample_dirty_block],
    sample_memory, 32, 16, 2, 1, 2⟩

/-- The state of `sample_direct_wt` after a read of address 19 has placed the
block of address 16 in block 1 (the cells loaded are the unknown cells of
`sample_memory`). -/
def sample_direct_wt_read : DirectCache Memory :=
  ⟨WriteStrategy.write_through,
    [⟨0, List.replicate 16 ⟨0, 0⟩, 0⟩, ⟨16, List.replicate 16 ⟨0, 0⟩, 0⟩],
    sample_memory, 32, 16, 2, 1, 2⟩

/-! ## Invariants of operation sequences -/

/-- A call that is a read, a write or a reveal. -/
def is_access : MemOp → Prop
  | MemOp.flush => False
  | _ => True

/-- The invariant of a write-through cache over a memory: the parameters are
as validated, no block is dirty, and the backing store holds, at every address
recorded in `last`, the cell recorded there. -/
def wt_inv (bs bc : Int) (blocks : List CacheBlock) (m : Memory)
    (last : Int → Option MemoryCell) : Prop :=
  cache_params_ok bs bc blocks m ∧ (∀ b ∈ blocks, b.dirty = 0) ∧
  ∀ x v, last x = some v → 0 ≤ x ∧ m.mem[x.toNat]? = some v

/-- A write of the known cell `0xAA` to address 0 followed by a reveal of the
known cell `0xBB` at the same address. -/
def sample_write_then_reveal : List MemOp :=
  [MemOp.write 0 1 [⟨170, 1⟩], MemOp.reveal 0 1 [⟨187, 1⟩]]

/-- A call that is a read or a write. -/
def is_read_or_write : MemOp → Prop
  | MemOp.read _ _ _ => True
  | MemOp.write _ _ _ => True
  | _ => False

/-- Every resident block of a direct-mapped cache sits at the index of its
tag. -/
def blocks_indexed (bs bc : Int) (blocks : List CacheBlock) : Prop :=
  ∀ (i : Nat) (b : CacheBlock), blocks[i]? = some b → b.addr ≠ NO_BLOCK →
    direct_index bs bc b.addr = i

/-- The coherence part of the write-back invariant: for every address `x`
recorded in `last` with cell `v`, every block tagged with the aligned address
of `x` holds `v` at the offset of `x`, and the backing store holds `v` at `x`
unless such a block is dirty. -/
def wb_coherent (bs : Int) (blocks : List CacheBlock) (m : Memory)
    (last : Int → Option MemoryCell) : Prop :=
  ∀ x v, last x = some v → 0 ≤ x ∧ x < m.memory_size ∧
    (∀ (i : Nat) (b : CacheBlock), blocks[i]? = some b → b.addr = x - x % bs →
      b.mem[(x % bs).toNat]? = some v) ∧
    ((∀ (i : Nat) (b : CacheBlock), blocks[i]? = some b → b.addr = x - x % bs →
      b.dirty = 0) → m.mem[x.toNat]? = some v)

/-- The invariant of a write-back cache over a memory. -/
def wb_inv (bs bc : Int) (blocks : List CacheBlock) (m : Memory)
    (last : Int → Option MemoryCell) : Prop :=
  cache_params_ok bs bc blocks m ∧ blocks_tagged bs blocks ∧ blocks_unique blocks ∧
  wb_coherent bs blocks m last

/-- A trace of writes and null-destination reads over `sample_memory` whose two
blocks (addresses 0 and 16) compete for the single block of a 16-cell cache:
the cell at address 4 is written twice, across an eviction. -/
def sample_wb_trace : List MemOp :=
  [MemOp.write 3 2 sample_src, MemOp.write 19 1 [⟨1, 1⟩], MemOp.read 3 2 none,
    MemOp.write 4 1 [⟨204, 1⟩]]

/-! ## Vocabulary for flush -/

/-- The block `b` after its contents have been written back: the dirty flag is
cleared, the tag and the cells are kept. -/
def written_back (b : CacheBlock) : CacheBlock := { b with dirty := 0 }

/-- A resident block whose dirty flag is set. -/
def dirty_resident (b : CacheBlock) : Bool := decide (b.addr ≠ NO_BLOCK ∧ b.dirty ≠ 0)

/-- The C operator `~` on a 32-bit `int`: every bit of the word is inverted.
It occurs in the formula `addr & ~(block_size - 1)` of the specification; the
code writes `addr & -block_size`. -/
def int_not (a : Int) : Int :=
  to_int32 (4294967295 - (a % 4294967296).toNat)

/-- The two writes of the end-to-end scenario: one known cell to address 0,
then one known cell to address 16. -/
def sample_two_writes : List MemOp :=
  [MemOp.write 0 1 [⟨1, 1⟩], MemOp.write 16 1 [⟨2, 1⟩]]

/-! ## The C library functions used by the parsers -/

/-- The C library predicate `isspace` in the "C" locale: space, `\t`, `\n`,
`\v`, `\f` and `\r`. -/
def isspace (ch : Char) : Bool :=
  ch.toNat == 32 || (9 ≤ ch.toNat && ch.toNat ≤ 13)

/-- The C library predicate `isdigit`. -/
def isdigit (ch : Char) : Bool :=
  48 ≤ ch.toNat && ch.toNat ≤ 57

/-- The value of a string of decimal digits. -/
def decimal_value (ds : List Char) : Nat :=
  ds.foldl (fun acc ch => acc * 10 + (ch.toNat - 48)) 0

/-- The constant `LONG_MAX` of a 64-bit `long`. -/
def LONG_MAX : Int := 9223372036854775807

/-- The constant `LONG_MIN` of a 64-bit `long`. -/
def LONG_MIN : Int := -9223372036854775808

/-- An optional sign at the head of a subject sequence: whether it is a minus
sign, and the input after it. -/
def scan_sign : List Char → Bool × List Char
  | '-' :: rest => (true, rest)
  | '+' :: rest => (false, rest)
  | s => (false, s)

/-- The library call `strtol(str, &eptr, 10)` with a 64-bit `long`: the value
returned, the string at `eptr`, and whether `errno` has been set (to `ERANGE`).
Leading white space and one optional sign are skipped; when no digit follows
no conversion is performed, the value is 0 and `eptr` is `str`. -/
def strtol (str : List Char) : Int × List Char × Bool :=
  let s := scan_sign (str.dropWhile isspace)
  let ds := s.2.takeWhile isdigit
  if ds.isEmpty then (0, str, false)
  else
    let v : Int := if s.1 then -(decimal_value ds : Int) else (decimal_value ds : Int)
    if v > LONG_MAX then (LONG_MAX, s.2.dropWhile isdigit, true)
    else if v < LONG_MIN then (LONG_MIN, s.2.dropWhile isdigit, true)
    else (v, s.2.dropWhile isdigit, false)

/-! ## parse_config.c and common.c -/

/-- The record `struct ConfigParam`, without the line number. -/
structure ConfigParam where
  name : String
  value : String
deriving DecidableEq, Repr

/-- The descriptor `struct ConfigFile`: the parameters read from the
configuration file, which `config_file_parse` leaves sorted by name and free
of duplicate names. -/
structure ConfigFile where
  params : List ConfigParam
deriving DecidableEq, Repr

/-- Embeds `config_file_get`: the binary search of the sorted, duplicate-free
vector returns the parameter with the given name, if there is one. -/
def config_file_get (cfg : ConfigFile) (name : String) : Option String :=
  match cfg.params.find? (fun p => p.name == name) with
  | none => none
  | some p => some p.value

/-- Embeds `config_file_get_int`: the result code (0 undefined, -1 invalid, 1
read) and the new contents of `*p_value`, which is assigned only on success.
The `long` returned by `strtol` is converted to `int` by truncation to 32
bits. -/
def config_file_get_int (cfg : ConfigFile) (name : String) (p_value : Int) : Int × Int :=
  match config_file_get cfg name with
  | none => (0, p_value)
  | some str =>
    let r := strtol str.toList
    let value := to_int32 (r.1 % 4294967296).toNat
    if !r.2.1.isEmpty || r.2.2 then (-1, p_value) else (1, value)

/-- The constant `PARAM_BUF_SIZE` of `common.h`. -/
def PARAM_BUF_SIZE : Nat := 1024

/-- Embeds `make_param_name`: `snprintf(buf, size, "%s%s", prefix, name)` with a
null prefix read as the empty string; the output is cut to `size - 1`
characters. -/
def make_param_name (size : Nat) (var_pfx : Option String) (name : String) : String :=
  String.mk (((var_pfx.getD "") ++ name).toList.take (size - 1))

/-! ## Construction of the layers -/

/-- The constant `MAX_WIDTH` of `memory.c`, commented there as the maximal
width of a memory block; `memory_create` does not use it. -/
def MAX_WIDTH : Int := 1024

/-- Embeds `memory_create`: `none` is the null pointer returned on failure.
The fields of the descriptor start at zero (`calloc`), and so do the cells. -/
def memory_create (cfg : ConfigFile) (var_pfx : Option String) : Option Memory :=
  let r1 := config_file_get_int cfg (make_param_name PARAM_BUF_SIZE var_pfx "memory_size") 0
  if r1.1 = 0 then none
  else if r1.1 < 0 ∨ r1.2 ≤ 0 ∨ r1.2 > MAX_MEM_SIZE ∨ Int.tmod r1.2 KiB ≠ 0 then none
  else
    let r2 := config_file_get_int cfg
      (make_param_name PARAM_BUF_SIZE var_pfx "memory_read_time") 0
    if r2.1 = 0 then none
    else if r2.1 < 0 ∨ r2.2 ≤ 0 then none
    else
      let r3 := config_file_get_int cfg
        (make_param_name PARAM_BUF_SIZE var_pfx "memory_write_time") 0
      if r3.1 = 0 then none
      else if r3.1 < 0 ∨ r3.2 ≤ 0 then none
      else
        let r4 := config_file_get_int cfg
          (make_param_name PARAM_BUF_SIZE var_pfx "memory_width") 0
        if r4.1 = 0 then none
        else if r4.1 < 0 ∨ r4.2 ≤ 0 ∨ r4.2 > MAX_MEM_SIZE then none
        else
          some { mem := List.replicate r1.2.toNat { value := 0, flags := 0 },
                 memory_size := r1.2, memory_read_time := r2.2, memory_write_time := r3.2,
                 memory_width := r4.2 }

/-- The part of `direct_cache_create` and `full_cache_create` that selects the
write strategy: `none` when the parameter is undefined or invalid; under
write-back the flag `write_back_needed` of the statistics is set. -/
def create_write_strategy (cfg : ConfigFile) (var_pfx : Option String)
    (info : StatisticsInfo) : Option (WriteStrategy × StatisticsInfo) :=
  match config_file_get cfg (make_param_name PARAM_BUF_SIZE var_pfx "write_strategy") with
  | none => none
  | some strategy =>
    if strategy = "write-through" then some (WriteStrategy.write_through, info)
    else if strategy = "write-back" then
      some (WriteStrategy.write_back, { info with write_back_needed := 1 })
    else none

/-- The part of `direct_cache_create` and `full_cache_create`, the same text in
both, that reads and validates `block_size`, `cache_size`, `cache_read_time`
and `cache_write_time`: the four values, or `none` on the first parameter that
is undefined or invalid. -/
def create_cache_params (cfg : ConfigFile) (var_pfx : Option String) :
    Option (Int × Int × Int × Int) :=
  let r1 := config_file_get_int cfg (make_param_name PARAM_BUF_SIZE var_pfx "block_size") 0
  if r1.1 = 0 then none
  else if r1.1 < 0 ∨ is_correct_block_size r1.2 = false then none
  else
    let r2 := config_file_get_int cfg (make_param_name PARAM_BUF_SIZE var_pfx "cache_size") 0
    if r2.1 = 0 then none
    else if r2.1 < 0 ∨ r2.2 ≤ 0 ∨ r2.2 > MAX_CACHE_SIZE ∨ Int.tmod r2.2 r1.2 ≠ 0 then none
    else
      let r3 := config_file_get_int cfg
        (make_param_name PARAM_BUF_SIZE var_pfx "cache_read_time") 0
      if r3.1 = 0 then none
      else if r3.1 < 0 ∨ r3.2 ≤ 0 ∨ r3.2 > MAX_READ_TIME then none
      else
        let r4 := config_file_get_int cfg
          (make_param_name PARAM_BUF_SIZE var_pfx "cache_write_time") 0
        if r4.1 = 0 then none
        else if r4.1 < 0 ∨ r4.2 ≤ 0 ∨ r4.2 > MAX_WRITE_TIME then none
        else some (r1.2, r2.2, r3.2, r4.2)

/-- Embeds `direct_cache_create`: the layer, `none` for the null pointer
returned on failure, and the statistics record, whose flag
`write_back_needed` is set as soon as the write-back strategy is selected. -/
def direct_cache_create {L : Type} (cfg : ConfigFile) (var_pfx : Option String)
    (info : StatisticsInfo) (mem : L) : Option (DirectCache L) × StatisticsInfo :=
  match create_write_strategy cfg var_pfx info with
  | none => (none, info)
  | some (ws, info1) =>
    match create_cache_params cfg var_pfx with
    | none => (none, info1)
    | some (block_size, cache_size, cache_read_time, cache_write_time) =>
      (some (direct_cache_alloc ws block_size cache_size cache_read_time cache_write_time mem),
        info1)

/-- Embeds `full_cache_create`; the replacement strategy is read and validated
between the write strategy and the block size. -/
def full_cache_create {L : Type} (cfg : ConfigFile) (var_pfx : Option String)
    (info : StatisticsInfo) (mem : L) (rnd : Random) : Option (FullCache L) × StatisticsInfo :=
  match create_write_strategy cfg var_pfx info with
  | none => (none, info)
  | some (ws, info1) =>
    match config_file_get cfg
      (make_param_name PARAM_BUF_SIZE var_pfx "replacement_strategy") with
    | none => (none, info1)
    | some strategy =>
      if strategy = "random" then
        match create_cache_params cfg var_pfx with
        | none => (none, info1)
        | some (block_size, cache_size, cache_read_time, cache_write_time) =>
          (some (full_cache_alloc ws block_size cache_size cache_read_time cache_write_time
            mem rnd), info1)
      else (none, info1)

/-- A configuration of a memory of 1024 cells with unit timings and width 1
under a write-back cache of two blocks of 16 cells. -/
def sample_config : ConfigFile :=
  ⟨[⟨"block_size", "16"⟩, ⟨"cache_read_time", "1"⟩, ⟨"cache_size", "32"⟩,
    ⟨"cache_write_time", "2"⟩, ⟨"memory_read_time", "1"⟩, ⟨"memory_size", "1024"⟩,
    ⟨"memory_width", "1"⟩, ⟨"memory_write_time", "1"⟩, ⟨"replacement_strategy", "random"⟩,
    ⟨"write_strategy", "write-back"⟩]⟩

/-- The conditions on the four numeric cache parameters in the words of the
specification: each is defined and a valid integer, `block_size` is 16, 32 or
64, `cache_size` is positive, at most 16 MiB and an exact multiple of
`block_size`, and both times lie in `[1, 100000]`. -/
def cache_params_valid (cfg : ConfigFile) (var_pfx : Option String) : Prop :=
  let rb := config_file_get_int cfg (make_param_name PARAM_BUF_SIZE var_pfx "block_size") 0
  let rc := config_file_get_int cfg (make_param_name PARAM_BUF_SIZE var_pfx "cache_size") 0
  let rr := config_file_get_int cfg
    (make_param_name PARAM_BUF_SIZE var_pfx "cache_read_time") 0
  let rw := config_file_get_int cfg
    (make_param_name PARAM_BUF_SIZE var_pfx "cache_write_time") 0
  rb.1 = 1 ∧ (rb.2 = 16 ∨ rb.2 = 32 ∨ rb.2 = 64) ∧
  rc.1 = 1 ∧ 0 < rc.2 ∧ rc.2 ≤ 16 * 1024 * 1024 ∧ rc.2 % rb.2 = 0 ∧
  rr.1 = 1 ∧ 1 ≤ rr.2 ∧ rr.2 ≤ 100000 ∧
  rw.1 = 1 ∧ 1 ≤ rw.2 ∧ rw.2 ≤ 100000

/-- The write strategy parameter is one of the two strategies. -/
def write_strategy_valid (cfg : ConfigFile) (var_pfx : Option String) : Prop :=
  config_file_get cfg (make_param_name PARAM_BUF_SIZE var_pfx "write_strategy") =
      some "write-through" ∨
  config_file_get cfg (make_param_name PARAM_BUF_SIZE var_pfx "write_strategy") =
      some "write-back"

/-! ## trace.c -/

/-- The constant `MAX_LINE_LENGTH` of `trace.c`. -/
def MAX_LINE_LENGTH : Nat := 1000

/-- The record `TraceStep` (declared in `trace.h`), with the fields that
`trace.c` and `cachesim.c` use: the operation and memory-kind characters, the
address, the size and the array of value cells. -/
structure TraceStep where
  op : Char
  mem : Char
  addr : Int
  size : Int
  value : List MemoryCell
deriving DecidableEq, Repr

/-- The descriptor `struct Trace`: `lines` holds what the successive calls of
`fgets` on the trace file return, from the current position on. -/
structure Trace where
  lines : List (List Char)
  lineno : Int
  step : TraceStep
deriving DecidableEq, Repr

/-- Embeds `is_size`. -/
def is_size (ch : Char) : Bool :=
  ch == '1' || ch == '2' || ch == '4' || ch == '8'

/-- Embeds `get_last_byte`, `value & 0xFF` as an `unsigned char`. -/
def get_last_byte (value : Int) : Nat :=
  (value % 256).toNat

/-- The C library predicate `isxdigit`. -/
def isxdigit (ch : Char) : Bool :=
  isdigit ch || (97 ≤ ch.toNat && ch.toNat ≤ 102) || (65 ≤ ch.toNat && ch.toNat ≤ 70)

/-- The value of one hexadecimal digit. -/
def hex_digit (ch : Char) : Nat :=
  if isdigit ch then ch.toNat - 48
  else if 97 ≤ ch.toNat then ch.toNat - 87
  else ch.toNat - 55

/-- The value of a string of hexadecimal digits. -/
def hex_value (ds : List Char) : Nat :=
  ds.foldl (fun acc ch => acc * 16 + hex_digit ch) 0

/-- The input after an optional prefix `0x` or `0X` of a hexadecimal subject
sequence. -/
def scan_hex_mark : List Char → List Char
  | '0' :: 'x' :: rest => rest
  | '0' :: 'X' :: rest => rest
  | s => s

/-- The conversion `%x` of `sscanf` on the input `s`: white space is skipped,
then an optional sign, an optional `0x` and the longest run of hexadecimal
digits are read.  The outer `none` is undefined behaviour (the value does not
fit an `unsigned int`), the inner `none` a failed conversion; otherwise the
value stored and the remaining input. -/
def scan_hex (s : List Char) : Option (Option (Nat × List Char)) :=
  let s1 := scan_sign (s.dropWhile isspace)
  let s2 := scan_hex_mark s1.2
  let ds := s2.takeWhile isxdigit
  if ds.isEmpty then some none
  else if hex_value ds ≥ 4294967296 then none
  else
    some (some (if s1.1 then (4294967296 - hex_value ds) % 4294967296 else hex_value ds,
      s2.dropWhile isxdigit))

/-- The conversion `%lld` of `sscanf` on the input `s`: white space is skipped,
then an optional sign and the longest run of decimal digits are read.  The
outer `none` is undefined behaviour (the value does not fit a `long long`),
the inner `none` a failed conversion. -/
def scan_lld (s : List Char) : Option (Option (Int × List Char)) :=
  let s1 := scan_sign (s.dropWhile isspace)
  let ds := s1.2.takeWhile isdigit
  if ds.isEmpty then some none
  else
    let v : Int := if s1.1 then -(decimal_value ds : Int) else (decimal_value ds : Int)
    if v > LONG_MAX ∨ v < LONG_MIN then none
    else some (some (v, s1.2.dropWhile isdigit))

/-- The call `sscanf(trace_line, "%c%c %x %c %lld", &step->op, &step->mem,
&step->addr, &size, &value)`: the number of items assigned (`-1` for `EOF`, on
an empty line), the step with the fields assigned so far, and the locals
`size` and `value`, which hold a placeholder until they are assigned.  `none`
is undefined behaviour.  The `unsigned int` read by `%x` is stored in the
`int` field `addr` bit for bit. -/
def sscanf_step (trace_line : List Char) (step : TraceStep) :
    Option (Int × TraceStep × Char × Int) :=
  match trace_line with
  | [] => some (-1, step, ' ', 0)
  | c1 :: s1 =>
    match s1 with
    | [] => some (1, { step with op := c1 }, ' ', 0)
    | c2 :: s2 =>
      match scan_hex s2 with
      | none => none
      | some none => some (2, { step with op := c1, mem := c2 }, ' ', 0)
      | some (some (a, s3)) =>
        match s3.dropWhile isspace with
        | [] => some (3, { step with op := c1, mem := c2, addr := to_int32 a }, ' ', 0)
        | c4 :: s4 =>
          match scan_lld s4 with
          | none => none
          | some none =>
            some (4, { step with op := c1, mem := c2, addr := to_int32 a }, c4, 0)
          | some (some (v, _)) =>
            some (5, { step with op := c1, mem := c2, addr := to_int32 a }, c4, v)

/-- The loop of `trace_step_parse`,
`for (int i = size - 1; i >= 0; i--) { value[i].value = get_last_byte(value);
value >>= BITS_IN_BYTE; value[i].flags = 1; }`, with `n = i + 1`; `none` when
a cell outside the array is written. -/
def fill_value : Nat → Int → List MemoryCell → Option (List MemoryCell)
  | 0, _, cells => some cells
  | n + 1, v, cells =>
    if n < cells.length then
      fill_value n (v / 256) (cells.set n { value := get_last_byte v, flags := 1 })
    else none

/-- Embeds `trace_step_parse`: the code returned and the step written.  The
variable `errno` stays 0, since the conversions that would set it are
undefined behaviour in `sscanf_step`.  The validation of `op` and `mem` that
follows the `if` chain in the source is never reached, every branch of the
chain returning. -/
def trace_step_parse (step : TraceStep) (trace_line : List Char) : Option (Int × TraceStep) :=
  match sscanf_step trace_line step with
  | none => none
  | some (data_read, step1, size, value) =>
    if data_read = 3 then
      match step1.value with
      | [] => none
      | v0 :: rest =>
        some (1, { step1 with size := 1, value := { v0 with flags := 1 } :: rest })
    else if data_read = 5 ∧ is_size size = true then
      match fill_value (size.toNat - 48) value step1.value with
      | none => none
      | some cells =>
        some (1, { step1 with size := ((size.toNat - 48 : Nat) : Int), value := cells })
    else some (-1, step1)

/-- The loop of `trace_next` over the lines still to be read. -/
def trace_next_loop : List (List Char) → Int → TraceStep → Option (Int × Trace)
  | [], lineno, step => some (0, { lines := [], lineno := lineno, step := step })
  | buf :: rest, lineno, step =>
    if buf.length > MAX_LINE_LENGTH then
      some (-1, { lines := rest, lineno := lineno + 1, step := step })
    else
      let line := ((buf.takeWhile (fun ch => ch ≠ '#')).reverse.dropWhile isspace).reverse
      if line.isEmpty then trace_next_loop rest (lineno + 1) step
      else
        match trace_step_parse step line with
        | none => none
        | some (r, step1) => some (r, { lines := rest, lineno := lineno + 1, step := step1 })

/-- Embeds `trace_next`: the code returned (0 at the end of the file, -1 on an
error, 1 when a step has been read) and the descriptor afterwards. -/
def trace_next (t : Trace) : Option (Int × Trace) :=
  trace_next_loop t.lines t.lineno t.step

/-! ## cachesim.c -/

/-- Embeds `operation_on_memory` for non-null arguments. -/
def operation_on_memory {L : Type} (ops : AbstractMemoryOps L) (ts : TraceStep)
    (st : L × StatisticsInfo) : Option (L × StatisticsInfo) :=
  if ts.op = 'R' then
    match ops.read st.1 (statistics_add_read st.2) ts.addr ts.size none with
    | none => none
    | some r => ops.reveal r.1 r.2.1 ts.addr ts.size ts.value
  else if ts.op = 'W' then
    ops.write st.1 (statistics_add_write st.2) ts.addr ts.size ts.value
  else some st

/-- The constant `EXIT_FAILURE` of the C library. -/
def EXIT_FAILURE : Int := 1

/-- The replay loop of `main` with the call of `flush` that follows it,
`while ((r = trace_next(t))) { if (r == -1) { exit_code = EXIT_FAILURE; goto finally; }
operation_on_memory(trace_get(t), mem, info); } mem->ops->flush(mem);`:
the exit code and the final state of the hierarchy.  The first argument bounds
the number of iterations; `none` is undefined behaviour or an exhausted
bound. -/
def replay_trace {L : Type} (ops : AbstractMemoryOps L) :
    Nat → Trace → L × StatisticsInfo → Option (Int × (L × StatisticsInfo))
  | 0, _, _ => none
  | fuel + 1, t, st =>
    match trace_next t with
    | none => none
    | some (r, t1) =>
      if r = 0 then
        match ops.flush st.1 st.2 with
        | none => none
        | some st1 => some (0, st1)
      else if r = -1 then some (EXIT_FAILURE, st)
      else
        match operation_on_memory ops t1.step st with
        | none => none
        | some st1 => replay_trace ops fuel t1 st1

/-- A zeroed trace step with a value array of 8 cells. -/
def sample_step : TraceStep := ⟨Char.ofNat 0, Char.ofNat 0, 0, 0, List.replicate 8 ⟨0, 0⟩⟩

/-- The trace of the end-to-end scenario as the specification writes it. -/
def spec_trace_lines : List (List Char) :=
  ["W D 0 1 FF\n".toList, "R D 0 1\n".toList]

/-- The trace of the end-to-end scenario in the format that `trace_step_parse`
reads: the operation and memory-kind letters side by side, the address in
hexadecimal, the size, and the value in decimal (255 is `0xFF`). -/
def code_trace_lines : List (List Char) :=
  ["WD 0 1 255\n".toList, "RD 0 1 255\n".toList]

/-- The configuration of the end-to-end scenario without a cache. -/
def memory_config : ConfigFile :=
  ⟨[⟨"memory_read_time", "1"⟩, ⟨"memory_size", "1024"⟩, ⟨"memory_width", "1"⟩,
    ⟨"memory_write_time", "1"⟩]⟩

/-- The conditions on the four memory parameters under which `memory_create`
builds a memory: each is defined and a valid integer, `memory_size` is a
positive multiple of 1024 not above 1 GiB, both times are positive, and
`memory_width` is positive and not above `bound`. -/
def memory_params_valid (cfg : ConfigFile) (var_pfx : Option String) (bound : Int) : Prop :=
  let rs := config_file_get_int cfg (make_param_name PARAM_BUF_SIZE var_pfx "memory_size") 0
  let rr := config_file_get_int cfg
    (make_param_name PARAM_BUF_SIZE var_pfx "memory_read_time") 0
  let rw := config_file_get_int cfg
    (make_param_name PARAM_BUF_SIZE var_pfx "memory_write_time") 0
  let rd := config_file_get_int cfg (make_param_name PARAM_BUF_SIZE var_pfx "memory_width") 0
  rs.1 = 1 ∧ 0 < rs.2 ∧ rs.2 ≤ 1024 * 1024 * 1024 ∧ rs.2 % 1024 = 0 ∧
  rr.1 = 1 ∧ 0 < rr.2 ∧ rw.1 = 1 ∧ 0 < rw.2 ∧ rd.1 = 1 ∧ 0 < rd.2 ∧ rd.2 ≤ bound

/-- A valid memory configuration whose `memory_width` is 2048. -/
def wide_memory_config : ConfigFile :=
  ⟨[⟨"memory_read_time", "1"⟩, ⟨"memory_size", "1024"⟩, ⟨"memory_width", "2048"⟩,
    ⟨"memory_write_time", "1"⟩]⟩

/-- The read of the integer parameter `name` as the constructors perform it,
into a field that `calloc` has zeroed: the result code of
`config_file_get_int` (1 when the parameter is defined and a valid integer, 0
when it is missing, -1 when it is not a valid integer) and the value. -/
def read_param (cfg : ConfigFile) (var_pfx : Option String) (name : String) : Int × Int :=
  config_file_get_int cfg (make_param_name PARAM_BUF_SIZE var_pfx name) 0

/-- The state of a cache that a constructor has built from the configuration:
the write strategy is the configured one, the block size, the cache size and
the two times are the configured values, `block_count` is the configured
`cache_size / block_size`, there are `block_count` blocks, and every block is
free (its tag is `NO_BLOCK`), not dirty, and has `block_size` zeroed cells. -/
def created_from (cfg : ConfigFile) (var_pfx : Option String) (ws : WriteStrategy)
    (block_size cache_size block_count cache_read_time cache_write_time : Int)
    (blocks : List CacheBlock) : Prop :=
  (config_file_get cfg (make_param_name PARAM_BUF_SIZE var_pfx "write_strategy") =
      some "write-through" → ws = WriteStrategy.write_through) ∧
  (config_file_get cfg (make_param_name PARAM_BUF_SIZE var_pfx "write_strategy") =
      some "write-back" → ws = WriteStrategy.write_back) ∧
  block_size = (read_param cfg var_pfx "block_size").2 ∧
  cache_size = (read_param cfg var_pfx "cache_size").2 ∧
  cache_read_time = (read_param cfg var_pfx "cache_read_time").2 ∧
  cache_write_time = (read_param cfg var_pfx "cache_write_time").2 ∧
  block_count =
    (read_param cfg var_pfx "cache_size").2 / (read_param cfg var_pfx "block_size").2 ∧
  (blocks.length : Int) = block_count ∧
  ∀ b ∈ blocks, b.addr = NO_BLOCK ∧ b.dirty = 0 ∧ (b.mem.length : Int) = block_size ∧
    ∀ cell ∈ b.mem, cell = ⟨0, 0⟩

/-! ## Sample states at the limits of `int` -/

/-- A valid memory configuration whose two access times are 2000000000. -/
def slow_memory_config : ConfigFile :=
  ⟨[⟨"memory_read_time", "2000000000"⟩, ⟨"memory_size", "1024"⟩, ⟨"memory_width", "1"⟩,
    ⟨"memory_write_time", "2000000000"⟩]⟩

/-- The memory that `memory_create` builds from `slow_memory_config`: 1024
unknown cells, read and write time 2000000000, width 1. -/
def slow_memory : Memory := ⟨List.replicate 1024 ⟨0, 0⟩, 1024, 2000000000, 2000000000, 1⟩

/-- A write-through direct-mapped cache of two free blocks of 16 cells over
`slow_memory`, with read and write time 1. -/
def slow_direct_wt : DirectCache Memory :=
  direct_cache_alloc WriteStrategy.write_through 16 32 1 1 slow_memory

/-- A write-back direct-mapped cache of two blocks of 16 cells over
`slow_memory`: block 0 is free, block 1 is `sample_dirty_block`. -/
def slow_direct_wb : DirectCache Memory :=
  ⟨WriteStrategy.write_back, [free_block 16, sample_dirty_block], slow_memory, 32, 16, 2, 1, 1⟩

/-- A valid memory configuration with `memory_read_time = 2147483646` and
`memory_width = 16`. -/
def limit_memory_config : ConfigFile :=
  ⟨[⟨"memory_read_time", "2147483646"⟩, ⟨"memory_size", "1024"⟩, ⟨"memory_width", "16"⟩,
    ⟨"memory_write_time", "1"⟩]⟩

/-- The memory that `memory_create` builds from `limit_memory_config`. -/
def limit_memory : Memory := ⟨List.replicate 1024 ⟨0, 0⟩, 1024, 2147483646, 1, 16⟩

/-- A freshly constructed write-back direct-mapped cache of two blocks of 16
cells over `limit_memory`, with read and write time 1. -/
def limit_direct_wb : DirectCache Memory :=
  direct_cache_alloc WriteStrategy.write_back 16 32 1 1 limit_memory

/-- A generator whose next raw output is 1804289383. -/
def large_random : Random := ⟨1, fun _ => 1804289383, 0⟩

/-! ## Vocabulary for the dispatcher -/

/-- The record `info'` has the read counter and the write counter of `info`. -/
def same_access (info info' : StatisticsInfo) : Prop :=
  info'.read_counter = info.read_counter ∧ info'.write_counter = info.write_counter

/-- No operation of the layer changes the read counter or the write counter:
the two counters belong to the dispatcher. -/
def keeps_access_counters {L : Type} (ops : AbstractMemoryOps L) : Prop :=
  (∀ l info a s d r, ops.read l info a s d = some r → same_access info r.2.1) ∧
  (∀ l info a s src r, ops.write l info a s src = some r → same_access info r.2) ∧
  (∀ l info a s src r, ops.reveal l info a s src = some r → same_access info r.2) ∧
  (∀ l info r, ops.flush l info = some r → same_access info r.2)

/-- The calls of `operation_on_memory` that the replay loop makes on the
successive steps of a trace. -/
def run_steps {L : Type} (ops : AbstractMemoryOps L) :
    List TraceStep → L × StatisticsInfo → Option (L × StatisticsInfo)
  | [], st => some st
  | ts :: rest, st =>
    match operation_on_memory ops ts st with
    | none => none
    | some st1 => run_steps ops rest st1

/-- The number of steps of a trace whose operation is `ch`. -/
def count_op (ch : Char) (steps : List TraceStep) : Nat :=
  steps.countP (fun ts => ts.op == ch)

/-- A trace of a write of `0xFF` to address 0, a read of address 0 that reveals
`0xFF`, and a step with an operation that is neither `R` nor `W`. -/
def sample_steps : List TraceStep :=
  [⟨'W', 'D', 0, 1, [⟨255, 1⟩]⟩, ⟨'R', 'D', 0, 1, [⟨255, 1⟩]⟩, ⟨'X', 'D', 0, 1, [⟨1, 1⟩]⟩]

/-! ## The command line of `main` -/

/-- The locals of `main` that the scan of the arguments sets. -/
structure MainFlags where
  fname : Option String
  print_config : Bool
  statistics : Bool
  disable_cache : Bool
  dump_memory : Bool
  fnames_count : Int
deriving DecidableEq, Repr

/-- The loop of `main` over `argv[1 .. argc)`; `none` is the call of
`die_bad_args`, which exits with `EXIT_FAILURE`. -/
def main_scan_args : List String → MainFlags → Option MainFlags
  | [], f => some f
  | a :: rest, f =>
    if a = "--print-config" then main_scan_args rest { f with print_config := true }
    else if a = "--statistics" then main_scan_args rest { f with statistics := true }
    else if a = "--disable-cache" then main_scan_args rest { f with disable_cache := true }
    else if a = "--dump-memory" then main_scan_args rest { f with dump_memory := true }
    else if a.toList.head? = some '-' then none
    else main_scan_args rest { f with fname := some a, fnames_count := f.fnames_count + 1 }

/-- Embeds `main` up to the construction of the hierarchy: the exit code for
the arguments `args = argv[1 .. argc)`.  The file system is a parameter
(`config_file_parse` returns the configuration read from a path, or `none`), and
so is the rest of the run, `simulate`, from `statistics_create` on. -/
def main (config_file_parse : String → Option ConfigFile)
    (simulate : ConfigFile → MainFlags → Int) (args : List String) : Int :=
  if (args.length : Int) + 1 < 2 then 0
  else
    match main_scan_args args ⟨none, false, false, false, false, 0⟩ with
    | none => EXIT_FAILURE
    | some f =>
      if f.fnames_count ≠ 1 then EXIT_FAILURE
      else
        match f.fname.bind config_file_parse with
        | none => EXIT_FAILURE
        | some cfg =>
          if f.print_config = true then
            if (f.statistics || f.disable_cache || f.dump_memory || f.fname.isNone) = true then
              EXIT_FAILURE
            else 0
          else simulate cfg f

/-- The four flags that `main` recognises. -/
def known_flags : List String :=
  ["--print-config", "--statistics", "--disable-cache", "--dump-memory"]

/-- An argument that starts with `-`. -/
def is_dashed (a : String) : Bool := a.toList.head? == some '-'

/-- The argument lists that the specification calls argument errors: not
exactly one argument without a leading `-`, or an argument with a leading `-`
that is not a known flag, or `--print-config` together with another flag. -/
def bad_arguments (args : List String) : Prop :=
  args.countP (fun a => !is_dashed a) ≠ 1 ∨
  (∃ a ∈ args, is_dashed a = true ∧ a ∉ known_flags) ∨
  ("--print-config" ∈ args ∧
    ("--statistics" ∈ args ∨ "--disable-cache" ∈ args ∨ "--dump-memory" ∈ args))

/-- No operation of the layer changes the write-back counter. -/
def keeps_write_back {L : Type} (ops : AbstractMemoryOps L) : Prop :=
  (∀ l info a s d r, ops.read l info a s d = some r →
    r.2.1.write_back_counter = info.write_back_counter) ∧
  (∀ l info a s src r, ops.write l info a s src = some r →
    r.2.write_back_counter = info.write_back_counter) ∧
  (∀ l info a s src r, ops.reveal l info a s src = some r →
    r.2.write_back_counter = info.write_back_counter) ∧
  (∀ l info r, ops.flush l info = some r →
    r.2.write_back_counter = info.write_back_counter)

/-- A trace of calls on a write-through cache that reads, writes, reveals and
flushes, with two blocks competing for one index. -/
def sample_wt_trace : List MemOp :=
  [MemOp.read 3 2 none, MemOp.write 3 2 sample_src, MemOp.flush, MemOp.read 19 1 none,
    MemOp.reveal 19 1 [⟨9, 1⟩], MemOp.write 4 1 [⟨204, 1⟩], MemOp.flush]

/-! ## Known flags -/

/-- The first `size` cells of `src` are flagged known: their `flags` field is
not 0. -/
def known_cells (src : List MemoryCell) (size : Int) : Prop :=
  ∀ (k : Nat) (cell : MemoryCell), (k : Int) < size → src[k]? = some cell → cell.flags ≠ 0

/-- No position that holds a known cell in `cells` holds an unknown cell, or no
cell, in `cells'`. -/
def flags_kept (cells cells' : List MemoryCell) : Prop :=
  ∀ (j : Nat) (cell : MemoryCell), cells[j]? = some cell → cell.flags ≠ 0 →
    ∃ cell', cells'[j]? = some cell' ∧ cell'.flags ≠ 0

/-- A call that stores a non-negative number of cells, all flagged known; a
read and a flush store no cell of their caller. -/
def op_known : MemOp → Prop
  | MemOp.write _ s src => 0 ≤ s ∧ known_cells src s
  | MemOp.reveal _ s src => 0 ≤ s ∧ known_cells src s
  | _ => True

/-- Every block that is resident in `blocks` and holds the same tag at the same
position of `blocks'` has kept the known flags of its cells. -/
def block_kept (blocks blocks' : List CacheBlock) : Prop :=
  ∀ (i : Nat) (b b' : CacheBlock), blocks[i]? = some b → blocks'[i]? = some b' →
    b.addr ≠ NO_BLOCK → b'.addr = b.addr → flags_kept b.mem b'.mem

/-- The two arrays of blocks hold the same tags. -/
def same_tags (blocks blocks' : List CacheBlock) : Prop :=
  blocks'.map (fun b => b.addr) = blocks.map (fun b => b.addr)

/-- Every cell of the backing store that is known and that a resident block
covers is known in the block as well. -/
def covered (bs : Int) (blocks : List CacheBlock) (cells : List MemoryCell) : Prop :=
  ∀ (i : Nat) (b : CacheBlock) (o : Nat) (cell : MemoryCell), blocks[i]? = some b →
    b.addr ≠ NO_BLOCK → (o : Int) < bs → cells[(b.addr + o).toNat]? = some cell →
    cell.flags ≠ 0 → ∃ cell', b.mem[o]? = some cell' ∧ cell'.flags ≠ 0

/-- The invariant behind the monotonicity of the known flags of the backing
store: the parameters are as validated, the tags are aligned and distinct, and
the resident blocks cover the known cells of the backing store. -/
def known_inv (bs bc : Int) (blocks : List CacheBlock) (m : Memory) : Prop :=
  cache_params_ok bs bc blocks m ∧ blocks_tagged bs blocks ∧ blocks_unique blocks ∧
  covered bs blocks m.mem

/-- A trace step whose access is `access_ok`, whose value array holds at least
`size` cells, and whose first `size` value cells are flagged known. -/
def step_ok (bs msz : Int) (ts : TraceStep) : Prop :=
  access_ok bs msz ts.addr ts.size ∧ ts.size ≤ (ts.value.length : Int) ∧
  known_cells ts.value ts.size

/-- A trace step at a non-negative address whose size is non-negative and at
most the length of its value array, and whose first `size` value cells are
flagged known. -/
def step_known (ts : TraceStep) : Prop :=
  0 ≤ ts.addr ∧ 0 ≤ ts.size ∧ ts.size ≤ (ts.value.length : Int) ∧
  known_cells ts.value ts.size

/-- A memory of 32 cells, all flagged known, with the timing of
`sample_memory`. -/
def sample_known_memory : Memory := ⟨List.replicate 32 ⟨7, 1⟩, 32, 3, 5, 4⟩

/-! ## Construction of the generator -/

/-- Embeds `random_create`.  `now` is the value of `time(NULL)` as stored in the
`int` field `seed`, and `stream s` is the sequence of values that `rand()`
yields after `srand(s)`.  The result is `none` for undefined behaviour,
`some none` for a returned null pointer and `some (some r)` for a returned
generator.  In the failure branch the code runs `free(rnd); rnd = NULL;` and
then falls through to `srand(rnd->seed)`, which reads through the null
pointer. -/
def random_create (cfg : ConfigFile) (now : Int) (stream : Int → Nat → Int) :
    Option (Option Random) :=
  let r := config_file_get_int cfg (make_param_name PARAM_BUF_SIZE none "seed") 0
  if r.1 = 0 then some (some { seed := now, raw := stream now, calls := 0 })
  else if r.1 < 0 ∨ r.2 ≤ 0 then none
  else some (some { seed := r.2, raw := stream r.2, calls := 0 })

/-- A configuration whose only parameter is `seed = 0`. -/
def zero_seed_config : ConfigFile := ⟨[⟨"seed", "0"⟩]⟩

/-- A configuration whose only parameter is `seed = abc`. -/
def text_seed_config : ConfigFile := ⟨[⟨"seed", "abc"⟩]⟩

/-- A configuration whose only parameter is `seed = 42`. -/
def valid_seed_config : ConfigFile := ⟨[⟨"seed", "42"⟩]⟩

/-! ## Vocabulary for the comparison of the two variants -/

/-- The direct-mapped cache that has the fields of the fully-associative cache
`c`, the generator left out. -/
def FullCache.to_direct {L : Type} (c : FullCache L) : DirectCache L where
  write_strategy := c.write_strategy
  blocks := c.blocks
  mem := c.mem
  cache_size := c.cache_size
  block_size := c.block_size
  block_count := c.block_count
  cache_read_time := c.cache_read_time
  cache_write_time := c.cache_write_time

/-- A fully-associative cache of one block with a non-zero block size whose
generator returns values of `rand()`, that is values in `[0, RAND_MAX]`. -/
def single_block {L : Type} (c : FullCache L) : Prop :=
  c.block_count = 1 ∧ c.block_size ≠ 0 ∧ c.blocks.length = 1 ∧
  ∀ n, 0 ≤ c.rnd.raw n ∧ c.rnd.raw n ≤ RAND_MAX

/-- The two outcomes are both undefined, or both defined with the same fields
of the cache and the same remaining components; the fully-associative cache
is again a `single_block`. -/
def same_outcome {L α : Type} (x : Option (FullCache L × α))
    (y : Option (DirectCache L × α)) : Prop :=
  match x, y with
  | none, none => True
  | some r, some q => single_block r.1 ∧ r.1.to_direct = q.1 ∧ r.2 = q.2
  | _, _ => False

/-- Perform a sequence of calls, first to last, and collect the destinations
that the reads return. -/
def run_reads {L : Type} (ops : AbstractMemoryOps L) :
    List MemOp → L × StatisticsInfo →
      Option (L × StatisticsInfo × List (Option (List MemoryCell)))
  | [], st => some (st.1, st.2, [])
  | MemOp.read a s dst :: rest, st =>
    match ops.read st.1 st.2 a s dst with
    | none => none
    | some r =>
      match run_reads ops rest (r.1, r.2.1) with
      | none => none
      | some q => some (q.1, q.2.1, r.2.2 :: q.2.2)
  | op :: rest, st =>
    match apply_op ops st op with
    | none => none
    | some st' => run_reads ops rest st'

/-- The outcome of a call on a fully-associative cache with the generator left
out of the cache. -/
def forget_generator {L α : Type} (r : FullCache L × α) : DirectCache L × α :=
  (r.1.to_direct, r.2)

/-! ## Vocabulary for the tags of the fully-associative cache -/

/-- Every non-empty tag is a multiple of `bs`. -/
def tags_aligned (bs : Int) (blocks : List CacheBlock) : Prop :=
  ∀ b ∈ blocks, b.addr ≠ NO_BLOCK → b.addr % bs = 0

/-- Every position that holds a non-empty block in `blocks` holds a non-empty
block in `blocks'`. -/
def stays_resident (blocks blocks' : List CacheBlock) : Prop :=
  ∀ (i : Nat) (b : CacheBlock), blocks[i]? = some b → b.addr ≠ NO_BLOCK →
    ∃ b', blocks'[i]? = some b' ∧ b'.addr ≠ NO_BLOCK

/-- The invariant of the tags: the block size is one that construction
accepts, there are `bc` blocks, the non-empty tags are multiples of the block
size, and no two blocks hold the same non-empty tag. -/
def tag_inv (bs bc : Int) (blocks : List CacheBlock) : Prop :=
  is_correct_block_size bs = true ∧ (blocks.length : Int) = bc ∧
  tags_aligned bs blocks ∧ blocks_unique blocks

/-! ## Vocabulary for coherence -/

/-- The block `b` holds, at every offset whose address the memory has, the cell
of the backing store `m` at address `b.addr + offset`. -/
def block_mirrors (bs : Int) (m : Memory) (b : CacheBlock) : Prop :=
  ∀ o : Nat, (o : Int) < bs → b.addr + o < m.memory_size →
    b.mem[o]? = m.mem[(b.addr + o).toNat]?

/-- Every resident block that is not dirty mirrors the backing store. -/
def clean_coherent (bs : Int) (blocks : List CacheBlock) (m : Memory) : Prop :=
  ∀ (i : Nat) (b : CacheBlock), blocks[i]? = some b → b.addr ≠ NO_BLOCK → b.dirty = 0 →
    block_mirrors bs m b

/-- The coherence invariant of a cache with write strategy `ws` over a memory:
the parameters are as validated, the tags are aligned and distinct, every
resident block that is not dirty mirrors the backing store, and under
write-through no block is dirty. -/
def coh_inv (ws : WriteStrategy) (bs bc : Int) (blocks : List CacheBlock) (m : Memory) :
    Prop :=
  cache_params_ok bs bc blocks m ∧ blocks_tagged bs blocks ∧ blocks_unique blocks ∧
  clean_coherent bs blocks m ∧
  (ws = WriteStrategy.write_through → ∀ b ∈ blocks, b.dirty = 0)

/-! ## Alignment arithmetic -/

theorem land_high_mask (n k : Nat) (hk : k ≤ 32) (hn : n < 2 ^ 32) :
    Nat.land n (2 ^ 32 - 2 ^ k) = n - n % 2 ^ k := by
  apply Nat.eq_of_testBit_eq
  intro i
  have h1 : n - n % 2 ^ k = 2 ^ k * (n / 2 ^ k) := by
    have := Nat.div_add_mod n (2 ^ k)
    omega
  have h2 : 2 ^ 32 - 2 ^ k = 2 ^ k * (2 ^ (32 - k) - 1) := by
    rw [Nat.mul_sub, ← Nat.pow_add, Nat.mul_one]
    congr 2
    omega
  show (n &&& (2 ^ 32 - 2 ^ k)).testBit i = _
  rw [Nat.testBit_and, h1, h2, Nat.testBit_mul_pow_two, Nat.testBit_mul_pow_two,
    Nat.testBit_two_pow_sub_one, ← Nat.shiftRight_eq_div_pow, Nat.testBit_shiftRight]
  by_cases hi : k ≤ i
  · have e : k + (i - k) = i := by omega
    by_cases hi2 : i < 32
    · have : i - k < 32 - k := by omega
      simp [hi, e, this]
    · have hlt : n < 2 ^ i := lt_of_lt_of_le hn (Nat.pow_le_pow_right (by norm_num) (by omega))
      have : n.testBit i = false := Nat.testBit_eq_false_of_lt hlt
      simp [hi, e, this]
  · simp [hi]

theorem int_and_neg_pow (a : Int) (k : Nat) (hk : k ≤ 31) (h0 : 0 ≤ a) (h1 : a < 2147483648) :
    int_and a (-(2 ^ k : Int)) = a - a % 2 ^ k := by
  obtain ⟨n, rfl⟩ := Int.eq_ofNat_of_zero_le h0
  have hn : n < 2 ^ 31 := by exact_mod_cast h1
  have hpk : (2:Nat) ^ k ≤ 2 ^ 31 := Nat.pow_le_pow_right (by norm_num) hk
  have hpos : 0 < (2:Nat) ^ k := Nat.two_pow_pos k
  have e1 : ((n : Int) % 4294967296).toNat = n := by
    rw [Int.emod_eq_of_lt (by positivity) (by omega)]; simp
  have e2 : ((-(2 ^ k : Int)) % 4294967296).toNat = 2 ^ 32 - 2 ^ k := by
    have : (-(2 ^ k : Int)) % 4294967296 = ((2 ^ 32 - 2 ^ k : Nat) : Int) := by
      have hc : ((2 ^ 32 - 2 ^ k : Nat) : Int) = 4294967296 - (2 ^ k : Int) := by
        have h32 : (2:Nat) ^ k ≤ 2 ^ 32 := by omega
        rw [Nat.cast_sub h32]; push_cast; norm_num
      rw [hc, show (-(2 ^ k : Int)) = (4294967296 - 2 ^ k) + 4294967296 * (-1) by ring,
        Int.add_mul_emod_self_left]
      have h3 : ((2:Int) ^ k) = ((2 ^ k : Nat) : Int) := by push_cast; rfl
      apply Int.emod_eq_of_lt <;> rw [h3] <;> omega
    rw [this]; simp
  unfold int_and
  rw [e1, e2, land_high_mask n k (by omega) (by omega)]
  have hle : n - n % 2 ^ k ≤ n := Nat.sub_le _ _
  unfold to_int32
  rw [if_pos (by omega)]
  have := Nat.mod_le n (2 ^ k)
  push_cast [Nat.cast_sub this]
  rfl

theorem aligned_addr_eq (a bs : Int) (hbs : is_correct_block_size bs = true) (h0 : 0 ≤ a)
    (h1 : a < 2147483648) : int_and a (-bs) = a - a % bs := by
  simp only [is_correct_block_size, Bool.or_eq_true, beq_iff_eq] at hbs
  rcases hbs with (rfl | rfl) | rfl
  · simpa using int_and_neg_pow a 4 (by norm_num) h0 h1
  · simpa using int_and_neg_pow a 5 (by norm_num) h0 h1
  · simpa using int_and_neg_pow a 6 (by norm_num) h0 h1


/-! ## memcpy and the copy loops of the memory -/

theorem memcpy_eq_some (dst src : List MemoryCell) (doff soff n : Int)
    (h : 0 ≤ doff ∧ 0 ≤ soff ∧ 0 ≤ n ∧ doff + n ≤ dst.length ∧ soff + n ≤ src.length) :
    memcpy dst doff src soff n =
      some (dst.take doff.toNat ++ (src.drop soff.toNat).take n.toNat
        ++ dst.drop (doff + n).toNat) := by
  unfold memcpy
  rw [if_pos h]

theorem memcpy_inv {dst src : List MemoryCell} {doff soff n : Int} {r : List MemoryCell}
    (h : memcpy dst doff src soff n = some r) :
    (0 ≤ doff ∧ 0 ≤ soff ∧ 0 ≤ n ∧ doff + n ≤ dst.length ∧ soff + n ≤ src.length) ∧
    r = dst.take doff.toNat ++ (src.drop soff.toNat).take n.toNat
        ++ dst.drop (doff + n).toNat := by
  unfold memcpy at h
  split at h
  · rename_i hc
    exact ⟨hc, (Option.some.inj h).symm⟩
  · cases h

theorem memcpy_length {dst src : List MemoryCell} {doff soff n : Int} {r : List MemoryCell}
    (h : memcpy dst doff src soff n = some r) : r.length = dst.length := by
  obtain ⟨⟨h1, h2, h3, h4, h5⟩, rfl⟩ := memcpy_inv h
  simp only [List.length_append, List.length_take, List.length_drop]
  omega

theorem memcpy_getElem? {dst src : List MemoryCell} {doff soff n : Int} {r : List MemoryCell}
    (h : memcpy dst doff src soff n = some r) (j : Nat) :
    r[j]? = if doff ≤ j ∧ (j : Int) < doff + n then src[(soff + (j - doff)).toNat]?
      else dst[j]? := by
  obtain ⟨⟨h1, h2, h3, h4, h5⟩, rfl⟩ := memcpy_inv h
  obtain ⟨d, rfl⟩ := Int.eq_ofNat_of_zero_le h1
  obtain ⟨s, rfl⟩ := Int.eq_ofNat_of_zero_le h2
  obtain ⟨k, rfl⟩ := Int.eq_ofNat_of_zero_le h3
  have hd : d + k ≤ dst.length := by exact_mod_cast h4
  have hs : s + k ≤ src.length := by exact_mod_cast h5
  have e1 : ((d : Int) + k).toNat = d + k := by omega
  simp only [Int.toNat_ofNat, e1]
  rw [List.append_assoc, List.getElem?_append]
  simp only [List.length_take]
  by_cases hj : j < d
  · have : j < min d dst.length := by omega
    rw [if_pos this, List.getElem?_take, if_pos hj, if_neg (by omega)]
  · have : ¬ j < min d dst.length := by omega
    rw [if_neg this, List.getElem?_append]
    simp only [List.length_take, List.length_drop]
    have em : min d dst.length = d := by omega
    rw [em]
    by_cases hj2 : j < d + k
    · have : j - d < min k (src.length - s) := by omega
      rw [if_pos this, if_pos (by omega), List.getElem?_take, if_pos (by omega),
        List.getElem?_drop]
      congr 1
      omega
    · have : ¬ j - d < min k (src.length - s) := by omega
      rw [if_neg this, if_neg (by omega), List.getElem?_drop]
      congr 1
      omega

theorem memory_store_loop_spec (msz : Int) (src : List MemoryCell) :
    ∀ (mem : List MemoryCell) (addr size : Int), 0 ≤ addr → 0 ≤ size →
      size ≤ src.length → msz ≤ mem.length →
      ∃ mem', memory_store_loop msz src mem addr size = some mem' ∧
        mem'.length = mem.length ∧
        ∀ j : Nat, mem'[j]? =
          if addr ≤ j ∧ (j : Int) < addr + size ∧ (j : Int) < msz
          then src[((j : Int) - addr).toNat]? else mem[j]? := by
  induction src with
  | nil =>
    intro mem addr size ha hs hsrc hmem
    have : size = 0 := by simp at hsrc; omega
    subst this
    refine ⟨mem, by simp [memory_store_loop], rfl, ?_⟩
    intro j
    rw [if_neg (by omega)]
  | cons s rest ih =>
    intro mem addr size ha hs hsrc hmem
    unfold memory_store_loop
    by_cases h0 : size = 0
    · subst h0
      refine ⟨mem, by simp, rfl, ?_⟩
      intro j
      rw [if_neg (by omega)]
    · rw [if_neg h0]
      by_cases h1 : addr ≥ msz
      · rw [if_pos h1]
        refine ⟨mem, rfl, rfl, ?_⟩
        intro j
        rw [if_neg (by omega)]
      · have hlt : addr < (mem.length : Int) := lt_of_lt_of_le (not_le.mp h1) hmem
        rw [if_neg h1, if_pos ⟨ha, hlt⟩]
        have hl : (rest.length : Int) + 1 = ((s :: rest).length : Int) := by simp
        obtain ⟨mem', e, hlen, hget⟩ := ih (mem.set addr.toNat s) (addr + 1) (size - 1)
          (by omega) (by omega) (by omega) (by simpa using hmem)
        refine ⟨mem', e, by simpa using hlen, ?_⟩
        intro j
        rw [hget j]
        by_cases hj : (j : Int) = addr
        · have hj' : addr.toNat = j := by omega
          rw [if_neg (by omega), if_pos (by omega), List.getElem?_set, if_pos hj',
            if_pos (by omega)]
          have : ((j : Int) - addr).toNat = 0 := by omega
          rw [this]
          simp
        · have hj' : ¬ addr.toNat = j := by omega
          rw [List.getElem?_set, if_neg hj']
          by_cases hc : addr + 1 ≤ j ∧ (j : Int) < addr + 1 + (size - 1) ∧ (j : Int) < msz
          · rw [if_pos hc, if_pos (by omega)]
            have : ((j : Int) - addr).toNat = ((j : Int) - (addr + 1)).toNat + 1 := by omega
            rw [this, List.getElem?_cons_succ]
          · rw [if_neg hc, if_neg (by omega)]

theorem memory_read_loop_spec (m : Memory) (hmem : m.memory_size ≤ m.mem.length)
    (dst : List MemoryCell) :
    ∀ (addr size : Int), 0 ≤ addr → 0 ≤ size → size ≤ dst.length →
      ∃ d', memory_read_loop m dst addr size = some d' ∧ d'.length = dst.length ∧
        ∀ j : Nat, d'[j]? =
          if (j : Int) < size ∧ addr + j < m.memory_size
          then m.mem[(addr + j).toNat]? else dst[j]? := by
  induction dst with
  | nil =>
    intro addr size ha hs hd
    have : size = 0 := by simp at hd; omega
    subst this
    refine ⟨[], by simp [memory_read_loop], rfl, ?_⟩
    intro j
    rw [if_neg (by omega)]
  | cons d rest ih =>
    intro addr size ha hs hd
    unfold memory_read_loop
    by_cases h0 : size = 0
    · subst h0
      refine ⟨d :: rest, by simp, rfl, ?_⟩
      intro j
      rw [if_neg (by omega)]
    · rw [if_neg h0]
      by_cases h1 : addr ≥ m.memory_size
      · rw [if_pos h1]
        refine ⟨d :: rest, rfl, rfl, ?_⟩
        intro j
        rw [if_neg (by omega)]
      · rw [if_neg h1]
        have hlt : addr.toNat < m.mem.length := by omega
        have hat : at_index m.mem addr = some (m.mem[addr.toNat]) := by
          unfold at_index
          rw [if_neg (by omega), List.getElem?_eq_getElem hlt]
        have hl : (rest.length : Int) + 1 = ((d :: rest).length : Int) := by simp
        obtain ⟨d', e, hlen, hget⟩ := ih (addr + 1) (size - 1) (by omega) (by omega) (by omega)
        rw [hat]
        simp only [e]
        refine ⟨_, rfl, by simp [hlen], ?_⟩
        intro j
        cases j with
        | zero =>
          rw [if_pos (by constructor <;> omega)]
          simp [List.getElem?_eq_getElem hlt]
        | succ j =>
          simp only [List.getElem?_cons_succ]
          rw [hget j]
          by_cases hc : (j : Int) < size - 1 ∧ addr + 1 + j < m.memory_size
          · rw [if_pos hc, if_pos (by constructor <;> push_cast <;> omega)]
            congr 2
            push_cast
            omega
          · rw [if_neg hc, if_neg (by push_cast; omega)]

theorem tdiv_ceil (size w : Int) (hs : 0 ≤ size) (hw : 0 < w) :
    Int.tdiv (size + w - 1) w = ceil_div size w := by
  unfold ceil_div
  rw [Int.tdiv_eq_ediv (by omega) (by omega)]
  symm
  rw [Int.ceil_eq_iff]
  have hwq : (0 : ℚ) < (w : ℚ) := by exact_mod_cast hw
  have h1 := Int.ediv_add_emod (size + w - 1) w
  have h2 := Int.emod_nonneg (size + w - 1) (by omega : w ≠ 0)
  have h3 := Int.emod_lt_of_pos (size + w - 1) hw
  set q := (size + w - 1) / w
  set r := (size + w - 1) % w
  have hsz : (size : ℚ) = w * q + r - w + 1 := by
    have : size = w * q + r - w + 1 := by omega
    exact_mod_cast this
  constructor
  · rw [lt_div_iff₀ hwq, hsz]
    have : (r : ℚ) ≥ 0 := by exact_mod_cast h2
    nlinarith
  · rw [div_le_iff₀ hwq, hsz]
    have : (r : ℚ) ≤ w - 1 := by
      have : r ≤ w - 1 := by omega
      exact_mod_cast this
    nlinarith

theorem to_int32_emod (u : Nat) (hu : u < 4294967296) :
    to_int32 u % 4294967296 = (u : Int) := by
  unfold to_int32
  split <;> omega

theorem int_wrap_emod (x : Int) : int_wrap x % 4294967296 = x % 4294967296 := by
  unfold int_wrap
  have h0 := Int.emod_nonneg x (by decide : (4294967296 : Int) ≠ 0)
  have h1 := Int.emod_lt_of_pos x (by decide : (0 : Int) < 4294967296)
  rw [to_int32_emod _ (by omega)]
  omega

theorem int_wrap_range (x : Int) : in_int_range (int_wrap x) := by
  unfold int_wrap in_int_range to_int32
  have h0 := Int.emod_nonneg x (by decide : (4294967296 : Int) ≠ 0)
  have h1 := Int.emod_lt_of_pos x (by decide : (0 : Int) < 4294967296)
  split <;> omega

theorem int_wrap_of_range (x : Int) (h : in_int_range x) : int_wrap x = x := by
  unfold int_wrap to_int32
  unfold in_int_range at h
  split <;> omega

theorem int_wrap_congr (x y : Int) (h : x % 4294967296 = y % 4294967296) :
    int_wrap x = int_wrap y := by
  unfold int_wrap
  rw [h]

theorem int_wrap_add_wrap (a b : Int) : int_wrap (a + int_wrap b) = int_wrap (a + b) := by
  apply int_wrap_congr
  have := int_wrap_emod b
  omega

theorem int_wrap_wrap_add (a b : Int) : int_wrap (int_wrap a + b) = int_wrap (a + b) := by
  apply int_wrap_congr
  have := int_wrap_emod a
  omega

theorem statistics_add_counter_wrap (info : StatisticsInfo) (x : Int) :
    statistics_add_counter info (int_wrap x) = statistics_add_counter info x := by
  unfold statistics_add_counter
  rw [int_wrap_add_wrap]

theorem blocks_count_ceil (size w : Int) (hs : 0 ≤ size) (hw : 0 < w)
    (hsum : size + w - 1 ≤ 2147483647) : blocks_count size w = ceil_div size w := by
  unfold blocks_count
  rw [int_wrap_of_range _ ⟨by omega, hsum⟩]
  exact tdiv_ceil size w hs hw

theorem memory_write_spec (m : Memory) (hwf : m.wf) (info : StatisticsInfo) (addr size : Int)
    (src : List MemoryCell) (ha : 0 ≤ addr) (hs : 0 ≤ size) (hsrc : size ≤ src.length) :
    ∃ cells, memory_write m info addr size src =
        some ({ m with mem := cells },
          statistics_add_counter info (blocks_count size m.memory_width * m.memory_write_time)) ∧
      stored_at cells m.mem addr size m.memory_size src := by
  obtain ⟨hlen, hw⟩ := hwf
  obtain ⟨cells, e, h1, h2⟩ := memory_store_loop_spec m.memory_size src m.mem addr size ha hs hsrc
    (le_of_eq hlen.symm)
  refine ⟨cells, ?_, h1, h2⟩
  unfold memory_write
  rw [if_neg (by omega), statistics_add_counter_wrap]
  simp only [e]

theorem memory_reveal_spec (m : Memory) (hwf : m.wf) (info : StatisticsInfo) (addr size : Int)
    (src : List MemoryCell) (ha : 0 ≤ addr) (hs : 0 ≤ size) (hsrc : size ≤ src.length) :
    ∃ cells, memory_reveal m info addr size src = some ({ m with mem := cells }, info) ∧
      stored_at cells m.mem addr size m.memory_size src := by
  obtain ⟨hlen, hw⟩ := hwf
  obtain ⟨cells, e, h1, h2⟩ := memory_store_loop_spec m.memory_size src m.mem addr size ha hs hsrc
    (le_of_eq hlen.symm)
  refine ⟨cells, ?_, h1, h2⟩
  unfold memory_reveal
  simp only [e]

theorem memory_read_spec (m : Memory) (hwf : m.wf) (info : StatisticsInfo) (addr size : Int)
    (d : List MemoryCell) (ha : 0 ≤ addr) (hs : 0 ≤ size) (hd : size ≤ d.length) :
    ∃ d', memory_read m info addr size (some d) =
        some (m, statistics_add_counter info (blocks_count size m.memory_width * m.memory_read_time),
          some d') ∧
      loaded_from d' d m.mem addr size m.memory_size := by
  obtain ⟨hlen, hw⟩ := hwf
  obtain ⟨d', e, h1, h2⟩ := memory_read_loop_spec m (le_of_eq hlen.symm) d addr size ha hs hd
  refine ⟨d', ?_, h1, h2⟩
  unfold memory_read
  rw [if_neg (by omega), statistics_add_counter_wrap]
  simp only [e]

theorem memory_read_null (m : Memory) (hwf : m.wf) (info : StatisticsInfo) (addr size : Int)
    (_hs : 0 ≤ size) :
    memory_read m info addr size none =
      some (m, statistics_add_counter info (blocks_count size m.memory_width * m.memory_read_time),
        none) := by
  obtain ⟨hlen, hw⟩ := hwf
  unfold memory_read
  rw [if_neg (by omega), statistics_add_counter_wrap]


/-! ## Finalize over a memory -/

theorem direct_wb_finalize_dirty (c : DirectCache Memory) (info : StatisticsInfo) (i : Nat)
    (b : CacheBlock) (hb : c.blocks[i]? = some b) (hwf : c.mem.wf) (ha : 0 ≤ b.addr)
    (hlen : (b.mem.length : Int) = c.block_size) (hd : b.dirty ≠ 0) :
    ∃ cells,
      direct_cache_wb_finalize memory_ops c info i =
        some ({ c with mem := { c.mem with mem := cells },
                       blocks := c.blocks.set i { b with dirty := 0 } },
              { info with
                clock_counter := int_wrap (info.clock_counter +
                  blocks_count c.block_size c.mem.memory_width * c.mem.memory_write_time),
                write_back_counter := info.write_back_counter + 1 }) ∧
      stored_at cells c.mem.mem b.addr c.block_size c.mem.memory_size b.mem := by
  obtain ⟨cells, e, hst⟩ := memory_write_spec c.mem hwf
    (statistics_add_write_back_counter info) b.addr c.block_size b.mem ha
    (by omega) (by omega)
  refine ⟨cells, ?_, hst⟩
  unfold direct_cache_wb_finalize
  simp only [hb, if_pos hd, memory_ops, e]
  rfl

theorem direct_wb_finalize_clean {L : Type} (ops : AbstractMemoryOps L) (c : DirectCache L)
    (info : StatisticsInfo) (i : Nat) (b : CacheBlock) (hb : c.blocks[i]? = some b)
    (hd : b.dirty = 0) : direct_cache_wb_finalize ops c info i = some (c, info) := by
  unfold direct_cache_wb_finalize
  simp only [hb, hd, ne_eq, not_true_eq_false, if_false]

theorem full_wb_finalize_dirty (c : FullCache Memory) (info : StatisticsInfo) (i : Nat)
    (b : CacheBlock) (hb : c.blocks[i]? = some b) (hwf : c.mem.wf) (ha : 0 ≤ b.addr)
    (hlen : (b.mem.length : Int) = c.block_size) (hd : b.dirty ≠ 0) :
    ∃ cells,
      full_cache_wb_finalize memory_ops c info i =
        some ({ c with mem := { c.mem with mem := cells },
                       blocks := c.blocks.set i { b with dirty := 0 } },
              { info with
                clock_counter := int_wrap (info.clock_counter +
                  blocks_count c.block_size c.mem.memory_width * c.mem.memory_write_time),
                write_back_counter := info.write_back_counter + 1 }) ∧
      stored_at cells c.mem.mem b.addr c.block_size c.mem.memory_size b.mem := by
  obtain ⟨cells, e, hst⟩ := memory_write_spec c.mem hwf
    (statistics_add_write_back_counter info) b.addr c.block_size b.mem ha
    (by omega) (by omega)
  refine ⟨cells, ?_, hst⟩
  unfold full_cache_wb_finalize
  simp only [hb, if_pos hd, memory_ops, e]
  rfl

theorem full_wb_finalize_clean {L : Type} (ops : AbstractMemoryOps L) (c : FullCache L)
    (info : StatisticsInfo) (i : Nat) (b : CacheBlock) (hb : c.blocks[i]? = some b)
    (hd : b.dirty = 0) : full_cache_wb_finalize ops c info i = some (c, info) := by
  unfold full_cache_wb_finalize
  simp only [hb, hd, ne_eq, not_true_eq_false, if_false]

/-! ## Reveal -/

theorem memory_reveal_info {m : Memory} {info : StatisticsInfo} {addr size : Int}
    {src : List MemoryCell} {m' : Memory} {info' : StatisticsInfo}
    (h : memory_reveal m info addr size src = some (m', info')) : info' = info := by
  unfold memory_reveal at h
  split at h
  · cases h
  · cases h; rfl

theorem tags_set_mem (blocks : List CacheBlock) (i : Nat) (b : CacheBlock)
    (cells : List MemoryCell) (hb : blocks[i]? = some b) :
    (blocks.set i { b with mem := cells }).map (fun x => (x.addr, x.dirty)) =
      blocks.map (fun x => (x.addr, x.dirty)) := by
  apply List.ext_getElem?
  intro j
  simp only [List.getElem?_map, List.getElem?_set]
  by_cases hij : i = j
  · subst hij
    rw [if_pos rfl, hb]
    have : i < blocks.length := by
      rcases Nat.lt_or_ge i blocks.length with h | h
      · exact h
      · rw [List.getElem?_eq_none h] at hb; cases hb
    simp [this]
  · rw [if_neg hij]

/-! ## The direct-mapped cache over a memory -/

theorem block_size_pos {bs : Int} (h : is_correct_block_size bs = true) : 0 < bs := by
  simp only [is_correct_block_size, Bool.or_eq_true, beq_iff_eq] at h
  omega

theorem direct_index_lt (bs bc a : Int) (hbs : 0 < bs) (hbc : 0 < bc) (ha : 0 ≤ a) :
    0 ≤ Int.tmod (Int.tdiv a bs) bc ∧ Int.tmod (Int.tdiv a bs) bc < bc ∧
    Int.tmod (Int.tdiv a bs) bc = (a / bs) % bc := by
  have h1 : Int.tdiv a bs = a / bs := Int.tdiv_eq_ediv ha (le_of_lt hbs)
  have h2 : 0 ≤ a / bs := Int.ediv_nonneg ha (le_of_lt hbs)
  rw [h1, Int.tmod_eq_emod h2 (le_of_lt hbc)]
  exact ⟨Int.emod_nonneg _ (by omega), Int.emod_lt_of_pos _ hbc, rfl⟩

theorem getElem?_of_lt_length {α : Type} (l : List α) (i : Nat) (h : i < l.length) :
    ∃ x, l[i]? = some x ∧ x ∈ l :=
  ⟨l[i], List.getElem?_eq_getElem h, List.getElem_mem h⟩

theorem mem_of_getElem? {α : Type} {l : List α} {i : Nat} {x : α} (h : l[i]? = some x) :
    x ∈ l := by
  obtain ⟨hi, rfl⟩ := List.getElem?_eq_some.mp h
  exact List.getElem_mem hi

theorem lt_length_of_getElem? {α : Type} {l : List α} {i : Nat} {x : α}
    (h : l[i]? = some x) : i < l.length :=
  (List.getElem?_eq_some.mp h).1

theorem direct_index_block {L : Type} (c : DirectCache L) (a : Int) (hbs : 0 < c.block_size)
    (hbc : 0 < c.block_count) (hlen : (c.blocks.length : Int) = c.block_count) (ha : 0 ≤ a) :
    ∃ b, c.blocks[direct_index c.block_size c.block_count a]? = some b ∧
      at_index c.blocks (Int.tmod (Int.tdiv a c.block_size) c.block_count) = some b := by
  obtain ⟨h1, h2, -⟩ := direct_index_lt c.block_size c.block_count a hbs hbc ha
  have hlt : direct_index c.block_size c.block_count a < c.blocks.length := by
    unfold direct_index
    omega
  obtain ⟨b, hb, -⟩ := getElem?_of_lt_length c.blocks _ hlt
  refine ⟨b, hb, ?_⟩
  unfold at_index
  rw [if_neg (by omega)]
  exact hb

theorem direct_cache_find_spec {L : Type} (c : DirectCache L) (a : Int)
    (hbs : 0 < c.block_size) (hbc : 0 < c.block_count)
    (hlen : (c.blocks.length : Int) = c.block_count) (ha : 0 ≤ a) :
    ∃ b, c.blocks[direct_index c.block_size c.block_count a]? = some b ∧
      direct_cache_find c a =
        some (if b.addr = a then some (direct_index c.block_size c.block_count a) else none) := by
  obtain ⟨b, hb, hat⟩ := direct_index_block c a hbs hbc hlen ha
  refine ⟨b, hb, ?_⟩
  unfold direct_cache_find
  rw [if_neg (by omega)]
  simp only [hat]
  by_cases h : b.addr = a
  · simp [h, direct_index]
  · simp [h]

theorem direct_cache_place_spec (c : DirectCache Memory) (info : StatisticsInfo) (a : Int)
    (hp : cache_params_ok c.block_size c.block_count c.blocks c.mem)
    (htag : ∀ b ∈ c.blocks, b.addr ≠ NO_BLOCK → b.dirty ≠ 0 → 0 ≤ b.addr) (ha : 0 ≤ a) :
    ∃ blocks' cells' info',
      direct_cache_place memory_ops c info a =
        some ({ c with mem := { c.mem with mem := cells' }, blocks := blocks' }, info',
          direct_index c.block_size c.block_count a) ∧
      placed c.write_strategy c.block_size c.mem c.blocks info a
        (direct_index c.block_size c.block_count a) blocks' cells' info' := by
  obtain ⟨hbs, hbc, hlen, hsz, hwf, hmax⟩ := hp
  have hbs' := block_size_pos hbs
  obtain ⟨b, hb, hat⟩ := direct_index_block c a hbs' hbc hlen ha
  have hbm := mem_of_getElem? hb
  have hblen := hsz b hbm
  have hilt := lt_length_of_getElem? hb
  unfold direct_cache_place
  rw [if_neg (by omega)]
  simp only [hat]
  have hidx : (Int.tmod (Int.tdiv a c.block_size) c.block_count).toNat =
      direct_index c.block_size c.block_count a := rfl
  rw [hidx]
  by_cases hfin : c.write_strategy = WriteStrategy.write_back ∧ b.addr ≠ NO_BLOCK ∧ b.dirty ≠ 0
  · obtain ⟨hws, hnb, hd⟩ := hfin
    obtain ⟨cells, e, hst⟩ := direct_wb_finalize_dirty c info _ b hb hwf (htag b hbm hnb hd)
      hblen hd
    have hwf1 : ({ c.mem with mem := cells } : Memory).wf := by
      obtain ⟨h1, h2⟩ := hwf
      exact ⟨by rw [← h1]; exact congrArg _ hst.1, h2⟩
    obtain ⟨d', e2, hld⟩ := memory_read_spec { c.mem with mem := cells } hwf1
      (statistics_add_counter (statistics_add_write_back_counter info)
        (blocks_count c.block_size c.mem.memory_width * c.mem.memory_write_time))
      a c.block_size b.mem ha (by omega) (by omega)
    refine ⟨c.blocks.set (direct_index c.block_size c.block_count a)
        { addr := a, mem := d',
          dirty := if c.write_strategy = WriteStrategy.write_back ∧ b.addr ≠ NO_BLOCK
            then 0 else b.dirty }, cells,
      statistics_add_counter
        (statistics_add_counter (statistics_add_write_back_counter info)
          (blocks_count c.block_size c.mem.memory_width * c.mem.memory_write_time))
        (blocks_count c.block_size c.mem.memory_width * c.mem.memory_read_time),
      ?_, b, d', hb, ?_, hld, rfl⟩
    · rw [if_pos hnb]
      have e' : direct_ops_finalize memory_ops c info
          (direct_index c.block_size c.block_count a) =
          direct_cache_wb_finalize memory_ops c info
            (direct_index c.block_size c.block_count a) := by
        unfold direct_ops_finalize
        rw [hws]
      rw [e', e]
      simp only [List.getElem?_set, if_true, hilt, memory_ops]
      have e2' := e2
      simp only [statistics_add_counter, statistics_add_write_back_counter] at e2' ⊢
      simp only [e2', Option.getD_some, List.set_set, hws, hnb, ne_eq, not_false_eq_true,
        and_self, if_true]
    · rw [if_pos ⟨hws, hnb, hd⟩]
      exact ⟨hst, rfl⟩
  · obtain ⟨d', e2, hld⟩ := memory_read_spec c.mem hwf info a c.block_size b.mem ha
      (by omega) (by omega)
    have hfz : (if b.addr ≠ NO_BLOCK then direct_ops_finalize memory_ops c info
        (direct_index c.block_size c.block_count a) else some (c, info)) = some (c, info) := by
      by_cases hnb : b.addr ≠ NO_BLOCK
      · rw [if_pos hnb]
        unfold direct_ops_finalize
        cases hws : c.write_strategy with
        | write_through => rfl
        | write_back =>
          have hd : b.dirty = 0 := by
            by_contra hd
            exact hfin ⟨hws, hnb, hd⟩
          exact direct_wb_finalize_clean memory_ops c info _ b hb hd
      · rw [if_neg hnb]
    refine ⟨c.blocks.set (direct_index c.block_size c.block_count a)
        { addr := a, mem := d',
          dirty := if c.write_strategy = WriteStrategy.write_back ∧ b.addr ≠ NO_BLOCK
            then 0 else b.dirty }, c.mem.mem,
      statistics_add_counter info
        (blocks_count c.block_size c.mem.memory_width * c.mem.memory_read_time),
      ?_, b, d', hb, ?_, hld, rfl⟩
    · rw [hfz]
      simp only [hb, memory_ops, e2, Option.getD_some]
      congr 3
      by_cases h1 : c.write_strategy = WriteStrategy.write_back ∧ b.addr ≠ NO_BLOCK
      · have hd : b.dirty = 0 := by
          by_contra hd
          exact hfin ⟨h1.1, h1.2, hd⟩
        rw [if_pos h1, hd]
      · rw [if_neg h1]
    · rw [if_neg hfin]
      exact ⟨rfl, rfl⟩

/-! ## The fully-associative cache over a memory -/

theorem excess_bits_small (fuel a : Nat) (h : a < 9007199254740992) : excess_bits fuel a = 0 := by
  cases fuel with
  | zero => rfl
  | succ f => simp [excess_bits, h]

theorem excess_bits_lower (fuel a : Nat) (h : 0 < excess_bits fuel a) :
    2 ^ (52 + excess_bits fuel a) ≤ a := by
  induction fuel generalizing a with
  | zero => simp [excess_bits] at h
  | succ f ih =>
    unfold excess_bits at h ⊢
    split at h
    · omega
    · rename_i hlt
      rw [if_neg hlt]
      by_cases h0 : 0 < excess_bits f (a / 2)
      · have := ih (a / 2) h0
        have e : 2 ^ (52 + (excess_bits f (a / 2) + 1)) = 2 ^ (52 + excess_bits f (a / 2)) * 2 := by
          rw [← Nat.add_assoc, pow_succ]
        rw [e]
        omega
      · have e0 : excess_bits f (a / 2) = 0 := by omega
        rw [e0]
        norm_num
        omega

theorem excess_bits_upper (fuel a : Nat) (h : a < 2 ^ fuel) :
    a < 2 ^ (53 + excess_bits fuel a) := by
  induction fuel generalizing a with
  | zero =>
    simp only [excess_bits]
    norm_num at h ⊢
    omega
  | succ f ih =>
    unfold excess_bits
    split
    · rename_i hlt
      norm_num
      omega
    · have h2 : a / 2 < 2 ^ f := by
        rw [pow_succ] at h
        omega
      have := ih (a / 2) h2
      have e : 2 ^ (53 + (excess_bits f (a / 2) + 1)) = 2 ^ (53 + excess_bits f (a / 2)) * 2 := by
        rw [← Nat.add_assoc, pow_succ]
      rw [e]
      omega

theorem round_to_double_exact (a : Nat) (h : a < 9007199254740992) : round_to_double a = a := by
  unfold round_to_double
  rw [excess_bits_small a a h]
  simp [Nat.mod_one]

theorem round_to_double_bound (a : Nat) :
    9007199254740992 * round_to_double a ≤ 9007199254740993 * a := by
  by_cases h : a < 9007199254740992
  · rw [round_to_double_exact a h]; omega
  · unfold round_to_double
    by_cases h0 : 0 < excess_bits a a
    · have hle := excess_bits_lower a a h0
      rw [pow_add] at hle
      norm_num at hle
      have hE : 0 < 2 ^ excess_bits a a := Nat.two_pow_pos _
      have hdm := Nat.div_add_mod a (2 ^ excess_bits a a)
      have hml := Nat.mod_lt a hE
      simp only []
      generalize 2 ^ excess_bits a a = E at *
      generalize hq : a / E = q at *
      generalize hr : a % E = r at *
      have hqE : E * q = q * E := Nat.mul_comm _ _
      rw [Nat.add_mul]
      generalize q * E = qE at *
      split
      · omega
      · split
        · omega
        · omega
    · have e0 : excess_bits a a = 0 := by omega
      simp [e0, Nat.mod_one]
      omega

theorem excess_bits_self (a : Nat) : a < 2 ^ (53 + excess_bits a a) :=
  excess_bits_upper a a (Nat.lt_two_pow a)

theorem round_to_double_near (a : Nat) :
    2 ^ excess_bits a a ∣ round_to_double a ∧
    2 * round_to_double a ≤ 2 * a + 2 ^ excess_bits a a ∧
    2 * a ≤ 2 * round_to_double a + 2 ^ excess_bits a a := by
  unfold round_to_double
  simp only []
  have hE : 0 < 2 ^ excess_bits a a := Nat.two_pow_pos _
  have hdm := Nat.div_add_mod a (2 ^ excess_bits a a)
  have hml := Nat.mod_lt a hE
  generalize 2 ^ excess_bits a a = E at *
  generalize hq : a / E = q at *
  generalize hr : a % E = r at *
  have hqE : E * q = q * E := Nat.mul_comm _ _
  split
  · exact ⟨Dvd.intro_left _ rfl, by omega, by omega⟩
  · split
    · exact ⟨Dvd.intro_left _ rfl, by omega, by omega⟩
    · refine ⟨Dvd.intro_left _ rfl, ?_, ?_⟩
      · rw [Nat.add_mul]; omega
      · rw [Nat.add_mul]; omega

theorem random_next_nonneg (rnd : Random) (n : Int) (hp : 0 ≤ rnd.raw rnd.calls * n) :
    (random_next rnd n).1 =
      ((round_to_double (rnd.raw rnd.calls * n).toNat / 2147483648 : Nat) : Int) := by
  unfold random_next
  simp only []
  rcases eq_or_lt_of_le hp with h0 | hpos
  · rw [← h0]
    simp [round_to_double_exact]
  · rw [Int.sign_eq_one_of_pos hpos, one_mul]
    congr 3
    omega

theorem random_next_exact (rnd : Random) (n : Int) (hp : 0 ≤ rnd.raw rnd.calls * n)
    (hlt : rnd.raw rnd.calls * n < 9007199254740992) :
    (random_next rnd n).1 = rnd.raw rnd.calls * n / 2147483648 := by
  rw [random_next_nonneg rnd n hp, round_to_double_exact _ (by omega)]
  push_cast
  rw [Int.toNat_of_nonneg hp]

theorem random_next_range (rnd : Random) (n : Int) (hn : 0 < n)
    (hr : 0 ≤ rnd.raw rnd.calls ∧ rnd.raw rnd.calls ≤ RAND_MAX) :
    0 ≤ (random_next rnd n).1 ∧ (random_next rnd n).1 < n := by
  obtain ⟨h0, h1⟩ := hr
  unfold RAND_MAX at h1
  have hprod : 0 ≤ rnd.raw rnd.calls * n := Int.mul_nonneg h0 (le_of_lt hn)
  rw [random_next_nonneg rnd n hprod]
  have hb := round_to_double_bound (rnd.raw rnd.calls * n).toNat
  have hple : rnd.raw rnd.calls * n ≤ 2147483647 * n := by nlinarith
  have hdm := Nat.div_add_mod (round_to_double (rnd.raw rnd.calls * n).toNat) 2147483648
  have hml := Nat.mod_lt (round_to_double (rnd.raw rnd.calls * n).toNat)
    (by decide : 0 < 2147483648)
  generalize round_to_double (rnd.raw rnd.calls * n).toNat = R at *
  generalize rnd.raw rnd.calls * n = p at *
  constructor
  · omega
  · omega

theorem full_find_loop_spec (blocks : List CacheBlock) (a : Int) :
    ∀ (n i : Nat), i + n ≤ blocks.length →
      ∃ r, full_cache_find_loop blocks a n i = some r ∧
        (∀ j, r = some j → i ≤ j ∧ j < i + n ∧ resident_at blocks a j ∧
          ∀ k b, i ≤ k → k < j → blocks[k]? = some b → b.addr ≠ a) ∧
        (r = none → ∀ k b, i ≤ k → k < i + n → blocks[k]? = some b → b.addr ≠ a) := by
  intro n
  induction n with
  | zero =>
    intro i _
    refine ⟨none, rfl, ?_, ?_⟩
    · intro j hj; cases hj
    · intro _ k b h1 h2; omega
  | succ n ih =>
    intro i hi
    obtain ⟨b, hb, -⟩ := getElem?_of_lt_length blocks i (by omega)
    unfold full_cache_find_loop
    simp only [hb]
    by_cases h : b.addr = a
    · rw [if_pos h]
      refine ⟨some i, rfl, ?_, ?_⟩
      · intro j hj
        cases hj
        exact ⟨le_refl _, by omega, ⟨b, hb, h⟩, fun k b' h1 h2 => by omega⟩
      · intro hc; cases hc
    · rw [if_neg h]
      obtain ⟨r, e, h1, h2⟩ := ih (i + 1) (by omega)
      refine ⟨r, e, ?_, ?_⟩
      · intro j hj
        obtain ⟨g1, g2, g3, g4⟩ := h1 j hj
        refine ⟨by omega, by omega, g3, ?_⟩
        intro k b' hk1 hk2 hk3
        by_cases hki : k = i
        · subst hki
          rw [hb] at hk3
          cases hk3
          exact h
        · exact g4 k b' (by omega) hk2 hk3
      · intro hr k b' hk1 hk2 hk3
        by_cases hki : k = i
        · subst hki
          rw [hb] at hk3
          cases hk3
          exact h
        · exact h2 hr k b' (by omega) (by omega) hk3

theorem full_cache_find_spec {L : Type} (c : FullCache L) (a : Int)
    (hlen : (c.blocks.length : Int) = c.block_count) :
    ∃ r, full_cache_find c a = some r ∧
      (∀ j, r = some j → j < c.blocks.length ∧ resident_at c.blocks a j ∧
        ∀ k b, k < j → c.blocks[k]? = some b → b.addr ≠ a) ∧
      (r = none → not_resident c.blocks a) := by
  have hn : c.block_count.toNat = c.blocks.length := by omega
  obtain ⟨r, e, h1, h2⟩ := full_find_loop_spec c.blocks a c.block_count.toNat 0 (by omega)
  refine ⟨r, e, ?_, ?_⟩
  · intro j hj
    obtain ⟨-, g2, g3, g4⟩ := h1 j hj
    exact ⟨by omega, g3, fun k b hk hb => g4 k b (Nat.zero_le _) hk hb⟩
  · intro hr i b hb
    exact h2 hr i b (Nat.zero_le _) (by have := lt_length_of_getElem? hb; omega) hb

theorem full_cache_place_spec (c : FullCache Memory) (info : StatisticsInfo) (a : Int)
    (hp : cache_params_ok c.block_size c.block_count c.blocks c.mem)
    (htag : ∀ b ∈ c.blocks, b.addr ≠ NO_BLOCK → b.dirty ≠ 0 → 0 ≤ b.addr) (ha : 0 ≤ a)
    (hr : 0 ≤ c.rnd.raw c.rnd.calls ∧ c.rnd.raw c.rnd.calls ≤ RAND_MAX) :
    ∃ i blocks' cells' info' rnd',
      full_cache_random_place memory_ops c info a =
        some ({ c with rnd := rnd', mem := { c.mem with mem := cells' }, blocks := blocks' },
          info', i) ∧
      placed c.write_strategy c.block_size c.mem c.blocks info a i blocks' cells' info' ∧
      ((resident_at c.blocks NO_BLOCK i ∧ rnd' = c.rnd ∧
          ∀ k b, k < i → c.blocks[k]? = some b → b.addr ≠ NO_BLOCK) ∨
       (not_resident c.blocks NO_BLOCK ∧ (i : Int) = (random_next c.rnd c.block_count).1 ∧
          rnd' = (random_next c.rnd c.block_count).2)) ∧
      rnd'.raw = c.rnd.raw ∧ c.rnd.calls ≤ rnd'.calls := by
  obtain ⟨hbs, hbc, hlen, hsz, hwf, hmax⟩ := hp
  have hbs' := block_size_pos hbs
  have hn : c.block_count.toNat = c.blocks.length := by omega
  obtain ⟨r, e, h1, h2⟩ := full_find_loop_spec c.blocks NO_BLOCK c.block_count.toNat 0 (by omega)
  unfold full_cache_random_place
  rw [e]
  cases r with
  | some i =>
    obtain ⟨-, g2, ⟨b, hb, hba⟩, g4⟩ := h1 i rfl
    have hbm := mem_of_getElem? hb
    have hblen := hsz b hbm
    obtain ⟨d', e2, hld⟩ := memory_read_spec c.mem hwf info a c.block_size b.mem ha
      (by omega) (by omega)
    refine ⟨i, c.blocks.set i
        { addr := a, mem := d',
          dirty := if c.write_strategy = WriteStrategy.write_back ∧ b.addr ≠ NO_BLOCK
            then 0 else b.dirty }, c.mem.mem,
      statistics_add_counter info
        (blocks_count c.block_size c.mem.memory_width * c.mem.memory_read_time), c.rnd,
      ?_, ⟨b, d', hb, ?_, hld, rfl⟩, Or.inl ⟨⟨b, hb, hba⟩, rfl, ?_⟩, rfl, le_refl _⟩
    · simp only [hb, memory_ops, e2, Option.getD_some]
      rw [if_neg (by rw [hba]; simp)]
    · rw [if_neg (by rw [hba]; simp)]
      exact ⟨rfl, rfl⟩
    · intro k b' hk hb'
      exact g4 k b' (Nat.zero_le _) hk hb'
  | none =>
    have hnone : not_resident c.blocks NO_BLOCK := by
      intro i b hb
      exact h2 rfl i b (Nat.zero_le _) (by have := lt_length_of_getElem? hb; omega) hb
    obtain ⟨r0, r1⟩ := random_next_range c.rnd c.block_count hbc hr
    set ri := (random_next c.rnd c.block_count).1 with hri
    have hilt : ri.toNat < c.blocks.length := by omega
    obtain ⟨b, hb, hbm⟩ := getElem?_of_lt_length c.blocks _ hilt
    have hblen := hsz b hbm
    have hnb : b.addr ≠ NO_BLOCK := hnone _ b hb
    have hat : at_index c.blocks ri = some b := by
      unfold at_index
      rw [if_neg (by omega)]
      exact hb
    simp only [hat]
    have hraw : (random_next c.rnd c.block_count).2.raw = c.rnd.raw := rfl
    have hcalls : c.rnd.calls ≤ (random_next c.rnd c.block_count).2.calls := by
      simp [random_next]
    by_cases hfin : c.write_strategy = WriteStrategy.write_back ∧ b.dirty ≠ 0
    · obtain ⟨hws, hd⟩ := hfin
      obtain ⟨cells, e1, hst⟩ := full_wb_finalize_dirty
        { c with rnd := (random_next c.rnd c.block_count).2 } info ri.toNat b hb hwf
        (htag b hbm hnb hd) hblen hd
      have hwf1 : ({ c.mem with mem := cells } : Memory).wf := by
        obtain ⟨g1, g2⟩ := hwf
        exact ⟨by rw [← g1]; exact congrArg _ hst.1, g2⟩
      obtain ⟨d', e2, hld⟩ := memory_read_spec { c.mem with mem := cells } hwf1
        (statistics_add_counter (statistics_add_write_back_counter info)
          (blocks_count c.block_size c.mem.memory_width * c.mem.memory_write_time))
        a c.block_size b.mem ha (by omega) (by omega)
      refine ⟨ri.toNat, c.blocks.set ri.toNat
          { addr := a, mem := d',
            dirty := if c.write_strategy = WriteStrategy.write_back ∧ b.addr ≠ NO_BLOCK
              then 0 else b.dirty }, cells,
        statistics_add_counter
          (statistics_add_counter (statistics_add_write_back_counter info)
            (blocks_count c.block_size c.mem.memory_width * c.mem.memory_write_time))
          (blocks_count c.block_size c.mem.memory_width * c.mem.memory_read_time),
        (random_next c.rnd c.block_count).2,
        ?_, ⟨b, d', hb, ?_, hld, rfl⟩, Or.inr ⟨hnone, by omega, rfl⟩, hraw, hcalls⟩
      · have e' : full_ops_finalize memory_ops
            { c with rnd := (random_next c.rnd c.block_count).2 } info ri.toNat =
            full_cache_wb_finalize memory_ops
              { c with rnd := (random_next c.rnd c.block_count).2 } info ri.toNat := by
          unfold full_ops_finalize
          simp only [hws]
        rw [e', e1]
        simp only [List.getElem?_set, if_true, hilt, memory_ops]
        have e2' := e2
        simp only [statistics_add_counter, statistics_add_write_back_counter] at e2' ⊢
        simp only [e2', Option.getD_some, List.set_set, hws, hnb, ne_eq, not_false_eq_true,
          and_self, if_true]
      · rw [if_pos ⟨hws, hnb, hd⟩]
        exact ⟨hst, rfl⟩
    · obtain ⟨d', e2, hld⟩ := memory_read_spec c.mem hwf info a c.block_size b.mem ha
        (by omega) (by omega)
      have hfz : full_ops_finalize memory_ops
          { c with rnd := (random_next c.rnd c.block_count).2 } info ri.toNat =
          some ({ c with rnd := (random_next c.rnd c.block_count).2 }, info) := by
        unfold full_ops_finalize
        cases hws : c.write_strategy with
        | write_through => rfl
        | write_back =>
          have hd : b.dirty = 0 := by
            by_contra hd
            exact hfin ⟨hws, hd⟩
          exact full_wb_finalize_clean memory_ops _ info _ b hb hd
      refine ⟨ri.toNat, c.blocks.set ri.toNat
          { addr := a, mem := d',
            dirty := if c.write_strategy = WriteStrategy.write_back ∧ b.addr ≠ NO_BLOCK
              then 0 else b.dirty }, c.mem.mem,
        statistics_add_counter info
          (blocks_count c.block_size c.mem.memory_width * c.mem.memory_read_time),
        (random_next c.rnd c.block_count).2,
        ?_, ⟨b, d', hb, ?_, hld, rfl⟩, Or.inr ⟨hnone, by omega, rfl⟩, hraw, hcalls⟩
      · rw [hfz]
        simp only [hb, memory_ops, e2, Option.getD_some]
        congr 3
        by_cases h1 : c.write_strategy = WriteStrategy.write_back ∧ b.addr ≠ NO_BLOCK
        · have hd : b.dirty = 0 := by
            by_contra hd
            exact hfin ⟨h1.1, hd⟩
          rw [if_pos h1, hd]
        · rw [if_neg h1]
      · rw [if_neg (fun h => hfin ⟨h.1, h.2.2⟩)]
        exact ⟨rfl, rfl⟩

/-! ## Stores into a block -/

theorem memcpy_stored (dst src : List MemoryCell) (off n : Int) (h0 : 0 ≤ off) (hn : 0 ≤ n)
    (hd : off + n ≤ dst.length) (hs : n ≤ src.length) :
    ∃ r, memcpy dst off src 0 n = some r ∧ stored_at r dst off n dst.length src := by
  have hc : 0 ≤ off ∧ (0 : Int) ≤ 0 ∧ 0 ≤ n ∧ off + n ≤ dst.length ∧ 0 + n ≤ src.length :=
    ⟨h0, le_refl _, hn, hd, by omega⟩
  refine ⟨_, memcpy_eq_some dst src off 0 n hc, memcpy_length (memcpy_eq_some dst src off 0 n hc),
    ?_⟩
  intro j
  rw [memcpy_getElem? (memcpy_eq_some dst src off 0 n hc) j]
  by_cases h : off ≤ j ∧ (j : Int) < off + n
  · rw [if_pos h, if_pos ⟨h.1, h.2, by omega⟩]
    congr 2
    omega
  · rw [if_neg h, if_neg (fun g => h ⟨g.1, g.2.1⟩)]

theorem aligned_offset (addr bs : Int) (hbs : is_correct_block_size bs = true) (h0 : 0 ≤ addr)
    (h1 : addr ≤ 2147483647) :
    int_and addr (-bs) = addr - addr % bs ∧ 0 ≤ int_and addr (-bs) ∧
    addr - int_and addr (-bs) = addr % bs ∧ 0 ≤ addr % bs ∧ addr % bs < bs ∧
    int_and addr (-bs) % bs = 0 := by
  have hpos := block_size_pos hbs
  have e := aligned_addr_eq addr bs hbs h0 (by omega)
  have h2 := Int.emod_nonneg addr (by omega : bs ≠ 0)
  have h3 := Int.emod_lt_of_pos addr hpos
  have h4 : addr % bs ≤ addr := by
    have := Int.ediv_add_emod addr bs
    have hq : 0 ≤ addr / bs := Int.ediv_nonneg h0 (le_of_lt hpos)
    nlinarith
  refine ⟨e, by omega, by omega, h2, h3, ?_⟩
  rw [e]
  have := Int.ediv_add_emod addr bs
  have e2 : addr - addr % bs = bs * (addr / bs) := by omega
  rw [e2]
  exact Int.mul_emod_right _ _

/-! ## Write-through writes and reveals over a memory -/

theorem direct_find_lookup {L : Type} (c : DirectCache L) (a : Int)
    (hbs : 0 < c.block_size) (hbc : 0 < c.block_count)
    (hlen : (c.blocks.length : Int) = c.block_count) (ha : 0 ≤ a) :
    ∃ r, direct_cache_find c a = some r ∧
      (∀ i, r = some i → i = direct_index c.block_size c.block_count a ∧
        ∃ b, c.blocks[i]? = some b ∧ b.addr = a) ∧
      (r = none → ∃ b, c.blocks[direct_index c.block_size c.block_count a]? = some b ∧
        b.addr ≠ a) := by
  obtain ⟨b, hb, e⟩ := direct_cache_find_spec c a hbs hbc hlen ha
  by_cases h : b.addr = a
  · rw [if_pos h] at e
    refine ⟨_, e, ?_, ?_⟩
    · intro i hi
      cases hi
      exact ⟨rfl, b, hb, h⟩
    · intro hc; cases hc
  · rw [if_neg h] at e
    refine ⟨_, e, ?_, ?_⟩
    · intro i hi; cases hi
    · intro _
      exact ⟨b, hb, h⟩

theorem direct_wt_write_spec (c : DirectCache Memory) (info : StatisticsInfo) (addr size : Int)
    (src : List MemoryCell) (hp : cache_params_ok c.block_size c.block_count c.blocks c.mem)
    (h0 : 0 ≤ addr) (h1 : addr ≤ INT_MAX) (hs : 0 ≤ size) (hsrc : size ≤ src.length)
    (hin : addr % c.block_size + size ≤ c.block_size) :
    ∃ r blocks' cells',
      direct_cache_find c (addr - addr % c.block_size) = some r ∧
      direct_cache_wt_write memory_ops c info addr size src =
        some ({ c with mem := { c.mem with mem := cells' }, blocks := blocks' },
          statistics_add_counter (statistics_add_counter info c.cache_write_time)
            (blocks_count size c.mem.memory_width * c.mem.memory_write_time)) ∧
      stored_at cells' c.mem.mem addr size c.mem.memory_size src ∧
      mirrored c.block_size c.blocks r (addr % c.block_size) size src blocks' := by
  obtain ⟨hbs, hbc, hlen, hsz, hwf, hmax⟩ := hp
  obtain ⟨e1, e2, e3, e4, e5, e6⟩ := aligned_offset addr c.block_size hbs h0 h1
  obtain ⟨r, hfind, hr1, hr2⟩ := direct_find_lookup c (addr - addr % c.block_size)
    (block_size_pos hbs) hbc hlen (by omega)
  obtain ⟨cells', ew, hst⟩ := memory_write_spec c.mem hwf
    (statistics_add_counter info c.cache_write_time) addr size src h0 hs hsrc
  have eo : addr - (addr - addr % c.block_size) = addr % c.block_size := by omega
  cases r with
  | none =>
    refine ⟨none, c.blocks, cells', hfind, ?_, hst, rfl⟩
    unfold direct_cache_wt_write
    simp only [e1, hfind, memory_ops, ew]
  | some i =>
    obtain ⟨-, b, hb, -⟩ := hr1 i rfl
    have hbl := hsz b (mem_of_getElem? hb)
    obtain ⟨cellsB, e, hstB⟩ := memcpy_stored b.mem src (addr % c.block_size) size e4 hs
      (by omega) hsrc
    rw [hbl] at hstB
    refine ⟨some i, c.blocks.set i { b with mem := cellsB }, cells', hfind, ?_, hst,
      b, cellsB, hb, hstB, rfl⟩
    unfold direct_cache_wt_write
    simp only [e1, hfind, eo, hb, e, memory_ops, ew]

theorem direct_reveal_spec (c : DirectCache Memory) (info : StatisticsInfo) (addr size : Int)
    (src : List MemoryCell) (hp : cache_params_ok c.block_size c.block_count c.blocks c.mem)
    (h0 : 0 ≤ addr) (h1 : addr ≤ INT_MAX) (hs : 0 ≤ size) (hsrc : size ≤ src.length)
    (hin : addr % c.block_size + size ≤ c.block_size) :
    ∃ r blocks' cells',
      direct_cache_find c (addr - addr % c.block_size) = some r ∧
      direct_cache_reveal memory_ops c info addr size src =
        some ({ c with mem := { c.mem with mem := cells' }, blocks := blocks' },
          info) ∧
      stored_at cells' c.mem.mem addr size c.mem.memory_size src ∧
      mirrored c.block_size c.blocks r (addr % c.block_size) size src blocks' := by
  obtain ⟨hbs, hbc, hlen, hsz, hwf, hmax⟩ := hp
  obtain ⟨e1, e2, e3, e4, e5, e6⟩ := aligned_offset addr c.block_size hbs h0 h1
  obtain ⟨r, hfind, hr1, hr2⟩ := direct_find_lookup c (addr - addr % c.block_size)
    (block_size_pos hbs) hbc hlen (by omega)
  obtain ⟨cells', ew, hst⟩ := memory_reveal_spec c.mem hwf info addr size src h0 hs hsrc
  have eo : addr - (addr - addr % c.block_size) = addr % c.block_size := by omega
  cases r with
  | none =>
    refine ⟨none, c.blocks, cells', hfind, ?_, hst, rfl⟩
    unfold direct_cache_reveal
    simp only [e1, hfind, memory_ops, ew]
  | some i =>
    obtain ⟨-, b, hb, -⟩ := hr1 i rfl
    have hbl := hsz b (mem_of_getElem? hb)
    obtain ⟨cellsB, e, hstB⟩ := memcpy_stored b.mem src (addr % c.block_size) size e4 hs
      (by omega) hsrc
    rw [hbl] at hstB
    refine ⟨some i, c.blocks.set i { b with mem := cellsB }, cells', hfind, ?_, hst,
      b, cellsB, hb, hstB, rfl⟩
    unfold direct_cache_reveal
    simp only [e1, hfind, eo, hb, e, memory_ops, ew]

theorem full_find_lookup {L : Type} (c : FullCache L) (a : Int)
    (hlen : (c.blocks.length : Int) = c.block_count) :
    ∃ r, full_cache_find c a = some r ∧
      (∀ i, r = some i → (∀ k b, k < i → c.blocks[k]? = some b → b.addr ≠ a) ∧
        ∃ b, c.blocks[i]? = some b ∧ b.addr = a) ∧
      (r = none → not_resident c.blocks a) := by
  obtain ⟨r, e, h1, h2⟩ := full_cache_find_spec c a hlen
  refine ⟨r, e, ?_, h2⟩
  intro i hi
  obtain ⟨-, g2, g3⟩ := h1 i hi
  exact ⟨g3, g2⟩

theorem full_wt_write_spec (c : FullCache Memory) (info : StatisticsInfo) (addr size : Int)
    (src : List MemoryCell) (hp : cache_params_ok c.block_size c.block_count c.blocks c.mem)
    (h0 : 0 ≤ addr) (h1 : addr ≤ INT_MAX) (hs : 0 ≤ size) (hsrc : size ≤ src.length)
    (hin : addr % c.block_size + size ≤ c.block_size) :
    ∃ r blocks' cells',
      full_cache_find c (addr - addr % c.block_size) = some r ∧
      full_cache_wt_write memory_ops c info addr size src =
        some ({ c with mem := { c.mem with mem := cells' }, blocks := blocks' },
          statistics_add_counter (statistics_add_counter info c.cache_write_time)
            (blocks_count size c.mem.memory_width * c.mem.memory_write_time)) ∧
      stored_at cells' c.mem.mem addr size c.mem.memory_size src ∧
      mirrored c.block_size c.blocks r (addr % c.block_size) size src blocks' := by
  obtain ⟨hbs, hbc, hlen, hsz, hwf, hmax⟩ := hp
  obtain ⟨e1, e2, e3, e4, e5, e6⟩ := aligned_offset addr c.block_size hbs h0 h1
  obtain ⟨r, hfind, hr1, hr2⟩ := full_find_lookup c (addr - addr % c.block_size) hlen
  obtain ⟨cells', ew, hst⟩ := memory_write_spec c.mem hwf
    (statistics_add_counter info c.cache_write_time) addr size src h0 hs hsrc
  have eo : addr - (addr - addr % c.block_size) = addr % c.block_size := by omega
  cases r with
  | none =>
    refine ⟨none, c.blocks, cells', hfind, ?_, hst, rfl⟩
    unfold full_cache_wt_write
    simp only [e1, hfind, memory_ops, ew]
  | some i =>
    obtain ⟨-, b, hb, -⟩ := hr1 i rfl
    have hbl := hsz b (mem_of_getElem? hb)
    obtain ⟨cellsB, e, hstB⟩ := memcpy_stored b.mem src (addr % c.block_size) size e4 hs
      (by omega) hsrc
    rw [hbl] at hstB
    refine ⟨some i, c.blocks.set i { b with mem := cellsB }, cells', hfind, ?_, hst,
      b, cellsB, hb, hstB, rfl⟩
    unfold full_cache_wt_write
    simp only [e1, hfind, eo, hb, e, memory_ops, ew]

theorem full_reveal_spec (c : FullCache Memory) (info : StatisticsInfo) (addr size : Int)
    (src : List MemoryCell) (hp : cache_params_ok c.block_size c.block_count c.blocks c.mem)
    (h0 : 0 ≤ addr) (h1 : addr ≤ INT_MAX) (hs : 0 ≤ size) (hsrc : size ≤ src.length)
    (hin : addr % c.block_size + size ≤ c.block_size) :
    ∃ r blocks' cells',
      full_cache_find c (addr - addr % c.block_size) = some r ∧
      full_cache_reveal memory_ops c info addr size src =
        some ({ c with mem := { c.mem with mem := cells' }, blocks := blocks' },
          info) ∧
      stored_at cells' c.mem.mem addr size c.mem.memory_size src ∧
      mirrored c.block_size c.blocks r (addr % c.block_size) size src blocks' := by
  obtain ⟨hbs, hbc, hlen, hsz, hwf, hmax⟩ := hp
  obtain ⟨e1, e2, e3, e4, e5, e6⟩ := aligned_offset addr c.block_size hbs h0 h1
  obtain ⟨r, hfind, hr1, hr2⟩ := full_find_lookup c (addr - addr % c.block_size) hlen
  obtain ⟨cells', ew, hst⟩ := memory_reveal_spec c.mem hwf info addr size src h0 hs hsrc
  have eo : addr - (addr - addr % c.block_size) = addr % c.block_size := by omega
  cases r with
  | none =>
    refine ⟨none, c.blocks, cells', hfind, ?_, hst, rfl⟩
    unfold full_cache_reveal
    simp only [e1, hfind, memory_ops, ew]
  | some i =>
    obtain ⟨-, b, hb, -⟩ := hr1 i rfl
    have hbl := hsz b (mem_of_getElem? hb)
    obtain ⟨cellsB, e, hstB⟩ := memcpy_stored b.mem src (addr % c.block_size) size e4 hs
      (by omega) hsrc
    rw [hbl] at hstB
    refine ⟨some i, c.blocks.set i { b with mem := cellsB }, cells', hfind, ?_, hst,
      b, cellsB, hb, hstB, rfl⟩
    unfold full_cache_reveal
    simp only [e1, hfind, eo, hb, e, memory_ops, ew]

theorem mirrored_tags (bs : Int) (blocks : List CacheBlock) (r : Option Nat) (off size : Int)
    (src : List MemoryCell) (blocks' : List CacheBlock)
    (h : mirrored bs blocks r off size src blocks') :
    blocks'.map (fun b => (b.addr, b.dirty)) = blocks.map (fun b => (b.addr, b.dirty)) := by
  cases r with
  | none => rw [show blocks' = blocks from h]
  | some i =>
    obtain ⟨b, cellsB, hb, -, rfl⟩ := h
    exact tags_set_mem blocks i b cellsB hb

theorem stored_at_cell {cells' cells src : List MemoryCell} {addr size limit : Int}
    (h : stored_at cells' cells addr size limit src) (h0 : 0 ≤ addr) (hl : addr + size ≤ limit)
    (k : Nat) (hk : (k : Int) < size) : cells'[(addr + k).toNat]? = src[k]? := by
  have e : ((addr + k).toNat : Int) = addr + k := by omega
  rw [h.2 (addr + k).toNat, if_pos (by omega)]
  congr 1
  omega

theorem mirrored_cell (bs : Int) (blocks : List CacheBlock) (i : Nat) (off size : Int)
    (src : List MemoryCell) (blocks' : List CacheBlock)
    (h : mirrored bs blocks (some i) off size src blocks') (h0 : 0 ≤ off)
    (hin : off + size ≤ bs) :
    ∃ b b', blocks[i]? = some b ∧ blocks'[i]? = some b' ∧ b'.addr = b.addr ∧
      b'.dirty = b.dirty ∧
      ∀ k : Nat, (k : Int) < size → b'.mem[(off + k).toNat]? = src[k]? := by
  obtain ⟨b, cellsB, hb, hst, rfl⟩ := h
  refine ⟨b, { b with mem := cellsB }, hb, ?_, rfl, rfl, ?_⟩
  · rw [List.getElem?_set, if_pos rfl, if_pos (lt_length_of_getElem? hb)]
  · intro k hk
    exact stored_at_cell hst h0 hin k hk

/-! ## Reads and write-back writes over a memory -/

theorem placed_block {ws : WriteStrategy} {bs : Int} {m : Memory} {blocks : List CacheBlock}
    {info : StatisticsInfo} {a : Int} {i : Nat} {blocks' : List CacheBlock}
    {cells' : List MemoryCell} {info' : StatisticsInfo}
    (h : placed ws bs m blocks info a i blocks' cells' info') (hsz : blocks_sized bs blocks) :
    ∃ b1, blocks'[i]? = some b1 ∧ b1.addr = a ∧ (b1.mem.length : Int) = bs ∧
      blocks'.length = blocks.length := by
  obtain ⟨b, d', hb, -, hld, rfl⟩ := h
  refine ⟨⟨a, d', if ws = WriteStrategy.write_back ∧ b.addr ≠ NO_BLOCK then 0 else b.dirty⟩,
    ?_, rfl, ?_, by simp⟩
  · rw [List.getElem?_set, if_pos rfl, if_pos (lt_length_of_getElem? hb)]
  · show (d'.length : Int) = bs
    rw [hld.1]
    exact hsz b (mem_of_getElem? hb)

theorem memcpy_read_defined (x cells : List MemoryCell) (off size : Int) (h0 : 0 ≤ off)
    (hs : 0 ≤ size) (hx : size ≤ (x.length : Int)) (hc : off + size ≤ (cells.length : Int)) :
    ∃ d', memcpy x 0 cells off size = some d' :=
  ⟨_, memcpy_eq_some x cells 0 off size ⟨le_refl _, h0, hs, by omega, hc⟩⟩

theorem direct_read_spec (c : DirectCache Memory) (info : StatisticsInfo) (addr size : Int)
    (dst : Option (List MemoryCell))
    (hp : cache_params_ok c.block_size c.block_count c.blocks c.mem)
    (htag : ∀ b ∈ c.blocks, b.addr ≠ NO_BLOCK → b.dirty ≠ 0 → 0 ≤ b.addr)
    (h0 : 0 ≤ addr) (h1 : addr ≤ INT_MAX)
    (hd : ∀ x, dst = some x → 0 ≤ size ∧ size ≤ (x.length : Int) ∧
      addr % c.block_size + size ≤ c.block_size) :
    ∃ r, direct_cache_find c (addr - addr % c.block_size) = some r ∧
      (∀ i, r = some i → ∃ dst',
        direct_cache_read memory_ops c info addr size dst =
          some (c, statistics_add_hit_counter (statistics_add_counter info c.cache_read_time),
            dst')) ∧
      (r = none → ∃ blocks1 cells1 info1 dst',
        direct_cache_place memory_ops c (statistics_add_counter info c.cache_read_time)
            (addr - addr % c.block_size) =
          some ({ c with mem := { c.mem with mem := cells1 }, blocks := blocks1 }, info1,
            direct_index c.block_size c.block_count (addr - addr % c.block_size)) ∧
        placed c.write_strategy c.block_size c.mem c.blocks
          (statistics_add_counter info c.cache_read_time) (addr - addr % c.block_size)
          (direct_index c.block_size c.block_count (addr - addr % c.block_size))
          blocks1 cells1 info1 ∧
        direct_cache_read memory_ops c info addr size dst =
          some ({ c with mem := { c.mem with mem := cells1 }, blocks := blocks1 }, info1,
            dst')) := by
  obtain ⟨hbs, hbc, hlen, hsz, hwf, hmax⟩ := hp
  obtain ⟨e1, e2, e3, e4, e5, e6⟩ := aligned_offset addr c.block_size hbs h0 h1
  obtain ⟨r, hfind, hr1, hr2⟩ := direct_find_lookup c (addr - addr % c.block_size)
    (block_size_pos hbs) hbc hlen (by omega)
  have eo : addr - (addr - addr % c.block_size) = addr % c.block_size := by omega
  refine ⟨r, hfind, ?_, ?_⟩
  · intro i hi
    subst hi
    obtain ⟨-, b, hb, -⟩ := hr1 i rfl
    have hbl := hsz b (mem_of_getElem? hb)
    cases dst with
    | none =>
      refine ⟨none, ?_⟩
      unfold direct_cache_read
      simp only [e1, hfind]
    | some x =>
      obtain ⟨g1, g2, g3⟩ := hd x rfl
      obtain ⟨d', e⟩ := memcpy_read_defined x b.mem (addr % c.block_size) size e4 g1 g2
        (by omega)
      refine ⟨some d', ?_⟩
      unfold direct_cache_read
      simp only [e1, hfind, eo, hb, e]
  · intro hr
    subst hr
    obtain ⟨blocks1, cells1, info1, hpl, hplaced⟩ := direct_cache_place_spec c
      (statistics_add_counter info c.cache_read_time) (addr - addr % c.block_size)
      ⟨hbs, hbc, hlen, hsz, hwf, hmax⟩ htag (by omega)
    obtain ⟨b1, hb1, -, hbl1, -⟩ := placed_block hplaced hsz
    cases dst with
    | none =>
      refine ⟨blocks1, cells1, info1, none, hpl, hplaced, ?_⟩
      unfold direct_cache_read
      simp only [e1, hfind, hpl]
    | some x =>
      obtain ⟨g1, g2, g3⟩ := hd x rfl
      obtain ⟨d', e⟩ := memcpy_read_defined x b1.mem (addr % c.block_size) size e4 g1 g2
        (by omega)
      refine ⟨blocks1, cells1, info1, some d', hpl, hplaced, ?_⟩
      unfold direct_cache_read
      simp only [e1, hfind, eo, hpl, hb1, e]

theorem direct_wb_write_hit {L : Type} (ops : AbstractMemoryOps L) (c : DirectCache L)
    (info : StatisticsInfo) (addr size : Int) (src : List MemoryCell) (i : Nat) (b : CacheBlock)
    (hf : direct_cache_find c (int_and addr (-c.block_size)) = some (some i))
    (hb : c.blocks[i]? = some b) (h0 : 0 ≤ addr - int_and addr (-c.block_size))
    (hs : 0 ≤ size) (hin : addr - int_and addr (-c.block_size) + size ≤ b.mem.length)
    (hsrc : size ≤ src.length) :
    ∃ cellsB,
      direct_cache_wb_write ops c info addr size src =
        some ({ c with blocks := c.blocks.set i { b with mem := cellsB, dirty := 1 } },
          statistics_add_counter info c.cache_write_time) ∧
      stored_at cellsB b.mem (addr - int_and addr (-c.block_size)) size b.mem.length src := by
  obtain ⟨cellsB, e, hst⟩ := memcpy_stored b.mem src _ size h0 hs hin hsrc
  refine ⟨cellsB, ?_, hst⟩
  unfold direct_cache_wb_write
  simp only [hf, hb, e]

theorem direct_wb_write_spec (c : DirectCache Memory) (info : StatisticsInfo) (addr size : Int)
    (src : List MemoryCell)
    (hp : cache_params_ok c.block_size c.block_count c.blocks c.mem)
    (htag : ∀ b ∈ c.blocks, b.addr ≠ NO_BLOCK → b.dirty ≠ 0 → 0 ≤ b.addr)
    (h0 : 0 ≤ addr) (h1 : addr ≤ INT_MAX) (hs : 0 ≤ size) (hsrc : size ≤ src.length)
    (hin : addr % c.block_size + size ≤ c.block_size) :
    ∃ r, direct_cache_find c (addr - addr % c.block_size) = some r ∧
      (∀ i, r = some i → ∃ b cellsB, c.blocks[i]? = some b ∧
        b.addr = addr - addr % c.block_size ∧
        stored_at cellsB b.mem (addr % c.block_size) size c.block_size src ∧
        direct_cache_wb_write memory_ops c info addr size src =
          some ({ c with blocks := c.blocks.set i { b with mem := cellsB, dirty := 1 } },
            statistics_add_counter info c.cache_write_time)) ∧
      (r = none → ∃ blocks1 cells1 info1 b1 cellsB,
        direct_cache_place memory_ops c (statistics_add_counter info c.cache_write_time)
            (addr - addr % c.block_size) =
          some ({ c with mem := { c.mem with mem := cells1 }, blocks := blocks1 }, info1,
            direct_index c.block_size c.block_count (addr - addr % c.block_size)) ∧
        placed c.write_strategy c.block_size c.mem c.blocks
          (statistics_add_counter info c.cache_write_time) (addr - addr % c.block_size)
          (direct_index c.block_size c.block_count (addr - addr % c.block_size))
          blocks1 cells1 info1 ∧
        blocks1[direct_index c.block_size c.block_count (addr - addr % c.block_size)]? =
          some b1 ∧
        stored_at cellsB b1.mem (addr % c.block_size) size c.block_size src ∧
        direct_cache_wb_write memory_ops c info addr size src =
          some ({ c with
                  mem := { c.mem with mem := cells1 },
                  blocks := blocks1.set
                    (direct_index c.block_size c.block_count (addr - addr % c.block_size))
                    { b1 with mem := cellsB, dirty := 1 } }, info1)) := by
  obtain ⟨hbs, hbc, hlen, hsz, hwf, hmax⟩ := hp
  obtain ⟨e1, e2, e3, e4, e5, e6⟩ := aligned_offset addr c.block_size hbs h0 h1
  obtain ⟨r, hfind, hr1, hr2⟩ := direct_find_lookup c (addr - addr % c.block_size)
    (block_size_pos hbs) hbc hlen (by omega)
  have eo : addr - (addr - addr % c.block_size) = addr % c.block_size := by omega
  refine ⟨r, hfind, ?_, ?_⟩
  · intro i hi
    subst hi
    obtain ⟨-, b, hb, hba⟩ := hr1 i rfl
    have hbl := hsz b (mem_of_getElem? hb)
    obtain ⟨cellsB, e, hst⟩ := direct_wb_write_hit memory_ops c info addr size src i b
      (by rw [e1]; exact hfind) hb (by omega) hs (by omega) hsrc
    rw [e3, hbl] at hst
    exact ⟨b, cellsB, hb, hba, hst, e⟩
  · intro hr
    subst hr
    obtain ⟨blocks1, cells1, info1, hpl, hplaced⟩ := direct_cache_place_spec c
      (statistics_add_counter info c.cache_write_time) (addr - addr % c.block_size)
      ⟨hbs, hbc, hlen, hsz, hwf, hmax⟩ htag (by omega)
    obtain ⟨b1, hb1, -, hbl1, -⟩ := placed_block hplaced hsz
    obtain ⟨cellsB, e, hst⟩ := memcpy_stored b1.mem src (addr % c.block_size) size e4 hs
      (by omega) hsrc
    rw [hbl1] at hst
    refine ⟨blocks1, cells1, info1, b1, cellsB, hpl, hplaced, hb1, hst, ?_⟩
    unfold direct_cache_wb_write
    simp only [e1, hfind, eo, hpl, hb1, e]

theorem full_read_spec (c : FullCache Memory) (info : StatisticsInfo) (addr size : Int)
    (dst : Option (List MemoryCell))
    (hp : cache_params_ok c.block_size c.block_count c.blocks c.mem)
    (htag : ∀ b ∈ c.blocks, b.addr ≠ NO_BLOCK → b.dirty ≠ 0 → 0 ≤ b.addr)
    (hrnd : 0 ≤ c.rnd.raw c.rnd.calls ∧ c.rnd.raw c.rnd.calls ≤ RAND_MAX)
    (h0 : 0 ≤ addr) (h1 : addr ≤ INT_MAX)
    (hd : ∀ x, dst = some x → 0 ≤ size ∧ size ≤ (x.length : Int) ∧
      addr % c.block_size + size ≤ c.block_size) :
    ∃ r, full_cache_find c (addr - addr % c.block_size) = some r ∧
      (∀ i, r = some i → ∃ dst',
        full_cache_read memory_ops c info addr size dst =
          some (c, statistics_add_hit_counter (statistics_add_counter info c.cache_read_time),
            dst')) ∧
      (r = none → ∃ i blocks1 cells1 info1 rnd1 dst',
        full_cache_random_place memory_ops c (statistics_add_counter info c.cache_read_time)
            (addr - addr % c.block_size) =
          some ({ c with rnd := rnd1, mem := { c.mem with mem := cells1 }, blocks := blocks1 },
            info1, i) ∧
        placed c.write_strategy c.block_size c.mem c.blocks
          (statistics_add_counter info c.cache_read_time) (addr - addr % c.block_size)
          i blocks1 cells1 info1 ∧
        rnd1.raw = c.rnd.raw ∧ c.rnd.calls ≤ rnd1.calls ∧
        full_cache_read memory_ops c info addr size dst =
          some ({ c with rnd := rnd1, mem := { c.mem with mem := cells1 }, blocks := blocks1 },
            info1, dst')) := by
  obtain ⟨hbs, hbc, hlen, hsz, hwf, hmax⟩ := hp
  obtain ⟨e1, e2, e3, e4, e5, e6⟩ := aligned_offset addr c.block_size hbs h0 h1
  obtain ⟨r, hfind, hr1, hr2⟩ := full_find_lookup c (addr - addr % c.block_size) hlen
  have eo : addr - (addr - addr % c.block_size) = addr % c.block_size := by omega
  refine ⟨r, hfind, ?_, ?_⟩
  · intro i hi
    subst hi
    obtain ⟨-, b, hb, -⟩ := hr1 i rfl
    have hbl := hsz b (mem_of_getElem? hb)
    cases dst with
    | none =>
      refine ⟨none, ?_⟩
      unfold full_cache_read
      simp only [e1, hfind]
    | some x =>
      obtain ⟨g1, g2, g3⟩ := hd x rfl
      obtain ⟨d', e⟩ := memcpy_read_defined x b.mem (addr % c.block_size) size e4 g1 g2
        (by omega)
      refine ⟨some d', ?_⟩
      unfold full_cache_read
      simp only [e1, hfind, eo, hb, e]
  · intro hr
    subst hr
    obtain ⟨i, blocks1, cells1, info1, rnd1, hpl, hplaced, -, hraw, hcalls⟩ :=
      full_cache_place_spec c (statistics_add_counter info c.cache_read_time)
        (addr - addr % c.block_size) ⟨hbs, hbc, hlen, hsz, hwf, hmax⟩ htag (by omega) hrnd
    obtain ⟨b1, hb1, -, hbl1, -⟩ := placed_block hplaced hsz
    cases dst with
    | none =>
      refine ⟨i, blocks1, cells1, info1, rnd1, none, hpl, hplaced, hraw, hcalls, ?_⟩
      unfold full_cache_read
      simp only [e1, hfind, hpl]
    | some x =>
      obtain ⟨g1, g2, g3⟩ := hd x rfl
      obtain ⟨d', e⟩ := memcpy_read_defined x b1.mem (addr % c.block_size) size e4 g1 g2
        (by omega)
      refine ⟨i, blocks1, cells1, info1, rnd1, some d', hpl, hplaced, hraw, hcalls, ?_⟩
      unfold full_cache_read
      simp only [e1, hfind, eo, hpl, hb1, e]

theorem full_wb_write_hit {L : Type} (ops : AbstractMemoryOps L) (c : FullCache L)
    (info : StatisticsInfo) (addr size : Int) (src : List MemoryCell) (i : Nat) (b : CacheBlock)
    (hf : full_cache_find c (int_and addr (-c.block_size)) = some (some i))
    (hb : c.blocks[i]? = some b) (h0 : 0 ≤ addr - int_and addr (-c.block_size))
    (hs : 0 ≤ size) (hin : addr - int_and addr (-c.block_size) + size ≤ b.mem.length)
    (hsrc : size ≤ src.length) :
    ∃ cellsB,
      full_cache_wb_write ops c info addr size src =
        some ({ c with blocks := c.blocks.set i { b with mem := cellsB, dirty := 1 } },
          statistics_add_counter info c.cache_write_time) ∧
      stored_at cellsB b.mem (addr - int_and addr (-c.block_size)) size b.mem.length src := by
  obtain ⟨cellsB, e, hst⟩ := memcpy_stored b.mem src _ size h0 hs hin hsrc
  refine ⟨cellsB, ?_, hst⟩
  unfold full_cache_wb_write
  simp only [hf, hb, e]

theorem full_wb_write_spec (c : FullCache Memory) (info : StatisticsInfo) (addr size : Int)
    (src : List MemoryCell)
    (hp : cache_params_ok c.block_size c.block_count c.blocks c.mem)
    (htag : ∀ b ∈ c.blocks, b.addr ≠ NO_BLOCK → b.dirty ≠ 0 → 0 ≤ b.addr)
    (hrnd : 0 ≤ c.rnd.raw c.rnd.calls ∧ c.rnd.raw c.rnd.calls ≤ RAND_MAX)
    (h0 : 0 ≤ addr) (h1 : addr ≤ INT_MAX) (hs : 0 ≤ size) (hsrc : size ≤ src.length)
    (hin : addr % c.block_size + size ≤ c.block_size) :
    ∃ r, full_cache_find c (addr - addr % c.block_size) = some r ∧
      (∀ i, r = some i → ∃ b cellsB, c.blocks[i]? = some b ∧
        b.addr = addr - addr % c.block_size ∧
        stored_at cellsB b.mem (addr % c.block_size) size c.block_size src ∧
        full_cache_wb_write memory_ops c info addr size src =
          some ({ c with blocks := c.blocks.set i { b with mem := cellsB, dirty := 1 } },
            statistics_add_counter info c.cache_write_time)) ∧
      (r = none → ∃ i blocks1 cells1 info1 rnd1 b1 cellsB,
        full_cache_random_place memory_ops c (statistics_add_counter info c.cache_write_time)
            (addr - addr % c.block_size) =
          some ({ c with rnd := rnd1, mem := { c.mem with mem := cells1 }, blocks := blocks1 },
            info1, i) ∧
        placed c.write_strategy c.block_size c.mem c.blocks
          (statistics_add_counter info c.cache_write_time) (addr - addr % c.block_size)
          i blocks1 cells1 info1 ∧
        rnd1.raw = c.rnd.raw ∧ c.rnd.calls ≤ rnd1.calls ∧
        blocks1[i]? = some b1 ∧
        stored_at cellsB b1.mem (addr % c.block_size) size c.block_size src ∧
        full_cache_wb_write memory_ops c info addr size src =
          some ({ c with
                  rnd := rnd1,
                  mem := { c.mem with mem := cells1 },
                  blocks := blocks1.set i { b1 with mem := cellsB, dirty := 1 } }, info1)) := by
  obtain ⟨hbs, hbc, hlen, hsz, hwf, hmax⟩ := hp
  obtain ⟨e1, e2, e3, e4, e5, e6⟩ := aligned_offset addr c.block_size hbs h0 h1
  obtain ⟨r, hfind, hr1, hr2⟩ := full_find_lookup c (addr - addr % c.block_size) hlen
  have eo : addr - (addr - addr % c.block_size) = addr % c.block_size := by omega
  refine ⟨r, hfind, ?_, ?_⟩
  · intro i hi
    subst hi
    obtain ⟨-, b, hb, hba⟩ := hr1 i rfl
    have hbl := hsz b (mem_of_getElem? hb)
    obtain ⟨cellsB, e, hst⟩ := full_wb_write_hit memory_ops c info addr size src i b
      (by rw [e1]; exact hfind) hb (by omega) hs (by omega) hsrc
    rw [e3, hbl] at hst
    exact ⟨b, cellsB, hb, hba, hst, e⟩
  · intro hr
    subst hr
    obtain ⟨i, blocks1, cells1, info1, rnd1, hpl, hplaced, -, hraw, hcalls⟩ :=
      full_cache_place_spec c (statistics_add_counter info c.cache_write_time)
        (addr - addr % c.block_size) ⟨hbs, hbc, hlen, hsz, hwf, hmax⟩ htag (by omega) hrnd
    obtain ⟨b1, hb1, -, hbl1, -⟩ := placed_block hplaced hsz
    obtain ⟨cellsB, e, hst⟩ := memcpy_stored b1.mem src (addr % c.block_size) size e4 hs
      (by omega) hsrc
    rw [hbl1] at hst
    refine ⟨i, blocks1, cells1, info1, rnd1, b1, cellsB, hpl, hplaced, hraw, hcalls, hb1,
      hst, ?_⟩
    unfold full_cache_wb_write
    simp only [e1, hfind, eo, hpl, hb1, e]

/-! ## A block that was just located is found again -/

theorem direct_wb_finalize_params {L : Type} {ops : AbstractMemoryOps L} {c c1 : DirectCache L}
    {info info1 : StatisticsInfo} {i : Nat}
    (h : direct_ops_finalize ops c info i = some (c1, info1)) :
    c1.block_size = c.block_size ∧ c1.block_count = c.block_count ∧
    c1.cache_read_time = c.cache_read_time ∧ c1.cache_write_time = c.cache_write_time ∧
    c1.write_strategy = c.write_strategy ∧ c1.blocks.length = c.blocks.length := by
  unfold direct_ops_finalize at h
  split at h
  · cases h
    exact ⟨rfl, rfl, rfl, rfl, rfl, rfl⟩
  · unfold direct_cache_wb_finalize at h
    split at h
    · cases h
    · split at h
      · simp only at h
        split at h
        · cases h
        · cases h
          exact ⟨rfl, rfl, rfl, rfl, rfl, by simp⟩
      · cases h
        exact ⟨rfl, rfl, rfl, rfl, rfl, rfl⟩

theorem direct_place_then_find {L : Type} {ops : AbstractMemoryOps L} {c c1 : DirectCache L}
    {info info1 : StatisticsInfo} {a : Int} {i : Nat}
    (h : direct_cache_place ops c info a = some (c1, info1, i)) :
    c1.block_size = c.block_size ∧ c1.cache_read_time = c.cache_read_time ∧
    direct_cache_find c1 a = some (some i) := by
  unfold direct_cache_place at h
  split at h
  · cases h
  · rename_i hz
    simp only at h
    split at h
    · cases h
    · rename_i b hat
      split at h
      · cases h
      · rename_i c2 info2 hfin
        have hpar : c2.block_size = c.block_size ∧ c2.block_count = c.block_count ∧
            c2.cache_read_time = c.cache_read_time := by
          split at hfin
          · obtain ⟨g1, g2, g3, -⟩ := direct_wb_finalize_params hfin
            exact ⟨g1, g2, g3⟩
          · cases hfin
            exact ⟨rfl, rfl, rfl⟩
        split at h
        · cases h
        · rename_i b1 hb1
          split at h
          · cases h
          · rename_i lower info3 d hrd
            cases h
            refine ⟨hpar.1, hpar.2.2, ?_⟩
            unfold direct_cache_find
            simp only [hpar.1, hpar.2.1]
            rw [if_neg hz]
            have hidx : ¬ Int.tmod (Int.tdiv a c.block_size) c.block_count < 0 := by
              intro hneg
              unfold at_index at hat
              rw [if_pos hneg] at hat
              cases hat
            have hlt := lt_length_of_getElem? hb1
            have : at_index (c2.blocks.set (Int.tmod (Int.tdiv a c.block_size)
                c.block_count).toNat
                { addr := a, mem := d.getD b1.mem, dirty := b1.dirty })
                (Int.tmod (Int.tdiv a c.block_size) c.block_count) =
                some { addr := a, mem := d.getD b1.mem, dirty := b1.dirty } := by
              unfold at_index
              rw [if_neg hidx, List.getElem?_set, if_pos rfl, if_pos hlt]
            simp only [this, ne_eq, not_true_eq_false, if_false]

theorem full_find_loop_none {blocks : List CacheBlock} {a : Int} :
    ∀ (n i0 : Nat), full_cache_find_loop blocks a n i0 = some none →
      ∀ k, i0 ≤ k → k < i0 + n → ∃ b, blocks[k]? = some b ∧ b.addr ≠ a := by
  intro n
  induction n with
  | zero => intro i0 _ k h1 h2; omega
  | succ n ih =>
    intro i0 h k h1 h2
    unfold full_cache_find_loop at h
    split at h
    · cases h
    · rename_i b hb
      split at h
      · cases h
      · rename_i hne
        by_cases hk : k = i0
        · subst hk
          exact ⟨b, hb, hne⟩
        · exact ih (i0 + 1) h k (by omega) (by omega)

theorem full_find_loop_some {blocks : List CacheBlock} {a : Int} :
    ∀ (n i0 j : Nat), full_cache_find_loop blocks a n i0 = some (some j) →
      i0 ≤ j ∧ j < i0 + n ∧ ∃ b, blocks[j]? = some b ∧ b.addr = a := by
  intro n
  induction n with
  | zero => intro i0 j h; cases h
  | succ n ih =>
    intro i0 j h
    unfold full_cache_find_loop at h
    split at h
    · cases h
    · rename_i b hb
      split at h
      · rename_i heq
        cases h
        exact ⟨le_refl _, by omega, b, hb, heq⟩
      · obtain ⟨g1, g2, g3⟩ := ih (i0 + 1) j h
        exact ⟨by omega, by omega, g3⟩

theorem full_find_loop_hit {blocks : List CacheBlock} {a : Int} (j : Nat) :
    ∀ (n i0 : Nat), i0 ≤ j → j < i0 + n →
      (∀ k, i0 ≤ k → k < j → ∃ b, blocks[k]? = some b ∧ b.addr ≠ a) →
      (∃ b, blocks[j]? = some b ∧ b.addr = a) →
      full_cache_find_loop blocks a n i0 = some (some j) := by
  intro n
  induction n with
  | zero => intro i0 h1 h2; omega
  | succ n ih =>
    intro i0 h1 h2 hbefore hj
    unfold full_cache_find_loop
    by_cases hk : i0 = j
    · subst hk
      obtain ⟨b, hb, hba⟩ := hj
      simp only [hb, hba, if_true]
    · obtain ⟨b, hb, hba⟩ := hbefore i0 (le_refl _) (by omega)
      simp only [hb, hba, if_false]
      exact ih (i0 + 1) (by omega) (by omega) (fun k g1 g2 => hbefore k (by omega) g2) hj

theorem full_wb_finalize_params {L : Type} {ops : AbstractMemoryOps L} {c c1 : FullCache L}
    {info info1 : StatisticsInfo} {i : Nat}
    (h : full_ops_finalize ops c info i = some (c1, info1)) :
    c1.block_size = c.block_size ∧ c1.block_count = c.block_count ∧
    c1.cache_read_time = c.cache_read_time ∧ c1.cache_write_time = c.cache_write_time ∧
    c1.write_strategy = c.write_strategy ∧ c1.blocks.length = c.blocks.length ∧
    c1.rnd = c.rnd ∧
    ∀ k : Nat, (c1.blocks[k]?).map (fun (b : CacheBlock) => b.addr) = (c.blocks[k]?).map (fun (b : CacheBlock) => b.addr) := by
  unfold full_ops_finalize at h
  split at h
  · cases h
    exact ⟨rfl, rfl, rfl, rfl, rfl, rfl, rfl, fun _ => rfl⟩
  · unfold full_cache_wb_finalize at h
    split at h
    · cases h
    · rename_i b hb
      split at h
      · simp only at h
        split at h
        · cases h
        · cases h
          refine ⟨rfl, rfl, rfl, rfl, rfl, by simp, rfl, ?_⟩
          intro k
          simp only [List.getElem?_set]
          by_cases hik : i = k
          · subst hik
            rw [if_pos rfl, if_pos (lt_length_of_getElem? hb), hb]
            rfl
          · rw [if_neg hik]
      · cases h
        exact ⟨rfl, rfl, rfl, rfl, rfl, rfl, rfl, fun _ => rfl⟩

theorem full_place_then_find {L : Type} {ops : AbstractMemoryOps L} {c c1 : FullCache L}
    {info info1 : StatisticsInfo} {a : Int} {i : Nat}
    (h : full_cache_random_place ops c info a = some (c1, info1, i))
    (hmiss : full_cache_find c a = some none) (hbc : 0 < c.block_count)
    (hr : 0 ≤ c.rnd.raw c.rnd.calls ∧ c.rnd.raw c.rnd.calls ≤ RAND_MAX) :
    c1.block_size = c.block_size ∧ c1.cache_read_time = c.cache_read_time ∧
    full_cache_find c1 a = some (some i) := by
  unfold full_cache_find at hmiss
  have hnone := full_find_loop_none _ _ hmiss
  unfold full_cache_random_place at h
  split at h
  · cases h
  · rename_i free hfree
    split at h
    · cases h
    · rename_i c2 info2 j hsel
      have hc2 : c2.block_size = c.block_size ∧ c2.block_count = c.block_count ∧
          c2.cache_read_time = c.cache_read_time ∧ j < c.block_count.toNat ∧
          ∀ k : Nat, (c2.blocks[k]?).map (fun (b : CacheBlock) => b.addr) =
            (c.blocks[k]?).map (fun (b : CacheBlock) => b.addr) := by
        split at hsel
        · rename_i j0
          cases hsel
          obtain ⟨-, g2, -⟩ := full_find_loop_some _ _ _ hfree
          exact ⟨rfl, rfl, rfl, by omega, fun _ => rfl⟩
        · simp only at hsel
          split at hsel
          · cases hsel
          · rename_i bv hat
            split at hsel
            · cases hsel
            · rename_i c3 info3 hfin
              cases hsel
              obtain ⟨g1, g2, g3, -, -, -, -, g8⟩ := full_wb_finalize_params hfin
              obtain ⟨r0, r1⟩ := random_next_range c.rnd c.block_count hbc hr
              exact ⟨g1, g2, g3, by omega, g8⟩
      obtain ⟨p1, p2, p3, p4, p5⟩ := hc2
      split at h
      · cases h
      · rename_i b1 hb1
        split at h
        · cases h
        · rename_i lower info3 d hrd
          cases h
          refine ⟨p1, p3, ?_⟩
          unfold full_cache_find
          simp only [p2]
          apply full_find_loop_hit i _ 0 (Nat.zero_le _) (by omega)
          · intro k _ hk
            obtain ⟨b, hb, hba⟩ := hnone k (Nat.zero_le _) (by omega)
            have := p5 k
            rw [hb] at this
            rw [List.getElem?_set, if_neg (by omega)]
            cases hc : c2.blocks[k]? with
            | none => rw [hc] at this; cases this
            | some b' =>
              rw [hc] at this
              simp only [Option.map_some'] at this
              exact ⟨b', rfl, by rw [Option.some.inj this]; exact hba⟩
          · exact ⟨_, by rw [List.getElem?_set, if_pos rfl,
              if_pos (lt_length_of_getElem? hb1)], rfl⟩

/-! ## Reading again -/

theorem direct_read_again {L : Type} (ops : AbstractMemoryOps L) (c1 : DirectCache L)
    (info1 : StatisticsInfo) (addr size : Int) (dst d1 : Option (List MemoryCell)) (i : Nat)
    (hfind : direct_cache_find c1 (int_and addr (-c1.block_size)) = some (some i))
    (hcopy : (dst = none ∧ d1 = none) ∨ ∃ d b d', dst = some d ∧ c1.blocks[i]? = some b ∧
      memcpy d 0 b.mem (addr - int_and addr (-c1.block_size)) size = some d' ∧ d1 = some d') :
    direct_cache_read ops c1 info1 addr size dst =
      some (c1, { info1 with clock_counter := int_wrap (info1.clock_counter + c1.cache_read_time),
                             hit_counter := info1.hit_counter + 1 }, d1) := by
  unfold direct_cache_read
  simp only [hfind]
  rcases hcopy with ⟨rfl, rfl⟩ | ⟨d, b, d', rfl, hb, hm, rfl⟩
  · rfl
  · simp only [hb, hm]
    rfl

theorem full_read_again {L : Type} (ops : AbstractMemoryOps L) (c1 : FullCache L)
    (info1 : StatisticsInfo) (addr size : Int) (dst d1 : Option (List MemoryCell)) (i : Nat)
    (hfind : full_cache_find c1 (int_and addr (-c1.block_size)) = some (some i))
    (hcopy : (dst = none ∧ d1 = none) ∨ ∃ d b d', dst = some d ∧ c1.blocks[i]? = some b ∧
      memcpy d 0 b.mem (addr - int_and addr (-c1.block_size)) size = some d' ∧ d1 = some d') :
    full_cache_read ops c1 info1 addr size dst =
      some (c1, { info1 with clock_counter := int_wrap (info1.clock_counter + c1.cache_read_time),
                             hit_counter := info1.hit_counter + 1 }, d1) := by
  unfold full_cache_read
  simp only [hfind]
  rcases hcopy with ⟨rfl, rfl⟩ | ⟨d, b, d', rfl, hb, hm, rfl⟩
  · rfl
  · simp only [hb, hm]
    rfl

theorem direct_read_inv {L : Type} {ops : AbstractMemoryOps L} {c c1 : DirectCache L}
    {info info1 : StatisticsInfo} {addr size : Int} {dst d1 : Option (List MemoryCell)}
    (h : direct_cache_read ops c info addr size dst = some (c1, info1, d1)) :
    ∃ i, c1.block_size = c.block_size ∧ c1.cache_read_time = c.cache_read_time ∧
      direct_cache_find c1 (int_and addr (-c.block_size)) = some (some i) ∧
      ((dst = none ∧ d1 = none) ∨ ∃ d b d', dst = some d ∧ c1.blocks[i]? = some b ∧
        memcpy d 0 b.mem (addr - int_and addr (-c.block_size)) size = some d' ∧
        d1 = some d') := by
  unfold direct_cache_read at h
  simp only at h
  split at h
  · cases h
  · rename_i found hfind
    split at h
    · cases h
    · rename_i c2 info2 i hloc
      have hc2 : c2.block_size = c.block_size ∧ c2.cache_read_time = c.cache_read_time ∧
          direct_cache_find c2 (int_and addr (-c.block_size)) = some (some i) := by
        split at hloc
        · cases hloc
          exact ⟨rfl, rfl, hfind⟩
        · exact direct_place_then_find hloc
      split at h
      · cases h
        exact ⟨i, hc2.1, hc2.2.1, hc2.2.2, Or.inl ⟨rfl, rfl⟩⟩
      · rename_i d
        split at h
        · cases h
        · rename_i b hb
          split at h
          · cases h
          · rename_i d' hm
            cases h
            exact ⟨i, hc2.1, hc2.2.1, hc2.2.2, Or.inr ⟨d, b, d', rfl, hb, hm, rfl⟩⟩

theorem full_read_inv {L : Type} {ops : AbstractMemoryOps L} {c c1 : FullCache L}
    {info info1 : StatisticsInfo} {addr size : Int} {dst d1 : Option (List MemoryCell)}
    (h : full_cache_read ops c info addr size dst = some (c1, info1, d1))
    (hbc : 0 < c.block_count)
    (hr : 0 ≤ c.rnd.raw c.rnd.calls ∧ c.rnd.raw c.rnd.calls ≤ RAND_MAX) :
    ∃ i, c1.block_size = c.block_size ∧ c1.cache_read_time = c.cache_read_time ∧
      full_cache_find c1 (int_and addr (-c.block_size)) = some (some i) ∧
      ((dst = none ∧ d1 = none) ∨ ∃ d b d', dst = some d ∧ c1.blocks[i]? = some b ∧
        memcpy d 0 b.mem (addr - int_and addr (-c.block_size)) size = some d' ∧
        d1 = some d') := by
  unfold full_cache_read at h
  simp only at h
  split at h
  · cases h
  · rename_i found hfind
    split at h
    · cases h
    · rename_i c2 info2 i hloc
      have hc2 : c2.block_size = c.block_size ∧ c2.cache_read_time = c.cache_read_time ∧
          full_cache_find c2 (int_and addr (-c.block_size)) = some (some i) := by
        split at hloc
        · cases hloc
          exact ⟨rfl, rfl, hfind⟩
        · exact full_place_then_find hloc hfind hbc hr
      split at h
      · cases h
        exact ⟨i, hc2.1, hc2.2.1, hc2.2.2, Or.inl ⟨rfl, rfl⟩⟩
      · rename_i d
        split at h
        · cases h
        · rename_i b hb
          split at h
          · cases h
          · rename_i d' hm
            cases h
            exact ⟨i, hc2.1, hc2.2.1, hc2.2.2, Or.inr ⟨d, b, d', rfl, hb, hm, rfl⟩⟩

/-! ## Collisions -/

theorem direct_find_at {L : Type} (c : DirectCache L) (a : Int) (b : CacheBlock)
    (hbs : 0 < c.block_size) (hbc : 0 < c.block_count)
    (hlen : (c.blocks.length : Int) = c.block_count) (ha : 0 ≤ a)
    (hb : c.blocks[direct_index c.block_size c.block_count a]? = some b) :
    direct_cache_find c a =
      some (if b.addr = a then some (direct_index c.block_size c.block_count a) else none) := by
  obtain ⟨b', hb', e⟩ := direct_cache_find_spec c a hbs hbc hlen ha
  rw [hb] at hb'
  cases hb'
  exact e

theorem placed_wb_counter {ws : WriteStrategy} {bs : Int} {m : Memory}
    {blocks : List CacheBlock} {info : StatisticsInfo} {a : Int} {i : Nat}
    {blocks' : List CacheBlock} {cells' : List MemoryCell} {info' : StatisticsInfo}
    (h : placed ws bs m blocks info a i blocks' cells' info') (b : CacheBlock)
    (hb : blocks[i]? = some b) :
    info'.write_back_counter = info.write_back_counter +
      (if ws = WriteStrategy.write_back ∧ b.addr ≠ NO_BLOCK ∧ b.dirty ≠ 0 then 1 else 0) := by
  obtain ⟨b', d', hb', hcase, -, -⟩ := h
  rw [hb] at hb'
  cases hb'
  split at hcase
  · rename_i hc
    rw [if_pos hc, hcase.2]
    rfl
  · rename_i hc
    rw [if_neg hc, hcase.2]
    simp [statistics_add_counter]

theorem collision_finds {L : Type} (c' : DirectCache L) (al1 al2 : Int) (b' : CacheBlock)
    (hbs : 0 < c'.block_size) (hbc : 0 < c'.block_count)
    (hlen : (c'.blocks.length : Int) = c'.block_count) (h1 : 0 ≤ al1) (h2 : 0 ≤ al2)
    (hdiff : al1 ≠ al2)
    (hidx : direct_index c'.block_size c'.block_count al1 =
      direct_index c'.block_size c'.block_count al2)
    (hb' : c'.blocks[direct_index c'.block_size c'.block_count al2]? = some b')
    (hba : b'.addr = al2) :
    direct_cache_find c' al2 = some (some (direct_index c'.block_size c'.block_count al2)) ∧
    direct_cache_find c' al1 = some none := by
  constructor
  · rw [direct_find_at c' al2 b' hbs hbc hlen h2 hb', if_pos hba]
  · rw [direct_find_at c' al1 b' hbs hbc hlen h1 (by rw [hidx]; exact hb'),
      if_neg (by rw [hba]; exact fun h => hdiff h.symm)]

theorem full_find_none_iff {L : Type} (c : FullCache L) (a : Int)
    (hlen : (c.blocks.length : Int) = c.block_count) :
    full_cache_find c a = some none ↔ not_resident c.blocks a := by
  obtain ⟨r, e, h1, h2⟩ := full_find_lookup c a hlen
  constructor
  · intro h
    rw [h] at e
    cases e
    exact h2 rfl
  · intro h
    cases r with
    | none => exact e
    | some j =>
      obtain ⟨-, b, hb, hba⟩ := h1 j rfl
      exact absurd hba (h j b hb)

/-! ## The write-through invariant -/

theorem placed_sized {ws : WriteStrategy} {bs : Int} {m : Memory} {blocks : List CacheBlock}
    {info : StatisticsInfo} {a : Int} {i : Nat} {blocks' : List CacheBlock}
    {cells' : List MemoryCell} {info' : StatisticsInfo}
    (h : placed ws bs m blocks info a i blocks' cells' info') (hsz : blocks_sized bs blocks) :
    blocks_sized bs blocks' ∧ blocks'.length = blocks.length ∧ cells'.length = m.mem.length := by
  obtain ⟨b, d', hb, hcase, hld, rfl⟩ := h
  refine ⟨?_, by simp, ?_⟩
  · intro x hx
    rcases List.mem_or_eq_of_mem_set hx with h | h
    · exact hsz x h
    · rw [h]
      show (d'.length : Int) = bs
      rw [hld.1]
      exact hsz b (mem_of_getElem? hb)
  · split at hcase
    · exact hcase.1.1
    · rw [hcase.1]

theorem mirrored_sized {bs : Int} {blocks blocks' : List CacheBlock} {r : Option Nat}
    {off size : Int} {src : List MemoryCell} (h : mirrored bs blocks r off size src blocks')
    (hsz : blocks_sized bs blocks) :
    blocks_sized bs blocks' ∧ blocks'.length = blocks.length ∧
    ((∀ b ∈ blocks, b.dirty = 0) → ∀ b ∈ blocks', b.dirty = 0) := by
  cases r with
  | none =>
    have : blocks' = blocks := h
    subst this
    exact ⟨hsz, rfl, fun h => h⟩
  | some i =>
    obtain ⟨b, cellsB, hb, hst, rfl⟩ := h
    refine ⟨?_, by simp, ?_⟩
    · intro x hx
      rcases List.mem_or_eq_of_mem_set hx with h | h
      · exact hsz x h
      · rw [h]
        show (cellsB.length : Int) = bs
        rw [hst.1]
        exact hsz b (mem_of_getElem? hb)
    · intro hd x hx
      rcases List.mem_or_eq_of_mem_set hx with h | h
      · exact hd x h
      · rw [h]
        exact hd b (mem_of_getElem? hb)

theorem wt_inv_placed {bs bc : Int} {blocks : List CacheBlock} {m : Memory}
    {last : Int → Option MemoryCell} {info : StatisticsInfo} {a : Int} {i : Nat}
    {blocks1 : List CacheBlock} {cells1 : List MemoryCell} {info1 : StatisticsInfo}
    (hinv : wt_inv bs bc blocks m last)
    (h : placed WriteStrategy.write_through bs m blocks info a i blocks1 cells1 info1) :
    wt_inv bs bc blocks1 { m with mem := cells1 } last := by
  obtain ⟨⟨hbs, hbc, hlen, hsz, hwf, hmax⟩, hd, hcoh⟩ := hinv
  obtain ⟨hsz1, hlen1, -⟩ := placed_sized h hsz
  obtain ⟨b, d', hb, hcase, hld, hblocks⟩ := h
  rw [if_neg (by simp)] at hcase
  obtain ⟨hcells, -⟩ := hcase
  subst hcells
  refine ⟨⟨hbs, hbc, by rw [hlen1]; exact hlen, hsz1, hwf, hmax⟩, ?_, hcoh⟩
  intro x hx
  rw [hblocks] at hx
  rcases List.mem_or_eq_of_mem_set hx with h | h
  · exact hd x h
  · rw [h]
    show (if WriteStrategy.write_through = WriteStrategy.write_back ∧ b.addr ≠ NO_BLOCK
      then 0 else b.dirty) = 0
    rw [if_neg (by simp)]
    exact hd b (mem_of_getElem? hb)

theorem wt_inv_store {bs bc : Int} {blocks : List CacheBlock} {m : Memory}
    {last : Int → Option MemoryCell} {a s off : Int} {src : List MemoryCell}
    {r : Option Nat} {blocks' : List CacheBlock} {cells' : List MemoryCell}
    (hinv : wt_inv bs bc blocks m last) (hacc : access_ok bs m.memory_size a s)
    (hst : stored_at cells' m.mem a s m.memory_size src)
    (hm : mirrored bs blocks r off s src blocks') :
    wt_inv bs bc blocks' { m with mem := cells' } (record_store last a s src) := by
  obtain ⟨⟨hbs, hbc, hlen, hsz, hwf, hmax⟩, hd, hcoh⟩ := hinv
  obtain ⟨hsz1, hlen1, hd1⟩ := mirrored_sized hm hsz
  obtain ⟨h0, hs, hend, hin⟩ := hacc
  refine ⟨⟨hbs, hbc, by rw [hlen1]; exact hlen, hsz1, ⟨?_, hwf.2⟩, hmax⟩, hd1 hd, ?_⟩
  · show (cells'.length : Int) = m.memory_size
    rw [hst.1]
    exact hwf.1
  · intro x v hx
    unfold record_store at hx
    show 0 ≤ x ∧ cells'[x.toNat]? = some v
    by_cases hr : a ≤ x ∧ x < a + s
    · rw [if_pos hr] at hx
      refine ⟨by omega, ?_⟩
      rw [hst.2 x.toNat, if_pos (by omega)]
      have e : ((x.toNat : Int) - a).toNat = (x - a).toNat := by
        congr 1
        omega
      rw [e]
      exact hx
    · rw [if_neg hr] at hx
      obtain ⟨g1, g2⟩ := hcoh x v hx
      refine ⟨g1, ?_⟩
      rw [hst.2 x.toNat, if_neg (by omega)]
      exact g2

theorem access_int_max {bs msz a s : Int} (h : access_ok bs msz a s) (hmax : msz ≤ MAX_MEM_SIZE) :
    a ≤ INT_MAX := by
  obtain ⟨h0, hs, hend, -⟩ := h
  have e1 : MAX_MEM_SIZE = 1073741824 := by decide
  have e2 : INT_MAX = 2147483647 := rfl
  omega

theorem apply_op_read {L : Type} (ops : AbstractMemoryOps L) (l : L) (info : StatisticsInfo)
    (a s : Int) (dst : Option (List MemoryCell)) (l' : L) (info' : StatisticsInfo)
    (d' : Option (List MemoryCell)) (h : ops.read l info a s dst = some (l', info', d')) :
    apply_op ops (l, info) (MemOp.read a s dst) = some (l', info') := by
  show (match ops.read l info a s dst with
    | none => none
    | some r => some (r.1, r.2.1)) = _
  rw [h]

theorem direct_ops_write_wt {L : Type} (ops : AbstractMemoryOps L) (c : DirectCache L)
    (h : c.write_strategy = WriteStrategy.write_through) :
    (direct_cache_ops ops).write c = direct_cache_wt_write ops c := by
  show (match c.write_strategy with
    | WriteStrategy.write_through => direct_cache_wt_write ops c
    | WriteStrategy.write_back => direct_cache_wb_write ops c) = _
  rw [h]

theorem direct_ops_write_wb {L : Type} (ops : AbstractMemoryOps L) (c : DirectCache L)
    (h : c.write_strategy = WriteStrategy.write_back) :
    (direct_cache_ops ops).write c = direct_cache_wb_write ops c := by
  show (match c.write_strategy with
    | WriteStrategy.write_through => direct_cache_wt_write ops c
    | WriteStrategy.write_back => direct_cache_wb_write ops c) = _
  rw [h]

theorem full_ops_write_wt {L : Type} (ops : AbstractMemoryOps L) (c : FullCache L)
    (h : c.write_strategy = WriteStrategy.write_through) :
    (full_cache_ops ops).write c = full_cache_wt_write ops c := by
  show (match c.write_strategy with
    | WriteStrategy.write_through => full_cache_wt_write ops c
    | WriteStrategy.write_back => full_cache_wb_write ops c) = _
  rw [h]

theorem full_ops_write_wb {L : Type} (ops : AbstractMemoryOps L) (c : FullCache L)
    (h : c.write_strategy = WriteStrategy.write_back) :
    (full_cache_ops ops).write c = full_cache_wb_write ops c := by
  show (match c.write_strategy with
    | WriteStrategy.write_through => full_cache_wt_write ops c
    | WriteStrategy.write_back => full_cache_wb_write ops c) = _
  rw [h]

theorem direct_wt_step (c : DirectCache Memory) (info : StatisticsInfo) (op : MemOp)
    (last : Int → Option MemoryCell) (hws : c.write_strategy = WriteStrategy.write_through)
    (hinv : wt_inv c.block_size c.block_count c.blocks c.mem last)
    (hok : op_ok c.block_size c.mem.memory_size op) (hacc : is_access op) :
    ∃ c' info', apply_op (direct_cache_ops memory_ops) (c, info) op = some (c', info') ∧
      c'.write_strategy = WriteStrategy.write_through ∧ c'.block_size = c.block_size ∧
      c'.mem.memory_size = c.mem.memory_size ∧
      wt_inv c'.block_size c'.block_count c'.blocks c'.mem (last_stored_from last [op]) := by
  have hp := hinv.1
  have hmax := hp.2.2.2.2.2
  have htag : ∀ b ∈ c.blocks, b.addr ≠ NO_BLOCK → b.dirty ≠ 0 → 0 ≤ b.addr :=
    fun b hb _ hd => absurd (hinv.2.1 b hb) hd
  cases op with
  | flush => exact absurd hacc (by simp [is_access])
  | read a s dst =>
    obtain ⟨hao, hdst⟩ := hok
    have h1 := access_int_max hao hmax
    obtain ⟨r, -, hhit, hmiss⟩ := direct_read_spec c info a s dst hp htag hao.1 h1
      (fun x hx => ⟨hao.2.1, hdst x hx, hao.2.2.2⟩)
    cases r with
    | some i =>
      obtain ⟨dst', e⟩ := hhit i rfl
      exact ⟨c, _, apply_op_read (direct_cache_ops memory_ops) c info a s dst _ _ _ e,
        hws, rfl, rfl, hinv⟩
    | none =>
      obtain ⟨blocks1, cells1, info1, dst', -, hplaced, e⟩ := hmiss rfl
      rw [hws] at hplaced
      exact ⟨_, info1, apply_op_read (direct_cache_ops memory_ops) c info a s dst _ _ _ e,
        hws, rfl, rfl, wt_inv_placed hinv hplaced⟩
  | write a s src =>
    obtain ⟨hao, hsrc⟩ := hok
    have h1 := access_int_max hao hmax
    obtain ⟨r, blocks', cells', -, e, hst, hm⟩ := direct_wt_write_spec c info a s src hp
      hao.1 h1 hao.2.1 hsrc hao.2.2.2
    have hap : apply_op (direct_cache_ops memory_ops) (c, info) (MemOp.write a s src) =
        direct_cache_wt_write memory_ops c info a s src :=
      congrFun (congrFun (congrFun (congrFun (direct_ops_write_wt memory_ops c hws) info) a) s)
        src
    exact ⟨_, _, hap.trans e, hws, rfl, rfl, wt_inv_store hinv hao hst hm⟩
  | reveal a s src =>
    obtain ⟨hao, hsrc⟩ := hok
    have h1 := access_int_max hao hmax
    obtain ⟨r, blocks', cells', -, e, hst, hm⟩ := direct_reveal_spec c info a s src hp
      hao.1 h1 hao.2.1 hsrc hao.2.2.2
    exact ⟨_, _, e, hws, rfl, rfl, wt_inv_store hinv hao hst hm⟩

theorem direct_wt_run (ops : List MemOp) :
    ∀ (c : DirectCache Memory) (info : StatisticsInfo) (last : Int → Option MemoryCell),
      c.write_strategy = WriteStrategy.write_through →
      wt_inv c.block_size c.block_count c.blocks c.mem last →
      (∀ op ∈ ops, op_ok c.block_size c.mem.memory_size op ∧ is_access op) →
      ∃ c' info', run_ops (direct_cache_ops memory_ops) ops (c, info) = some (c', info') ∧
        wt_inv c'.block_size c'.block_count c'.blocks c'.mem (last_stored_from last ops) := by
  induction ops with
  | nil =>
    intro c info last _ hinv _
    exact ⟨c, info, rfl, hinv⟩
  | cons op rest ih =>
    intro c info last hws hinv hok
    obtain ⟨hop, hacc⟩ := hok op (List.mem_cons_self _ _)
    obtain ⟨c1, info1, e, hws1, hbs1, hms1, hinv1⟩ := direct_wt_step c info op last hws hinv
      hop hacc
    have hl : last_stored_from last (op :: rest) =
        last_stored_from (last_stored_from last [op]) rest := by
      cases op <;> rfl
    obtain ⟨c', info', e', hinv'⟩ := ih c1 info1 (last_stored_from last [op]) hws1 hinv1
      (fun o ho => by rw [hbs1, hms1]; exact hok o (List.mem_cons_of_mem _ ho))
    refine ⟨c', info', ?_, by rw [hl]; exact hinv'⟩
    simp only [run_ops, e]
    exact e'

theorem full_wt_step (c : FullCache Memory) (info : StatisticsInfo) (op : MemOp)
    (last : Int → Option MemoryCell) (hws : c.write_strategy = WriteStrategy.write_through)
    (hrnd : ∀ n, 0 ≤ c.rnd.raw n ∧ c.rnd.raw n ≤ RAND_MAX)
    (hinv : wt_inv c.block_size c.block_count c.blocks c.mem last)
    (hok : op_ok c.block_size c.mem.memory_size op) (hacc : is_access op) :
    ∃ c' info', apply_op (full_cache_ops memory_ops) (c, info) op = some (c', info') ∧
      c'.write_strategy = WriteStrategy.write_through ∧ c'.block_size = c.block_size ∧
      c'.mem.memory_size = c.mem.memory_size ∧ c'.rnd.raw = c.rnd.raw ∧
      wt_inv c'.block_size c'.block_count c'.blocks c'.mem (last_stored_from last [op]) := by
  have hp := hinv.1
  have hmax := hp.2.2.2.2.2
  have htag : ∀ b ∈ c.blocks, b.addr ≠ NO_BLOCK → b.dirty ≠ 0 → 0 ≤ b.addr :=
    fun b hb _ hd => absurd (hinv.2.1 b hb) hd
  cases op with
  | flush => exact absurd hacc (by simp [is_access])
  | read a s dst =>
    obtain ⟨hao, hdst⟩ := hok
    have h1 := access_int_max hao hmax
    obtain ⟨r, -, hhit, hmiss⟩ := full_read_spec c info a s dst hp htag (hrnd _) hao.1 h1
      (fun x hx => ⟨hao.2.1, hdst x hx, hao.2.2.2⟩)
    cases r with
    | some i =>
      obtain ⟨dst', e⟩ := hhit i rfl
      exact ⟨c, _, apply_op_read (full_cache_ops memory_ops) c info a s dst _ _ _ e,
        hws, rfl, rfl, rfl, hinv⟩
    | none =>
      obtain ⟨i, blocks1, cells1, info1, rnd1, dst', -, hplaced, hraw, -, e⟩ := hmiss rfl
      rw [hws] at hplaced
      exact ⟨_, info1, apply_op_read (full_cache_ops memory_ops) c info a s dst _ _ _ e,
        hws, rfl, rfl, hraw, wt_inv_placed hinv hplaced⟩
  | write a s src =>
    obtain ⟨hao, hsrc⟩ := hok
    have h1 := access_int_max hao hmax
    obtain ⟨r, blocks', cells', -, e, hst, hm⟩ := full_wt_write_spec c info a s src hp
      hao.1 h1 hao.2.1 hsrc hao.2.2.2
    have hap : apply_op (full_cache_ops memory_ops) (c, info) (MemOp.write a s src) =
        full_cache_wt_write memory_ops c info a s src :=
      congrFun (congrFun (congrFun (congrFun (full_ops_write_wt memory_ops c hws) info) a) s)
        src
    exact ⟨_, _, hap.trans e, hws, rfl, rfl, rfl, wt_inv_store hinv hao hst hm⟩
  | reveal a s src =>
    obtain ⟨hao, hsrc⟩ := hok
    have h1 := access_int_max hao hmax
    obtain ⟨r, blocks', cells', -, e, hst, hm⟩ := full_reveal_spec c info a s src hp
      hao.1 h1 hao.2.1 hsrc hao.2.2.2
    exact ⟨_, _, e, hws, rfl, rfl, rfl, wt_inv_store hinv hao hst hm⟩

theorem full_wt_run (ops : List MemOp) :
    ∀ (c : FullCache Memory) (info : StatisticsInfo) (last : Int → Option MemoryCell),
      c.write_strategy = WriteStrategy.write_through →
      (∀ n, 0 ≤ c.rnd.raw n ∧ c.rnd.raw n ≤ RAND_MAX) →
      wt_inv c.block_size c.block_count c.blocks c.mem last →
      (∀ op ∈ ops, op_ok c.block_size c.mem.memory_size op ∧ is_access op) →
      ∃ c' info', run_ops (full_cache_ops memory_ops) ops (c, info) = some (c', info') ∧
        wt_inv c'.block_size c'.block_count c'.blocks c'.mem (last_stored_from last ops) := by
  induction ops with
  | nil =>
    intro c info last _ _ hinv _
    exact ⟨c, info, rfl, hinv⟩
  | cons op rest ih =>
    intro c info last hws hrnd hinv hok
    obtain ⟨hop, hacc⟩ := hok op (List.mem_cons_self _ _)
    obtain ⟨c1, info1, e, hws1, hbs1, hms1, hraw1, hinv1⟩ := full_wt_step c info op last hws
      hrnd hinv hop hacc
    have hl : last_stored_from last (op :: rest) =
        last_stored_from (last_stored_from last [op]) rest := by
      cases op <;> rfl
    obtain ⟨c', info', e', hinv'⟩ := ih c1 info1 (last_stored_from last [op]) hws1
      (by rw [hraw1]; exact hrnd) hinv1
      (fun o ho => by rw [hbs1, hms1]; exact hok o (List.mem_cons_of_mem _ ho))
    refine ⟨c', info', ?_, by rw [hl]; exact hinv'⟩
    simp only [run_ops, e]
    exact e'

/-! ## The write-back invariant -/

theorem block_of (x T bs : Int) (hbs : 0 < bs) (hT : T % bs = 0) :
    (T ≤ x ∧ x < T + bs) ↔ T = x - x % bs := by
  have h2 := Int.emod_nonneg x (by omega : bs ≠ 0)
  have h3 := Int.emod_lt_of_pos x hbs
  constructor
  · rintro ⟨h0, h1⟩
    obtain ⟨q, hq⟩ := Int.dvd_of_emod_eq_zero hT
    have e : x % bs = x - T := by
      have : x = (x - T) + bs * q := by omega
      rw [this, Int.add_mul_emod_self_left, Int.emod_eq_of_lt (by omega) (by omega)]
      omega
    omega
  · intro h
    omega

theorem set_getElem?_cases {α : Type} (l : List α) (i j : Nat) (x y : α)
    (h : (l.set i x)[j]? = some y) : (j = i ∧ y = x) ∨ (j ≠ i ∧ l[j]? = some y) := by
  rw [List.getElem?_set] at h
  by_cases hij : i = j
  · rw [if_pos hij] at h
    split at h
    · exact Or.inl ⟨hij.symm, (Option.some.inj h).symm⟩
    · cases h
  · rw [if_neg hij] at h
    exact Or.inr ⟨fun g => hij g.symm, h⟩

theorem tagged_no_block {bs : Int} {blocks : List CacheBlock} (ht : blocks_tagged bs blocks)
    {i : Nat} {b : CacheBlock} (hb : blocks[i]? = some b) :
    (b.addr = NO_BLOCK → b.dirty = 0) ∧ (b.addr ≠ NO_BLOCK → 0 ≤ b.addr ∧ b.addr % bs = 0) := by
  rcases ht b (mem_of_getElem? hb) with ⟨h1, h2⟩ | ⟨h1, h2⟩
  · exact ⟨fun _ => h2, fun h => absurd h1 h⟩
  · exact ⟨fun h => by rw [h] at h1; exact absurd h1 (by decide), fun _ => ⟨h1, h2⟩⟩

theorem nonneg_ne_no_block {x : Int} (h : 0 ≤ x) : x ≠ NO_BLOCK := by
  intro e
  rw [e] at h
  exact absurd h (by decide)

theorem wb_inv_finalize {bs bc : Int} {blocks : List CacheBlock} {m : Memory}
    {last : Int → Option MemoryCell} {i : Nat} {b : CacheBlock} {cells1 : List MemoryCell}
    (hinv : wb_inv bs bc blocks m last) (hb : blocks[i]? = some b) (hnb : b.addr ≠ NO_BLOCK)
    (hst : stored_at cells1 m.mem b.addr bs m.memory_size b.mem) :
    wb_inv bs bc (blocks.set i { b with dirty := 0 }) { m with mem := cells1 } last := by
  obtain ⟨⟨hbs, hbc, hlen, hsz, hwf, hmax⟩, htag, huniq, hcoh⟩ := hinv
  have hbs' := block_size_pos hbs
  obtain ⟨hb0, hbal⟩ := (tagged_no_block htag hb).2 hnb
  have hilt := lt_length_of_getElem? hb
  refine ⟨⟨hbs, hbc, by simpa using hlen, ?_, ⟨?_, hwf.2⟩, hmax⟩, ?_, ?_, ?_⟩
  · intro x hx
    rcases List.mem_or_eq_of_mem_set hx with h | h
    · exact hsz x h
    · rw [h]; exact hsz b (mem_of_getElem? hb)
  · show (cells1.length : Int) = m.memory_size
    rw [hst.1]; exact hwf.1
  · intro x hx
    rcases List.mem_or_eq_of_mem_set hx with h | h
    · exact htag x h
    · rw [h]; exact Or.inr ⟨hb0, hbal⟩
  · intro j k bj bk hj hk hjk hjn
    have hj' : ∃ bj0, blocks[j]? = some bj0 ∧ bj0.addr = bj.addr := by
      rcases set_getElem?_cases _ _ _ _ _ hj with ⟨rfl, rfl⟩ | ⟨-, h⟩
      · exact ⟨b, hb, rfl⟩
      · exact ⟨bj, h, rfl⟩
    have hk' : ∃ bk0, blocks[k]? = some bk0 ∧ bk0.addr = bk.addr := by
      rcases set_getElem?_cases _ _ _ _ _ hk with ⟨rfl, rfl⟩ | ⟨-, h⟩
      · exact ⟨b, hb, rfl⟩
      · exact ⟨bk, h, rfl⟩
    obtain ⟨bj0, g1, g2⟩ := hj'
    obtain ⟨bk0, g3, g4⟩ := hk'
    exact huniq j k bj0 bk0 g1 g3 (by rw [g2, g4]; exact hjk) (by rw [g2]; exact hjn)
  · intro x v hx
    obtain ⟨h0, h1, hcopies, hmem⟩ := hcoh x v hx
    refine ⟨h0, h1, ?_, ?_⟩
    · intro j bj hj hja
      rcases set_getElem?_cases _ _ _ _ _ hj with ⟨rfl, rfl⟩ | ⟨-, h⟩
      · exact hcopies j b hb hja
      · exact hcopies j bj h hja
    · intro hclean
      show cells1[x.toNat]? = some v
      rw [hst.2 x.toNat]
      by_cases hbt : b.addr = x - x % bs
      · have hin := (block_of x b.addr bs hbs' hbal).mpr hbt
        rw [if_pos (by omega)]
        have e : ((x.toNat : Int) - b.addr).toNat = (x % bs).toNat := by
          congr 1
          omega
        rw [e]
        exact hcopies i b hb hbt
      · have hout : ¬ (b.addr ≤ x ∧ x < b.addr + bs) :=
          fun h => hbt ((block_of x b.addr bs hbs' hbal).mp h)
        rw [if_neg (by omega)]
        apply hmem
        intro j bj hj hja
        by_cases hji : j = i
        · subst hji
          rw [hb] at hj
          cases hj
          exact absurd hja hbt
        · exact hclean j bj (by rw [List.getElem?_set, if_neg (fun g => hji g.symm)]; exact hj)
            hja

theorem wb_inv_retag {bs bc : Int} {blocks : List CacheBlock} {m : Memory}
    {last : Int → Option MemoryCell} {i : Nat} {b : CacheBlock} {a : Int}
    {d' : List MemoryCell} (dflag : Int)
    (hinv : wb_inv bs bc blocks m last) (hb : blocks[i]? = some b) (hclean : b.dirty = 0)
    (hnr : not_resident blocks a) (ha : 0 ≤ a) (hal : a % bs = 0)
    (hld : loaded_from d' b.mem m.mem a bs m.memory_size) :
    wb_inv bs bc (blocks.set i ⟨a, d', dflag⟩) m last := by
  obtain ⟨⟨hbs, hbc, hlen, hsz, hwf, hmax⟩, htag, huniq, hcoh⟩ := hinv
  have hbs' := block_size_pos hbs
  have hilt := lt_length_of_getElem? hb
  refine ⟨⟨hbs, hbc, by simpa using hlen, ?_, hwf, hmax⟩, ?_, ?_, ?_⟩
  · intro x hx
    rcases List.mem_or_eq_of_mem_set hx with h | h
    · exact hsz x h
    · rw [h]
      show (d'.length : Int) = bs
      rw [hld.1]
      exact hsz b (mem_of_getElem? hb)
  · intro x hx
    rcases List.mem_or_eq_of_mem_set hx with h | h
    · exact htag x h
    · rw [h]; exact Or.inr ⟨ha, hal⟩
  · intro j k bj bk hj hk hjk hjn
    rcases set_getElem?_cases _ _ _ _ _ hj with ⟨rfl, rfl⟩ | ⟨hji, hj'⟩
    · rcases set_getElem?_cases _ _ _ _ _ hk with ⟨rfl, rfl⟩ | ⟨hki, hk'⟩
      · rfl
      · exact absurd hjk.symm (hnr k bk hk')
    · rcases set_getElem?_cases _ _ _ _ _ hk with ⟨rfl, rfl⟩ | ⟨hki, hk'⟩
      · exact absurd hjk (hnr j bj hj')
      · exact huniq j k bj bk hj' hk' hjk hjn
  · intro x v hx
    obtain ⟨h0, h1, hcopies, hmem⟩ := hcoh x v hx
    have hmx : a = x - x % bs → m.mem[x.toNat]? = some v := by
      intro hax
      apply hmem
      intro j bj hj hja
      exact absurd (hja.trans hax.symm) (hnr j bj hj)
    refine ⟨h0, h1, ?_, ?_⟩
    · intro j bj hj hja
      rcases set_getElem?_cases _ _ _ _ _ hj with ⟨rfl, rfl⟩ | ⟨-, h⟩
      · have hax : a = x - x % bs := hja
        have hin := (block_of x a bs hbs' hal).mpr hax
        have h2 := Int.emod_nonneg x (by omega : bs ≠ 0)
        show d'[(x % bs).toNat]? = some v
        rw [hld.2 (x % bs).toNat, if_pos (by omega)]
        have e : (a + ((x % bs).toNat : Int)).toNat = x.toNat := by
          congr 1
          omega
        rw [e]
        exact hmx hax
      · exact hcopies j bj h hja
    · intro hcl
      apply hmem
      intro j bj hj hja
      by_cases hji : j = i
      · subst hji
        rw [hb] at hj
        cases hj
        exact hclean
      · exact hcl j bj (by rw [List.getElem?_set, if_neg (fun g => hji g.symm)]; exact hj) hja

theorem wb_inv_placed {bs bc : Int} {blocks : List CacheBlock} {m : Memory}
    {last : Int → Option MemoryCell} {info : StatisticsInfo} {a : Int} {i : Nat}
    {blocks1 : List CacheBlock} {cells1 : List MemoryCell} {info1 : StatisticsInfo}
    (hinv : wb_inv bs bc blocks m last) (hnr : not_resident blocks a) (ha : 0 ≤ a)
    (hal : a % bs = 0)
    (h : placed WriteStrategy.write_back bs m blocks info a i blocks1 cells1 info1) :
    wb_inv bs bc blocks1 { m with mem := cells1 } last := by
  obtain ⟨b, d', hb, hcase, hld, hblocks⟩ := h
  have hilt := lt_length_of_getElem? hb
  by_cases hwb : b.addr ≠ NO_BLOCK ∧ b.dirty ≠ 0
  · rw [if_pos ⟨rfl, hwb.1, hwb.2⟩] at hcase
    have h1 := wb_inv_finalize hinv hb hwb.1 hcase.1
    have hb1 : (blocks.set i { b with dirty := 0 })[i]? = some { b with dirty := 0 } := by
      rw [List.getElem?_set, if_pos rfl, if_pos hilt]
    have hnr1 : not_resident (blocks.set i { b with dirty := 0 }) a := by
      intro j bj hj
      rcases set_getElem?_cases _ _ _ _ _ hj with ⟨rfl, rfl⟩ | ⟨-, hj'⟩
      · exact hnr j b hb
      · exact hnr j bj hj'
    have h2 := wb_inv_retag (m := { m with mem := cells1 })
      (if WriteStrategy.write_back = WriteStrategy.write_back ∧ b.addr ≠ NO_BLOCK
        then 0 else b.dirty) h1 hb1 rfl hnr1 ha hal hld
    rw [List.set_set] at h2
    rw [hblocks]
    exact h2
  · rw [if_neg (fun g => hwb ⟨g.2.1, g.2.2⟩)] at hcase
    obtain ⟨hcells, -⟩ := hcase
    subst hcells
    have hclean : b.dirty = 0 := by
      by_cases hnb : b.addr = NO_BLOCK
      · exact (tagged_no_block hinv.2.1 hb).1 hnb
      · by_contra hd
        exact hwb ⟨hnb, hd⟩
    rw [hblocks]
    exact wb_inv_retag _ hinv hb hclean hnr ha hal hld

theorem aligned_mod (a bs : Int) : (a - a % bs) % bs = 0 := by
  have := Int.ediv_add_emod a bs
  have e : a - a % bs = bs * (a / bs) := by omega
  rw [e]
  exact Int.mul_emod_right _ _

theorem wb_inv_block_store {bs bc : Int} {blocks : List CacheBlock} {m : Memory}
    {last : Int → Option MemoryCell} {i : Nat} {b : CacheBlock} {a s : Int}
    {src cellsB : List MemoryCell}
    (hinv : wb_inv bs bc blocks m last) (hb : blocks[i]? = some b)
    (hba : b.addr = a - a % bs) (hacc : access_ok bs m.memory_size a s)
    (hst : stored_at cellsB b.mem (a % bs) s bs src) :
    wb_inv bs bc (blocks.set i { b with mem := cellsB, dirty := 1 }) m
      (record_store last a s src) := by
  obtain ⟨⟨hbs, hbc, hlen, hsz, hwf, hmax⟩, htag, huniq, hcoh⟩ := hinv
  obtain ⟨h0, hs, hend, hin⟩ := hacc
  have hbs' := block_size_pos hbs
  have hilt := lt_length_of_getElem? hb
  have ham := Int.emod_nonneg a (by omega : bs ≠ 0)
  have hTal := aligned_mod a bs
  have hT0 : 0 ≤ a - a % bs := by
    have := Int.ediv_add_emod a bs
    have hq : 0 ≤ a / bs := Int.ediv_nonneg h0 (le_of_lt hbs')
    have : a - a % bs = bs * (a / bs) := by omega
    rw [this]
    exact Int.mul_nonneg (le_of_lt hbs') hq
  have hnb : b.addr ≠ NO_BLOCK := by rw [hba]; exact nonneg_ne_no_block hT0
  refine ⟨⟨hbs, hbc, by simpa using hlen, ?_, hwf, hmax⟩, ?_, ?_, ?_⟩
  · intro x hx
    rcases List.mem_or_eq_of_mem_set hx with h | h
    · exact hsz x h
    · rw [h]
      show (cellsB.length : Int) = bs
      rw [hst.1]
      exact hsz b (mem_of_getElem? hb)
  · intro x hx
    rcases List.mem_or_eq_of_mem_set hx with h | h
    · exact htag x h
    · rw [h]
      exact Or.inr ⟨by show 0 ≤ b.addr; rw [hba]; exact hT0,
        by show b.addr % bs = 0; rw [hba]; exact hTal⟩
  · intro j k bj bk hj hk hjk hjn
    have hj' : ∃ bj0, blocks[j]? = some bj0 ∧ bj0.addr = bj.addr := by
      rcases set_getElem?_cases _ _ _ _ _ hj with ⟨rfl, rfl⟩ | ⟨-, h⟩
      · exact ⟨b, hb, rfl⟩
      · exact ⟨bj, h, rfl⟩
    have hk' : ∃ bk0, blocks[k]? = some bk0 ∧ bk0.addr = bk.addr := by
      rcases set_getElem?_cases _ _ _ _ _ hk with ⟨rfl, rfl⟩ | ⟨-, h⟩
      · exact ⟨b, hb, rfl⟩
      · exact ⟨bk, h, rfl⟩
    obtain ⟨bj0, g1, g2⟩ := hj'
    obtain ⟨bk0, g3, g4⟩ := hk'
    exact huniq j k bj0 bk0 g1 g3 (by rw [g2, g4]; exact hjk) (by rw [g2]; exact hjn)
  · intro x v hx
    unfold record_store at hx
    have hdirty : ∀ t : Int, b.addr = t →
        ¬ (∀ (j : Nat) (bj : CacheBlock),
          (blocks.set i { b with mem := cellsB, dirty := 1 })[j]? = some bj →
          bj.addr = t → bj.dirty = 0) := by
      intro t ht hall
      have h10 : (1 : Int) = 0 := hall i { b with mem := cellsB, dirty := 1 }
        (by rw [List.getElem?_set, if_pos rfl, if_pos hilt]) ht
      exact absurd h10 (by decide)
    by_cases hr : a ≤ x ∧ x < a + s
    · rw [if_pos hr] at hx
      have hxT : a - a % bs = x - x % bs :=
        (block_of x (a - a % bs) bs hbs' hTal).mp ⟨by omega, by omega⟩
      have hxm := Int.emod_nonneg x (by omega : bs ≠ 0)
      refine ⟨by omega, by omega, ?_, ?_⟩
      · intro j bj hj hja
        have hji : j = i := by
          rcases set_getElem?_cases _ _ _ _ _ hj with ⟨g, -⟩ | ⟨-, h⟩
          · exact g
          · exact huniq j i bj b h hb (by rw [hja, hba, hxT])
              (by rw [hja, ← hxT]; exact nonneg_ne_no_block hT0)
        subst hji
        rw [List.getElem?_set, if_pos rfl, if_pos hilt] at hj
        cases hj
        show cellsB[(x % bs).toNat]? = some v
        rw [hst.2 (x % bs).toNat, if_pos (by omega)]
        have e : (((x % bs).toNat : Int) - a % bs).toNat = (x - a).toNat := by
          congr 1
          omega
        rw [e]
        exact hx
      · intro hall
        exact absurd hall (hdirty _ (by rw [hba, hxT]))
    · rw [if_neg hr] at hx
      obtain ⟨g0, g1, hcopies, hmem⟩ := hcoh x v hx
      have hxm := Int.emod_nonneg x (by omega : bs ≠ 0)
      refine ⟨g0, g1, ?_, ?_⟩
      · intro j bj hj hja
        rcases set_getElem?_cases _ _ _ _ _ hj with ⟨rfl, rfl⟩ | ⟨-, h⟩
        · have hbt : b.addr = x - x % bs := hja
          show cellsB[(x % bs).toNat]? = some v
          rw [hst.2 (x % bs).toNat, if_neg (by omega)]
          exact hcopies j b hb hbt
        · exact hcopies j bj h hja
      · intro hall
        by_cases hbt : b.addr = x - x % bs
        · exact absurd hall (hdirty _ hbt)
        · apply hmem
          intro j bj hj hja
          by_cases hji : j = i
          · subst hji
            rw [hb] at hj
            cases hj
            exact absurd hja hbt
          · exact hall j bj
              (by rw [List.getElem?_set, if_neg (fun g => hji g.symm)]; exact hj) hja

theorem indexed_set {bs bc : Int} {blocks : List CacheBlock} {i : Nat} {b' : CacheBlock}
    (h : blocks_indexed bs bc blocks)
    (hb' : b'.addr ≠ NO_BLOCK → direct_index bs bc b'.addr = i) :
    blocks_indexed bs bc (blocks.set i b') := by
  intro j bj hj hnb
  rcases set_getElem?_cases _ _ _ _ _ hj with ⟨rfl, rfl⟩ | ⟨-, hj'⟩
  · exact hb' hnb
  · exact h j bj hj' hnb

theorem direct_miss_not_resident {L : Type} (c : DirectCache L) (a : Int)
    (hbs : 0 < c.block_size) (hbc : 0 < c.block_count)
    (hlen : (c.blocks.length : Int) = c.block_count) (ha : 0 ≤ a)
    (hidx : blocks_indexed c.block_size c.block_count c.blocks)
    (hmiss : direct_cache_find c a = some none) : not_resident c.blocks a := by
  intro j bj hj hja
  have hnb : bj.addr ≠ NO_BLOCK := by rw [hja]; exact nonneg_ne_no_block ha
  have hi := hidx j bj hj hnb
  rw [hja] at hi
  rw [← hi] at hj
  rw [direct_find_at c a bj hbs hbc hlen ha hj, if_pos hja] at hmiss
  cases hmiss

theorem placed_ws_block {ws : WriteStrategy} {bs : Int} {m : Memory}
    {blocks : List CacheBlock} {info : StatisticsInfo} {a : Int} {i : Nat}
    {blocks' : List CacheBlock} {cells' : List MemoryCell} {info' : StatisticsInfo}
    (h : placed ws bs m blocks info a i blocks' cells' info') :
    ∃ b', b'.addr = a ∧ blocks' = blocks.set i b' := by
  obtain ⟨b, d', -, -, -, rfl⟩ := h
  exact ⟨_, rfl, rfl⟩

theorem direct_wb_step (c : DirectCache Memory) (info : StatisticsInfo) (op : MemOp)
    (last : Int → Option MemoryCell) (hws : c.write_strategy = WriteStrategy.write_back)
    (hinv : wb_inv c.block_size c.block_count c.blocks c.mem last)
    (hidx : blocks_indexed c.block_size c.block_count c.blocks)
    (hok : op_ok c.block_size c.mem.memory_size op) (hrw : is_read_or_write op) :
    ∃ c' info', apply_op (direct_cache_ops memory_ops) (c, info) op = some (c', info') ∧
      c'.write_strategy = WriteStrategy.write_back ∧ c'.block_size = c.block_size ∧
      c'.block_count = c.block_count ∧ c'.mem.memory_size = c.mem.memory_size ∧
      wb_inv c'.block_size c'.block_count c'.blocks c'.mem (last_written_from last [op]) ∧
      blocks_indexed c'.block_size c'.block_count c'.blocks := by
  have hp := hinv.1
  have hbs' := block_size_pos hp.1
  have hmax := hp.2.2.2.2.2
  have htag : ∀ b ∈ c.blocks, b.addr ≠ NO_BLOCK → b.dirty ≠ 0 → 0 ≤ b.addr := by
    intro b hb hnb _
    rcases hinv.2.1 b hb with ⟨h1, -⟩ | ⟨h1, -⟩
    · exact absurd h1 hnb
    · exact h1
  cases op with
  | flush => exact absurd hrw (by simp [is_read_or_write])
  | reveal a s src => exact absurd hrw (by simp [is_read_or_write])
  | read a s dst =>
    obtain ⟨hao, hdst⟩ := hok
    have h1 := access_int_max hao hmax
    obtain ⟨e1, e2, -, -, -, e6⟩ := aligned_offset a c.block_size hp.1 hao.1 h1
    rw [e1] at e2 e6
    obtain ⟨r, hfind, hhit, hmiss⟩ := direct_read_spec c info a s dst hp htag hao.1 h1
      (fun x hx => ⟨hao.2.1, hdst x hx, hao.2.2.2⟩)
    cases r with
    | some i =>
      obtain ⟨dst', e⟩ := hhit i rfl
      exact ⟨c, _, apply_op_read (direct_cache_ops memory_ops) c info a s dst _ _ _ e,
        hws, rfl, rfl, rfl, hinv, hidx⟩
    | none =>
      obtain ⟨blocks1, cells1, info1, dst', -, hplaced, e⟩ := hmiss rfl
      have hnr := direct_miss_not_resident c _ hbs' hp.2.1 hp.2.2.1 e2 hidx hfind
      obtain ⟨b', hb'a, hb'⟩ := placed_ws_block hplaced
      rw [hws] at hplaced
      refine ⟨_, info1, apply_op_read (direct_cache_ops memory_ops) c info a s dst _ _ _ e,
        hws, rfl, rfl, rfl, wb_inv_placed hinv hnr e2 e6 hplaced, ?_⟩
      show blocks_indexed c.block_size c.block_count blocks1
      rw [hb']
      exact indexed_set hidx (fun _ => by rw [hb'a])
  | write a s src =>
    obtain ⟨hao, hsrc⟩ := hok
    have h1 := access_int_max hao hmax
    obtain ⟨e1, e2, -, -, -, e6⟩ := aligned_offset a c.block_size hp.1 hao.1 h1
    rw [e1] at e2 e6
    obtain ⟨r, hfind, hhit, hmiss⟩ := direct_wb_write_spec c info a s src hp htag hao.1 h1
      hao.2.1 hsrc hao.2.2.2
    have hap : apply_op (direct_cache_ops memory_ops) (c, info) (MemOp.write a s src) =
        direct_cache_wb_write memory_ops c info a s src :=
      congrFun (congrFun (congrFun (congrFun (direct_ops_write_wb memory_ops c hws) info) a) s)
        src
    cases r with
    | some i =>
      obtain ⟨b, cellsB, hb, hba, hst, e⟩ := hhit i rfl
      refine ⟨_, _, hap.trans e, hws, rfl, rfl, rfl,
        wb_inv_block_store hinv hb hba hao hst, ?_⟩
      exact indexed_set hidx (fun hnb => hidx i b hb hnb)
    | none =>
      obtain ⟨blocks1, cells1, info1, b1, cellsB, -, hplaced, hb1, hst, e⟩ := hmiss rfl
      have hnr := direct_miss_not_resident c _ hbs' hp.2.1 hp.2.2.1 e2 hidx hfind
      obtain ⟨b', hb'a, hb'⟩ := placed_ws_block hplaced
      obtain ⟨b1', hb1', hb1a, -, -⟩ := placed_block hplaced hp.2.2.2.1
      rw [hb1] at hb1'
      cases hb1'
      rw [hws] at hplaced
      have hinv1 := wb_inv_placed hinv hnr e2 e6 hplaced
      have hinv2 := wb_inv_block_store (m := { c.mem with mem := cells1 }) hinv1 hb1 hb1a hao hst
      refine ⟨_, info1, hap.trans e, hws, rfl, rfl, rfl, hinv2, ?_⟩
      have hidx1 : blocks_indexed c.block_size c.block_count blocks1 := by
        rw [hb']
        exact indexed_set hidx (fun _ => by rw [hb'a])
      exact indexed_set hidx1 (fun _ => by show direct_index _ _ b1.addr = _; rw [hb1a])

theorem direct_flush_loop_spec (last : Int → Option MemoryCell) :
    ∀ (n i : Nat) (c : DirectCache Memory) (info : StatisticsInfo),
      c.write_strategy = WriteStrategy.write_back →
      wb_inv c.block_size c.block_count c.blocks c.mem last →
      i + n ≤ c.blocks.length →
      (∀ (j : Nat) (b : CacheBlock), j < i → c.blocks[j]? = some b → b.dirty = 0) →
      ∃ c' info', direct_cache_flush_loop memory_ops n i c info = some (c', info') ∧
        wb_inv c'.block_size c'.block_count c'.blocks c'.mem last ∧
        c'.blocks.length = c.blocks.length ∧
        (∀ (j : Nat) (b : CacheBlock), j < i + n → c'.blocks[j]? = some b → b.dirty = 0) := by
  intro n
  induction n with
  | zero =>
    intro i c info _ hinv _ hclean
    exact ⟨c, info, rfl, hinv, rfl, hclean⟩
  | succ n ih =>
    intro i c info hws hinv hlen hclean
    obtain ⟨b, hb, hbm⟩ := getElem?_of_lt_length c.blocks i (by omega)
    have hilt := lt_length_of_getElem? hb
    have hstep : ∃ c1 info1,
        (if b.addr ≠ NO_BLOCK then direct_ops_finalize memory_ops c info i
          else some (c, info)) = some (c1, info1) ∧
        c1.write_strategy = WriteStrategy.write_back ∧
        wb_inv c1.block_size c1.block_count c1.blocks c1.mem last ∧
        c1.blocks.length = c.blocks.length ∧
        (∀ (j : Nat) (b : CacheBlock), j < i + 1 → c1.blocks[j]? = some b → b.dirty = 0) := by
      by_cases hd : b.dirty = 0
      · refine ⟨c, info, ?_, hws, hinv, rfl, ?_⟩
        · by_cases hnb : b.addr ≠ NO_BLOCK
          · rw [if_pos hnb]
            unfold direct_ops_finalize
            rw [hws]
            exact direct_wb_finalize_clean memory_ops c info i b hb hd
          · rw [if_neg hnb]
        · intro j bj hj hbj
          by_cases hji : j = i
          · subst hji
            rw [hb] at hbj
            cases hbj
            exact hd
          · exact hclean j bj (by omega) hbj
      · have hnb : b.addr ≠ NO_BLOCK := fun h => hd ((tagged_no_block hinv.2.1 hb).1 h)
        obtain ⟨hb0, -⟩ := (tagged_no_block hinv.2.1 hb).2 hnb
        obtain ⟨cells, e, hst⟩ := direct_wb_finalize_dirty c info i b hb hinv.1.2.2.2.2.1 hb0
          (hinv.1.2.2.2.1 b hbm) hd
        have hfin := e
        rw [← show (if b.addr ≠ NO_BLOCK then direct_ops_finalize memory_ops c info i
            else some (c, info)) = direct_cache_wb_finalize memory_ops c info i from by
          rw [if_pos hnb]
          unfold direct_ops_finalize
          rw [hws]] at hfin
        refine ⟨_, _, hfin, hws, wb_inv_finalize hinv hb hnb hst, by simp, ?_⟩
        intro j bj hj hbj
        rcases set_getElem?_cases _ _ _ _ _ hbj with ⟨-, rfl⟩ | ⟨hji, hbj'⟩
        · rfl
        · exact hclean j bj (by omega) hbj'
    obtain ⟨c1, info1, e1, hws1, hinv1, hlen1, hclean1⟩ := hstep
    obtain ⟨c', info', e', hinv', hlen', hclean'⟩ := ih (i + 1) c1 info1 hws1 hinv1 (by omega)
      hclean1
    refine ⟨c', info', ?_, hinv', by omega, fun j bj hj => hclean' j bj (by omega)⟩
    unfold direct_cache_flush_loop
    simp only [hb, e1]
    exact e'

theorem all_clean_memory {bs bc : Int} {blocks : List CacheBlock} {m : Memory}
    {last : Int → Option MemoryCell} (hinv : wb_inv bs bc blocks m last)
    (hclean : ∀ (j : Nat) (b : CacheBlock), j < blocks.length → blocks[j]? = some b →
      b.dirty = 0) :
    ∀ x v, last x = some v → m.mem[x.toNat]? = some v := by
  intro x v hx
  obtain ⟨-, -, -, hmem⟩ := hinv.2.2.2 x v hx
  apply hmem
  intro j bj hj _
  exact hclean j bj (lt_length_of_getElem? hj) hj

theorem direct_flush_spec (last : Int → Option MemoryCell) (c : DirectCache Memory)
    (info : StatisticsInfo) (hws : c.write_strategy = WriteStrategy.write_back)
    (hinv : wb_inv c.block_size c.block_count c.blocks c.mem last) :
    ∃ c' info', direct_cache_flush memory_ops c info = some (c', info') ∧
      ∀ x v, last x = some v → c'.mem.mem[x.toNat]? = some v := by
  have hlen := hinv.1.2.2.1
  obtain ⟨c1, info1, e, hinv1, hlen1, hclean⟩ := direct_flush_loop_spec last
    c.block_count.toNat 0 c info hws hinv (by omega) (fun j b hj => by omega)
  refine ⟨{ c1 with mem := c1.mem }, info1, ?_, ?_⟩
  · unfold direct_cache_flush
    rw [e]
    rfl
  · apply all_clean_memory hinv1
    intro j b hj hb
    exact hclean j b (by omega) hb

theorem run_ops_append {L : Type} (ops : AbstractMemoryOps L) (xs ys : List MemOp) :
    ∀ st : L × StatisticsInfo,
      run_ops ops (xs ++ ys) st = (run_ops ops xs st).bind (run_ops ops ys) := by
  induction xs with
  | nil => intro st; rfl
  | cons x rest ih =>
    intro st
    simp only [List.cons_append, run_ops]
    cases h : apply_op ops st x with
    | none => rfl
    | some st' => exact ih st'

theorem last_written_from_cons (last : Int → Option MemoryCell) (op : MemOp)
    (rest : List MemOp) :
    last_written_from last (op :: rest) =
      last_written_from (last_written_from last [op]) rest := by
  cases op <;> rfl

theorem direct_wb_run (ops : List MemOp) :
    ∀ (c : DirectCache Memory) (info : StatisticsInfo) (last : Int → Option MemoryCell),
      c.write_strategy = WriteStrategy.write_back →
      wb_inv c.block_size c.block_count c.blocks c.mem last →
      blocks_indexed c.block_size c.block_count c.blocks →
      (∀ op ∈ ops, op_ok c.block_size c.mem.memory_size op ∧ is_read_or_write op) →
      ∃ c' info', run_ops (direct_cache_ops memory_ops) ops (c, info) = some (c', info') ∧
        c'.write_strategy = WriteStrategy.write_back ∧
        wb_inv c'.block_size c'.block_count c'.blocks c'.mem (last_written_from last ops) := by
  induction ops with
  | nil =>
    intro c info last hws hinv _ _
    exact ⟨c, info, rfl, hws, hinv⟩
  | cons op rest ih =>
    intro c info last hws hinv hidx hok
    obtain ⟨hop, hrw⟩ := hok op (List.mem_cons_self _ _)
    obtain ⟨c1, info1, e, hws1, hbs1, hbc1, hms1, hinv1, hidx1⟩ := direct_wb_step c info op last
      hws hinv hidx hop hrw
    obtain ⟨c', info', e', hws', hinv'⟩ := ih c1 info1 (last_written_from last [op]) hws1 hinv1
      hidx1 (fun o ho => by rw [hbs1, hms1]; exact hok o (List.mem_cons_of_mem _ ho))
    refine ⟨c', info', ?_, hws', by rw [last_written_from_cons]; exact hinv'⟩
    simp only [run_ops, e]
    exact e'

theorem alloc_block_count (bs cs : Int) (hbs : 0 < bs) (hcs : 0 < cs)
    (hmod : Int.tmod cs bs = 0) :
    0 < Int.tdiv cs bs ∧ ((Int.tdiv cs bs).toNat : Int) = Int.tdiv cs bs := by
  rw [Int.tmod_eq_emod (le_of_lt hcs) (le_of_lt hbs)] at hmod
  rw [Int.tdiv_eq_ediv (le_of_lt hcs) (le_of_lt hbs)]
  have h1 := Int.ediv_add_emod cs bs
  rw [hmod] at h1
  have hq : 0 < cs / bs := by
    by_contra hle
    have : cs / bs ≤ 0 := by omega
    have : bs * (cs / bs) ≤ 0 := Int.mul_nonpos_of_nonneg_of_nonpos (le_of_lt hbs) this
    omega
  exact ⟨hq, by omega⟩

theorem fresh_blocks_inv (bs cs : Int) (m : Memory) (hbs : is_correct_block_size bs = true)
    (hcs : 0 < cs) (hmod : Int.tmod cs bs = 0) (hwf : m.wf)
    (hmax : m.memory_size ≤ MAX_MEM_SIZE) :
    wb_inv bs (Int.tdiv cs bs) (List.replicate (Int.tdiv cs bs).toNat (free_block bs)) m
      (fun _ => none) ∧
    blocks_indexed bs (Int.tdiv cs bs)
      (List.replicate (Int.tdiv cs bs).toNat (free_block bs)) := by
  have hbs' := block_size_pos hbs
  obtain ⟨hbc, hcast⟩ := alloc_block_count bs cs hbs' hcs hmod
  have hel : ∀ (i : Nat) (b : CacheBlock),
      (List.replicate (Int.tdiv cs bs).toNat (free_block bs))[i]? = some b →
      b = free_block bs := by
    intro i b hb
    exact List.eq_of_mem_replicate (mem_of_getElem? hb)
  refine ⟨⟨⟨hbs, hbc, by rw [List.length_replicate]; exact hcast, ?_, hwf, hmax⟩, ?_, ?_, ?_⟩,
    ?_⟩
  · intro b hb
    rw [List.eq_of_mem_replicate hb]
    show ((List.replicate bs.toNat _).length : Int) = bs
    rw [List.length_replicate]
    omega
  · intro b hb
    rw [List.eq_of_mem_replicate hb]
    exact Or.inl ⟨rfl, rfl⟩
  · intro i j b b' hi _ _ hnb
    rw [hel i b hi] at hnb
    exact absurd rfl hnb
  · intro x v hx
    cases hx
  · intro i b hb hnb
    rw [hel i b hb] at hnb
    exact absurd rfl hnb

theorem full_wb_step (c : FullCache Memory) (info : StatisticsInfo) (op : MemOp)
    (last : Int → Option MemoryCell) (hws : c.write_strategy = WriteStrategy.write_back)
    (hrnd : ∀ n, 0 ≤ c.rnd.raw n ∧ c.rnd.raw n ≤ RAND_MAX)
    (hinv : wb_inv c.block_size c.block_count c.blocks c.mem last)
    (hok : op_ok c.block_size c.mem.memory_size op) (hrw : is_read_or_write op) :
    ∃ c' info', apply_op (full_cache_ops memory_ops) (c, info) op = some (c', info') ∧
      c'.write_strategy = WriteStrategy.write_back ∧ c'.block_size = c.block_size ∧
      c'.block_count = c.block_count ∧ c'.mem.memory_size = c.mem.memory_size ∧
      c'.rnd.raw = c.rnd.raw ∧
      wb_inv c'.block_size c'.block_count c'.blocks c'.mem (last_written_from last [op]) := by
  have hp := hinv.1
  have hbs' := block_size_pos hp.1
  have hmax := hp.2.2.2.2.2
  have htag : ∀ b ∈ c.blocks, b.addr ≠ NO_BLOCK → b.dirty ≠ 0 → 0 ≤ b.addr := by
    intro b hb hnb _
    rcases hinv.2.1 b hb with ⟨h1, -⟩ | ⟨h1, -⟩
    · exact absurd h1 hnb
    · exact h1
  cases op with
  | flush => exact absurd hrw (by simp [is_read_or_write])
  | reveal a s src => exact absurd hrw (by simp [is_read_or_write])
  | read a s dst =>
    obtain ⟨hao, hdst⟩ := hok
    have h1 := access_int_max hao hmax
    obtain ⟨e1, e2, -, -, -, e6⟩ := aligned_offset a c.block_size hp.1 hao.1 h1
    rw [e1] at e2 e6
    obtain ⟨r, hfind, hhit, hmiss⟩ := full_read_spec c info a s dst hp htag (hrnd _) hao.1 h1
      (fun x hx => ⟨hao.2.1, hdst x hx, hao.2.2.2⟩)
    cases r with
    | some i =>
      obtain ⟨dst', e⟩ := hhit i rfl
      exact ⟨c, _, apply_op_read (full_cache_ops memory_ops) c info a s dst _ _ _ e,
        hws, rfl, rfl, rfl, rfl, hinv⟩
    | none =>
      obtain ⟨i, blocks1, cells1, info1, rnd1, dst', -, hplaced, hraw, -, e⟩ := hmiss rfl
      have hnr := (full_find_none_iff c _ hp.2.2.1).mp hfind
      rw [hws] at hplaced
      exact ⟨_, info1, apply_op_read (full_cache_ops memory_ops) c info a s dst _ _ _ e,
        hws, rfl, rfl, rfl, hraw, wb_inv_placed hinv hnr e2 e6 hplaced⟩
  | write a s src =>
    obtain ⟨hao, hsrc⟩ := hok
    have h1 := access_int_max hao hmax
    obtain ⟨e1, e2, -, -, -, e6⟩ := aligned_offset a c.block_size hp.1 hao.1 h1
    rw [e1] at e2 e6
    obtain ⟨r, hfind, hhit, hmiss⟩ := full_wb_write_spec c info a s src hp htag (hrnd _) hao.1
      h1 hao.2.1 hsrc hao.2.2.2
    have hap : apply_op (full_cache_ops memory_ops) (c, info) (MemOp.write a s src) =
        full_cache_wb_write memory_ops c info a s src :=
      congrFun (congrFun (congrFun (congrFun (full_ops_write_wb memory_ops c hws) info) a) s)
        src
    cases r with
    | some i =>
      obtain ⟨b, cellsB, hb, hba, hst, e⟩ := hhit i rfl
      exact ⟨_, _, hap.trans e, hws, rfl, rfl, rfl, rfl,
        wb_inv_block_store hinv hb hba hao hst⟩
    | none =>
      obtain ⟨i, blocks1, cells1, info1, rnd1, b1, cellsB, -, hplaced, hraw, -, hb1, hst, e⟩ :=
        hmiss rfl
      have hnr := (full_find_none_iff c _ hp.2.2.1).mp hfind
      obtain ⟨b1', hb1', hb1a, -, -⟩ := placed_block hplaced hp.2.2.2.1
      rw [hb1] at hb1'
      cases hb1'
      rw [hws] at hplaced
      have hinv1 := wb_inv_placed hinv hnr e2 e6 hplaced
      have hinv2 := wb_inv_block_store (m := { c.mem with mem := cells1 }) hinv1 hb1 hb1a hao hst
      exact ⟨_, info1, hap.trans e, hws, rfl, rfl, rfl, hraw, hinv2⟩

theorem full_wb_run (ops : List MemOp) :
    ∀ (c : FullCache Memory) (info : StatisticsInfo) (last : Int → Option MemoryCell),
      c.write_strategy = WriteStrategy.write_back →
      (∀ n, 0 ≤ c.rnd.raw n ∧ c.rnd.raw n ≤ RAND_MAX) →
      wb_inv c.block_size c.block_count c.blocks c.mem last →
      (∀ op ∈ ops, op_ok c.block_size c.mem.memory_size op ∧ is_read_or_write op) →
      ∃ c' info', run_ops (full_cache_ops memory_ops) ops (c, info) = some (c', info') ∧
        c'.write_strategy = WriteStrategy.write_back ∧
        wb_inv c'.block_size c'.block_count c'.blocks c'.mem (last_written_from last ops) := by
  induction ops with
  | nil =>
    intro c info last hws _ hinv _
    exact ⟨c, info, rfl, hws, hinv⟩
  | cons op rest ih =>
    intro c info last hws hrnd hinv hok
    obtain ⟨hop, hrw⟩ := hok op (List.mem_cons_self _ _)
    obtain ⟨c1, info1, e, hws1, hbs1, hbc1, hms1, hraw1, hinv1⟩ := full_wb_step c info op last
      hws hrnd hinv hop hrw
    obtain ⟨c', info', e', hws', hinv'⟩ := ih c1 info1 (last_written_from last [op]) hws1
      (by rw [hraw1]; exact hrnd) hinv1
      (fun o ho => by rw [hbs1, hms1]; exact hok o (List.mem_cons_of_mem _ ho))
    refine ⟨c', info', ?_, hws', by rw [last_written_from_cons]; exact hinv'⟩
    simp only [run_ops, e]
    exact e'

theorem full_flush_loop_spec (last : Int → Option MemoryCell) :
    ∀ (n i : Nat) (c : FullCache Memory) (info : StatisticsInfo),
      c.write_strategy = WriteStrategy.write_back →
      wb_inv c.block_size c.block_count c.blocks c.mem last →
      i + n ≤ c.blocks.length →
      (∀ (j : Nat) (b : CacheBlock), j < i → c.blocks[j]? = some b → b.dirty = 0) →
      ∃ c' info', full_cache_flush_loop memory_ops n i c info = some (c', info') ∧
        wb_inv c'.block_size c'.block_count c'.blocks c'.mem last ∧
        c'.blocks.length = c.blocks.length ∧
        (∀ (j : Nat) (b : CacheBlock), j < i + n → c'.blocks[j]? = some b → b.dirty = 0) := by
  intro n
  induction n with
  | zero =>
    intro i c info _ hinv _ hclean
    exact ⟨c, info, rfl, hinv, rfl, hclean⟩
  | succ n ih =>
    intro i c info hws hinv hlen hclean
    obtain ⟨b, hb, hbm⟩ := getElem?_of_lt_length c.blocks i (by omega)
    have hilt := lt_length_of_getElem? hb
    have hstep : ∃ c1 info1,
        (if b.addr ≠ NO_BLOCK then full_ops_finalize memory_ops c info i
          else some (c, info)) = some (c1, info1) ∧
        c1.write_strategy = WriteStrategy.write_back ∧
        wb_inv c1.block_size c1.block_count c1.blocks c1.mem last ∧
        c1.blocks.length = c.blocks.length ∧
        (∀ (j : Nat) (b : CacheBlock), j < i + 1 → c1.blocks[j]? = some b → b.dirty = 0) := by
      by_cases hd : b.dirty = 0
      · refine ⟨c, info, ?_, hws, hinv, rfl, ?_⟩
        · by_cases hnb : b.addr ≠ NO_BLOCK
          · rw [if_pos hnb]
            unfold full_ops_finalize
            rw [hws]
            exact full_wb_finalize_clean memory_ops c info i b hb hd
          · rw [if_neg hnb]
        · intro j bj hj hbj
          by_cases hji : j = i
          · subst hji
            rw [hb] at hbj
            cases hbj
            exact hd
          · exact hclean j bj (by omega) hbj
      · have hnb : b.addr ≠ NO_BLOCK := fun h => hd ((tagged_no_block hinv.2.1 hb).1 h)
        obtain ⟨hb0, -⟩ := (tagged_no_block hinv.2.1 hb).2 hnb
        obtain ⟨cells, e, hst⟩ := full_wb_finalize_dirty c info i b hb hinv.1.2.2.2.2.1 hb0
          (hinv.1.2.2.2.1 b hbm) hd
        have hfin := e
        rw [← show (if b.addr ≠ NO_BLOCK then full_ops_finalize memory_ops c info i
            else some (c, info)) = full_cache_wb_finalize memory_ops c info i from by
          rw [if_pos hnb]
          unfold full_ops_finalize
          rw [hws]] at hfin
        refine ⟨_, _, hfin, hws, wb_inv_finalize hinv hb hnb hst, by simp, ?_⟩
        intro j bj hj hbj
        rcases set_getElem?_cases _ _ _ _ _ hbj with ⟨-, rfl⟩ | ⟨hji, hbj'⟩
        · rfl
        · exact hclean j bj (by omega) hbj'
    obtain ⟨c1, info1, e1, hws1, hinv1, hlen1, hclean1⟩ := hstep
    obtain ⟨c', info', e', hinv', hlen', hclean'⟩ := ih (i + 1) c1 info1 hws1 hinv1 (by omega)
      hclean1
    refine ⟨c', info', ?_, hinv', by omega, fun j bj hj => hclean' j bj (by omega)⟩
    unfold full_cache_flush_loop
    simp only [hb, e1]
    exact e'

theorem full_flush_spec (last : Int → Option MemoryCell) (c : FullCache Memory)
    (info : StatisticsInfo) (hws : c.write_strategy = WriteStrategy.write_back)
    (hinv : wb_inv c.block_size c.block_count c.blocks c.mem last) :
    ∃ c' info', full_cache_flush memory_ops c info = some (c', info') ∧
      ∀ x v, last x = some v → c'.mem.mem[x.toNat]? = some v := by
  have hlen := hinv.1.2.2.1
  obtain ⟨c1, info1, e, hinv1, hlen1, hclean⟩ := full_flush_loop_spec last
    c.block_count.toNat 0 c info hws hinv (by omega) (fun j b hj => by omega)
  refine ⟨{ c1 with mem := c1.mem }, info1, ?_, ?_⟩
  · unfold full_cache_flush
    rw [e]
    rfl
  · apply all_clean_memory hinv1
    intro j b hj hb
    exact hclean j b (by omega) hb

theorem set_self {α : Type} (l : List α) (i : Nat) (x : α) (h : l[i]? = some x) :
    l.set i x = l := by
  apply List.ext_getElem?
  intro j
  rw [List.getElem?_set]
  split
  · rename_i hij
    subst hij
    split
    · exact h.symm
    · rename_i hlt
      exact absurd (lt_length_of_getElem? h) hlt
  · rfl

theorem written_back_clean (b : CacheBlock) (h : b.dirty = 0) : written_back b = b := by
  cases b
  simp only [written_back] at *
  simp only [h]

theorem countP_range_succ {α : Type} (p : α → Bool) (l : List α) (i n : Nat) (x : α)
    (h : l[i]? = some x) :
    ((l.drop i).take (n + 1)).countP p =
      (if p x = true then 1 else 0) + ((l.drop (i + 1)).take n).countP p := by
  have hlt := lt_length_of_getElem? h
  have hx : l[i] = x := by
    rw [List.getElem?_eq_getElem hlt] at h
    exact Option.some.inj h
  rw [List.drop_eq_getElem_cons hlt, List.take_succ_cons, List.countP_cons, hx]
  omega

/-- One iteration of the loop of `direct_cache_flush` under write-back over a
memory. -/
theorem direct_flush_iter (c : DirectCache Memory) (info : StatisticsInfo) (i : Nat)
    (b : CacheBlock) (hws : c.write_strategy = WriteStrategy.write_back)
    (hp : cache_params_ok c.block_size c.block_count c.blocks c.mem)
    (ht : blocks_tagged c.block_size c.blocks) (hb : c.blocks[i]? = some b) :
    ∃ c1 info1,
      (if b.addr ≠ NO_BLOCK then direct_ops_finalize memory_ops c info i
        else some (c, info)) = some (c1, info1) ∧
      c1.write_strategy = c.write_strategy ∧ c1.block_size = c.block_size ∧
      c1.block_count = c.block_count ∧ c1.blocks = c.blocks.set i (written_back b) ∧
      cache_params_ok c1.block_size c1.block_count c1.blocks c1.mem ∧
      blocks_tagged c1.block_size c1.blocks ∧
      info1.write_back_counter =
        info.write_back_counter + (if dirty_resident b = true then 1 else 0) := by
  have hbm := mem_of_getElem? hb
  by_cases hd : b.dirty = 0
  · refine ⟨c, info, ?_, rfl, rfl, rfl, ?_, hp, ht, ?_⟩
    · by_cases hnb : b.addr ≠ NO_BLOCK
      · rw [if_pos hnb]
        unfold direct_ops_finalize
        rw [hws]
        exact direct_wb_finalize_clean memory_ops c info i b hb hd
      · rw [if_neg hnb]
    · rw [written_back_clean b hd, set_self _ _ _ hb]
    · have : dirty_resident b = false := by simp [dirty_resident, hd]
      rw [this]
      simp
  · have hnb : b.addr ≠ NO_BLOCK := fun h => hd ((tagged_no_block ht hb).1 h)
    obtain ⟨hb0, hbal⟩ := (tagged_no_block ht hb).2 hnb
    obtain ⟨cells, e, hst⟩ := direct_wb_finalize_dirty c info i b hb hp.2.2.2.2.1 hb0
      (hp.2.2.2.1 b hbm) hd
    have hfin := e
    rw [← show (if b.addr ≠ NO_BLOCK then direct_ops_finalize memory_ops c info i
        else some (c, info)) = direct_cache_wb_finalize memory_ops c info i from by
      rw [if_pos hnb]
      unfold direct_ops_finalize
      rw [hws]] at hfin
    refine ⟨_, _, hfin, rfl, rfl, rfl, rfl, ?_, ?_, ?_⟩
    · obtain ⟨h1, h2, h3, h4, h5, h6⟩ := hp
      refine ⟨h1, h2, by simp only [List.length_set]; exact h3, ?_, ?_, h6⟩
      · intro x hx
        rcases List.mem_or_eq_of_mem_set hx with hx | hx
        · exact h4 x hx
        · rw [hx]
          exact h4 b hbm
      · exact ⟨by show (cells.length : Int) = _; rw [hst.1]; exact h5.1, h5.2⟩
    · intro x hx
      rcases List.mem_or_eq_of_mem_set hx with hx | hx
      · exact ht x hx
      · rw [hx]
        exact Or.inr ⟨hb0, hbal⟩
    · have : dirty_resident b = true := by simp [dirty_resident, hd, hnb]
      rw [this]
      simp

theorem direct_flush_loop_count :
    ∀ (n i : Nat) (c : DirectCache Memory) (info : StatisticsInfo),
      c.write_strategy = WriteStrategy.write_back →
      cache_params_ok c.block_size c.block_count c.blocks c.mem →
      blocks_tagged c.block_size c.blocks →
      i + n ≤ c.blocks.length →
      ∃ c' info', direct_cache_flush_loop memory_ops n i c info = some (c', info') ∧
        c'.write_strategy = c.write_strategy ∧ c'.block_size = c.block_size ∧
        c'.block_count = c.block_count ∧ c'.blocks.length = c.blocks.length ∧
        (∀ j : Nat, c'.blocks[j]? =
          (c.blocks[j]?).map (fun b => if i ≤ j ∧ j < i + n then written_back b else b)) ∧
        info'.write_back_counter =
          info.write_back_counter + (((c.blocks.drop i).take n).countP dirty_resident : Nat) := by
  intro n
  induction n with
  | zero =>
    intro i c info _ _ _ _
    refine ⟨c, info, rfl, rfl, rfl, rfl, rfl, ?_, by simp⟩
    intro j
    cases c.blocks[j]? with
    | none => rfl
    | some b =>
      have : ¬ (i ≤ j ∧ j < i + 0) := by omega
      simp only [Option.map_some', if_neg this]
  | succ n ih =>
    intro i c info hws hp ht hlen
    obtain ⟨b, hb, hbm⟩ := getElem?_of_lt_length c.blocks i (by omega)
    obtain ⟨c1, info1, e1, hws1, hbs1, hbc1, hbl1, hp1, ht1, hcnt1⟩ :=
      direct_flush_iter c info i b hws hp ht hb
    have hlen1 : c1.blocks.length = c.blocks.length := by rw [hbl1, List.length_set]
    obtain ⟨c', info', e', hws', hbs', hbc', hl', hpt', hcnt'⟩ := ih (i + 1) c1 info1
      (by rw [hws1]; exact hws) hp1 ht1 (by omega)
    refine ⟨c', info', ?_, by rw [hws', hws1], by rw [hbs', hbs1], by rw [hbc', hbc1],
      by omega, ?_, ?_⟩
    · unfold direct_cache_flush_loop
      simp only [hb, e1]
      exact e'
    · intro j
      rw [hpt' j, hbl1, List.getElem?_set]
      by_cases hij : i = j
      · subst hij
        have hlt := lt_length_of_getElem? hb
        have h1 : ¬ (i + 1 ≤ i ∧ i < i + 1 + n) := by omega
        have h2 : i ≤ i ∧ i < i + (n + 1) := by omega
        simp only [if_pos hlt, Option.map_some', if_neg h1, hb, if_pos h2, if_true]
      · rw [if_neg hij]
        cases c.blocks[j]? with
        | none => rfl
        | some x =>
          simp only [Option.map_some', Option.some.injEq]
          by_cases hr : i + 1 ≤ j ∧ j < i + 1 + n
          · rw [if_pos hr, if_pos (by omega)]
          · rw [if_neg hr, if_neg (by omega)]
    · rw [hcnt', hcnt1, countP_range_succ dirty_resident c.blocks i n b hb, hbl1,
        List.drop_set_of_lt _ _ (Nat.lt_succ_self i)]
      split <;> push_cast <;> ring

theorem direct_flush_count (c : DirectCache Memory) (info : StatisticsInfo)
    (hws : c.write_strategy = WriteStrategy.write_back)
    (hp : cache_params_ok c.block_size c.block_count c.blocks c.mem)
    (ht : blocks_tagged c.block_size c.blocks) :
    ∃ c' info', direct_cache_flush memory_ops c info = some (c', info') ∧
      c'.write_strategy = c.write_strategy ∧ c'.block_size = c.block_size ∧
      c'.block_count = c.block_count ∧ c'.blocks = c.blocks.map written_back ∧
      info'.write_back_counter =
        info.write_back_counter + (c.blocks.countP dirty_resident : Nat) := by
  have hlen := hp.2.2.1
  obtain ⟨c1, info1, e, hws1, hbs1, hbc1, hl1, hpt, hcnt⟩ := direct_flush_loop_count
    c.block_count.toNat 0 c info hws hp ht (by omega)
  refine ⟨{ c1 with mem := c1.mem }, info1, ?_, hws1, hbs1, hbc1, ?_, ?_⟩
  · unfold direct_cache_flush
    rw [e]
    rfl
  · show c1.blocks = _
    apply List.ext_getElem?
    intro j
    rw [hpt j, List.getElem?_map]
    cases hj : c.blocks[j]? with
    | none => rfl
    | some x =>
      have := lt_length_of_getElem? hj
      simp only [Option.map_some', Option.some.injEq]
      rw [if_pos (by omega)]
  · rw [hcnt]
    have : c.block_count.toNat = c.blocks.length := by omega
    rw [this, List.drop_zero, List.take_length]

theorem direct_flush_loop_noop {L : Type} (ops : AbstractMemoryOps L) :
    ∀ (n i : Nat) (c : DirectCache L) (info : StatisticsInfo),
      (c.write_strategy = WriteStrategy.write_back →
        ∀ b ∈ c.blocks, b.addr ≠ NO_BLOCK → b.dirty = 0) →
      i + n ≤ c.blocks.length →
      direct_cache_flush_loop ops n i c info = some (c, info) := by
  intro n
  induction n with
  | zero => intro i c info _ _; rfl
  | succ n ih =>
    intro i c info hclean hlen
    obtain ⟨b, hb, hbm⟩ := getElem?_of_lt_length c.blocks i (by omega)
    have e1 : (if b.addr ≠ NO_BLOCK then direct_ops_finalize ops c info i
        else some (c, info)) = some (c, info) := by
      by_cases hnb : b.addr ≠ NO_BLOCK
      · rw [if_pos hnb]
        unfold direct_ops_finalize
        cases hws : c.write_strategy with
        | write_through => rfl
        | write_back => exact direct_wb_finalize_clean ops c info i b hb (hclean hws b hbm hnb)
      · rw [if_neg hnb]
    unfold direct_cache_flush_loop
    simp only [hb, e1]
    exact ih (i + 1) c info hclean (by omega)

theorem direct_flush_noop {L : Type} (ops : AbstractMemoryOps L) (c : DirectCache L)
    (info : StatisticsInfo)
    (hflush : ops.flush c.mem info = some (c.mem, info))
    (hlen : (c.blocks.length : Int) = c.block_count)
    (hclean : c.write_strategy = WriteStrategy.write_back →
      ∀ b ∈ c.blocks, b.addr ≠ NO_BLOCK → b.dirty = 0) :
    direct_cache_flush ops c info = some (c, info) := by
  unfold direct_cache_flush
  rw [direct_flush_loop_noop ops c.block_count.toNat 0 c info hclean (by omega)]
  simp only [hflush]

/-- One iteration of the loop of `full_cache_flush` under write-back over a
memory. -/
theorem full_flush_iter (c : FullCache Memory) (info : StatisticsInfo) (i : Nat)
    (b : CacheBlock) (hws : c.write_strategy = WriteStrategy.write_back)
    (hp : cache_params_ok c.block_size c.block_count c.blocks c.mem)
    (ht : blocks_tagged c.block_size c.blocks) (hb : c.blocks[i]? = some b) :
    ∃ c1 info1,
      (if b.addr ≠ NO_BLOCK then full_ops_finalize memory_ops c info i
        else some (c, info)) = some (c1, info1) ∧
      c1.write_strategy = c.write_strategy ∧ c1.block_size = c.block_size ∧
      c1.block_count = c.block_count ∧ c1.blocks = c.blocks.set i (written_back b) ∧
      cache_params_ok c1.block_size c1.block_count c1.blocks c1.mem ∧
      blocks_tagged c1.block_size c1.blocks ∧
      info1.write_back_counter =
        info.write_back_counter + (if dirty_resident b = true then 1 else 0) := by
  have hbm := mem_of_getElem? hb
  by_cases hd : b.dirty = 0
  · refine ⟨c, info, ?_, rfl, rfl, rfl, ?_, hp, ht, ?_⟩
    · by_cases hnb : b.addr ≠ NO_BLOCK
      · rw [if_pos hnb]
        unfold full_ops_finalize
        rw [hws]
        exact full_wb_finalize_clean memory_ops c info i b hb hd
      · rw [if_neg hnb]
    · rw [written_back_clean b hd, set_self _ _ _ hb]
    · have : dirty_resident b = false := by simp [dirty_resident, hd]
      rw [this]
      simp
  · have hnb : b.addr ≠ NO_BLOCK := fun h => hd ((tagged_no_block ht hb).1 h)
    obtain ⟨hb0, hbal⟩ := (tagged_no_block ht hb).2 hnb
    obtain ⟨cells, e, hst⟩ := full_wb_finalize_dirty c info i b hb hp.2.2.2.2.1 hb0
      (hp.2.2.2.1 b hbm) hd
    have hfin := e
    rw [← show (if b.addr ≠ NO_BLOCK then full_ops_finalize memory_ops c info i
        else some (c, info)) = full_cache_wb_finalize memory_ops c info i from by
      rw [if_pos hnb]
      unfold full_ops_finalize
      rw [hws]] at hfin
    refine ⟨_, _, hfin, rfl, rfl, rfl, rfl, ?_, ?_, ?_⟩
    · obtain ⟨h1, h2, h3, h4, h5, h6⟩ := hp
      refine ⟨h1, h2, by simp only [List.length_set]; exact h3, ?_, ?_, h6⟩
      · intro x hx
        rcases List.mem_or_eq_of_mem_set hx with hx | hx
        · exact h4 x hx
        · rw [hx]
          exact h4 b hbm
      · exact ⟨by show (cells.length : Int) = _; rw [hst.1]; exact h5.1, h5.2⟩
    · intro x hx
      rcases List.mem_or_eq_of_mem_set hx with hx | hx
      · exact ht x hx
      · rw [hx]
        exact Or.inr ⟨hb0, hbal⟩
    · have : dirty_resident b = true := by simp [dirty_resident, hd, hnb]
      rw [this]
      simp

theorem full_flush_loop_count :
    ∀ (n i : Nat) (c : FullCache Memory) (info : StatisticsInfo),
      c.write_strategy = WriteStrategy.write_back →
      cache_params_ok c.block_size c.block_count c.blocks c.mem →
      blocks_tagged c.block_size c.blocks →
      i + n ≤ c.blocks.length →
      ∃ c' info', full_cache_flush_loop memory_ops n i c info = some (c', info') ∧
        c'.write_strategy = c.write_strategy ∧ c'.block_size = c.block_size ∧
        c'.block_count = c.block_count ∧ c'.blocks.length = c.blocks.length ∧
        (∀ j : Nat, c'.blocks[j]? =
          (c.blocks[j]?).map (fun b => if i ≤ j ∧ j < i + n then written_back b else b)) ∧
        info'.write_back_counter =
          info.write_back_counter + (((c.blocks.drop i).take n).countP dirty_resident : Nat) := by
  intro n
  induction n with
  | zero =>
    intro i c info _ _ _ _
    refine ⟨c, info, rfl, rfl, rfl, rfl, rfl, ?_, by simp⟩
    intro j
    cases c.blocks[j]? with
    | none => rfl
    | some b =>
      have : ¬ (i ≤ j ∧ j < i + 0) := by omega
      simp only [Option.map_some', if_neg this]
  | succ n ih =>
    intro i c info hws hp ht hlen
    obtain ⟨b, hb, hbm⟩ := getElem?_of_lt_length c.blocks i (by omega)
    obtain ⟨c1, info1, e1, hws1, hbs1, hbc1, hbl1, hp1, ht1, hcnt1⟩ :=
      full_flush_iter c info i b hws hp ht hb
    have hlen1 : c1.blocks.length = c.blocks.length := by rw [hbl1, List.length_set]
    obtain ⟨c', info', e', hws', hbs', hbc', hl', hpt', hcnt'⟩ := ih (i + 1) c1 info1
      (by rw [hws1]; exact hws) hp1 ht1 (by omega)
    refine ⟨c', info', ?_, by rw [hws', hws1], by rw [hbs', hbs1], by rw [hbc', hbc1],
      by omega, ?_, ?_⟩
    · unfold full_cache_flush_loop
      simp only [hb, e1]
      exact e'
    · intro j
      rw [hpt' j, hbl1, List.getElem?_set]
      by_cases hij : i = j
      · subst hij
        have hlt := lt_length_of_getElem? hb
        have h1 : ¬ (i + 1 ≤ i ∧ i < i + 1 + n) := by omega
        have h2 : i ≤ i ∧ i < i + (n + 1) := by omega
        simp only [if_pos hlt, Option.map_some', if_neg h1, hb, if_pos h2, if_true]
      · rw [if_neg hij]
        cases c.blocks[j]? with
        | none => rfl
        | some x =>
          simp only [Option.map_some', Option.some.injEq]
          by_cases hr : i + 1 ≤ j ∧ j < i + 1 + n
          · rw [if_pos hr, if_pos (by omega)]
          · rw [if_neg hr, if_neg (by omega)]
    · rw [hcnt', hcnt1, countP_range_succ dirty_resident c.blocks i n b hb, hbl1,
        List.drop_set_of_lt _ _ (Nat.lt_succ_self i)]
      split <;> push_cast <;> ring

theorem full_flush_count (c : FullCache Memory) (info : StatisticsInfo)
    (hws : c.write_strategy = WriteStrategy.write_back)
    (hp : cache_params_ok c.block_size c.block_count c.blocks c.mem)
    (ht : blocks_tagged c.block_size c.blocks) :
    ∃ c' info', full_cache_flush memory_ops c info = some (c', info') ∧
      c'.write_strategy = c.write_strategy ∧ c'.block_size = c.block_size ∧
      c'.block_count = c.block_count ∧ c'.blocks = c.blocks.map written_back ∧
      info'.write_back_counter =
        info.write_back_counter + (c.blocks.countP dirty_resident : Nat) := by
  have hlen := hp.2.2.1
  obtain ⟨c1, info1, e, hws1, hbs1, hbc1, hl1, hpt, hcnt⟩ := full_flush_loop_count
    c.block_count.toNat 0 c info hws hp ht (by omega)
  refine ⟨{ c1 with mem := c1.mem }, info1, ?_, hws1, hbs1, hbc1, ?_, ?_⟩
  · unfold full_cache_flush
    rw [e]
    rfl
  · show c1.blocks = _
    apply List.ext_getElem?
    intro j
    rw [hpt j, List.getElem?_map]
    cases hj : c.blocks[j]? with
    | none => rfl
    | some x =>
      have := lt_length_of_getElem? hj
      simp only [Option.map_some', Option.some.injEq]
      rw [if_pos (by omega)]
  · rw [hcnt]
    have : c.block_count.toNat = c.blocks.length := by omega
    rw [this, List.drop_zero, List.take_length]

theorem full_flush_loop_noop {L : Type} (ops : AbstractMemoryOps L) :
    ∀ (n i : Nat) (c : FullCache L) (info : StatisticsInfo),
      (c.write_strategy = WriteStrategy.write_back →
        ∀ b ∈ c.blocks, b.addr ≠ NO_BLOCK → b.dirty = 0) →
      i + n ≤ c.blocks.length →
      full_cache_flush_loop ops n i c info = some (c, info) := by
  intro n
  induction n with
  | zero => intro i c info _ _; rfl
  | succ n ih =>
    intro i c info hclean hlen
    obtain ⟨b, hb, hbm⟩ := getElem?_of_lt_length c.blocks i (by omega)
    have e1 : (if b.addr ≠ NO_BLOCK then full_ops_finalize ops c info i
        else some (c, info)) = some (c, info) := by
      by_cases hnb : b.addr ≠ NO_BLOCK
      · rw [if_pos hnb]
        unfold full_ops_finalize
        cases hws : c.write_strategy with
        | write_through => rfl
        | write_back => exact full_wb_finalize_clean ops c info i b hb (hclean hws b hbm hnb)
      · rw [if_neg hnb]
    unfold full_cache_flush_loop
    simp only [hb, e1]
    exact ih (i + 1) c info hclean (by omega)

theorem full_flush_noop {L : Type} (ops : AbstractMemoryOps L) (c : FullCache L)
    (info : StatisticsInfo)
    (hflush : ops.flush c.mem info = some (c.mem, info))
    (hlen : (c.blocks.length : Int) = c.block_count)
    (hclean : c.write_strategy = WriteStrategy.write_back →
      ∀ b ∈ c.blocks, b.addr ≠ NO_BLOCK → b.dirty = 0) :
    full_cache_flush ops c info = some (c, info) := by
  unfold full_cache_flush
  rw [full_flush_loop_noop ops c.block_count.toNat 0 c info hclean (by omega)]
  simp only [hflush]

theorem direct_find_fresh {L : Type} (c : DirectCache L) (a : Int) (hbs : 0 < c.block_size)
    (hbc : 0 < c.block_count) (hlen : (c.blocks.length : Int) = c.block_count) (ha : 0 ≤ a)
    (hfree : ∀ b ∈ c.blocks, b.addr = NO_BLOCK) : direct_cache_find c a = some none := by
  obtain ⟨r, hr, hhit, -⟩ := direct_find_lookup c a hbs hbc hlen ha
  cases r with
  | none => exact hr
  | some i =>
    obtain ⟨-, b, hb, hba⟩ := hhit i rfl
    have := hfree b (mem_of_getElem? hb)
    rw [hba] at this
    rw [this] at ha
    exact absurd ha (by decide)

theorem run_ops_two {L : Type} (ops : AbstractMemoryOps L) (a b : MemOp)
    (st st1 st2 : L × StatisticsInfo) (h1 : apply_op ops st a = some st1)
    (h2 : apply_op ops st1 b = some st2) : run_ops ops [a, b] st = some st2 := by
  simp only [run_ops, h1, h2]

theorem direct_wt_write_fresh (c : DirectCache Memory) (info : StatisticsInfo) (addr size : Int)
    (src : List MemoryCell) (hws : c.write_strategy = WriteStrategy.write_through)
    (hp : cache_params_ok c.block_size c.block_count c.blocks c.mem)
    (hfree : ∀ b ∈ c.blocks, b.addr = NO_BLOCK)
    (h0 : 0 ≤ addr) (h1 : addr ≤ INT_MAX) (hs : 0 ≤ size) (hsrc : size ≤ src.length)
    (hin : addr % c.block_size + size ≤ c.block_size) :
    ∃ c' info', apply_op (direct_cache_ops memory_ops) (c, info) (MemOp.write addr size src) =
        some (c', info') ∧
      c'.write_strategy = c.write_strategy ∧ c'.blocks = c.blocks ∧
      c'.block_size = c.block_size ∧ c'.block_count = c.block_count ∧
      cache_params_ok c'.block_size c'.block_count c'.blocks c'.mem ∧
      info'.hit_counter = info.hit_counter := by
  obtain ⟨r, blocks', cells', hf, e, hst, hm⟩ := direct_wt_write_spec c info addr size src hp h0
    h1 hs hsrc hin
  obtain ⟨e1, e2, -⟩ := aligned_offset addr c.block_size hp.1 h0 h1
  rw [e1] at e2
  have hr : r = none := Option.some.inj (hf.symm.trans
    (direct_find_fresh c _ (block_size_pos hp.1) hp.2.1 hp.2.2.1 e2 hfree))
  subst hr
  have hb : blocks' = c.blocks := hm
  subst hb
  have hap : apply_op (direct_cache_ops memory_ops) (c, info) (MemOp.write addr size src) =
      direct_cache_wt_write memory_ops c info addr size src :=
    congrFun (congrFun (congrFun (congrFun (direct_ops_write_wt memory_ops c hws) info) addr)
      size) src
  refine ⟨_, _, hap.trans e, rfl, rfl, rfl, rfl, ?_, rfl⟩
  obtain ⟨p1, p2, p3, p4, p5, p6⟩ := hp
  exact ⟨p1, p2, p3, p4, ⟨by
    show (cells'.length : Int) = c.mem.memory_size
    rw [hst.1]
    exact p5.1, p5.2⟩, p6⟩

theorem get_int_code (cfg : ConfigFile) (name : String) (p : Int) :
    (config_file_get_int cfg name p).1 = 0 ∨ (config_file_get_int cfg name p).1 = -1 ∨
    (config_file_get_int cfg name p).1 = 1 := by
  unfold config_file_get_int
  split
  · exact Or.inl rfl
  · simp only []
    split
    · exact Or.inr (Or.inl rfl)
    · exact Or.inr (Or.inr rfl)

theorem create_cache_params_some (cfg : ConfigFile) (var_pfx : Option String)
    (p : Int × Int × Int × Int) :
    create_cache_params cfg var_pfx = some p ↔
      cache_params_valid cfg var_pfx ∧
      p = ((config_file_get_int cfg (make_param_name PARAM_BUF_SIZE var_pfx "block_size") 0).2,
        (config_file_get_int cfg (make_param_name PARAM_BUF_SIZE var_pfx "cache_size") 0).2,
        (config_file_get_int cfg
          (make_param_name PARAM_BUF_SIZE var_pfx "cache_read_time") 0).2,
        (config_file_get_int cfg
          (make_param_name PARAM_BUF_SIZE var_pfx "cache_write_time") 0).2) := by
  unfold create_cache_params cache_params_valid
  have h1 := get_int_code cfg (make_param_name PARAM_BUF_SIZE var_pfx "block_size") 0
  have h2 := get_int_code cfg (make_param_name PARAM_BUF_SIZE var_pfx "cache_size") 0
  have h3 := get_int_code cfg (make_param_name PARAM_BUF_SIZE var_pfx "cache_read_time") 0
  have h4 := get_int_code cfg (make_param_name PARAM_BUF_SIZE var_pfx "cache_write_time") 0
  generalize config_file_get_int cfg (make_param_name PARAM_BUF_SIZE var_pfx "block_size") 0
    = rb at *
  generalize config_file_get_int cfg (make_param_name PARAM_BUF_SIZE var_pfx "cache_size") 0
    = rc at *
  generalize config_file_get_int cfg
    (make_param_name PARAM_BUF_SIZE var_pfx "cache_read_time") 0 = rr at *
  generalize config_file_get_int cfg
    (make_param_name PARAM_BUF_SIZE var_pfx "cache_write_time") 0 = rw at *
  simp only []
  have hbs : is_correct_block_size rb.2 = false ↔ ¬ (rb.2 = 16 ∨ rb.2 = 32 ∨ rb.2 = 64) := by
    simp [is_correct_block_size, and_assoc]
  have hmax : MAX_CACHE_SIZE = 16 * 1024 * 1024 := by decide
  have hrt : MAX_READ_TIME = 100000 := rfl
  have hwt : MAX_WRITE_TIME = 100000 := rfl
  rw [hmax, hrt, hwt]
  by_cases c1 : rb.1 = 0
  · rw [if_pos c1]
    constructor
    · intro h; cases h
    · rintro ⟨⟨h, -⟩, -⟩; omega
  rw [if_neg c1]
  by_cases c2 : rb.1 < 0 ∨ is_correct_block_size rb.2 = false
  · rw [if_pos c2]
    constructor
    · intro h; cases h
    · rintro ⟨⟨h, hb, -⟩, -⟩
      rcases c2 with c2 | c2
      · omega
      · exact absurd hb (hbs.mp c2)
  rw [if_neg c2]
  have hb : rb.2 = 16 ∨ rb.2 = 32 ∨ rb.2 = 64 := by
    by_contra hn
    exact c2 (Or.inr (hbs.mpr hn))
  have hb1 : rb.1 = 1 := by omega
  by_cases c3 : rc.1 = 0
  · rw [if_pos c3]
    constructor
    · intro h; cases h
    · rintro ⟨⟨-, -, h, -⟩, -⟩; omega
  rw [if_neg c3]
  have hmod : 0 < rc.2 → (Int.tmod rc.2 rb.2 = 0 ↔ rc.2 % rb.2 = 0) := by
    intro hpos
    rw [Int.tmod_eq_emod (le_of_lt hpos) (by omega)]
  by_cases c4 : rc.1 < 0 ∨ rc.2 ≤ 0 ∨ rc.2 > 16 * 1024 * 1024 ∨ Int.tmod rc.2 rb.2 ≠ 0
  · rw [if_pos c4]
    constructor
    · intro h; cases h
    · rintro ⟨⟨-, -, h, hpos, hle, hm, -⟩, -⟩
      rcases c4 with c4 | c4 | c4 | c4
      · omega
      · omega
      · omega
      · exact absurd ((hmod hpos).mpr hm) c4
  rw [if_neg c4]
  have hc1 : rc.1 = 1 := by omega
  have hcpos : 0 < rc.2 := by
    by_contra hn
    exact c4 (Or.inr (Or.inl (by omega)))
  have hcle : rc.2 ≤ 16 * 1024 * 1024 := by
    by_contra hn
    exact c4 (Or.inr (Or.inr (Or.inl (by omega))))
  have hcm : rc.2 % rb.2 = 0 := by
    apply (hmod hcpos).mp
    by_contra hn
    exact c4 (Or.inr (Or.inr (Or.inr hn)))
  by_cases c5 : rr.1 = 0
  · rw [if_pos c5]
    constructor
    · intro h; cases h
    · rintro ⟨⟨-, -, -, -, -, -, h, -⟩, -⟩; omega
  rw [if_neg c5]
  by_cases c6 : rr.1 < 0 ∨ rr.2 ≤ 0 ∨ rr.2 > 100000
  · rw [if_pos c6]
    constructor
    · intro h; cases h
    · rintro ⟨⟨-, -, -, -, -, -, h, h', h'', -⟩, -⟩; omega
  rw [if_neg c6]
  by_cases c7 : rw.1 = 0
  · rw [if_pos c7]
    constructor
    · intro h; cases h
    · rintro ⟨⟨-, -, -, -, -, -, -, -, -, h, -⟩, -⟩; omega
  rw [if_neg c7]
  by_cases c8 : rw.1 < 0 ∨ rw.2 ≤ 0 ∨ rw.2 > 100000
  · rw [if_pos c8]
    constructor
    · intro h; cases h
    · rintro ⟨⟨-, -, -, -, -, -, -, -, -, h, h', h''⟩, -⟩; omega
  rw [if_neg c8]
  constructor
  · intro h
    refine ⟨⟨hb1, hb, hc1, hcpos, hcle, hcm, by omega, by omega, by omega, by omega, by omega,
      by omega⟩, ?_⟩
    exact (Option.some.inj h).symm
  · rintro ⟨-, h⟩
    rw [h]

theorem create_write_strategy_some (cfg : ConfigFile) (var_pfx : Option String)
    (info : StatisticsInfo) :
    (create_write_strategy cfg var_pfx info).isSome = true ↔
      write_strategy_valid cfg var_pfx := by
  unfold create_write_strategy write_strategy_valid
  cases config_file_get cfg (make_param_name PARAM_BUF_SIZE var_pfx "write_strategy") with
  | none => simp
  | some s =>
    simp only []
    by_cases h1 : s = "write-through"
    · simp [h1]
    · by_cases h2 : s = "write-back"
      · simp [h1, h2]
      · simp [h1, h2]

theorem memory_create_some (cfg : ConfigFile) (var_pfx : Option String) (m : Memory) :
    memory_create cfg var_pfx = some m ↔
      memory_params_valid cfg var_pfx MAX_MEM_SIZE ∧
      m = { mem := List.replicate
              (config_file_get_int cfg
                (make_param_name PARAM_BUF_SIZE var_pfx "memory_size") 0).2.toNat
              { value := 0, flags := 0 },
            memory_size := (config_file_get_int cfg
              (make_param_name PARAM_BUF_SIZE var_pfx "memory_size") 0).2,
            memory_read_time := (config_file_get_int cfg
              (make_param_name PARAM_BUF_SIZE var_pfx "memory_read_time") 0).2,
            memory_write_time := (config_file_get_int cfg
              (make_param_name PARAM_BUF_SIZE var_pfx "memory_write_time") 0).2,
            memory_width := (config_file_get_int cfg
              (make_param_name PARAM_BUF_SIZE var_pfx "memory_width") 0).2 } := by
  unfold memory_create memory_params_valid
  have h1 := get_int_code cfg (make_param_name PARAM_BUF_SIZE var_pfx "memory_size") 0
  have h2 := get_int_code cfg (make_param_name PARAM_BUF_SIZE var_pfx "memory_read_time") 0
  have h3 := get_int_code cfg (make_param_name PARAM_BUF_SIZE var_pfx "memory_write_time") 0
  have h4 := get_int_code cfg (make_param_name PARAM_BUF_SIZE var_pfx "memory_width") 0
  generalize config_file_get_int cfg (make_param_name PARAM_BUF_SIZE var_pfx "memory_size") 0
    = rs at *
  generalize config_file_get_int cfg
    (make_param_name PARAM_BUF_SIZE var_pfx "memory_read_time") 0 = rr at *
  generalize config_file_get_int cfg
    (make_param_name PARAM_BUF_SIZE var_pfx "memory_write_time") 0 = rw at *
  generalize config_file_get_int cfg (make_param_name PARAM_BUF_SIZE var_pfx "memory_width") 0
    = rd at *
  simp only []
  have hmax : MAX_MEM_SIZE = 1024 * 1024 * 1024 := by decide
  have hk : KiB = 1024 := rfl
  rw [hmax, hk]
  by_cases c1 : rs.1 = 0
  · rw [if_pos c1]
    constructor
    · intro h; cases h
    · rintro ⟨⟨h, -⟩, -⟩; omega
  rw [if_neg c1]
  have hmod : 0 < rs.2 → (Int.tmod rs.2 1024 = 0 ↔ rs.2 % 1024 = 0) := by
    intro hpos
    rw [Int.tmod_eq_emod (le_of_lt hpos) (by decide)]
  by_cases c2 : rs.1 < 0 ∨ rs.2 ≤ 0 ∨ rs.2 > 1024 * 1024 * 1024 ∨ Int.tmod rs.2 1024 ≠ 0
  · rw [if_pos c2]
    constructor
    · intro h; cases h
    · rintro ⟨⟨h, hpos, hle, hm, -⟩, -⟩
      rcases c2 with c2 | c2 | c2 | c2
      · omega
      · omega
      · omega
      · exact absurd ((hmod hpos).mpr hm) c2
  rw [if_neg c2]
  have hs1 : rs.1 = 1 := by omega
  have hspos : 0 < rs.2 := by
    by_contra hn
    exact c2 (Or.inr (Or.inl (by omega)))
  have hsle : rs.2 ≤ 1024 * 1024 * 1024 := by
    by_contra hn
    exact c2 (Or.inr (Or.inr (Or.inl (by omega))))
  have hsm : rs.2 % 1024 = 0 := by
    apply (hmod hspos).mp
    by_contra hn
    exact c2 (Or.inr (Or.inr (Or.inr hn)))
  by_cases c3 : rr.1 = 0
  · rw [if_pos c3]
    constructor
    · intro h; cases h
    · rintro ⟨⟨-, -, -, -, h, -⟩, -⟩; omega
  rw [if_neg c3]
  by_cases c4 : rr.1 < 0 ∨ rr.2 ≤ 0
  · rw [if_pos c4]
    constructor
    · intro h; cases h
    · rintro ⟨⟨-, -, -, -, h, h', -⟩, -⟩; omega
  rw [if_neg c4]
  by_cases c5 : rw.1 = 0
  · rw [if_pos c5]
    constructor
    · intro h; cases h
    · rintro ⟨⟨-, -, -, -, -, -, h, -⟩, -⟩; omega
  rw [if_neg c5]
  by_cases c6 : rw.1 < 0 ∨ rw.2 ≤ 0
  · rw [if_pos c6]
    constructor
    · intro h; cases h
    · rintro ⟨⟨-, -, -, -, -, -, h, h', -⟩, -⟩; omega
  rw [if_neg c6]
  by_cases c7 : rd.1 = 0
  · rw [if_pos c7]
    constructor
    · intro h; cases h
    · rintro ⟨⟨-, -, -, -, -, -, -, -, h, -⟩, -⟩; omega
  rw [if_neg c7]
  by_cases c8 : rd.1 < 0 ∨ rd.2 ≤ 0 ∨ rd.2 > 1024 * 1024 * 1024
  · rw [if_pos c8]
    constructor
    · intro h; cases h
    · rintro ⟨⟨-, -, -, -, -, -, -, -, h, h', h''⟩, -⟩; omega
  rw [if_neg c8]
  constructor
  · intro h
    refine ⟨⟨hs1, hspos, hsle, hsm, by omega, by omega, by omega, by omega, by omega,
      by omega, by omega⟩, ?_⟩
    exact (Option.some.inj h).symm
  · rintro ⟨-, h⟩
    rw [h]

theorem same_access_refl (info : StatisticsInfo) : same_access info info := ⟨rfl, rfl⟩

theorem same_access_trans {a b c : StatisticsInfo} (h1 : same_access a b)
    (h2 : same_access b c) : same_access a c :=
  ⟨h2.1.trans h1.1, h2.2.trans h1.2⟩

theorem memory_keeps_access : keeps_access_counters memory_ops := by
  refine ⟨?_, ?_, ?_, ?_⟩
  · intro m info a s d r h
    change memory_read m info a s d = some r at h
    unfold memory_read at h
    split at h
    · cases h
    · simp only [] at h
      split at h
      · cases h
        exact ⟨rfl, rfl⟩
      · split at h
        · cases h
        · cases h
          exact ⟨rfl, rfl⟩
  · intro m info a s src r h
    change memory_write m info a s src = some r at h
    unfold memory_write at h
    split at h
    · cases h
    · simp only [] at h
      split at h
      · cases h
      · cases h
        exact ⟨rfl, rfl⟩
  · intro m info a s src r h
    change memory_reveal m info a s src = some r at h
    unfold memory_reveal at h
    split at h
    · cases h
    · cases h
      exact ⟨rfl, rfl⟩
  · intro m info r h
    cases h
    exact ⟨rfl, rfl⟩

theorem direct_finalize_access {L : Type} {ops : AbstractMemoryOps L}
    (hk : keeps_access_counters ops) {c c1 : DirectCache L} {info info1 : StatisticsInfo}
    {i : Nat} (h : direct_ops_finalize ops c info i = some (c1, info1)) :
    same_access info info1 := by
  unfold direct_ops_finalize at h
  split at h
  · cases h
    exact ⟨rfl, rfl⟩
  · unfold direct_cache_wb_finalize at h
    split at h
    · cases h
    · split at h
      · simp only [] at h
        split at h
        · cases h
        · rename_i lower info2 hw
          cases h
          exact same_access_trans ⟨rfl, rfl⟩ (hk.2.1 _ _ _ _ _ _ hw)
      · cases h
        exact ⟨rfl, rfl⟩

theorem direct_place_access {L : Type} {ops : AbstractMemoryOps L}
    (hk : keeps_access_counters ops) {c c1 : DirectCache L} {info info1 : StatisticsInfo}
    {a : Int} {i : Nat} (h : direct_cache_place ops c info a = some (c1, info1, i)) :
    same_access info info1 := by
  unfold direct_cache_place at h
  split at h
  · cases h
  · simp only [] at h
    split at h
    · cases h
    · split at h
      · cases h
      · rename_i c2 info2 hfin
        have hacc : same_access info info2 := by
          split at hfin
          · exact direct_finalize_access hk hfin
          · cases hfin
            exact ⟨rfl, rfl⟩
        split at h
        · cases h
        · split at h
          · cases h
          · rename_i lower info3 d hr
            cases h
            exact same_access_trans hacc (hk.1 _ _ _ _ _ _ hr)

theorem direct_keeps_access {L : Type} (ops : AbstractMemoryOps L)
    (hk : keeps_access_counters ops) : keeps_access_counters (direct_cache_ops ops) := by
  have hread : ∀ (c : DirectCache L) info a s d r,
      direct_cache_read ops c info a s d = some r → same_access info r.2.1 := by
    intro c info a s d r h
    unfold direct_cache_read at h
    simp only [] at h
    split at h
    · cases h
    · rename_i found hfind
      split at h
      · cases h
      · rename_i c1 info1 i hplace
        have hacc : same_access info info1 := by
          split at hplace
          · cases hplace
            exact ⟨rfl, rfl⟩
          · have h0 : same_access info (statistics_add_counter info c.cache_read_time) :=
              ⟨rfl, rfl⟩
            exact same_access_trans h0 (direct_place_access hk hplace)
        split at h
        · cases h
          exact hacc
        · split at h
          · cases h
          · split at h
            · cases h
            · cases h
              exact hacc
  have hwt : ∀ (c : DirectCache L) info a s src r,
      direct_cache_wt_write ops c info a s src = some r → same_access info r.2 := by
    intro c info a s src r h
    unfold direct_cache_wt_write at h
    simp only [] at h
    split at h
    · cases h
    · split at h
      · cases h
      · split at h
        · cases h
        · rename_i lower info1 hw
          cases h
          exact same_access_trans ⟨rfl, rfl⟩ (hk.2.1 _ _ _ _ _ _ hw)
  have hwb : ∀ (c : DirectCache L) info a s src r,
      direct_cache_wb_write ops c info a s src = some r → same_access info r.2 := by
    intro c info a s src r h
    unfold direct_cache_wb_write at h
    simp only [] at h
    split at h
    · cases h
    · split at h
      · cases h
      · rename_i c1 info1 i hplace
        have hacc : same_access info info1 := by
          split at hplace
          · cases hplace
            exact ⟨rfl, rfl⟩
          · have h0 : same_access info (statistics_add_counter info c.cache_write_time) :=
              ⟨rfl, rfl⟩
            exact same_access_trans h0 (direct_place_access hk hplace)
        split at h
        · cases h
        · split at h
          · cases h
          · cases h
            exact hacc
  refine ⟨hread, ?_, ?_, ?_⟩
  · intro c info a s src r h
    cases hws : c.write_strategy with
    | write_through =>
      rw [direct_ops_write_wt ops c hws] at h
      exact hwt _ _ _ _ _ _ h
    | write_back =>
      rw [direct_ops_write_wb ops c hws] at h
      exact hwb _ _ _ _ _ _ h
  · intro c info a s src r h
    change direct_cache_reveal ops c info a s src = some r at h
    unfold direct_cache_reveal at h
    simp only [] at h
    split at h
    · cases h
    · split at h
      · cases h
      · split at h
        · cases h
        · rename_i lower info1 hw
          cases h
          exact hk.2.2.1 _ _ _ _ _ _ hw
  · intro c info r h
    change direct_cache_flush ops c info = some r at h
    unfold direct_cache_flush at h
    split at h
    · cases h
    · rename_i c1 info1 hloop
      have hl : ∀ (n i : Nat) (c : DirectCache L) (info : StatisticsInfo) c1 info1,
          direct_cache_flush_loop ops n i c info = some (c1, info1) →
          same_access info info1 := by
        intro n
        induction n with
        | zero =>
          intro i c info c1 info1 h
          cases h
          exact ⟨rfl, rfl⟩
        | succ n ih =>
          intro i c info c1 info1 h
          unfold direct_cache_flush_loop at h
          split at h
          · cases h
          · split at h
            · cases h
            · rename_i c2 info2 hfin
              have hacc : same_access info info2 := by
                split at hfin
                · exact direct_finalize_access hk hfin
                · cases hfin
                  exact ⟨rfl, rfl⟩
              exact same_access_trans hacc (ih _ _ _ _ _ h)
      split at h
      · cases h
      · rename_i lower info2 hf
        cases h
        exact same_access_trans (hl _ _ _ _ _ _ hloop) (hk.2.2.2 _ _ _ hf)

theorem full_finalize_access {L : Type} {ops : AbstractMemoryOps L}
    (hk : keeps_access_counters ops) {c c1 : FullCache L} {info info1 : StatisticsInfo}
    {i : Nat} (h : full_ops_finalize ops c info i = some (c1, info1)) :
    same_access info info1 := by
  unfold full_ops_finalize at h
  split at h
  · cases h
    exact ⟨rfl, rfl⟩
  · unfold full_cache_wb_finalize at h
    split at h
    · cases h
    · split at h
      · simp only [] at h
        split at h
        · cases h
        · rename_i lower info2 hw
          cases h
          exact same_access_trans ⟨rfl, rfl⟩ (hk.2.1 _ _ _ _ _ _ hw)
      · cases h
        exact ⟨rfl, rfl⟩

theorem full_place_access {L : Type} {ops : AbstractMemoryOps L}
    (hk : keeps_access_counters ops) {c c1 : FullCache L} {info info1 : StatisticsInfo}
    {a : Int} {i : Nat} (h : full_cache_random_place ops c info a = some (c1, info1, i)) :
    same_access info info1 := by
  unfold full_cache_random_place at h
  split at h
  · cases h
  · split at h
    · cases h
    · rename_i c2 info2 i2 hsel
      have hacc : same_access info info2 := by
        split at hsel
        · cases hsel
          exact ⟨rfl, rfl⟩
        · simp only [] at hsel
          split at hsel
          · cases hsel
          · split at hsel
            · cases hsel
            · rename_i c3 info3 hfin
              cases hsel
              exact full_finalize_access hk hfin
      split at h
      · cases h
      · split at h
        · cases h
        · rename_i lower info3 d hr
          cases h
          exact same_access_trans hacc (hk.1 _ _ _ _ _ _ hr)

theorem full_keeps_access {L : Type} (ops : AbstractMemoryOps L)
    (hk : keeps_access_counters ops) : keeps_access_counters (full_cache_ops ops) := by
  have hread : ∀ (c : FullCache L) info a s d r,
      full_cache_read ops c info a s d = some r → same_access info r.2.1 := by
    intro c info a s d r h
    unfold full_cache_read at h
    simp only [] at h
    split at h
    · cases h
    · rename_i found hfind
      split at h
      · cases h
      · rename_i c1 info1 i hplace
        have hacc : same_access info info1 := by
          split at hplace
          · cases hplace
            exact ⟨rfl, rfl⟩
          · have h0 : same_access info (statistics_add_counter info c.cache_read_time) :=
              ⟨rfl, rfl⟩
            exact same_access_trans h0 (full_place_access hk hplace)
        split at h
        · cases h
          exact hacc
        · split at h
          · cases h
          · split at h
            · cases h
            · cases h
              exact hacc
  have hwt : ∀ (c : FullCache L) info a s src r,
      full_cache_wt_write ops c info a s src = some r → same_access info r.2 := by
    intro c info a s src r h
    unfold full_cache_wt_write at h
    simp only [] at h
    split at h
    · cases h
    · split at h
      · cases h
      · split at h
        · cases h
        · rename_i lower info1 hw
          cases h
          exact same_access_trans ⟨rfl, rfl⟩ (hk.2.1 _ _ _ _ _ _ hw)
  have hwb : ∀ (c : FullCache L) info a s src r,
      full_cache_wb_write ops c info a s src = some r → same_access info r.2 := by
    intro c info a s src r h
    unfold full_cache_wb_write at h
    simp only [] at h
    split at h
    · cases h
    · split at h
      · cases h
      · rename_i c1 info1 i hplace
        have hacc : same_access info info1 := by
          split at hplace
          · cases hplace
            exact ⟨rfl, rfl⟩
          · have h0 : same_access info (statistics_add_counter info c.cache_write_time) :=
              ⟨rfl, rfl⟩
            exact same_access_trans h0 (full_place_access hk hplace)
        split at h
        · cases h
        · split at h
          · cases h
          · cases h
            exact hacc
  refine ⟨hread, ?_, ?_, ?_⟩
  · intro c info a s src r h
    cases hws : c.write_strategy with
    | write_through =>
      rw [full_ops_write_wt ops c hws] at h
      exact hwt _ _ _ _ _ _ h
    | write_back =>
      rw [full_ops_write_wb ops c hws] at h
      exact hwb _ _ _ _ _ _ h
  · intro c info a s src r h
    change full_cache_reveal ops c info a s src = some r at h
    unfold full_cache_reveal at h
    simp only [] at h
    split at h
    · cases h
    · split at h
      · cases h
      · split at h
        · cases h
        · rename_i lower info1 hw
          cases h
          exact hk.2.2.1 _ _ _ _ _ _ hw
  · intro c info r h
    change full_cache_flush ops c info = some r at h
    unfold full_cache_flush at h
    split at h
    · cases h
    · rename_i c1 info1 hloop
      have hl : ∀ (n i : Nat) (c : FullCache L) (info : StatisticsInfo) c1 info1,
          full_cache_flush_loop ops n i c info = some (c1, info1) →
          same_access info info1 := by
        intro n
        induction n with
        | zero =>
          intro i c info c1 info1 h
          cases h
          exact ⟨rfl, rfl⟩
        | succ n ih =>
          intro i c info c1 info1 h
          unfold full_cache_flush_loop at h
          split at h
          · cases h
          · split at h
            · cases h
            · rename_i c2 info2 hfin
              have hacc : same_access info info2 := by
                split at hfin
                · exact full_finalize_access hk hfin
                · cases hfin
                  exact ⟨rfl, rfl⟩
              exact same_access_trans hacc (ih _ _ _ _ _ h)
      split at h
      · cases h
      · rename_i lower info2 hf
        cases h
        exact same_access_trans (hl _ _ _ _ _ _ hloop) (hk.2.2.2 _ _ _ hf)

theorem main_scan_spec : ∀ (args : List String) (f : MainFlags),
    ((∃ a ∈ args, is_dashed a = true ∧ a ∉ known_flags) → main_scan_args args f = none) ∧
    ∀ g, main_scan_args args f = some g →
      g.fnames_count = f.fnames_count + (args.countP (fun a => !is_dashed a) : Nat) ∧
      (f.print_config = true ∨ "--print-config" ∈ args → g.print_config = true) ∧
      (f.statistics = true ∨ "--statistics" ∈ args → g.statistics = true) ∧
      (f.disable_cache = true ∨ "--disable-cache" ∈ args → g.disable_cache = true) ∧
      (f.dump_memory = true ∨ "--dump-memory" ∈ args → g.dump_memory = true) := by
  intro args
  induction args with
  | nil =>
    intro f
    refine ⟨?_, ?_⟩
    · rintro ⟨a, ha, -⟩
      cases ha
    · intro g h
      cases h
      simp
  | cons a rest ih =>
    intro f
    have hflag : ∀ f1 : MainFlags, a ∈ known_flags → f1.fnames_count = f.fnames_count →
        main_scan_args (a :: rest) f = main_scan_args rest f1 →
        (f.print_config = true ∨ a = "--print-config" → f1.print_config = true) →
        (f.statistics = true ∨ a = "--statistics" → f1.statistics = true) →
        (f.disable_cache = true ∨ a = "--disable-cache" → f1.disable_cache = true) →
        (f.dump_memory = true ∨ a = "--dump-memory" → f1.dump_memory = true) →
        ((∃ x ∈ a :: rest, is_dashed x = true ∧ x ∉ known_flags) →
          main_scan_args (a :: rest) f = none) ∧
        ∀ g, main_scan_args (a :: rest) f = some g →
          g.fnames_count = f.fnames_count +
            ((a :: rest).countP (fun a => !is_dashed a) : Nat) ∧
          (f.print_config = true ∨ "--print-config" ∈ a :: rest → g.print_config = true) ∧
          (f.statistics = true ∨ "--statistics" ∈ a :: rest → g.statistics = true) ∧
          (f.disable_cache = true ∨ "--disable-cache" ∈ a :: rest →
            g.disable_cache = true) ∧
          (f.dump_memory = true ∨ "--dump-memory" ∈ a :: rest → g.dump_memory = true) := by
      intro f1 hk hcnt heq h1 h2 h3 h4
      have hd : is_dashed a = true := by
        simp only [known_flags, List.mem_cons, List.mem_singleton, List.not_mem_nil,
          or_false] at hk
        rcases hk with rfl | rfl | rfl | rfl <;> decide
      obtain ⟨ihn, ihs⟩ := ih f1
      rw [heq]
      refine ⟨?_, ?_⟩
      · rintro ⟨x, hx, hxd, hxk⟩
        rcases List.mem_cons.mp hx with rfl | hx
        · exact absurd hk hxk
        · exact ihn ⟨x, hx, hxd, hxk⟩
      · intro g hg
        obtain ⟨e0, e1, e2, e3, e4⟩ := ihs g hg
        have hc : (a :: rest).countP (fun a => !is_dashed a) =
            rest.countP (fun a => !is_dashed a) := by
          rw [List.countP_cons]
          simp [hd]
        rw [hc, e0, hcnt]
        refine ⟨rfl, ?_, ?_, ?_, ?_⟩
        · rintro (h | h)
          · exact e1 (Or.inl (h1 (Or.inl h)))
          · rcases List.mem_cons.mp h with h | h
            · exact e1 (Or.inl (h1 (Or.inr h.symm)))
            · exact e1 (Or.inr h)
        · rintro (h | h)
          · exact e2 (Or.inl (h2 (Or.inl h)))
          · rcases List.mem_cons.mp h with h | h
            · exact e2 (Or.inl (h2 (Or.inr h.symm)))
            · exact e2 (Or.inr h)
        · rintro (h | h)
          · exact e3 (Or.inl (h3 (Or.inl h)))
          · rcases List.mem_cons.mp h with h | h
            · exact e3 (Or.inl (h3 (Or.inr h.symm)))
            · exact e3 (Or.inr h)
        · rintro (h | h)
          · exact e4 (Or.inl (h4 (Or.inl h)))
          · rcases List.mem_cons.mp h with h | h
            · exact e4 (Or.inl (h4 (Or.inr h.symm)))
            · exact e4 (Or.inr h)
    by_cases c1 : a = "--print-config"
    · refine hflag { f with print_config := true } (by rw [c1]; decide) rfl
        (by rw [main_scan_args, if_pos c1]) (fun _ => rfl) ?_ ?_ ?_
      · rintro (h | h)
        · exact h
        · rw [c1] at h; exact absurd h (by decide)
      · rintro (h | h)
        · exact h
        · rw [c1] at h; exact absurd h (by decide)
      · rintro (h | h)
        · exact h
        · rw [c1] at h; exact absurd h (by decide)
    by_cases c2 : a = "--statistics"
    · refine hflag { f with statistics := true } (by rw [c2]; decide) rfl
        (by rw [main_scan_args, if_neg c1, if_pos c2]) ?_ (fun _ => rfl) ?_ ?_
      · rintro (h | h)
        · exact h
        · exact absurd h c1
      · rintro (h | h)
        · exact h
        · rw [c2] at h; exact absurd h (by decide)
      · rintro (h | h)
        · exact h
        · rw [c2] at h; exact absurd h (by decide)
    by_cases c3 : a = "--disable-cache"
    · refine hflag { f with disable_cache := true } (by rw [c3]; decide) rfl
        (by rw [main_scan_args, if_neg c1, if_neg c2, if_pos c3]) ?_ ?_ (fun _ => rfl) ?_
      · rintro (h | h)
        · exact h
        · exact absurd h c1
      · rintro (h | h)
        · exact h
        · exact absurd h c2
      · rintro (h | h)
        · exact h
        · rw [c3] at h; exact absurd h (by decide)
    by_cases c4 : a = "--dump-memory"
    · refine hflag { f with dump_memory := true } (by rw [c4]; decide) rfl
        (by rw [main_scan_args, if_neg c1, if_neg c2, if_neg c3, if_pos c4]) ?_ ?_ ?_
        (fun _ => rfl)
      · rintro (h | h)
        · exact h
        · exact absurd h c1
      · rintro (h | h)
        · exact h
        · exact absurd h c2
      · rintro (h | h)
        · exact h
        · exact absurd h c3
    have hnk : a ∉ known_flags := by
      simp only [known_flags, List.mem_cons, List.mem_singleton, List.not_mem_nil, or_false]
      tauto
    by_cases c5 : a.toList.head? = some '-'
    · have e : main_scan_args (a :: rest) f = none := by
        unfold main_scan_args
        rw [if_neg c1, if_neg c2, if_neg c3, if_neg c4, if_pos c5]
      rw [e]
      exact ⟨fun _ => rfl, fun g h => by cases h⟩
    · have e : main_scan_args (a :: rest) f =
          main_scan_args rest { f with fname := some a, fnames_count := f.fnames_count + 1 } := by
        rw [main_scan_args, if_neg c1, if_neg c2, if_neg c3, if_neg c4, if_neg c5]
      have hd : is_dashed a = false := by
        unfold is_dashed
        exact beq_eq_false_iff_ne.mpr c5
      obtain ⟨ihn, ihs⟩ := ih { f with fname := some a, fnames_count := f.fnames_count + 1 }
      rw [e]
      refine ⟨?_, ?_⟩
      · rintro ⟨x, hx, hxd, hxk⟩
        rcases List.mem_cons.mp hx with rfl | hx
        · rw [hd] at hxd
          cases hxd
        · exact ihn ⟨x, hx, hxd, hxk⟩
      · intro g hg
        obtain ⟨e0, e1, e2, e3, e4⟩ := ihs g hg
        have hc : (a :: rest).countP (fun a => !is_dashed a) =
            rest.countP (fun a => !is_dashed a) + 1 := by
          rw [List.countP_cons]
          simp [hd]
        rw [hc, e0]
        refine ⟨by push_cast; ring, ?_, ?_, ?_, ?_⟩
        · rintro (h | h)
          · exact e1 (Or.inl h)
          · rcases List.mem_cons.mp h with h | h
            · exact absurd h.symm c1
            · exact e1 (Or.inr h)
        · rintro (h | h)
          · exact e2 (Or.inl h)
          · rcases List.mem_cons.mp h with h | h
            · exact absurd h.symm c2
            · exact e2 (Or.inr h)
        · rintro (h | h)
          · exact e3 (Or.inl h)
          · rcases List.mem_cons.mp h with h | h
            · exact absurd h.symm c3
            · exact e3 (Or.inr h)
        · rintro (h | h)
          · exact e4 (Or.inl h)
          · rcases List.mem_cons.mp h with h | h
            · exact absurd h.symm c4
            · exact e4 (Or.inr h)

theorem memory_keeps_write_back : keeps_write_back memory_ops := by
  refine ⟨?_, ?_, ?_, ?_⟩
  · intro m info a s d r h
    change memory_read m info a s d = some r at h
    unfold memory_read at h
    split at h
    · cases h
    · simp only [] at h
      split at h
      · cases h
        rfl
      · split at h
        · cases h
        · cases h
          rfl
  · intro m info a s src r h
    change memory_write m info a s src = some r at h
    unfold memory_write at h
    split at h
    · cases h
    · simp only [] at h
      split at h
      · cases h
      · cases h
        rfl
  · intro m info a s src r h
    change memory_reveal m info a s src = some r at h
    unfold memory_reveal at h
    split at h
    · cases h
    · cases h
      rfl
  · intro m info r h
    cases h
    rfl

theorem clean_set {blocks : List CacheBlock} {i : Nat} {b : CacheBlock}
    (h : ∀ x ∈ blocks, x.dirty = 0) (hb : b.dirty = 0) :
    ∀ x ∈ blocks.set i b, x.dirty = 0 := by
  intro x hx
  rcases List.mem_or_eq_of_mem_set hx with hx | hx
  · exact h x hx
  · rw [hx]
    exact hb

theorem direct_wt_place_keeps {L : Type} {ops : AbstractMemoryOps L}
    (hk : keeps_write_back ops) {c c1 : DirectCache L} {info info1 : StatisticsInfo}
    {a : Int} {i : Nat} (hws : c.write_strategy = WriteStrategy.write_through)
    (h : direct_cache_place ops c info a = some (c1, info1, i)) :
    c1.write_strategy = c.write_strategy ∧ c1.block_count = c.block_count ∧
    c1.blocks.length = c.blocks.length ∧
    ((∀ b ∈ c.blocks, b.dirty = 0) → ∀ b ∈ c1.blocks, b.dirty = 0) ∧
    info1.write_back_counter = info.write_back_counter := by
  unfold direct_cache_place at h
  split at h
  · cases h
  · simp only [] at h
    split at h
    · cases h
    · split at h
      · cases h
      · rename_i c2 info2 hfin
        have hc2 : c2 = c ∧ info2 = info := by
          split at hfin
          · unfold direct_ops_finalize at hfin
            rw [hws] at hfin
            cases hfin
            exact ⟨rfl, rfl⟩
          · cases hfin
            exact ⟨rfl, rfl⟩
        obtain ⟨rfl, rfl⟩ := hc2
        split at h
        · cases h
        · rename_i b1 hb1
          split at h
          · cases h
          · rename_i lower info3 d hr
            cases h
            refine ⟨rfl, rfl, by simp, ?_, hk.1 _ _ _ _ _ _ hr⟩
            intro hclean
            exact clean_set hclean (hclean b1 (mem_of_getElem? hb1))

theorem direct_wt_flush_loop_id {L : Type} (ops : AbstractMemoryOps L) :
    ∀ (n i : Nat) (c : DirectCache L) (info : StatisticsInfo) c1 info1,
      c.write_strategy = WriteStrategy.write_through →
      direct_cache_flush_loop ops n i c info = some (c1, info1) →
      c1 = c ∧ info1 = info := by
  intro n
  induction n with
  | zero =>
    intro i c info c1 info1 _ h
    cases h
    exact ⟨rfl, rfl⟩
  | succ n ih =>
    intro i c info c1 info1 hws h
    unfold direct_cache_flush_loop at h
    split at h
    · cases h
    · split at h
      · cases h
      · rename_i c2 info2 hfin
        have hc2 : c2 = c ∧ info2 = info := by
          split at hfin
          · unfold direct_ops_finalize at hfin
            rw [hws] at hfin
            cases hfin
            exact ⟨rfl, rfl⟩
          · cases hfin
            exact ⟨rfl, rfl⟩
        obtain ⟨rfl, rfl⟩ := hc2
        exact ih _ _ _ _ _ hws h

theorem direct_wt_flush_id (c : DirectCache Memory) (info : StatisticsInfo)
    (r : DirectCache Memory × StatisticsInfo)
    (hws : c.write_strategy = WriteStrategy.write_through)
    (h : direct_cache_flush memory_ops c info = some r) : r = (c, info) := by
  unfold direct_cache_flush at h
  split at h
  · cases h
  · rename_i c1 info1 hloop
    obtain ⟨rfl, rfl⟩ := direct_wt_flush_loop_id memory_ops _ _ _ _ _ _ hws hloop
    split at h
    · cases h
    · rename_i lower info2 hf
      cases hf
      cases h
      rfl

theorem direct_wt_keeps {L : Type} (ops : AbstractMemoryOps L) (hk : keeps_write_back ops)
    (c c' : DirectCache L) (info info' : StatisticsInfo) (op : MemOp)
    (hws : c.write_strategy = WriteStrategy.write_through)
    (h : apply_op (direct_cache_ops ops) (c, info) op = some (c', info')) :
    c'.write_strategy = c.write_strategy ∧ c'.block_count = c.block_count ∧
    c'.blocks.length = c.blocks.length ∧
    ((∀ b ∈ c.blocks, b.dirty = 0) → ∀ b ∈ c'.blocks, b.dirty = 0) ∧
    info'.write_back_counter = info.write_back_counter := by
  cases op with
  | read a s dst =>
    unfold apply_op at h
    simp only [] at h
    split at h
    · cases h
    · rename_i r hr
      cases h
      change direct_cache_read ops c info a s dst = some r at hr
      unfold direct_cache_read at hr
      simp only [] at hr
      split at hr
      · cases hr
      · split at hr
        · cases hr
        · rename_i c1 info1 i hplace
          have hacc : c1.write_strategy = c.write_strategy ∧ c1.block_count = c.block_count ∧
              c1.blocks.length = c.blocks.length ∧
              ((∀ b ∈ c.blocks, b.dirty = 0) → ∀ b ∈ c1.blocks, b.dirty = 0) ∧
              info1.write_back_counter = info.write_back_counter := by
            split at hplace
            · cases hplace
              exact ⟨rfl, rfl, rfl, fun h => h, rfl⟩
            · have hpl := direct_wt_place_keeps hk hws hplace
              exact ⟨hpl.1, hpl.2.1, hpl.2.2.1, hpl.2.2.2.1, hpl.2.2.2.2⟩
          split at hr
          · cases hr
            exact hacc
          · split at hr
            · cases hr
            · split at hr
              · cases hr
              · cases hr
                exact hacc
  | write a s src =>
    change (direct_cache_ops ops).write c info a s src = some (c', info') at h
    rw [direct_ops_write_wt ops c hws] at h
    unfold direct_cache_wt_write at h
    simp only [] at h
    split at h
    · cases h
    · rename_i found hfind
      split at h
      · cases h
      · rename_i blocks1 hblocks
        split at h
        · cases h
        · rename_i lower info1 hw
          cases h
          have hb : blocks1.length = c.blocks.length ∧
              ((∀ b ∈ c.blocks, b.dirty = 0) → ∀ b ∈ blocks1, b.dirty = 0) := by
            split at hblocks
            · split at hblocks
              · cases hblocks
              · rename_i b hb
                split at hblocks
                · cases hblocks
                · cases hblocks
                  exact ⟨by simp, fun hclean =>
                    clean_set hclean (hclean b (mem_of_getElem? hb))⟩
            · cases hblocks
              exact ⟨rfl, fun h => h⟩
          exact ⟨rfl, rfl, hb.1, hb.2, hk.2.1 _ _ _ _ _ _ hw⟩
  | reveal a s src =>
    change direct_cache_reveal ops c info a s src = some (c', info') at h
    unfold direct_cache_reveal at h
    simp only [] at h
    split at h
    · cases h
    · rename_i found hfind
      split at h
      · cases h
      · rename_i blocks1 hblocks
        split at h
        · cases h
        · rename_i lower info1 hw
          cases h
          have hb : blocks1.length = c.blocks.length ∧
              ((∀ b ∈ c.blocks, b.dirty = 0) → ∀ b ∈ blocks1, b.dirty = 0) := by
            split at hblocks
            · split at hblocks
              · cases hblocks
              · rename_i b hb
                split at hblocks
                · cases hblocks
                · cases hblocks
                  exact ⟨by simp, fun hclean =>
                    clean_set hclean (hclean b (mem_of_getElem? hb))⟩
            · cases hblocks
              exact ⟨rfl, fun h => h⟩
          exact ⟨rfl, rfl, hb.1, hb.2, hk.2.2.1 _ _ _ _ _ _ hw⟩
  | flush =>
    change direct_cache_flush ops c info = some (c', info') at h
    unfold direct_cache_flush at h
    split at h
    · cases h
    · rename_i c1 info1 hloop
      obtain ⟨rfl, rfl⟩ := direct_wt_flush_loop_id ops _ _ _ _ _ _ hws hloop
      split at h
      · cases h
      · rename_i lower info2 hf
        cases h
        exact ⟨rfl, rfl, rfl, fun h => h, hk.2.2.2 _ _ _ hf⟩

theorem full_wt_place_keeps {L : Type} {ops : AbstractMemoryOps L}
    (hk : keeps_write_back ops) {c c1 : FullCache L} {info info1 : StatisticsInfo}
    {a : Int} {i : Nat} (hws : c.write_strategy = WriteStrategy.write_through)
    (h : full_cache_random_place ops c info a = some (c1, info1, i)) :
    c1.write_strategy = c.write_strategy ∧ c1.block_count = c.block_count ∧
    c1.blocks.length = c.blocks.length ∧
    ((∀ b ∈ c.blocks, b.dirty = 0) → ∀ b ∈ c1.blocks, b.dirty = 0) ∧
    info1.write_back_counter = info.write_back_counter := by
  unfold full_cache_random_place at h
  split at h
  · cases h
  · split at h
    · cases h
    · rename_i c2 info2 i2 hsel
      have hc2 : c2.write_strategy = c.write_strategy ∧ c2.block_count = c.block_count ∧
          c2.blocks = c.blocks ∧ info2 = info := by
        split at hsel
        · cases hsel
          exact ⟨rfl, rfl, rfl, rfl⟩
        · simp only [] at hsel
          split at hsel
          · cases hsel
          · split at hsel
            · cases hsel
            · rename_i c3 info3 hfin
              cases hsel
              unfold full_ops_finalize at hfin
              simp only [hws] at hfin
              cases hfin
              exact ⟨hws.symm, rfl, rfl, rfl⟩
      obtain ⟨e1, e2, e3, rfl⟩ := hc2
      split at h
      · cases h
      · rename_i b1 hb1
        split at h
        · cases h
        · rename_i lower info3 d hr
          cases h
          refine ⟨e1, e2, by simp [e3], ?_, hk.1 _ _ _ _ _ _ hr⟩
          intro hclean
          rw [e3] at hb1 ⊢
          exact clean_set hclean (hclean b1 (mem_of_getElem? hb1))

theorem full_wt_flush_loop_id {L : Type} (ops : AbstractMemoryOps L) :
    ∀ (n i : Nat) (c : FullCache L) (info : StatisticsInfo) c1 info1,
      c.write_strategy = WriteStrategy.write_through →
      full_cache_flush_loop ops n i c info = some (c1, info1) →
      c1 = c ∧ info1 = info := by
  intro n
  induction n with
  | zero =>
    intro i c info c1 info1 _ h
    cases h
    exact ⟨rfl, rfl⟩
  | succ n ih =>
    intro i c info c1 info1 hws h
    unfold full_cache_flush_loop at h
    split at h
    · cases h
    · split at h
      · cases h
      · rename_i c2 info2 hfin
        have hc2 : c2 = c ∧ info2 = info := by
          split at hfin
          · unfold full_ops_finalize at hfin
            rw [hws] at hfin
            cases hfin
            exact ⟨rfl, rfl⟩
          · cases hfin
            exact ⟨rfl, rfl⟩
        obtain ⟨rfl, rfl⟩ := hc2
        exact ih _ _ _ _ _ hws h

theorem full_wt_flush_id (c : FullCache Memory) (info : StatisticsInfo)
    (r : FullCache Memory × StatisticsInfo)
    (hws : c.write_strategy = WriteStrategy.write_through)
    (h : full_cache_flush memory_ops c info = some r) : r = (c, info) := by
  unfold full_cache_flush at h
  split at h
  · cases h
  · rename_i c1 info1 hloop
    obtain ⟨rfl, rfl⟩ := full_wt_flush_loop_id memory_ops _ _ _ _ _ _ hws hloop
    split at h
    · cases h
    · rename_i lower info2 hf
      cases hf
      cases h
      rfl

theorem full_wt_keeps {L : Type} (ops : AbstractMemoryOps L) (hk : keeps_write_back ops)
    (c c' : FullCache L) (info info' : StatisticsInfo) (op : MemOp)
    (hws : c.write_strategy = WriteStrategy.write_through)
    (h : apply_op (full_cache_ops ops) (c, info) op = some (c', info')) :
    c'.write_strategy = c.write_strategy ∧ c'.block_count = c.block_count ∧
    c'.blocks.length = c.blocks.length ∧
    ((∀ b ∈ c.blocks, b.dirty = 0) → ∀ b ∈ c'.blocks, b.dirty = 0) ∧
    info'.write_back_counter = info.write_back_counter := by
  cases op with
  | read a s dst =>
    unfold apply_op at h
    simp only [] at h
    split at h
    · cases h
    · rename_i r hr
      cases h
      change full_cache_read ops c info a s dst = some r at hr
      unfold full_cache_read at hr
      simp only [] at hr
      split at hr
      · cases hr
      · split at hr
        · cases hr
        · rename_i c1 info1 i hplace
          have hacc : c1.write_strategy = c.write_strategy ∧ c1.block_count = c.block_count ∧
              c1.blocks.length = c.blocks.length ∧
              ((∀ b ∈ c.blocks, b.dirty = 0) → ∀ b ∈ c1.blocks, b.dirty = 0) ∧
              info1.write_back_counter = info.write_back_counter := by
            split at hplace
            · cases hplace
              exact ⟨rfl, rfl, rfl, fun h => h, rfl⟩
            · have hpl := full_wt_place_keeps hk hws hplace
              exact ⟨hpl.1, hpl.2.1, hpl.2.2.1, hpl.2.2.2.1, hpl.2.2.2.2⟩
          split at hr
          · cases hr
            exact hacc
          · split at hr
            · cases hr
            · split at hr
              · cases hr
              · cases hr
                exact hacc
  | write a s src =>
    change (full_cache_ops ops).write c info a s src = some (c', info') at h
    rw [full_ops_write_wt ops c hws] at h
    unfold full_cache_wt_write at h
    simp only [] at h
    split at h
    · cases h
    · rename_i found hfind
      split at h
      · cases h
      · rename_i blocks1 hblocks
        split at h
        · cases h
        · rename_i lower info1 hw
          cases h
          have hb : blocks1.length = c.blocks.length ∧
              ((∀ b ∈ c.blocks, b.dirty = 0) → ∀ b ∈ blocks1, b.dirty = 0) := by
            split at hblocks
            · split at hblocks
              · cases hblocks
              · rename_i b hb
                split at hblocks
                · cases hblocks
                · cases hblocks
                  exact ⟨by simp, fun hclean =>
                    clean_set hclean (hclean b (mem_of_getElem? hb))⟩
            · cases hblocks
              exact ⟨rfl, fun h => h⟩
          exact ⟨rfl, rfl, hb.1, hb.2, hk.2.1 _ _ _ _ _ _ hw⟩
  | reveal a s src =>
    change full_cache_reveal ops c info a s src = some (c', info') at h
    unfold full_cache_reveal at h
    simp only [] at h
    split at h
    · cases h
    · rename_i found hfind
      split at h
      · cases h
      · rename_i blocks1 hblocks
        split at h
        · cases h
        · rename_i lower info1 hw
          cases h
          have hb : blocks1.length = c.blocks.length ∧
              ((∀ b ∈ c.blocks, b.dirty = 0) → ∀ b ∈ blocks1, b.dirty = 0) := by
            split at hblocks
            · split at hblocks
              · cases hblocks
              · rename_i b hb
                split at hblocks
                · cases hblocks
                · cases hblocks
                  exact ⟨by simp, fun hclean =>
                    clean_set hclean (hclean b (mem_of_getElem? hb))⟩
            · cases hblocks
              exact ⟨rfl, fun h => h⟩
          exact ⟨rfl, rfl, hb.1, hb.2, hk.2.2.1 _ _ _ _ _ _ hw⟩
  | flush =>
    change full_cache_flush ops c info = some (c', info') at h
    unfold full_cache_flush at h
    split at h
    · cases h
    · rename_i c1 info1 hloop
      obtain ⟨rfl, rfl⟩ := full_wt_flush_loop_id ops _ _ _ _ _ _ hws hloop
      split at h
      · cases h
      · rename_i lower info2 hf
        cases h
        exact ⟨rfl, rfl, rfl, fun h => h, hk.2.2.2 _ _ _ hf⟩

theorem full_place_free (c : FullCache Memory) (info : StatisticsInfo) (a : Int)
    (hp : cache_params_ok c.block_size c.block_count c.blocks c.mem) (ha : 0 ≤ a)
    (hfree : ∃ (k : Nat) (b : CacheBlock), c.blocks[k]? = some b ∧ b.addr = NO_BLOCK) :
    ∃ i b d', c.blocks[i]? = some b ∧ b.addr = NO_BLOCK ∧
      (∀ k b', k < i → c.blocks[k]? = some b' → b'.addr ≠ NO_BLOCK) ∧
      full_cache_random_place memory_ops c info a =
        some ({ c with blocks := c.blocks.set i { addr := a, mem := d', dirty := b.dirty } },
          statistics_add_counter info
            (blocks_count c.block_size c.mem.memory_width * c.mem.memory_read_time), i) ∧
      loaded_from d' b.mem c.mem.mem a c.block_size c.mem.memory_size := by
  obtain ⟨hbs, hbc, hlen, hsz, hwf, hmax⟩ := hp
  have hbs' := block_size_pos hbs
  have hn : c.block_count.toNat = c.blocks.length := by omega
  obtain ⟨r, e, h1, h2⟩ := full_find_loop_spec c.blocks NO_BLOCK c.block_count.toNat 0 (by omega)
  cases r with
  | none =>
    obtain ⟨k, b, hb, hba⟩ := hfree
    exact absurd hba (h2 rfl k b (Nat.zero_le _)
      (by have := lt_length_of_getElem? hb; omega) hb)
  | some i =>
    obtain ⟨-, g2, ⟨b, hb, hba⟩, g4⟩ := h1 i rfl
    have hbm := mem_of_getElem? hb
    have hblen := hsz b hbm
    obtain ⟨d', e2, hld⟩ := memory_read_spec c.mem hwf info a c.block_size b.mem ha
      (by omega) (by omega)
    refine ⟨i, b, d', hb, hba, fun k b' hk hb' => g4 k b' (Nat.zero_le _) hk hb', ?_, hld⟩
    unfold full_cache_random_place
    rw [e]
    simp only [hb, memory_ops, e2, Option.getD_some]

theorem int_div_div (a b c : Int) (hb : 0 < b) (hc : 0 < c) : a / b / c = a / (b * c) := by
  have h1 := Int.ediv_add_emod a b
  have h2 := Int.emod_nonneg a (ne_of_gt hb)
  have h3 := Int.emod_lt_of_pos a hb
  have h4 := Int.ediv_add_emod (a / b) c
  have h5 := Int.emod_nonneg (a / b) (ne_of_gt hc)
  have h6 := Int.emod_lt_of_pos (a / b) hc
  have hbc : 0 < b * c := Int.mul_pos hb hc
  have key : b * (a / b % c) + a % b + b * c * (a / b / c) = a ∧
      0 ≤ b * (a / b % c) + a % b ∧ b * (a / b % c) + a % b < b * c := by
    refine ⟨?_, ?_, ?_⟩
    · have : b * (c * (a / b / c) + a / b % c) + a % b = a := by rw [h4]; exact h1
      linarith [this, mul_assoc b c (a / b / c), mul_add b (c * (a / b / c)) (a / b % c)]
    · have := Int.mul_nonneg (le_of_lt hb) h5
      linarith
    · have : b * (a / b % c) ≤ b * (c - 1) := by
        apply Int.mul_le_mul_of_nonneg_left _ (le_of_lt hb)
        omega
      linarith [mul_sub b c 1]
  exact ((Int.ediv_emod_unique hbc).mpr key).1.symm

theorem fill_value_spec : ∀ (n : Nat) (v : Int) (cells : List MemoryCell), n ≤ cells.length →
    ∃ cells', fill_value n v cells = some cells' ∧ cells'.length = cells.length ∧
      ∀ i : Nat, cells'[i]? =
        if i < n then some ⟨((v / 256 ^ (n - 1 - i)) % 256).toNat, 1⟩ else cells[i]? := by
  intro n
  induction n with
  | zero =>
    intro v cells _
    exact ⟨cells, rfl, rfl, fun i => by simp⟩
  | succ n ih =>
    intro v cells hlen
    obtain ⟨cells', e, hl, hpt⟩ := ih (v / 256)
      (cells.set n { value := get_last_byte v, flags := 1 }) (by
        rw [List.length_set]
        omega)
    refine ⟨cells', ?_, by rw [hl, List.length_set], ?_⟩
    · unfold fill_value
      rw [if_pos (by omega)]
      exact e
    · intro i
      rw [hpt i]
      by_cases h1 : i < n
      · rw [if_pos h1, if_pos (by omega)]
        have hexp : n + 1 - 1 - i = (n - 1 - i) + 1 := by omega
        rw [hexp, pow_succ, mul_comm, int_div_div v 256 _ (by norm_num) (by positivity)]
      · rw [if_neg h1]
        by_cases h2 : i = n
        · subst h2
          rw [if_pos (by omega), List.getElem?_set]
          simp only [if_true]
          rw [if_pos (by omega)]
          simp [get_last_byte]
        · rw [if_neg (by omega), List.getElem?_set, if_neg (by omega)]

theorem sscanf_step_value (line : List Char) (step step1 : TraceStep) (n : Int) (size : Char)
    (v : Int) (h : sscanf_step line step = some (n, step1, size, v)) :
    step1.value = step.value := by
  unfold sscanf_step at h
  split at h
  · cases h
    rfl
  · split at h
    · cases h
      rfl
    · split at h
      · cases h
      · cases h
        rfl
      · split at h
        · cases h
          rfl
        · split at h
          · cases h
          · cases h
            rfl
          · cases h
            rfl

theorem flags_kept_refl (cells : List MemoryCell) : flags_kept cells cells :=
  fun _ cell h hk => ⟨cell, h, hk⟩

theorem flags_kept_trans {a b c : List MemoryCell} (h1 : flags_kept a b)
    (h2 : flags_kept b c) : flags_kept a c := by
  intro j cell h hk
  obtain ⟨cell1, e1, k1⟩ := h1 j cell h hk
  exact h2 j cell1 e1 k1

theorem known_cells_get {src : List MemoryCell} {s : Int} (hk : known_cells src s)
    (hs : s ≤ src.length) (k : Nat) (hks : (k : Int) < s) :
    ∃ cell, src[k]? = some cell ∧ cell.flags ≠ 0 := by
  have hlt : k < src.length := by omega
  exact ⟨src[k], List.getElem?_eq_getElem hlt, hk k _ hks (List.getElem?_eq_getElem hlt)⟩

theorem stored_kept_of {cells' cells src : List MemoryCell} {a s limit : Int}
    (h : stored_at cells' cells a s limit src)
    (hsrc : ∀ (j : Nat) (cell : MemoryCell), a ≤ j → (j : Int) < a + s → (j : Int) < limit →
      cells[j]? = some cell → cell.flags ≠ 0 →
      ∃ cell', src[((j : Int) - a).toNat]? = some cell' ∧ cell'.flags ≠ 0) :
    flags_kept cells cells' := by
  intro j cell hj hk
  rw [h.2 j]
  by_cases hc : a ≤ j ∧ (j : Int) < a + s ∧ (j : Int) < limit
  · rw [if_pos hc]
    exact hsrc j cell hc.1 hc.2.1 hc.2.2 hj hk
  · rw [if_neg hc]
    exact ⟨cell, hj, hk⟩

theorem stored_kept {cells' cells src : List MemoryCell} {a s limit : Int}
    (h : stored_at cells' cells a s limit src) (hs : s ≤ src.length)
    (hk : known_cells src s) : flags_kept cells cells' := by
  apply stored_kept_of h
  intro j cell h1 h2 _ _ _
  exact known_cells_get hk hs _ (by omega)

theorem store_loop_kept (msz : Int) :
    ∀ (src mem : List MemoryCell) (addr size : Int) (mem' : List MemoryCell),
      0 ≤ size → known_cells src size →
      memory_store_loop msz src mem addr size = some mem' → flags_kept mem mem' := by
  intro src
  induction src with
  | nil =>
    intro mem addr size mem' _ _ h
    unfold memory_store_loop at h
    split at h
    · cases h
      exact flags_kept_refl _
    · cases h
  | cons s rest ih =>
    intro mem addr size mem' hs hk h
    unfold memory_store_loop at h
    split at h
    · cases h
      exact flags_kept_refl _
    · rename_i hs0
      split at h
      · cases h
        exact flags_kept_refl _
      · split at h
        · rename_i hin
          have hpos : ((0 : Nat) : Int) < size := by
            push_cast
            omega
          have h0 : s.flags ≠ 0 := hk 0 s hpos (by simp)
          have hrest : known_cells rest (size - 1) := by
            intro k cell hks hc
            exact hk (k + 1) cell (by push_cast; omega) (by simpa using hc)
          have h1 := ih _ _ _ _ (by omega) hrest h
          refine flags_kept_trans ?_ h1
          intro j cell hj hjk
          by_cases e : addr.toNat = j
          · refine ⟨s, ?_, h0⟩
            have hlt : addr.toNat < mem.length := by
              have q1 := hin.1
              have q2 := hin.2
              exact (Int.toNat_lt q1).mpr q2
            rw [List.getElem?_set, if_pos e, if_pos hlt]
          · refine ⟨cell, ?_, hjk⟩
            rw [List.getElem?_set, if_neg e]
            exact hj
        · cases h

theorem memory_op_kept (m m' : Memory) (info info' : StatisticsInfo) (op : MemOp)
    (hk : op_known op) (h : apply_op memory_ops (m, info) op = some (m', info')) :
    flags_kept m.mem m'.mem := by
  cases op with
  | read a s dst =>
    unfold apply_op at h
    simp only [memory_ops] at h
    unfold memory_read at h
    split at h
    · cases h
    · rename_i r hr
      split at hr
      · cases hr
      · simp only [] at hr
        split at hr
        · cases hr
          cases h
          exact flags_kept_refl _
        · split at hr
          · cases hr
          · cases hr
            cases h
            exact flags_kept_refl _
  | write a s src =>
    change memory_write m info a s src = some (m', info') at h
    unfold memory_write at h
    split at h
    · cases h
    · simp only [] at h
      split at h
      · cases h
      · rename_i mem1 hm
        cases h
        exact store_loop_kept _ _ _ _ _ _ hk.1 hk.2 hm
  | reveal a s src =>
    change memory_reveal m info a s src = some (m', info') at h
    unfold memory_reveal at h
    split at h
    · cases h
    · rename_i mem1 hm
      cases h
      exact store_loop_kept _ _ _ _ _ _ hk.1 hk.2 hm
  | flush =>
    cases h
    exact flags_kept_refl _

theorem struct_set {bs bc : Int} {blocks : List CacheBlock} {m : Memory} {i : Nat}
    {b : CacheBlock} (b' : CacheBlock) (m' : Memory)
    (hp : cache_params_ok bs bc blocks m) (ht : blocks_tagged bs blocks)
    (hu : blocks_unique blocks) (hb : blocks[i]? = some b)
    (hlen : (b'.mem.length : Int) = bs)
    (htag : (b'.addr = NO_BLOCK ∧ b'.dirty = 0) ∨ (0 ≤ b'.addr ∧ b'.addr % bs = 0))
    (haddr : b'.addr = b.addr ∨ not_resident blocks b'.addr)
    (hwf : m'.wf) (hmax : m'.memory_size ≤ MAX_MEM_SIZE) :
    cache_params_ok bs bc (blocks.set i b') m' ∧
    blocks_tagged bs (blocks.set i b') ∧ blocks_unique (blocks.set i b') := by
  obtain ⟨hbs, hbc, hl, hsz, -, -⟩ := hp
  refine ⟨⟨hbs, hbc, by simpa using hl, ?_, hwf, hmax⟩, ?_, ?_⟩
  · intro x hx
    rcases List.mem_or_eq_of_mem_set hx with h | h
    · exact hsz x h
    · rw [h]
      exact hlen
  · intro x hx
    rcases List.mem_or_eq_of_mem_set hx with h | h
    · exact ht x h
    · rw [h]
      exact htag
  · intro j k bj bk hj hk hjk hjn
    rcases set_getElem?_cases _ _ _ _ _ hj with ⟨rfl, rfl⟩ | ⟨hji, hj'⟩
    · rcases set_getElem?_cases _ _ _ _ _ hk with ⟨rfl, rfl⟩ | ⟨hki, hk'⟩
      · rfl
      · rcases haddr with e | hnr
        · exact hu _ _ _ _ hb hk' (e.symm.trans hjk) (fun g => hjn (e.trans g))
        · exact absurd hjk.symm (hnr k bk hk')
    · rcases set_getElem?_cases _ _ _ _ _ hk with ⟨rfl, rfl⟩ | ⟨hki, hk'⟩
      · rcases haddr with e | hnr
        · exact hu _ _ _ _ hj' hb (hjk.trans e) hjn
        · exact absurd hjk (hnr j bj hj')
      · exact hu j k bj bk hj' hk' hjk hjn

theorem block_kept_set {blocks : List CacheBlock} {i : Nat} {b b' : CacheBlock}
    (hb : blocks[i]? = some b) (h : b'.addr = b.addr → flags_kept b.mem b'.mem) :
    block_kept blocks (blocks.set i b') := by
  intro k x x' hx hx' hnb htag
  rcases set_getElem?_cases _ _ _ _ _ hx' with ⟨rfl, rfl⟩ | ⟨-, hx''⟩
  · rw [hb] at hx
    cases hx
    exact h htag
  · rw [hx] at hx''
    cases hx''
    exact flags_kept_refl _

theorem block_kept_refl (blocks : List CacheBlock) : block_kept blocks blocks := by
  intro k x x' hx hx' _ _
  rw [hx] at hx'
  cases hx'
  exact flags_kept_refl _

theorem same_tags_refl (blocks : List CacheBlock) : same_tags blocks blocks := rfl

theorem same_tags_set {blocks : List CacheBlock} {i : Nat} {b b' : CacheBlock}
    (hb : blocks[i]? = some b) (h : b'.addr = b.addr) : same_tags blocks (blocks.set i b') := by
  unfold same_tags
  rw [List.map_set]
  apply set_self
  rw [List.getElem?_map, hb]
  exact congrArg some h.symm

theorem same_tags_get {blocks blocks' : List CacheBlock} (h : same_tags blocks blocks')
    {i : Nat} {b' : CacheBlock} (hb' : blocks'[i]? = some b') :
    ∃ b, blocks[i]? = some b ∧ b.addr = b'.addr := by
  have e : (blocks'.map (fun b => b.addr))[i]? = (blocks.map (fun b => b.addr))[i]? := by
    rw [h]
  rw [List.getElem?_map, List.getElem?_map, hb'] at e
  cases hx : blocks[i]? with
  | none =>
    rw [hx] at e
    cases e
  | some x =>
    rw [hx] at e
    exact ⟨x, rfl, (Option.some.inj e).symm⟩

theorem same_tags_trans {a b c : List CacheBlock} (h1 : same_tags a b) (h2 : same_tags b c) :
    same_tags a c := by
  unfold same_tags at *
  rw [h2, h1]

theorem block_kept_trans {a b c : List CacheBlock} (h1 : block_kept a b)
    (ht : same_tags b c) (h2 : block_kept b c) : block_kept a c := by
  intro k x x'' hx hx'' hnb htag
  obtain ⟨x', hx', e⟩ := same_tags_get ht hx''
  have e1 : x'.addr = x.addr := e.trans htag
  exact flags_kept_trans (h1 k x x' hx hx' hnb e1)
    (h2 k x' x'' hx' hx'' (fun g => hnb (e1.symm.trans g)) e.symm)

theorem known_inv_retag {bs bc : Int} {blocks : List CacheBlock} {m : Memory} {i : Nat}
    {b : CacheBlock} {a : Int} {d' : List MemoryCell} (dflag : Int)
    (hinv : known_inv bs bc blocks m) (hb : blocks[i]? = some b)
    (hnr : not_resident blocks a) (ha : 0 ≤ a) (hal : a % bs = 0)
    (hld : loaded_from d' b.mem m.mem a bs m.memory_size) :
    known_inv bs bc (blocks.set i ⟨a, d', dflag⟩) m ∧
    block_kept blocks (blocks.set i ⟨a, d', dflag⟩) := by
  obtain ⟨hp, ht, hu, hc⟩ := hinv
  have hlen : (d'.length : Int) = bs := by
    rw [hld.1]
    exact hp.2.2.2.1 b (mem_of_getElem? hb)
  obtain ⟨hp', ht', hu'⟩ := struct_set ⟨a, d', dflag⟩ m hp ht hu hb hlen
    (Or.inr ⟨ha, hal⟩) (Or.inr hnr) hp.2.2.2.2.1 hp.2.2.2.2.2
  refine ⟨⟨hp', ht', hu', ?_⟩, block_kept_set hb (fun e => absurd e.symm (hnr i b hb))⟩
  intro k x o cell hx hnb ho hcell hk
  rcases set_getElem?_cases _ _ _ _ _ hx with ⟨rfl, rfl⟩ | ⟨-, hx'⟩
  · refine ⟨cell, ?_, hk⟩
    show d'[o]? = some cell
    have hcell' : m.mem[(a + (o : Int)).toNat]? = some cell := hcell
    have hlt := lt_length_of_getElem? hcell'
    have hwf := hp.2.2.2.2.1.1
    rw [hld.2 o, if_pos ⟨ho, by omega⟩]
    exact hcell'
  · exact hc k x o cell hx' hnb ho hcell hk

theorem known_inv_finalize {bs bc : Int} {blocks : List CacheBlock} {m : Memory} {i : Nat}
    {b : CacheBlock} {cells1 : List MemoryCell}
    (hinv : known_inv bs bc blocks m) (hb : blocks[i]? = some b) (hnb : b.addr ≠ NO_BLOCK)
    (hst : stored_at cells1 m.mem b.addr bs m.memory_size b.mem) :
    known_inv bs bc (blocks.set i { b with dirty := 0 }) { m with mem := cells1 } ∧
    flags_kept m.mem cells1 := by
  obtain ⟨hp, ht, hu, hc⟩ := hinv
  have hbs := block_size_pos hp.1
  obtain ⟨hb0, hbal⟩ := (tagged_no_block ht hb).2 hnb
  have hwf' : ({ m with mem := cells1 } : Memory).wf := by
    refine ⟨?_, hp.2.2.2.2.1.2⟩
    show (cells1.length : Int) = m.memory_size
    rw [hst.1]
    exact hp.2.2.2.2.1.1
  obtain ⟨hp', ht', hu'⟩ := struct_set { b with dirty := 0 }
    { m with mem := cells1 } hp ht hu hb (hp.2.2.2.1 b (mem_of_getElem? hb))
    (Or.inr ⟨hb0, hbal⟩) (Or.inl rfl) hwf' hp.2.2.2.2.2
  refine ⟨⟨hp', ht', hu', ?_⟩, ?_⟩
  · intro k x o cell hx hxnb ho hcell hk
    have hcell' : cells1[(x.addr + (o : Int)).toNat]? = some cell := hcell
    have hxmem : ∃ y, blocks[k]? = some y ∧ y.addr = x.addr ∧ y.mem = x.mem := by
      rcases set_getElem?_cases _ _ _ _ _ hx with ⟨rfl, rfl⟩ | ⟨-, hx'⟩
      · exact ⟨b, hb, rfl, rfl⟩
      · exact ⟨x, hx', rfl, rfl⟩
    obtain ⟨y, hy, hya, hym⟩ := hxmem
    obtain ⟨hx0, hxal⟩ := (tagged_no_block ht hy).2 (fun g => hxnb (hya.symm.trans g))
    rw [hya] at hx0 hxal
    rw [hst.2, Int.toNat_of_nonneg (by omega)] at hcell'
    by_cases hr : b.addr ≤ x.addr + o ∧ x.addr + (o : Int) < b.addr + bs ∧
        x.addr + (o : Int) < m.memory_size
    · rw [if_pos hr] at hcell'
      have e1 := (block_of (x.addr + o) b.addr bs hbs hbal).mp ⟨hr.1, hr.2.1⟩
      have e2 := (block_of (x.addr + o) x.addr bs hbs hxal).mp ⟨by omega, by omega⟩
      have e : b.addr = x.addr := e1.trans e2.symm
      have hki : i = k := hu i k b y hb hy (e.trans hya.symm) hnb
      subst hki
      rw [hb] at hy
      cases hy
      rw [show ((x.addr + (o : Int)) - b.addr).toNat = o from by omega] at hcell'
      rw [← hym]
      exact ⟨cell, hcell', hk⟩
    · rw [if_neg hr] at hcell'
      rw [← hym]
      apply hc k y o cell hy (fun g => hxnb (hya.symm.trans g)) ho _ hk
      rw [hya]
      exact hcell'
  · apply stored_kept_of hst
    intro j cell h1 h2 h3 hj hk
    have ho : ((j : Int) - b.addr).toNat = j - b.addr.toNat := by omega
    apply hc i b ((j : Int) - b.addr).toNat cell hb hnb (by omega) _ hk
    rw [show (b.addr + (((j : Int) - b.addr).toNat : Int)).toNat = j from by omega]
    exact hj

theorem emod_le_self_nonneg {a bs : Int} (h : 0 ≤ a) (hb : 0 < bs) : a % bs ≤ a := by
  have h1 := Int.ediv_add_emod a bs
  have h2 : 0 ≤ a / bs := Int.ediv_nonneg h hb.le
  have h3 : 0 ≤ bs * (a / bs) := mul_nonneg hb.le h2
  omega

theorem known_inv_placed {ws : WriteStrategy} {bs bc : Int} {blocks : List CacheBlock}
    {m : Memory} {info : StatisticsInfo} {a : Int} {i : Nat}
    {blocks1 : List CacheBlock} {cells1 : List MemoryCell} {info1 : StatisticsInfo}
    (hinv : known_inv bs bc blocks m) (hnr : not_resident blocks a) (ha : 0 ≤ a)
    (hal : a % bs = 0)
    (h : placed ws bs m blocks info a i blocks1 cells1 info1) :
    known_inv bs bc blocks1 { m with mem := cells1 } ∧ flags_kept m.mem cells1 ∧
    block_kept blocks blocks1 := by
  obtain ⟨b, d', hb, hcase, hld, hblocks⟩ := h
  have hilt := lt_length_of_getElem? hb
  by_cases hwb : ws = WriteStrategy.write_back ∧ b.addr ≠ NO_BLOCK ∧ b.dirty ≠ 0
  · rw [if_pos hwb] at hcase
    obtain ⟨h1, hk1⟩ := known_inv_finalize hinv hb hwb.2.1 hcase.1
    have hb1 : (blocks.set i { b with dirty := 0 })[i]? = some { b with dirty := 0 } := by
      rw [List.getElem?_set, if_pos rfl, if_pos hilt]
    have hnr1 : not_resident (blocks.set i { b with dirty := 0 }) a := by
      intro j bj hj
      rcases set_getElem?_cases _ _ _ _ _ hj with ⟨rfl, rfl⟩ | ⟨-, hj'⟩
      · exact hnr j b hb
      · exact hnr j bj hj'
    obtain ⟨h2, -⟩ := known_inv_retag (m := { m with mem := cells1 })
      (if ws = WriteStrategy.write_back ∧ b.addr ≠ NO_BLOCK then 0 else b.dirty)
      h1 hb1 hnr1 ha hal hld
    rw [List.set_set] at h2
    rw [hblocks]
    exact ⟨h2, hk1, block_kept_set hb (fun e => absurd e.symm (hnr i b hb))⟩
  · rw [if_neg hwb] at hcase
    obtain ⟨hcells, -⟩ := hcase
    subst hcells
    rw [hblocks]
    obtain ⟨h2, hk2⟩ := known_inv_retag
      (if ws = WriteStrategy.write_back ∧ b.addr ≠ NO_BLOCK then 0 else b.dirty)
      hinv hb hnr ha hal hld
    exact ⟨h2, flags_kept_refl _, hk2⟩

theorem known_inv_block_store {bs bc : Int} {blocks : List CacheBlock} {m : Memory}
    {i : Nat} {b : CacheBlock} {off s : Int} {src cellsB : List MemoryCell}
    (hinv : known_inv bs bc blocks m) (hb : blocks[i]? = some b) (hnb : b.addr ≠ NO_BLOCK)
    (hst : stored_at cellsB b.mem off s bs src) (hs : s ≤ src.length)
    (hk : known_cells src s) :
    known_inv bs bc (blocks.set i { b with mem := cellsB, dirty := 1 }) m ∧
    block_kept blocks (blocks.set i { b with mem := cellsB, dirty := 1 }) ∧
    same_tags blocks (blocks.set i { b with mem := cellsB, dirty := 1 }) := by
  obtain ⟨hp, ht, hu, hc⟩ := hinv
  have hkept : flags_kept b.mem cellsB := stored_kept hst hs hk
  have hlen : (cellsB.length : Int) = bs := by
    rw [hst.1]
    exact hp.2.2.2.1 b (mem_of_getElem? hb)
  obtain ⟨hp', ht', hu'⟩ := struct_set { b with mem := cellsB, dirty := 1 } m
    hp ht hu hb hlen (Or.inr ((tagged_no_block ht hb).2 hnb)) (Or.inl rfl)
    hp.2.2.2.2.1 hp.2.2.2.2.2
  refine ⟨⟨hp', ht', hu', ?_⟩, block_kept_set hb (fun _ => hkept), same_tags_set hb rfl⟩
  intro k x o cell hx hxnb ho hcell hkc
  rcases set_getElem?_cases _ _ _ _ _ hx with ⟨rfl, rfl⟩ | ⟨-, hx'⟩
  · obtain ⟨c0, e0, k0⟩ := hc k b o cell hb hnb ho hcell hkc
    exact hkept o c0 e0 k0
  · exact hc k x o cell hx' hxnb ho hcell hkc

theorem known_inv_mirror {bs bc : Int} {blocks : List CacheBlock} {m : Memory}
    {a s : Int} {src : List MemoryCell} {r : Option Nat} {blocks' : List CacheBlock}
    {cells' : List MemoryCell}
    (hinv : known_inv bs bc blocks m) (hacc : access_ok bs m.memory_size a s)
    (hs : s ≤ src.length) (hk : known_cells src s)
    (hst : stored_at cells' m.mem a s m.memory_size src)
    (hm : mirrored bs blocks r (a % bs) s src blocks')
    (hhit : ∀ i, r = some i → ∃ b, blocks[i]? = some b ∧ b.addr = a - a % bs)
    (hmiss : r = none → not_resident blocks (a - a % bs)) :
    known_inv bs bc blocks' { m with mem := cells' } ∧ flags_kept m.mem cells' ∧
    block_kept blocks blocks' ∧ same_tags blocks blocks' := by
  obtain ⟨hp, ht, hu, hc⟩ := hinv
  have hbs := block_size_pos hp.1
  obtain ⟨ha0, hs0, hend, hin⟩ := hacc
  have hmod0 := Int.emod_nonneg a (by omega : bs ≠ 0)
  have hmodlt := Int.emod_lt_of_pos a hbs
  have hmodle := emod_le_self_nonneg ha0 hbs
  have hwf' : ({ m with mem := cells' } : Memory).wf := by
    refine ⟨?_, hp.2.2.2.2.1.2⟩
    show (cells'.length : Int) = m.memory_size
    rw [hst.1]
    exact hp.2.2.2.2.1.1
  have hkm : flags_kept m.mem cells' := stored_kept hst hs hk
  -- a block that covers a stored address is tagged with the aligned address
  have htagof : ∀ (k : Nat) (x : CacheBlock) (o : Nat), blocks[k]? = some x →
      x.addr ≠ NO_BLOCK → (o : Int) < bs → a ≤ x.addr + o → x.addr + (o : Int) < a + s →
      x.addr = a - a % bs ∧ (o : Int) = a % bs + (x.addr + o - a) := by
    intro k x o hx hxnb ho h1 h2
    obtain ⟨hx0, hxal⟩ := (tagged_no_block ht hx).2 hxnb
    have e1 := (block_of (x.addr + o) x.addr bs hbs hxal).mp ⟨by omega, by omega⟩
    have e2 := (block_of (x.addr + o) (a - a % bs) bs hbs (aligned_mod a bs)).mp
      ⟨by omega, by omega⟩
    have e : x.addr = a - a % bs := e1.trans e2.symm
    exact ⟨e, by omega⟩
  cases r with
  | none =>
    have hbl : blocks' = blocks := hm
    subst hbl
    refine ⟨⟨⟨hp.1, hp.2.1, hp.2.2.1, hp.2.2.2.1, hwf', hp.2.2.2.2.2⟩, ht, hu, ?_⟩, hkm,
      block_kept_refl _, same_tags_refl _⟩
    intro k x o cell hx hxnb ho hcell hkc
    have hcell' : cells'[(x.addr + (o : Int)).toNat]? = some cell := hcell
    obtain ⟨hx0, hxal⟩ := (tagged_no_block ht hx).2 hxnb
    rw [hst.2, Int.toNat_of_nonneg (by omega)] at hcell'
    by_cases hr : a ≤ x.addr + o ∧ x.addr + (o : Int) < a + s ∧
        x.addr + (o : Int) < m.memory_size
    · exact absurd (htagof k x o hx hxnb ho hr.1 hr.2.1).1 (hmiss rfl k x hx)
    · rw [if_neg hr] at hcell'
      exact hc k x o cell hx hxnb ho hcell' hkc
  | some i =>
    obtain ⟨b, cellsB, hb, hstB, rfl⟩ := hm
    obtain ⟨b0, hb0, hba⟩ := hhit i rfl
    rw [hb] at hb0
    cases hb0
    have hkeptB : flags_kept b.mem cellsB := stored_kept hstB hs hk
    have hlen : (cellsB.length : Int) = bs := by
      rw [hstB.1]
      exact hp.2.2.2.1 b (mem_of_getElem? hb)
    have hnb : b.addr ≠ NO_BLOCK := by
      rw [hba]
      exact nonneg_ne_no_block (by omega)
    obtain ⟨hp', ht', hu'⟩ := struct_set { b with mem := cellsB }
      { m with mem := cells' }
      hp ht hu hb hlen (Or.inr ((tagged_no_block ht hb).2 hnb)) (Or.inl rfl)
      hwf' hp.2.2.2.2.2
    refine ⟨⟨hp', ht', hu', ?_⟩, hkm, block_kept_set hb (fun _ => hkeptB),
      same_tags_set hb rfl⟩
    intro k x o cell hx hxnb ho hcell hkc
    have hcell' : cells'[(x.addr + (o : Int)).toNat]? = some cell := hcell
    have hxy : ∃ y, blocks[k]? = some y ∧ y.addr = x.addr ∧ flags_kept y.mem x.mem ∧
        (k = i → x.mem = cellsB) := by
      rcases set_getElem?_cases _ _ _ _ _ hx with ⟨rfl, rfl⟩ | ⟨hki, hx'⟩
      · exact ⟨b, hb, rfl, hkeptB, fun _ => rfl⟩
      · exact ⟨x, hx', rfl, flags_kept_refl _, fun g => absurd g hki⟩
    obtain ⟨y, hy, hya, hyk, hyi⟩ := hxy
    have hynb : y.addr ≠ NO_BLOCK := fun g => hxnb (hya.symm.trans g)
    obtain ⟨hy0, hyal⟩ := (tagged_no_block ht hy).2 hynb
    rw [hst.2, Int.toNat_of_nonneg (by omega)] at hcell'
    by_cases hr : a ≤ x.addr + o ∧ x.addr + (o : Int) < a + s ∧
        x.addr + (o : Int) < m.memory_size
    · obtain ⟨e, eo⟩ := htagof k y o hy hynb ho (by omega) (by omega)
      have hki : k = i := hu k i y b hy hb (e.trans hba.symm) hynb
      rw [hyi hki, hstB.2 o, if_pos ⟨by omega, by omega, ho⟩]
      exact known_cells_get hk hs _ (by omega)
    · rw [if_neg hr] at hcell'
      obtain ⟨c0, e0, k0⟩ := hc k y o cell hy hynb ho (by rw [hya]; exact hcell') hkc
      exact hyk o c0 e0 k0

theorem indexed_mirror {bs bc : Int} {blocks blocks' : List CacheBlock} {r : Option Nat}
    {off size : Int} {src : List MemoryCell} (h : mirrored bs blocks r off size src blocks')
    (hidx : blocks_indexed bs bc blocks) : blocks_indexed bs bc blocks' := by
  cases r with
  | none =>
    have e : blocks' = blocks := h
    rw [e]
    exact hidx
  | some i =>
    obtain ⟨b, cellsB, hb, -, rfl⟩ := h
    exact indexed_set hidx (fun hnb => hidx i b hb hnb)

theorem direct_known_flush_iter (c : DirectCache Memory) (info : StatisticsInfo) (i : Nat)
    (b : CacheBlock) (hinv : known_inv c.block_size c.block_count c.blocks c.mem)
    (hidx : blocks_indexed c.block_size c.block_count c.blocks)
    (hb : c.blocks[i]? = some b) :
    ∃ c1 info1,
      (if b.addr ≠ NO_BLOCK then direct_ops_finalize memory_ops c info i
        else some (c, info)) = some (c1, info1) ∧
      c1.write_strategy = c.write_strategy ∧ c1.block_size = c.block_size ∧
      c1.block_count = c.block_count ∧ c1.mem.memory_size = c.mem.memory_size ∧
      known_inv c1.block_size c1.block_count c1.blocks c1.mem ∧
      blocks_indexed c1.block_size c1.block_count c1.blocks ∧
      flags_kept c.mem.mem c1.mem.mem ∧ block_kept c.blocks c1.blocks ∧
      same_tags c.blocks c1.blocks := by
  have hp := hinv.1
  have hsame : ∃ c1 info1, some (c, info) = some (c1, info1) ∧
      c1.write_strategy = c.write_strategy ∧ c1.block_size = c.block_size ∧
      c1.block_count = c.block_count ∧ c1.mem.memory_size = c.mem.memory_size ∧
      known_inv c1.block_size c1.block_count c1.blocks c1.mem ∧
      blocks_indexed c1.block_size c1.block_count c1.blocks ∧
      flags_kept c.mem.mem c1.mem.mem ∧ block_kept c.blocks c1.blocks ∧
      same_tags c.blocks c1.blocks :=
    ⟨c, info, rfl, rfl, rfl, rfl, rfl, hinv, hidx, flags_kept_refl _, block_kept_refl _,
      same_tags_refl _⟩
  by_cases hnb : b.addr ≠ NO_BLOCK
  · rw [if_pos hnb]
    cases hws : c.write_strategy with
    | write_through =>
      have e : direct_ops_finalize memory_ops c info i = some (c, info) := by
        unfold direct_ops_finalize
        rw [hws]
        rfl
      rw [e, ← hws]
      exact hsame
    | write_back =>
      have e : direct_ops_finalize memory_ops c info i =
          direct_cache_wb_finalize memory_ops c info i := by
        unfold direct_ops_finalize
        rw [hws]
      rw [e]
      by_cases hd : b.dirty = 0
      · rw [direct_wb_finalize_clean memory_ops c info i b hb hd, ← hws]
        exact hsame
      · obtain ⟨hb0, -⟩ := (tagged_no_block hinv.2.1 hb).2 hnb
        obtain ⟨cells, e2, hst⟩ := direct_wb_finalize_dirty c info i b hb hp.2.2.2.2.1 hb0
          (hp.2.2.2.1 b (mem_of_getElem? hb)) hd
        obtain ⟨hinv1, hk1⟩ := known_inv_finalize hinv hb hnb hst
        exact ⟨_, _, e2, hws, rfl, rfl, rfl, hinv1,
          indexed_set hidx (fun g => hidx i b hb g), hk1,
          block_kept_set hb (fun _ => flags_kept_refl _), same_tags_set hb rfl⟩
  · rw [if_neg hnb]
    exact hsame

theorem direct_known_flush_loop :
    ∀ (n i : Nat) (c : DirectCache Memory) (info : StatisticsInfo),
      known_inv c.block_size c.block_count c.blocks c.mem →
      blocks_indexed c.block_size c.block_count c.blocks →
      i + n ≤ c.blocks.length →
      ∃ c' info', direct_cache_flush_loop memory_ops n i c info = some (c', info') ∧
        c'.write_strategy = c.write_strategy ∧ c'.block_size = c.block_size ∧
        c'.block_count = c.block_count ∧ c'.mem.memory_size = c.mem.memory_size ∧
        known_inv c'.block_size c'.block_count c'.blocks c'.mem ∧
        blocks_indexed c'.block_size c'.block_count c'.blocks ∧
        flags_kept c.mem.mem c'.mem.mem ∧ block_kept c.blocks c'.blocks ∧
        same_tags c.blocks c'.blocks := by
  intro n
  induction n with
  | zero =>
    intro i c info hinv hidx _
    exact ⟨c, info, rfl, rfl, rfl, rfl, rfl, hinv, hidx, flags_kept_refl _, block_kept_refl _,
      same_tags_refl _⟩
  | succ n ih =>
    intro i c info hinv hidx hlen
    obtain ⟨b, hb, hbm⟩ := getElem?_of_lt_length c.blocks i (by omega)
    obtain ⟨c1, info1, e1, hws1, hbs1, hbc1, hms1, hinv1, hidx1, hk1, hbk1, ht1⟩ :=
      direct_known_flush_iter c info i b hinv hidx hb
    have hl1 : c1.blocks.length = c.blocks.length := by
      have h1 := hinv1.1.2.2.1
      have h2 := hinv.1.2.2.1
      omega
    obtain ⟨c', info', e', hws', hbs', hbc', hms', hinv', hidx', hk', hbk', ht'⟩ :=
      ih (i + 1) c1 info1 hinv1 hidx1 (by omega)
    refine ⟨c', info', ?_, hws'.trans hws1, hbs'.trans hbs1, hbc'.trans hbc1,
      hms'.trans hms1, hinv', hidx', flags_kept_trans hk1 hk',
      block_kept_trans hbk1 ht' hbk', same_tags_trans ht1 ht'⟩
    unfold direct_cache_flush_loop
    simp only [hb, e1]
    exact e'

theorem direct_known_flush (c : DirectCache Memory) (info : StatisticsInfo)
    (hinv : known_inv c.block_size c.block_count c.blocks c.mem)
    (hidx : blocks_indexed c.block_size c.block_count c.blocks) :
    ∃ c' info', direct_cache_flush memory_ops c info = some (c', info') ∧
      c'.write_strategy = c.write_strategy ∧ c'.block_size = c.block_size ∧
      c'.block_count = c.block_count ∧ c'.mem.memory_size = c.mem.memory_size ∧
      known_inv c'.block_size c'.block_count c'.blocks c'.mem ∧
      blocks_indexed c'.block_size c'.block_count c'.blocks ∧
      flags_kept c.mem.mem c'.mem.mem ∧ block_kept c.blocks c'.blocks := by
  have hlen := hinv.1.2.2.1
  obtain ⟨c1, info1, e, hws, hbs, hbc, hms, hinv1, hidx1, hk1, hbk1, -⟩ :=
    direct_known_flush_loop c.block_count.toNat 0 c info hinv hidx (by omega)
  refine ⟨{ c1 with mem := c1.mem }, info1, ?_, hws, hbs, hbc, hms, hinv1, hidx1, hk1, hbk1⟩
  unfold direct_cache_flush
  rw [e]
  rfl

theorem direct_known_step (c : DirectCache Memory) (info : StatisticsInfo) (op : MemOp)
    (hinv : known_inv c.block_size c.block_count c.blocks c.mem)
    (hidx : blocks_indexed c.block_size c.block_count c.blocks)
    (hok : op_ok c.block_size c.mem.memory_size op) (hk : op_known op) :
    ∃ c' info', apply_op (direct_cache_ops memory_ops) (c, info) op = some (c', info') ∧
      c'.write_strategy = c.write_strategy ∧ c'.block_size = c.block_size ∧
      c'.block_count = c.block_count ∧ c'.mem.memory_size = c.mem.memory_size ∧
      known_inv c'.block_size c'.block_count c'.blocks c'.mem ∧
      blocks_indexed c'.block_size c'.block_count c'.blocks ∧
      flags_kept c.mem.mem c'.mem.mem ∧ block_kept c.blocks c'.blocks := by
  have hp := hinv.1
  have hbs' := block_size_pos hp.1
  have hmax := hp.2.2.2.2.2
  have htag : ∀ b ∈ c.blocks, b.addr ≠ NO_BLOCK → b.dirty ≠ 0 → 0 ≤ b.addr := by
    intro b hb hnb _
    rcases hinv.2.1 b hb with ⟨h1, -⟩ | ⟨h1, -⟩
    · exact absurd h1 hnb
    · exact h1
  cases op with
  | flush => exact direct_known_flush c info hinv hidx
  | read a s dst =>
    obtain ⟨hao, hdst⟩ := hok
    have h1 := access_int_max hao hmax
    obtain ⟨e1, e2, -, -, -, e6⟩ := aligned_offset a c.block_size hp.1 hao.1 h1
    rw [e1] at e2 e6
    obtain ⟨r, hfind, hhit, hmiss⟩ := direct_read_spec c info a s dst hp htag hao.1 h1
      (fun x hx => ⟨hao.2.1, hdst x hx, hao.2.2.2⟩)
    cases r with
    | some i =>
      obtain ⟨dst', e⟩ := hhit i rfl
      exact ⟨c, _, apply_op_read (direct_cache_ops memory_ops) c info a s dst _ _ _ e,
        rfl, rfl, rfl, rfl, hinv, hidx, flags_kept_refl _, block_kept_refl _⟩
    | none =>
      obtain ⟨blocks1, cells1, info1, dst', -, hplaced, e⟩ := hmiss rfl
      have hnr := direct_miss_not_resident c _ hbs' hp.2.1 hp.2.2.1 e2 hidx hfind
      obtain ⟨b', hb'a, hb'⟩ := placed_ws_block hplaced
      obtain ⟨hinv1, hk1, hbk1⟩ := known_inv_placed hinv hnr e2 e6 hplaced
      refine ⟨_, info1, apply_op_read (direct_cache_ops memory_ops) c info a s dst _ _ _ e,
        rfl, rfl, rfl, rfl, hinv1, ?_, hk1, hbk1⟩
      show blocks_indexed c.block_size c.block_count blocks1
      rw [hb']
      exact indexed_set hidx (fun _ => by rw [hb'a])
  | write a s src =>
    obtain ⟨hao, hsrc⟩ := hok
    have h1 := access_int_max hao hmax
    obtain ⟨e1, e2, -, -, -, e6⟩ := aligned_offset a c.block_size hp.1 hao.1 h1
    rw [e1] at e2 e6
    cases hws : c.write_strategy with
    | write_through =>
      obtain ⟨r, blocks', cells', hfind, e, hst, hm⟩ := direct_wt_write_spec c info a s src hp
        hao.1 h1 hao.2.1 hsrc hao.2.2.2
      have hap : apply_op (direct_cache_ops memory_ops) (c, info) (MemOp.write a s src) =
          direct_cache_wt_write memory_ops c info a s src :=
        congrFun (congrFun (congrFun (congrFun (direct_ops_write_wt memory_ops c hws) info) a)
          s) src
      obtain ⟨r0, hfind0, hhit0, -⟩ := direct_find_lookup c (a - a % c.block_size) hbs'
        hp.2.1 hp.2.2.1 e2
      rw [hfind] at hfind0
      cases hfind0
      obtain ⟨hinv1, hk1, hbk1, htags⟩ := known_inv_mirror hinv hao hsrc hk.2 hst hm
        (fun i hi => (hhit0 i hi).2)
        (fun hr => direct_miss_not_resident c _ hbs' hp.2.1 hp.2.2.1 e2 hidx (hr ▸ hfind))
      exact ⟨_, _, hap.trans e, hws, rfl, rfl, rfl, hinv1, indexed_mirror hm hidx, hk1, hbk1⟩
    | write_back =>
      obtain ⟨r, hfind, hhit, hmiss⟩ := direct_wb_write_spec c info a s src hp htag hao.1 h1
        hao.2.1 hsrc hao.2.2.2
      have hap : apply_op (direct_cache_ops memory_ops) (c, info) (MemOp.write a s src) =
          direct_cache_wb_write memory_ops c info a s src :=
        congrFun (congrFun (congrFun (congrFun (direct_ops_write_wb memory_ops c hws) info) a)
          s) src
      cases r with
      | some i =>
        obtain ⟨b, cellsB, hb, hba, hst, e⟩ := hhit i rfl
        have hnb : b.addr ≠ NO_BLOCK := by
          rw [hba]
          exact nonneg_ne_no_block e2
        obtain ⟨hinv1, hbk1, -⟩ := known_inv_block_store hinv hb hnb hst hsrc hk.2
        refine ⟨_, _, hap.trans e, hws, rfl, rfl, rfl, hinv1, ?_, flags_kept_refl _, hbk1⟩
        exact indexed_set hidx (fun hnb => hidx i b hb hnb)
      | none =>
        obtain ⟨blocks1, cells1, info1, b1, cellsB, -, hplaced, hb1, hst, e⟩ := hmiss rfl
        have hnr := direct_miss_not_resident c _ hbs' hp.2.1 hp.2.2.1 e2 hidx hfind
        obtain ⟨b', hb'a, hb'⟩ := placed_ws_block hplaced
        obtain ⟨b1', hb1', hb1a, -, -⟩ := placed_block hplaced hp.2.2.2.1
        rw [hb1] at hb1'
        cases hb1'
        obtain ⟨hinv1, hk1, hbk1⟩ := known_inv_placed hinv hnr e2 e6 hplaced
        have hnb1 : b1.addr ≠ NO_BLOCK := by
          rw [hb1a]
          exact nonneg_ne_no_block e2
        obtain ⟨hinv2, hbk2, htags2⟩ := known_inv_block_store
          (m := { c.mem with mem := cells1 }) hinv1 hb1 hnb1 hst hsrc hk.2
        refine ⟨_, info1, hap.trans e, hws, rfl, rfl, rfl, hinv2, ?_, hk1,
          block_kept_trans hbk1 htags2 hbk2⟩
        have hidx1 : blocks_indexed c.block_size c.block_count blocks1 := by
          rw [hb']
          exact indexed_set hidx (fun _ => by rw [hb'a])
        exact indexed_set hidx1 (fun _ => by show direct_index _ _ b1.addr = _; rw [hb1a])
  | reveal a s src =>
    obtain ⟨hao, hsrc⟩ := hok
    have h1 := access_int_max hao hmax
    obtain ⟨e1, e2, -, -, -, e6⟩ := aligned_offset a c.block_size hp.1 hao.1 h1
    rw [e1] at e2 e6
    obtain ⟨r, blocks', cells', hfind, e, hst, hm⟩ := direct_reveal_spec c info a s src hp
      hao.1 h1 hao.2.1 hsrc hao.2.2.2
    obtain ⟨r0, hfind0, hhit0, -⟩ := direct_find_lookup c (a - a % c.block_size) hbs'
      hp.2.1 hp.2.2.1 e2
    rw [hfind] at hfind0
    cases hfind0
    obtain ⟨hinv1, hk1, hbk1, htags⟩ := known_inv_mirror hinv hao hsrc hk.2 hst hm
      (fun i hi => (hhit0 i hi).2)
      (fun hr => direct_miss_not_resident c _ hbs' hp.2.1 hp.2.2.1 e2 hidx (hr ▸ hfind))
    exact ⟨_, _, e, rfl, rfl, rfl, rfl, hinv1, indexed_mirror hm hidx, hk1, hbk1⟩

theorem full_known_flush_iter (c : FullCache Memory) (info : StatisticsInfo) (i : Nat)
    (b : CacheBlock) (hinv : known_inv c.block_size c.block_count c.blocks c.mem)
    (hb : c.blocks[i]? = some b) :
    ∃ c1 info1,
      (if b.addr ≠ NO_BLOCK then full_ops_finalize memory_ops c info i
        else some (c, info)) = some (c1, info1) ∧
      c1.write_strategy = c.write_strategy ∧ c1.block_size = c.block_size ∧
      c1.block_count = c.block_count ∧ c1.mem.memory_size = c.mem.memory_size ∧
      c1.rnd = c.rnd ∧
      known_inv c1.block_size c1.block_count c1.blocks c1.mem ∧
      flags_kept c.mem.mem c1.mem.mem ∧ block_kept c.blocks c1.blocks ∧
      same_tags c.blocks c1.blocks := by
  have hp := hinv.1
  have hsame : ∃ c1 info1, some (c, info) = some (c1, info1) ∧
      c1.write_strategy = c.write_strategy ∧ c1.block_size = c.block_size ∧
      c1.block_count = c.block_count ∧ c1.mem.memory_size = c.mem.memory_size ∧
      c1.rnd = c.rnd ∧
      known_inv c1.block_size c1.block_count c1.blocks c1.mem ∧
      flags_kept c.mem.mem c1.mem.mem ∧ block_kept c.blocks c1.blocks ∧
      same_tags c.blocks c1.blocks :=
    ⟨c, info, rfl, rfl, rfl, rfl, rfl, rfl, hinv, flags_kept_refl _, block_kept_refl _,
      same_tags_refl _⟩
  by_cases hnb : b.addr ≠ NO_BLOCK
  · rw [if_pos hnb]
    cases hws : c.write_strategy with
    | write_through =>
      have e : full_ops_finalize memory_ops c info i = some (c, info) := by
        unfold full_ops_finalize
        rw [hws]
        rfl
      rw [e, ← hws]
      exact hsame
    | write_back =>
      have e : full_ops_finalize memory_ops c info i =
          full_cache_wb_finalize memory_ops c info i := by
        unfold full_ops_finalize
        rw [hws]
      rw [e]
      by_cases hd : b.dirty = 0
      · rw [full_wb_finalize_clean memory_ops c info i b hb hd, ← hws]
        exact hsame
      · obtain ⟨hb0, -⟩ := (tagged_no_block hinv.2.1 hb).2 hnb
        obtain ⟨cells, e2, hst⟩ := full_wb_finalize_dirty c info i b hb hp.2.2.2.2.1 hb0
          (hp.2.2.2.1 b (mem_of_getElem? hb)) hd
        obtain ⟨hinv1, hk1⟩ := known_inv_finalize hinv hb hnb hst
        exact ⟨_, _, e2, hws, rfl, rfl, rfl, rfl, hinv1, hk1,
          block_kept_set hb (fun _ => flags_kept_refl _), same_tags_set hb rfl⟩
  · rw [if_neg hnb]
    exact hsame

theorem full_known_flush_loop :
    ∀ (n i : Nat) (c : FullCache Memory) (info : StatisticsInfo),
      known_inv c.block_size c.block_count c.blocks c.mem →
      i + n ≤ c.blocks.length →
      ∃ c' info', full_cache_flush_loop memory_ops n i c info = some (c', info') ∧
        c'.write_strategy = c.write_strategy ∧ c'.block_size = c.block_size ∧
        c'.block_count = c.block_count ∧ c'.mem.memory_size = c.mem.memory_size ∧
        c'.rnd = c.rnd ∧
        known_inv c'.block_size c'.block_count c'.blocks c'.mem ∧
        flags_kept c.mem.mem c'.mem.mem ∧ block_kept c.blocks c'.blocks ∧
        same_tags c.blocks c'.blocks := by
  intro n
  induction n with
  | zero =>
    intro i c info hinv _
    exact ⟨c, info, rfl, rfl, rfl, rfl, rfl, rfl, hinv, flags_kept_refl _, block_kept_refl _,
      same_tags_refl _⟩
  | succ n ih =>
    intro i c info hinv hlen
    obtain ⟨b, hb, hbm⟩ := getElem?_of_lt_length c.blocks i (by omega)
    obtain ⟨c1, info1, e1, hws1, hbs1, hbc1, hms1, hr1, hinv1, hk1, hbk1, ht1⟩ :=
      full_known_flush_iter c info i b hinv hb
    have hl1 : c1.blocks.length = c.blocks.length := by
      have h1 := hinv1.1.2.2.1
      have h2 := hinv.1.2.2.1
      omega
    obtain ⟨c', info', e', hws', hbs', hbc', hms', hr', hinv', hk', hbk', ht'⟩ :=
      ih (i + 1) c1 info1 hinv1 (by omega)
    refine ⟨c', info', ?_, hws'.trans hws1, hbs'.trans hbs1, hbc'.trans hbc1,
      hms'.trans hms1, hr'.trans hr1, hinv', flags_kept_trans hk1 hk',
      block_kept_trans hbk1 ht' hbk', same_tags_trans ht1 ht'⟩
    unfold full_cache_flush_loop
    simp only [hb, e1]
    exact e'

theorem full_known_flush (c : FullCache Memory) (info : StatisticsInfo)
    (hinv : known_inv c.block_size c.block_count c.blocks c.mem) :
    ∃ c' info', full_cache_flush memory_ops c info = some (c', info') ∧
      c'.write_strategy = c.write_strategy ∧ c'.block_size = c.block_size ∧
      c'.block_count = c.block_count ∧ c'.mem.memory_size = c.mem.memory_size ∧
      c'.rnd.raw = c.rnd.raw ∧
      known_inv c'.block_size c'.block_count c'.blocks c'.mem ∧
      flags_kept c.mem.mem c'.mem.mem ∧ block_kept c.blocks c'.blocks := by
  have hlen := hinv.1.2.2.1
  obtain ⟨c1, info1, e, hws, hbs, hbc, hms, hr, hinv1, hk1, hbk1, -⟩ :=
    full_known_flush_loop c.block_count.toNat 0 c info hinv (by omega)
  refine ⟨{ c1 with mem := c1.mem }, info1, ?_, hws, hbs, hbc, hms, congrArg Random.raw hr,
    hinv1, hk1, hbk1⟩
  unfold full_cache_flush
  rw [e]
  rfl

theorem full_known_step (c : FullCache Memory) (info : StatisticsInfo) (op : MemOp)
    (hrnd : ∀ n, 0 ≤ c.rnd.raw n ∧ c.rnd.raw n ≤ RAND_MAX)
    (hinv : known_inv c.block_size c.block_count c.blocks c.mem)
    (hok : op_ok c.block_size c.mem.memory_size op) (hk : op_known op) :
    ∃ c' info', apply_op (full_cache_ops memory_ops) (c, info) op = some (c', info') ∧
      c'.write_strategy = c.write_strategy ∧ c'.block_size = c.block_size ∧
      c'.block_count = c.block_count ∧ c'.mem.memory_size = c.mem.memory_size ∧
      c'.rnd.raw = c.rnd.raw ∧
      known_inv c'.block_size c'.block_count c'.blocks c'.mem ∧
      flags_kept c.mem.mem c'.mem.mem ∧ block_kept c.blocks c'.blocks := by
  have hp := hinv.1
  have hbs' := block_size_pos hp.1
  have hmax := hp.2.2.2.2.2
  have htag : ∀ b ∈ c.blocks, b.addr ≠ NO_BLOCK → b.dirty ≠ 0 → 0 ≤ b.addr := by
    intro b hb hnb _
    rcases hinv.2.1 b hb with ⟨h1, -⟩ | ⟨h1, -⟩
    · exact absurd h1 hnb
    · exact h1
  cases op with
  | flush => exact full_known_flush c info hinv
  | read a s dst =>
    obtain ⟨hao, hdst⟩ := hok
    have h1 := access_int_max hao hmax
    obtain ⟨e1, e2, -, -, -, e6⟩ := aligned_offset a c.block_size hp.1 hao.1 h1
    rw [e1] at e2 e6
    obtain ⟨r, hfind, hhit, hmiss⟩ := full_read_spec c info a s dst hp htag (hrnd _) hao.1 h1
      (fun x hx => ⟨hao.2.1, hdst x hx, hao.2.2.2⟩)
    cases r with
    | some i =>
      obtain ⟨dst', e⟩ := hhit i rfl
      exact ⟨c, _, apply_op_read (full_cache_ops memory_ops) c info a s dst _ _ _ e,
        rfl, rfl, rfl, rfl, rfl, hinv, flags_kept_refl _, block_kept_refl _⟩
    | none =>
      obtain ⟨i, blocks1, cells1, info1, rnd1, dst', -, hplaced, hraw, -, e⟩ := hmiss rfl
      have hnr := (full_find_none_iff c _ hp.2.2.1).mp hfind
      obtain ⟨hinv1, hk1, hbk1⟩ := known_inv_placed hinv hnr e2 e6 hplaced
      exact ⟨_, info1, apply_op_read (full_cache_ops memory_ops) c info a s dst _ _ _ e,
        rfl, rfl, rfl, rfl, hraw, hinv1, hk1, hbk1⟩
  | write a s src =>
    obtain ⟨hao, hsrc⟩ := hok
    have h1 := access_int_max hao hmax
    obtain ⟨e1, e2, -, -, -, e6⟩ := aligned_offset a c.block_size hp.1 hao.1 h1
    rw [e1] at e2 e6
    cases hws : c.write_strategy with
    | write_through =>
      obtain ⟨r, blocks', cells', hfind, e, hst, hm⟩ := full_wt_write_spec c info a s src hp
        hao.1 h1 hao.2.1 hsrc hao.2.2.2
      have hap : apply_op (full_cache_ops memory_ops) (c, info) (MemOp.write a s src) =
          full_cache_wt_write memory_ops c info a s src :=
        congrFun (congrFun (congrFun (congrFun (full_ops_write_wt memory_ops c hws) info) a)
          s) src
      obtain ⟨r0, hfind0, hhit0, hmiss0⟩ := full_find_lookup c (a - a % c.block_size) hp.2.2.1
      rw [hfind] at hfind0
      cases hfind0
      obtain ⟨hinv1, hk1, hbk1, htags⟩ := known_inv_mirror hinv hao hsrc hk.2 hst hm
        (fun i hi => (hhit0 i hi).2) hmiss0
      exact ⟨_, _, hap.trans e, hws, rfl, rfl, rfl, rfl, hinv1, hk1, hbk1⟩
    | write_back =>
      obtain ⟨r, hfind, hhit, hmiss⟩ := full_wb_write_spec c info a s src hp htag (hrnd _)
        hao.1 h1 hao.2.1 hsrc hao.2.2.2
      have hap : apply_op (full_cache_ops memory_ops) (c, info) (MemOp.write a s src) =
          full_cache_wb_write memory_ops c info a s src :=
        congrFun (congrFun (congrFun (congrFun (full_ops_write_wb memory_ops c hws) info) a)
          s) src
      cases r with
      | some i =>
        obtain ⟨b, cellsB, hb, hba, hst, e⟩ := hhit i rfl
        have hnb : b.addr ≠ NO_BLOCK := by
          rw [hba]
          exact nonneg_ne_no_block e2
        obtain ⟨hinv1, hbk1, -⟩ := known_inv_block_store hinv hb hnb hst hsrc hk.2
        exact ⟨_, _, hap.trans e, hws, rfl, rfl, rfl, rfl, hinv1, flags_kept_refl _, hbk1⟩
      | none =>
        obtain ⟨i, blocks1, cells1, info1, rnd1, b1, cellsB, -, hplaced, hraw, -, hb1, hst,
          e⟩ := hmiss rfl
        have hnr := (full_find_none_iff c _ hp.2.2.1).mp hfind
        obtain ⟨b1', hb1', hb1a, -, -⟩ := placed_block hplaced hp.2.2.2.1
        rw [hb1] at hb1'
        cases hb1'
        obtain ⟨hinv1, hk1, hbk1⟩ := known_inv_placed hinv hnr e2 e6 hplaced
        have hnb1 : b1.addr ≠ NO_BLOCK := by
          rw [hb1a]
          exact nonneg_ne_no_block e2
        obtain ⟨hinv2, hbk2, htags2⟩ := known_inv_block_store
          (m := { c.mem with mem := cells1 }) hinv1 hb1 hnb1 hst hsrc hk.2
        exact ⟨_, info1, hap.trans e, hws, rfl, rfl, rfl, hraw, hinv2, hk1,
          block_kept_trans hbk1 htags2 hbk2⟩
  | reveal a s src =>
    obtain ⟨hao, hsrc⟩ := hok
    have h1 := access_int_max hao hmax
    obtain ⟨e1, e2, -, -, -, e6⟩ := aligned_offset a c.block_size hp.1 hao.1 h1
    rw [e1] at e2 e6
    obtain ⟨r, blocks', cells', hfind, e, hst, hm⟩ := full_reveal_spec c info a s src hp
      hao.1 h1 hao.2.1 hsrc hao.2.2.2
    obtain ⟨r0, hfind0, hhit0, hmiss0⟩ := full_find_lookup c (a - a % c.block_size) hp.2.2.1
    rw [hfind] at hfind0
    cases hfind0
    obtain ⟨hinv1, hk1, hbk1, htags⟩ := known_inv_mirror hinv hao hsrc hk.2 hst hm
      (fun i hi => (hhit0 i hi).2) hmiss0
    exact ⟨_, _, e, rfl, rfl, rfl, rfl, rfl, hinv1, hk1, hbk1⟩

theorem fresh_known_inv (bs cs : Int) (m : Memory) (hbs : is_correct_block_size bs = true)
    (hcs : 0 < cs) (hmod : Int.tmod cs bs = 0) (hwf : m.wf)
    (hmax : m.memory_size ≤ MAX_MEM_SIZE) :
    known_inv bs (Int.tdiv cs bs) (List.replicate (Int.tdiv cs bs).toNat (free_block bs)) m ∧
    blocks_indexed bs (Int.tdiv cs bs)
      (List.replicate (Int.tdiv cs bs).toNat (free_block bs)) := by
  obtain ⟨⟨hp, ht, hu, -⟩, hidx⟩ := fresh_blocks_inv bs cs m hbs hcs hmod hwf hmax
  refine ⟨⟨hp, ht, hu, ?_⟩, hidx⟩
  intro i b o cell hb hnb _ _ _
  rw [List.eq_of_mem_replicate (mem_of_getElem? hb)] at hnb
  exact absurd rfl hnb

theorem apply_op_read_inv {L : Type} (ops : AbstractMemoryOps L) (l l' : L)
    (info info' : StatisticsInfo) (a s : Int) (dst : Option (List MemoryCell))
    (h : apply_op ops (l, info) (MemOp.read a s dst) = some (l', info')) :
    ∃ d, ops.read l info a s dst = some (l', info', d) := by
  unfold apply_op at h
  simp only [] at h
  cases hr : ops.read l info a s dst with
  | none =>
    rw [hr] at h
    cases h
  | some r =>
    rw [hr] at h
    obtain ⟨r1, r2, r3⟩ := r
    cases h
    exact ⟨r3, rfl⟩

theorem direct_known_run (ops : List MemOp) :
    ∀ (c : DirectCache Memory) (info : StatisticsInfo),
      known_inv c.block_size c.block_count c.blocks c.mem →
      blocks_indexed c.block_size c.block_count c.blocks →
      (∀ op ∈ ops, op_ok c.block_size c.mem.memory_size op ∧ op_known op) →
      ∃ c' info', run_ops (direct_cache_ops memory_ops) ops (c, info) = some (c', info') ∧
        c'.write_strategy = c.write_strategy ∧ c'.block_size = c.block_size ∧
        c'.block_count = c.block_count ∧ c'.mem.memory_size = c.mem.memory_size ∧
        known_inv c'.block_size c'.block_count c'.blocks c'.mem ∧
        blocks_indexed c'.block_size c'.block_count c'.blocks ∧
        flags_kept c.mem.mem c'.mem.mem := by
  induction ops with
  | nil =>
    intro c info hinv hidx _
    exact ⟨c, info, rfl, rfl, rfl, rfl, rfl, hinv, hidx, flags_kept_refl _⟩
  | cons op rest ih =>
    intro c info hinv hidx hok
    obtain ⟨hok1, hk1⟩ := hok op (List.mem_cons_self _ _)
    obtain ⟨c1, info1, e1, hws1, hbs1, hbc1, hms1, hinv1, hidx1, hf1, -⟩ :=
      direct_known_step c info op hinv hidx hok1 hk1
    obtain ⟨c', info', e', hws', hbs', hbc', hms', hinv', hidx', hf'⟩ := ih c1 info1 hinv1 hidx1
      (fun o ho => by
        rw [hbs1, hms1]
        exact hok o (List.mem_cons_of_mem _ ho))
    refine ⟨c', info', ?_, hws'.trans hws1, hbs'.trans hbs1, hbc'.trans hbc1, hms'.trans hms1,
      hinv', hidx', flags_kept_trans hf1 hf'⟩
    unfold run_ops
    rw [e1]
    exact e'

theorem direct_known_dispatch (c : DirectCache Memory) (info : StatisticsInfo) (ts : TraceStep)
    (hinv : known_inv c.block_size c.block_count c.blocks c.mem)
    (hidx : blocks_indexed c.block_size c.block_count c.blocks)
    (hok : step_ok c.block_size c.mem.memory_size ts) :
    ∃ c' info', operation_on_memory (direct_cache_ops memory_ops) ts (c, info) =
        some (c', info') ∧
      c'.write_strategy = c.write_strategy ∧ c'.block_size = c.block_size ∧
      c'.block_count = c.block_count ∧ c'.mem.memory_size = c.mem.memory_size ∧
      known_inv c'.block_size c'.block_count c'.blocks c'.mem ∧
      blocks_indexed c'.block_size c'.block_count c'.blocks ∧
      flags_kept c.mem.mem c'.mem.mem := by
  obtain ⟨hacc, hlen, hkn⟩ := hok
  unfold operation_on_memory
  by_cases hR : ts.op = 'R'
  · rw [if_pos hR]
    obtain ⟨c1, info1, e1, hws1, hbs1, hbc1, hms1, hinv1, hidx1, hf1, -⟩ :=
      direct_known_step c (statistics_add_read info) (MemOp.read ts.addr ts.size none) hinv hidx
        ⟨hacc, fun d hd => by cases hd⟩ trivial
    obtain ⟨d, e1'⟩ := apply_op_read_inv _ _ _ _ _ _ _ _ e1
    obtain ⟨c2, info2, e2, hws2, hbs2, hbc2, hms2, hinv2, hidx2, hf2, -⟩ :=
      direct_known_step c1 info1 (MemOp.reveal ts.addr ts.size ts.value) hinv1 hidx1
        ⟨by rw [hbs1, hms1]; exact hacc, hlen⟩ ⟨hacc.2.1, hkn⟩
    refine ⟨c2, info2, ?_, hws2.trans hws1, hbs2.trans hbs1, hbc2.trans hbc1,
      hms2.trans hms1, hinv2, hidx2, flags_kept_trans hf1 hf2⟩
    simp only [e1']
    exact e2
  · rw [if_neg hR]
    by_cases hW : ts.op = 'W'
    · rw [if_pos hW]
      obtain ⟨c1, info1, e1, hws1, hbs1, hbc1, hms1, hinv1, hidx1, hf1, -⟩ :=
        direct_known_step c (statistics_add_write info) (MemOp.write ts.addr ts.size ts.value)
          hinv hidx ⟨hacc, hlen⟩ ⟨hacc.2.1, hkn⟩
      exact ⟨c1, info1, e1, hws1, hbs1, hbc1, hms1, hinv1, hidx1, hf1⟩
    · rw [if_neg hW]
      exact ⟨c, info, rfl, rfl, rfl, rfl, rfl, hinv, hidx, flags_kept_refl _⟩

theorem direct_known_steps (steps : List TraceStep) :
    ∀ (c : DirectCache Memory) (info : StatisticsInfo),
      known_inv c.block_size c.block_count c.blocks c.mem →
      blocks_indexed c.block_size c.block_count c.blocks →
      (∀ ts ∈ steps, step_ok c.block_size c.mem.memory_size ts) →
      ∃ c' info', run_steps (direct_cache_ops memory_ops) steps (c, info) = some (c', info') ∧
        c'.write_strategy = c.write_strategy ∧ c'.block_size = c.block_size ∧
        c'.block_count = c.block_count ∧ c'.mem.memory_size = c.mem.memory_size ∧
        known_inv c'.block_size c'.block_count c'.blocks c'.mem ∧
        blocks_indexed c'.block_size c'.block_count c'.blocks ∧
        flags_kept c.mem.mem c'.mem.mem := by
  induction steps with
  | nil =>
    intro c info hinv hidx _
    exact ⟨c, info, rfl, rfl, rfl, rfl, rfl, hinv, hidx, flags_kept_refl _⟩
  | cons ts rest ih =>
    intro c info hinv hidx hok
    obtain ⟨c1, info1, e1, hws1, hbs1, hbc1, hms1, hinv1, hidx1, hf1⟩ :=
      direct_known_dispatch c info ts hinv hidx (hok ts (List.mem_cons_self _ _))
    obtain ⟨c', info', e', hws', hbs', hbc', hms', hinv', hidx', hf'⟩ := ih c1 info1 hinv1 hidx1
      (fun o ho => by
        rw [hbs1, hms1]
        exact hok o (List.mem_cons_of_mem _ ho))
    refine ⟨c', info', ?_, hws'.trans hws1, hbs'.trans hbs1, hbc'.trans hbc1, hms'.trans hms1,
      hinv', hidx', flags_kept_trans hf1 hf'⟩
    unfold run_steps
    rw [e1]
    exact e'

theorem full_known_run (ops : List MemOp) :
    ∀ (c : FullCache Memory) (info : StatisticsInfo),
      (∀ n, 0 ≤ c.rnd.raw n ∧ c.rnd.raw n ≤ RAND_MAX) →
      known_inv c.block_size c.block_count c.blocks c.mem →
      (∀ op ∈ ops, op_ok c.block_size c.mem.memory_size op ∧ op_known op) →
      ∃ c' info', run_ops (full_cache_ops memory_ops) ops (c, info) = some (c', info') ∧
        c'.write_strategy = c.write_strategy ∧ c'.block_size = c.block_size ∧
        c'.block_count = c.block_count ∧ c'.mem.memory_size = c.mem.memory_size ∧
        c'.rnd.raw = c.rnd.raw ∧
        known_inv c'.block_size c'.block_count c'.blocks c'.mem ∧
        flags_kept c.mem.mem c'.mem.mem := by
  induction ops with
  | nil =>
    intro c info _ hinv _
    exact ⟨c, info, rfl, rfl, rfl, rfl, rfl, rfl, hinv, flags_kept_refl _⟩
  | cons op rest ih =>
    intro c info hrnd hinv hok
    obtain ⟨hok1, hk1⟩ := hok op (List.mem_cons_self _ _)
    obtain ⟨c1, info1, e1, hws1, hbs1, hbc1, hms1, hr1, hinv1, hf1, -⟩ :=
      full_known_step c info op hrnd hinv hok1 hk1
    obtain ⟨c', info', e', hws', hbs', hbc', hms', hr', hinv', hf'⟩ := ih c1 info1
      (fun n => by rw [hr1]; exact hrnd n) hinv1
      (fun o ho => by
        rw [hbs1, hms1]
        exact hok o (List.mem_cons_of_mem _ ho))
    refine ⟨c', info', ?_, hws'.trans hws1, hbs'.trans hbs1, hbc'.trans hbc1, hms'.trans hms1,
      hr'.trans hr1, hinv', flags_kept_trans hf1 hf'⟩
    unfold run_ops
    rw [e1]
    exact e'

theorem full_known_dispatch (c : FullCache Memory) (info : StatisticsInfo) (ts : TraceStep)
    (hrnd : ∀ n, 0 ≤ c.rnd.raw n ∧ c.rnd.raw n ≤ RAND_MAX)
    (hinv : known_inv c.block_size c.block_count c.blocks c.mem)
    (hok : step_ok c.block_size c.mem.memory_size ts) :
    ∃ c' info', operation_on_memory (full_cache_ops memory_ops) ts (c, info) =
        some (c', info') ∧
      c'.write_strategy = c.write_strategy ∧ c'.block_size = c.block_size ∧
      c'.block_count = c.block_count ∧ c'.mem.memory_size = c.mem.memory_size ∧
      c'.rnd.raw = c.rnd.raw ∧
      known_inv c'.block_size c'.block_count c'.blocks c'.mem ∧
      flags_kept c.mem.mem c'.mem.mem := by
  obtain ⟨hacc, hlen, hkn⟩ := hok
  unfold operation_on_memory
  by_cases hR : ts.op = 'R'
  · rw [if_pos hR]
    obtain ⟨c1, info1, e1, hws1, hbs1, hbc1, hms1, hr1, hinv1, hf1, -⟩ :=
      full_known_step c (statistics_add_read info) (MemOp.read ts.addr ts.size none) hrnd hinv
        ⟨hacc, fun d hd => by cases hd⟩ trivial
    obtain ⟨d, e1'⟩ := apply_op_read_inv _ _ _ _ _ _ _ _ e1
    obtain ⟨c2, info2, e2, hws2, hbs2, hbc2, hms2, hr2, hinv2, hf2, -⟩ :=
      full_known_step c1 info1 (MemOp.reveal ts.addr ts.size ts.value)
        (fun n => by rw [hr1]; exact hrnd n) hinv1
        ⟨by rw [hbs1, hms1]; exact hacc, hlen⟩ ⟨hacc.2.1, hkn⟩
    refine ⟨c2, info2, ?_, hws2.trans hws1, hbs2.trans hbs1, hbc2.trans hbc1,
      hms2.trans hms1, hr2.trans hr1, hinv2, flags_kept_trans hf1 hf2⟩
    simp only [e1']
    exact e2
  · rw [if_neg hR]
    by_cases hW : ts.op = 'W'
    · rw [if_pos hW]
      obtain ⟨c1, info1, e1, hws1, hbs1, hbc1, hms1, hr1, hinv1, hf1, -⟩ :=
        full_known_step c (statistics_add_write info) (MemOp.write ts.addr ts.size ts.value)
          hrnd hinv ⟨hacc, hlen⟩ ⟨hacc.2.1, hkn⟩
      exact ⟨c1, info1, e1, hws1, hbs1, hbc1, hms1, hr1, hinv1, hf1⟩
    · rw [if_neg hW]
      exact ⟨c, info, rfl, rfl, rfl, rfl, rfl, rfl, hinv, flags_kept_refl _⟩

theorem full_known_steps (steps : List TraceStep) :
    ∀ (c : FullCache Memory) (info : StatisticsInfo),
      (∀ n, 0 ≤ c.rnd.raw n ∧ c.rnd.raw n ≤ RAND_MAX) →
      known_inv c.block_size c.block_count c.blocks c.mem →
      (∀ ts ∈ steps, step_ok c.block_size c.mem.memory_size ts) →
      ∃ c' info', run_steps (full_cache_ops memory_ops) steps (c, info) = some (c', info') ∧
        c'.write_strategy = c.write_strategy ∧ c'.block_size = c.block_size ∧
        c'.block_count = c.block_count ∧ c'.mem.memory_size = c.mem.memory_size ∧
        c'.rnd.raw = c.rnd.raw ∧
        known_inv c'.block_size c'.block_count c'.blocks c'.mem ∧
        flags_kept c.mem.mem c'.mem.mem := by
  induction steps with
  | nil =>
    intro c info _ hinv _
    exact ⟨c, info, rfl, rfl, rfl, rfl, rfl, rfl, hinv, flags_kept_refl _⟩
  | cons ts rest ih =>
    intro c info hrnd hinv hok
    obtain ⟨c1, info1, e1, hws1, hbs1, hbc1, hms1, hr1, hinv1, hf1⟩ :=
      full_known_dispatch c info ts hrnd hinv (hok ts (List.mem_cons_self _ _))
    obtain ⟨c', info', e', hws', hbs', hbc', hms', hr', hinv', hf'⟩ := ih c1 info1
      (fun n => by rw [hr1]; exact hrnd n) hinv1
      (fun o ho => by
        rw [hbs1, hms1]
        exact hok o (List.mem_cons_of_mem _ ho))
    refine ⟨c', info', ?_, hws'.trans hws1, hbs'.trans hbs1, hbc'.trans hbc1, hms'.trans hms1,
      hr'.trans hr1, hinv', flags_kept_trans hf1 hf'⟩
    unfold run_steps
    rw [e1]
    exact e'

theorem memory_known_dispatch (m : Memory) (info : StatisticsInfo) (ts : TraceStep)
    (hwf : m.wf) (hok : step_known ts) :
    ∃ m' info', operation_on_memory memory_ops ts (m, info) = some (m', info') ∧
      m'.wf ∧ flags_kept m.mem m'.mem := by
  obtain ⟨ha, hs, hlen, hkn⟩ := hok
  have hwf' : ∀ cells, stored_at cells m.mem ts.addr ts.size m.memory_size ts.value →
      ({ m with mem := cells } : Memory).wf := by
    intro cells hst
    refine ⟨?_, hwf.2⟩
    show (cells.length : Int) = m.memory_size
    rw [hst.1]
    exact hwf.1
  unfold operation_on_memory
  by_cases hR : ts.op = 'R'
  · rw [if_pos hR]
    have e1 : memory_ops.read m (statistics_add_read info) ts.addr ts.size none = _ :=
      memory_read_null m hwf (statistics_add_read info) ts.addr ts.size hs
    obtain ⟨cells, e2, hst⟩ := memory_reveal_spec m hwf
      (statistics_add_counter (statistics_add_read info)
        (blocks_count ts.size m.memory_width * m.memory_read_time)) ts.addr ts.size ts.value ha hs
      hlen
    refine ⟨{ m with mem := cells }, statistics_add_counter (statistics_add_read info)
      (blocks_count ts.size m.memory_width * m.memory_read_time), ?_, hwf' cells hst,
      stored_kept hst hlen hkn⟩
    simp only [e1]
    exact e2
  · rw [if_neg hR]
    by_cases hW : ts.op = 'W'
    · rw [if_pos hW]
      obtain ⟨cells, e2, hst⟩ := memory_write_spec m hwf (statistics_add_write info) ts.addr
        ts.size ts.value ha hs hlen
      exact ⟨_, _, e2, hwf' cells hst, stored_kept hst hlen hkn⟩
    · rw [if_neg hW]
      exact ⟨m, info, rfl, hwf, flags_kept_refl _⟩

theorem memory_known_steps (steps : List TraceStep) :
    ∀ (m : Memory) (info : StatisticsInfo), m.wf → (∀ ts ∈ steps, step_known ts) →
      ∃ m' info', run_steps memory_ops steps (m, info) = some (m', info') ∧
        m'.wf ∧ flags_kept m.mem m'.mem := by
  induction steps with
  | nil =>
    intro m info hwf _
    exact ⟨m, info, rfl, hwf, flags_kept_refl _⟩
  | cons ts rest ih =>
    intro m info hwf hok
    obtain ⟨m1, info1, e1, hwf1, hf1⟩ :=
      memory_known_dispatch m info ts hwf (hok ts (List.mem_cons_self _ _))
    obtain ⟨m', info', e', hwf', hf'⟩ := ih m1 info1 hwf1
      (fun o ho => hok o (List.mem_cons_of_mem _ ho))
    refine ⟨m', info', ?_, hwf', flags_kept_trans hf1 hf'⟩
    unfold run_steps
    rw [e1]
    exact e'

theorem known_cells_of_all {src : List MemoryCell} (s : Int)
    (h : ∀ cell ∈ src, cell.flags ≠ 0) : known_cells src s :=
  fun _ cell _ hc => h cell (mem_of_getElem? hc)

theorem step_ok_known {bs msz : Int} {ts : TraceStep} (h : step_ok bs msz ts) :
    step_known ts :=
  ⟨h.1.1, h.1.2.1, h.2.1, h.2.2⟩

theorem neg_word (k : Nat) (hk : k ≤ 31) :
    ((-(2 ^ k : Int)) % 4294967296).toNat = 2 ^ 32 - 2 ^ k := by
  have hpk : (2:Nat) ^ k ≤ 2 ^ 31 := Nat.pow_le_pow_right (by norm_num) hk
  have hpos : 0 < (2:Nat) ^ k := Nat.two_pow_pos k
  have : (-(2 ^ k : Int)) % 4294967296 = ((2 ^ 32 - 2 ^ k : Nat) : Int) := by
    have hc : ((2 ^ 32 - 2 ^ k : Nat) : Int) = 4294967296 - (2 ^ k : Int) := by
      have h32 : (2:Nat) ^ k ≤ 2 ^ 32 := by omega
      rw [Nat.cast_sub h32]; push_cast; norm_num
    rw [hc, show (-(2 ^ k : Int)) = (4294967296 - 2 ^ k) + 4294967296 * (-1) by ring,
      Int.add_mul_emod_self_left]
    have h3 : ((2:Int) ^ k) = ((2 ^ k : Nat) : Int) := by push_cast; rfl
    apply Int.emod_eq_of_lt <;> rw [h3] <;> omega
  rw [this]; simp

theorem int_and_neg_pow_word (a : Int) (k : Nat) (hk : k ≤ 31) :
    int_and a (-(2 ^ k : Int)) =
      to_int32 ((a % 4294967296).toNat - (a % 4294967296).toNat % 2 ^ k) := by
  have h1 := Int.emod_nonneg a (by norm_num : (4294967296 : Int) ≠ 0)
  have h2 := Int.emod_lt_of_pos a (by norm_num : (0 : Int) < 4294967296)
  have hn : (a % 4294967296).toNat < 2 ^ 32 := by omega
  unfold int_and
  rw [neg_word k hk, land_high_mask _ k (by omega) hn]

theorem aligned_multiple (a bs : Int) (hbs : is_correct_block_size bs = true) :
    int_and a (-bs) % bs = 0 := by
  simp only [is_correct_block_size, Bool.or_eq_true, beq_iff_eq] at hbs
  have h1 := Int.emod_nonneg a (by norm_num : (4294967296 : Int) ≠ 0)
  have h2 := Int.emod_lt_of_pos a (by norm_num : (0 : Int) < 4294967296)
  rcases hbs with (rfl | rfl) | rfl
  · have e := int_and_neg_pow_word a 4 (by norm_num)
    norm_num at e
    rw [e]
    unfold to_int32
    split <;> omega
  · have e := int_and_neg_pow_word a 5 (by norm_num)
    norm_num at e
    rw [e]
    unfold to_int32
    split <;> omega
  · have e := int_and_neg_pow_word a 6 (by norm_num)
    norm_num at e
    rw [e]
    unfold to_int32
    split <;> omega

theorem aligned_ne_no_block (a bs : Int) (hbs : is_correct_block_size bs = true) :
    int_and a (-bs) ≠ NO_BLOCK := by
  intro h
  have h1 := aligned_multiple a bs hbs
  rw [h] at h1
  simp only [is_correct_block_size, Bool.or_eq_true, beq_iff_eq] at hbs
  unfold NO_BLOCK at h1
  rcases hbs with (rfl | rfl) | rfl <;> omega

theorem single_find {L : Type} (c : FullCache L) (a : Int) (h : single_block c) :
    full_cache_find c a = direct_cache_find c.to_direct a := by
  obtain ⟨hbc, hbs, hlen, -⟩ := h
  obtain ⟨b, hb⟩ : ∃ b, c.blocks = [b] := by
    match hc : c.blocks, hlen with
    | [b], _ => exact ⟨b, rfl⟩
  unfold full_cache_find direct_cache_find
  have e1 : c.to_direct.block_size = c.block_size := rfl
  have e2 : c.to_direct.block_count = c.block_count := rfl
  have e3 : c.to_direct.blocks = c.blocks := rfl
  rw [e1, e2, e3, hbc, hb, if_neg (by simp [hbs])]
  simp only [Int.tmod_one]
  show full_cache_find_loop [b] a 1 0 = _
  unfold full_cache_find_loop at_index
  simp only [List.getElem?_cons_zero, lt_self_iff_false, if_false, Int.toNat_zero]
  by_cases hba : b.addr = a
  · simp [hba]
  · simp [hba, full_cache_find_loop]

theorem finalize_same {L : Type} (ops : AbstractMemoryOps L) (c : FullCache L)
    (info : StatisticsInfo) (i : Nat) (h : single_block c) :
    same_outcome (full_ops_finalize ops c info i) (direct_ops_finalize ops c.to_direct info i) := by
  unfold full_ops_finalize direct_ops_finalize
  show same_outcome (match c.write_strategy with
    | WriteStrategy.write_through => full_cache_wt_finalize c info i
    | WriteStrategy.write_back => full_cache_wb_finalize ops c info i)
    (match c.write_strategy with
    | WriteStrategy.write_through => direct_cache_wt_finalize c.to_direct info i
    | WriteStrategy.write_back => direct_cache_wb_finalize ops c.to_direct info i)
  cases c.write_strategy with
  | write_through => exact ⟨h, rfl, rfl⟩
  | write_back =>
    simp only []
    unfold full_cache_wb_finalize direct_cache_wb_finalize
    show same_outcome (match c.blocks[i]? with
      | none => none
      | some b => _) (match c.blocks[i]? with
      | none => none
      | some b => _)
    cases hb : c.blocks[i]? with
    | none => trivial
    | some b =>
      dsimp only
      by_cases hd : b.dirty ≠ 0
      · rw [if_pos hd, if_pos hd]
        show same_outcome (match ops.write c.mem _ b.addr c.block_size b.mem with
          | none => none
          | some (lower, info) => _) (match ops.write c.mem _ b.addr c.block_size b.mem with
          | none => none
          | some (lower, info) => _)
        cases ops.write c.mem (statistics_add_write_back_counter info) b.addr c.block_size
          b.mem with
        | none => trivial
        | some r =>
          obtain ⟨lower, info1⟩ := r
          refine ⟨⟨h.1, h.2.1, ?_, h.2.2.2⟩, rfl, rfl⟩
          show (c.blocks.set i _).length = 1
          rw [List.length_set]
          exact h.2.2.1
      · rw [if_neg hd, if_neg hd]
        exact ⟨h, rfl, rfl⟩

theorem single_blocks {L : Type} {c : FullCache L} (h : single_block c) :
    ∃ b, c.blocks = [b] := by
  obtain ⟨-, -, hlen, -⟩ := h
  match hc : c.blocks, hlen with
  | [b], _ => exact ⟨b, rfl⟩

theorem place_tail_same {L : Type} (ops : AbstractMemoryOps L) (c1 : FullCache L)
    (info1 : StatisticsInfo) (i : Nat) (a : Int) (h : single_block c1) :
    same_outcome
      (match c1.blocks[i]? with
        | none => none
        | some b1 =>
          match ops.read c1.mem info1 a c1.block_size (some b1.mem) with
          | none => none
          | some (lower, info2, d) =>
            some ({ c1 with
                    mem := lower,
                    blocks := c1.blocks.set i
                      { b1 with addr := a, mem := d.getD b1.mem } },
                  info2, i))
      (match c1.to_direct.blocks[i]? with
        | none => none
        | some b1 =>
          match ops.read c1.to_direct.mem info1 a c1.to_direct.block_size (some b1.mem) with
          | none => none
          | some (lower, info2, d) =>
            some ({ c1.to_direct with
                    mem := lower,
                    blocks := c1.to_direct.blocks.set i
                      { b1 with addr := a, mem := d.getD b1.mem } },
                  info2, i)) := by
  show same_outcome (match c1.blocks[i]? with
    | none => none
    | some b1 => _) (match c1.blocks[i]? with
    | none => none
    | some b1 => _)
  cases hb : c1.blocks[i]? with
  | none => trivial
  | some b1 =>
    dsimp only
    show same_outcome (match ops.read c1.mem info1 a c1.block_size (some b1.mem) with
      | none => none
      | some (lower, info2, d) => _)
      (match ops.read c1.mem info1 a c1.block_size (some b1.mem) with
      | none => none
      | some (lower, info2, d) => _)
    cases ops.read c1.mem info1 a c1.block_size (some b1.mem) with
    | none => trivial
    | some r =>
      obtain ⟨lower, info2, d⟩ := r
      refine ⟨⟨h.1, h.2.1, ?_, h.2.2.2⟩, rfl, rfl⟩
      show (c1.blocks.set i _).length = 1
      rw [List.length_set]
      exact h.2.2.1

theorem random_next_one (rnd : Random) (h : 0 ≤ rnd.raw rnd.calls ∧ rnd.raw rnd.calls ≤ RAND_MAX) :
    (random_next rnd 1).1 = 0 := by
  have := random_next_range rnd 1 (by decide) h
  omega

theorem place_same {L : Type} (ops : AbstractMemoryOps L) (c : FullCache L)
    (info : StatisticsInfo) (a : Int) (h : single_block c) :
    same_outcome (full_cache_random_place ops c info a)
      (direct_cache_place ops c.to_direct info a) := by
  obtain ⟨b, hb⟩ := single_blocks h
  have h0 := h
  obtain ⟨hbc, hbs, hlen, hrnd⟩ := h
  obtain ⟨ws, rnd, blocks, mem, cs, bs, bc, rt, wt⟩ := c
  simp only at hbc hbs hb hrnd
  subst hbc hb
  have hr0 := random_next_one rnd (hrnd rnd.calls)
  unfold full_cache_random_place direct_cache_place
  simp only [FullCache.to_direct, Int.toNat_one, full_cache_find_loop, List.getElem?_cons_zero,
    Int.tmod_one, at_index, lt_self_iff_false, if_false, Int.toNat_zero, hr0, hbs, false_or,
    one_ne_zero]
  by_cases hnb : b.addr = NO_BLOCK
  · simp only [hnb, if_true, ne_eq, not_true_eq_false, if_false]
    exact place_tail_same ops _ info 0 a h0
  · simp only [hnb, if_false, ne_eq, not_false_eq_true, if_true]
    have hS : single_block (L := L) ⟨ws, (random_next rnd 1).2, [b], mem, cs, bs, 1, rt, wt⟩ :=
      ⟨rfl, hbs, rfl, hrnd⟩
    have hf := finalize_same ops _ info 0 hS
    simp only [FullCache.to_direct] at hf
    generalize full_ops_finalize ops _ info 0 = X at hf ⊢
    generalize direct_ops_finalize ops _ info 0 = Y at hf ⊢
    cases X with
    | none =>
      cases Y with
      | none => trivial
      | some y => exact absurd hf (by simp [same_outcome])
    | some x =>
      cases Y with
      | none => exact absurd hf (by simp [same_outcome])
      | some y =>
        obtain ⟨c1, info1⟩ := x
        obtain ⟨d1, info1'⟩ := y
        obtain ⟨hS1, hd, hi⟩ : single_block c1 ∧ c1.to_direct = d1 ∧ info1 = info1' := hf
        subst hd hi
        exact place_tail_same ops c1 info1 0 a hS1

theorem single_set {L : Type} {c : FullCache L} (h : single_block c) (i : Nat)
    (b : CacheBlock) : (c.blocks.set i b).length = 1 := by
  rw [List.length_set]
  exact h.2.2.1

theorem read_tail_same {L : Type} (c1 : FullCache L) (info1 : StatisticsInfo) (i : Nat)
    (off size : Int) (dst : Option (List MemoryCell)) (h : single_block c1) :
    same_outcome
      (match dst with
        | none => some (c1, info1, none)
        | some d =>
          match c1.blocks[i]? with
          | none => none
          | some b =>
            match memcpy d 0 b.mem off size with
            | none => none
            | some d' => some (c1, info1, some d'))
      (match dst with
        | none => some (c1.to_direct, info1, none)
        | some d =>
          match c1.to_direct.blocks[i]? with
          | none => none
          | some b =>
            match memcpy d 0 b.mem off size with
            | none => none
            | some d' => some (c1.to_direct, info1, some d')) := by
  cases dst with
  | none => exact ⟨h, rfl, rfl⟩
  | some d =>
    show same_outcome (match c1.blocks[i]? with
      | none => none
      | some b => _) (match c1.blocks[i]? with
      | none => none
      | some b => _)
    cases c1.blocks[i]? with
    | none => trivial
    | some b =>
      dsimp only
      cases memcpy d 0 b.mem off size with
      | none => trivial
      | some d' => exact ⟨h, rfl, rfl⟩

theorem read_same {L : Type} (ops : AbstractMemoryOps L) (c : FullCache L)
    (info : StatisticsInfo) (addr size : Int) (dst : Option (List MemoryCell))
    (h : single_block c) :
    same_outcome (full_cache_read ops c info addr size dst)
      (direct_cache_read ops c.to_direct info addr size dst) := by
  unfold full_cache_read direct_cache_read
  simp only []
  rw [single_find c _ h]
  have e1 : c.to_direct.block_size = c.block_size := rfl
  have e2 : c.to_direct.cache_read_time = c.cache_read_time := rfl
  rw [e1, e2]
  cases direct_cache_find c.to_direct (int_and addr (-c.block_size)) with
  | none => trivial
  | some found =>
    cases found with
    | some i =>
      exact read_tail_same c _ i _ size dst h
    | none =>
      dsimp only
      have hp := place_same ops c (statistics_add_counter info c.cache_read_time)
        (int_and addr (-c.block_size)) h
      generalize full_cache_random_place ops c _ _ = X at hp ⊢
      generalize direct_cache_place ops c.to_direct _ _ = Y at hp ⊢
      cases X with
      | none =>
        cases Y with
        | none => trivial
        | some y => exact absurd hp (by simp [same_outcome])
      | some x =>
        cases Y with
        | none => exact absurd hp (by simp [same_outcome])
        | some y =>
          obtain ⟨c1, info1, i⟩ := x
          obtain ⟨d1, info1', i'⟩ := y
          obtain ⟨hS1, hd, hi⟩ : single_block c1 ∧ c1.to_direct = d1 ∧
            (info1, i) = (info1', i') := hp
          cases hi
          subst hd
          exact read_tail_same c1 _ i _ size dst hS1

theorem mirror_same {L : Type} (c : FullCache L)
    (info : StatisticsInfo) (addr size : Int) (src : List MemoryCell)
    (f : L → StatisticsInfo → memaddr_t → Int → List MemoryCell → Option (L × StatisticsInfo))
    (found : Option Nat) (off : Int) (h : single_block c) :
    same_outcome
      (match (match found with
             | some i =>
               match c.blocks[i]? with
               | none => none
               | some b =>
                 match memcpy b.mem off src 0 size with
                 | none => none
                 | some cells => some (c.blocks.set i { b with mem := cells })
             | none => some c.blocks) with
      | none => none
      | some blocks1 =>
        match f c.mem info addr size src with
        | none => none
        | some (lower, info1) => some ({ c with mem := lower, blocks := blocks1 }, info1))
      (match (match found with
             | some i =>
               match c.to_direct.blocks[i]? with
               | none => none
               | some b =>
                 match memcpy b.mem off src 0 size with
                 | none => none
                 | some cells => some (c.to_direct.blocks.set i { b with mem := cells })
             | none => some c.to_direct.blocks) with
      | none => none
      | some blocks1 =>
        match f c.to_direct.mem info addr size src with
        | none => none
        | some (lower, info1) =>
          some ({ c.to_direct with mem := lower, blocks := blocks1 }, info1)) := by
  have e3 : c.to_direct.blocks = c.blocks := rfl
  have e4 : c.to_direct.mem = c.mem := rfl
  rw [e3, e4]
  cases found with
  | none =>
    dsimp only
    cases f c.mem info addr size src with
    | none => trivial
    | some r =>
      obtain ⟨lower, info1⟩ := r
      exact ⟨⟨h.1, h.2.1, h.2.2.1, h.2.2.2⟩, rfl, rfl⟩
  | some i =>
    dsimp only
    cases c.blocks[i]? with
    | none => trivial
    | some b =>
      dsimp only
      cases memcpy b.mem off src 0 size with
      | none => trivial
      | some cells =>
        dsimp only
        cases f c.mem info addr size src with
        | none => trivial
        | some r =>
          obtain ⟨lower, info1⟩ := r
          exact ⟨⟨h.1, h.2.1, single_set h i _, h.2.2.2⟩, rfl, rfl⟩

theorem wt_write_same {L : Type} (ops : AbstractMemoryOps L) (c : FullCache L)
    (info : StatisticsInfo) (addr size : Int) (src : List MemoryCell) (h : single_block c) :
    same_outcome (full_cache_wt_write ops c info addr size src)
      (direct_cache_wt_write ops c.to_direct info addr size src) := by
  unfold full_cache_wt_write direct_cache_wt_write
  simp only []
  rw [single_find c _ h]
  have e1 : c.to_direct.block_size = c.block_size := rfl
  have e2 : c.to_direct.cache_write_time = c.cache_write_time := rfl
  rw [e1, e2]
  cases direct_cache_find c.to_direct (int_and addr (-c.block_size)) with
  | none => trivial
  | some found =>
    exact mirror_same c _ addr size src ops.write found _ h

theorem reveal_same {L : Type} (ops : AbstractMemoryOps L) (c : FullCache L)
    (info : StatisticsInfo) (addr size : Int) (src : List MemoryCell) (h : single_block c) :
    same_outcome (full_cache_reveal ops c info addr size src)
      (direct_cache_reveal ops c.to_direct info addr size src) := by
  unfold full_cache_reveal direct_cache_reveal
  simp only []
  rw [single_find c _ h]
  have e1 : c.to_direct.block_size = c.block_size := rfl
  rw [e1]
  cases direct_cache_find c.to_direct (int_and addr (-c.block_size)) with
  | none => trivial
  | some found =>
    exact mirror_same c _ addr size src ops.reveal found _ h

theorem wb_tail_same {L : Type} (c1 : FullCache L) (info1 : StatisticsInfo) (i : Nat)
    (off size : Int) (src : List MemoryCell) (h : single_block c1) :
    same_outcome
      (match c1.blocks[i]? with
        | none => none
        | some b =>
          match memcpy b.mem off src 0 size with
          | none => none
          | some cells =>
            some ({ c1 with blocks := c1.blocks.set i { b with mem := cells, dirty := 1 } },
              info1))
      (match c1.to_direct.blocks[i]? with
        | none => none
        | some b =>
          match memcpy b.mem off src 0 size with
          | none => none
          | some cells =>
            some ({ c1.to_direct with
                    blocks := c1.to_direct.blocks.set i { b with mem := cells, dirty := 1 } },
              info1)) := by
  have e3 : c1.to_direct.blocks = c1.blocks := rfl
  rw [e3]
  cases c1.blocks[i]? with
  | none => trivial
  | some b =>
    dsimp only
    cases memcpy b.mem off src 0 size with
    | none => trivial
    | some cells => exact ⟨⟨h.1, h.2.1, single_set h i _, h.2.2.2⟩, rfl, rfl⟩

theorem wb_write_same {L : Type} (ops : AbstractMemoryOps L) (c : FullCache L)
    (info : StatisticsInfo) (addr size : Int) (src : List MemoryCell) (h : single_block c) :
    same_outcome (full_cache_wb_write ops c info addr size src)
      (direct_cache_wb_write ops c.to_direct info addr size src) := by
  unfold full_cache_wb_write direct_cache_wb_write
  simp only []
  rw [single_find c _ h]
  have e1 : c.to_direct.block_size = c.block_size := rfl
  have e2 : c.to_direct.cache_write_time = c.cache_write_time := rfl
  rw [e1, e2]
  cases direct_cache_find c.to_direct (int_and addr (-c.block_size)) with
  | none => trivial
  | some found =>
    cases found with
    | some i =>
      exact wb_tail_same c _ i _ size src h
    | none =>
      dsimp only
      have hp := place_same ops c (statistics_add_counter info c.cache_write_time)
        (int_and addr (-c.block_size)) h
      generalize full_cache_random_place ops c _ _ = X at hp ⊢
      generalize direct_cache_place ops c.to_direct _ _ = Y at hp ⊢
      cases X with
      | none =>
        cases Y with
        | none => trivial
        | some y => exact absurd hp (by simp [same_outcome])
      | some x =>
        cases Y with
        | none => exact absurd hp (by simp [same_outcome])
        | some y =>
          obtain ⟨c1, info1, i⟩ := x
          obtain ⟨d1, info1', i'⟩ := y
          obtain ⟨hS1, hd, hi⟩ : single_block c1 ∧ c1.to_direct = d1 ∧
            (info1, i) = (info1', i') := hp
          cases hi
          subst hd
          exact wb_tail_same c1 _ i _ size src hS1

theorem flush_same {L : Type} (ops : AbstractMemoryOps L) (c : FullCache L)
    (info : StatisticsInfo) (h : single_block c) :
    same_outcome (full_cache_flush ops c info) (direct_cache_flush ops c.to_direct info) := by
  obtain ⟨b, hb⟩ := single_blocks h
  have hbc := h.1
  have hloop : same_outcome (full_cache_flush_loop ops c.block_count.toNat 0 c info)
      (direct_cache_flush_loop ops c.to_direct.block_count.toNat 0 c.to_direct info) := by
    have e2 : c.to_direct.block_count = c.block_count := rfl
    have e3 : c.to_direct.blocks = c.blocks := rfl
    rw [e2, hbc]
    show same_outcome (full_cache_flush_loop ops 1 0 c info)
      (direct_cache_flush_loop ops 1 0 c.to_direct info)
    unfold full_cache_flush_loop direct_cache_flush_loop
    rw [e3, hb]
    simp only [List.getElem?_cons_zero]
    by_cases hnb : b.addr ≠ NO_BLOCK
    · rw [if_pos hnb, if_pos hnb]
      have hf := finalize_same ops c info 0 h
      generalize full_ops_finalize ops c info 0 = X at hf ⊢
      generalize direct_ops_finalize ops c.to_direct info 0 = Y at hf ⊢
      cases X with
      | none =>
        cases Y with
        | none => trivial
        | some y => exact absurd hf (by simp [same_outcome])
      | some x =>
        cases Y with
        | none => exact absurd hf (by simp [same_outcome])
        | some y =>
          obtain ⟨c1, info1⟩ := x
          obtain ⟨d1, info1'⟩ := y
          obtain ⟨hS1, hd, hi⟩ : single_block c1 ∧ c1.to_direct = d1 ∧ info1 = info1' := hf
          subst hd hi
          dsimp only
          unfold full_cache_flush_loop direct_cache_flush_loop
          exact ⟨hS1, rfl, rfl⟩
    · rw [if_neg hnb, if_neg hnb]
      dsimp only
      unfold full_cache_flush_loop direct_cache_flush_loop
      exact ⟨h, rfl, rfl⟩
  unfold full_cache_flush direct_cache_flush
  generalize full_cache_flush_loop ops c.block_count.toNat 0 c info = X at hloop ⊢
  generalize direct_cache_flush_loop ops c.to_direct.block_count.toNat 0 c.to_direct info = Y
    at hloop ⊢
  cases X with
  | none =>
    cases Y with
    | none => trivial
    | some y => exact absurd hloop (by simp [same_outcome])
  | some x =>
    cases Y with
    | none => exact absurd hloop (by simp [same_outcome])
    | some y =>
      obtain ⟨c1, info1⟩ := x
      obtain ⟨d1, info1'⟩ := y
      obtain ⟨hS1, hd, hi⟩ : single_block c1 ∧ c1.to_direct = d1 ∧ info1 = info1' := hloop
      subst hd hi
      dsimp only
      have e4 : c1.to_direct.mem = c1.mem := rfl
      rw [e4]
      cases ops.flush c1.mem info1 with
      | none => trivial
      | some r =>
        obtain ⟨lower, info2⟩ := r
        exact ⟨⟨hS1.1, hS1.2.1, hS1.2.2.1, hS1.2.2.2⟩, rfl, rfl⟩

theorem write_same {L : Type} (ops : AbstractMemoryOps L) (c : FullCache L)
    (info : StatisticsInfo) (addr size : Int) (src : List MemoryCell) (h : single_block c) :
    same_outcome ((full_cache_ops ops).write c info addr size src)
      ((direct_cache_ops ops).write c.to_direct info addr size src) := by
  cases hws : c.write_strategy with
  | write_through =>
    rw [full_ops_write_wt ops c hws, direct_ops_write_wt ops c.to_direct hws]
    exact wt_write_same ops c info addr size src h
  | write_back =>
    rw [full_ops_write_wb ops c hws, direct_ops_write_wb ops c.to_direct hws]
    exact wb_write_same ops c info addr size src h

theorem same_outcome_cases {L α : Type} {x : Option (FullCache L × α)}
    {y : Option (DirectCache L × α)} (h : same_outcome x y) :
    (x = none ∧ y = none) ∨
    ∃ c u, x = some (c, u) ∧ y = some (c.to_direct, u) ∧ single_block c := by
  cases x with
  | none =>
    cases y with
    | none => exact Or.inl ⟨rfl, rfl⟩
    | some q => exact absurd h (by simp [same_outcome])
  | some r =>
    cases y with
    | none => exact absurd h (by simp [same_outcome])
    | some q =>
      obtain ⟨c, u⟩ := r
      obtain ⟨d, v⟩ := q
      obtain ⟨hS, hd, hu⟩ : single_block c ∧ c.to_direct = d ∧ u = v := h
      subst hd hu
      exact Or.inr ⟨c, u, rfl, rfl, hS⟩

theorem run_reads_same {L : Type} (ops : AbstractMemoryOps L) :
    ∀ (l : List MemOp) (c : FullCache L) (info : StatisticsInfo), single_block c →
      (run_reads (full_cache_ops ops) l (c, info)).map forget_generator =
        run_reads (direct_cache_ops ops) l (c.to_direct, info) := by
  intro l
  induction l with
  | nil =>
    intro c info _
    rfl
  | cons op rest ih =>
    intro c info h
    cases op with
    | read a s dst =>
      unfold run_reads
      have hr := read_same ops c info a s dst h
      rcases same_outcome_cases hr with ⟨e1, e2⟩ | ⟨c1, u, e1, e2, hS1⟩
      · have e1' : (full_cache_ops ops).read c info a s dst = none := e1
        have e2' : (direct_cache_ops ops).read c.to_direct info a s dst = none := e2
        simp only [e1', e2']
        rfl
      · obtain ⟨info1, d⟩ := u
        have e1' : (full_cache_ops ops).read c info a s dst = some (c1, info1, d) := e1
        have e2' : (direct_cache_ops ops).read c.to_direct info a s dst =
          some (c1.to_direct, info1, d) := e2
        simp only [e1', e2']
        have hi := ih c1 info1 hS1
        cases hx : run_reads (full_cache_ops ops) rest (c1, info1) with
        | none =>
          rw [hx] at hi
          rw [← hi]
          rfl
        | some q =>
          rw [hx] at hi
          rw [← hi]
          rfl
    | write a s src =>
      unfold run_reads
      have hw : same_outcome (apply_op (full_cache_ops ops) (c, info) (MemOp.write a s src))
          (apply_op (direct_cache_ops ops) (c.to_direct, info) (MemOp.write a s src)) :=
        write_same ops c info a s src h
      rcases same_outcome_cases hw with ⟨e1, e2⟩ | ⟨c1, info1, e1, e2, hS1⟩
      · simp only [e1, e2]
        rfl
      · simp only [e1, e2]
        exact ih c1 info1 hS1
    | reveal a s src =>
      unfold run_reads
      have hw : same_outcome (apply_op (full_cache_ops ops) (c, info) (MemOp.reveal a s src))
          (apply_op (direct_cache_ops ops) (c.to_direct, info) (MemOp.reveal a s src)) :=
        reveal_same ops c info a s src h
      rcases same_outcome_cases hw with ⟨e1, e2⟩ | ⟨c1, info1, e1, e2, hS1⟩
      · simp only [e1, e2]
        rfl
      · simp only [e1, e2]
        exact ih c1 info1 hS1
    | flush =>
      unfold run_reads
      have hw : same_outcome (apply_op (full_cache_ops ops) (c, info) (MemOp.flush))
          (apply_op (direct_cache_ops ops) (c.to_direct, info) (MemOp.flush)) :=
        flush_same ops c info h
      rcases same_outcome_cases hw with ⟨e1, e2⟩ | ⟨c1, info1, e1, e2, hS1⟩
      · simp only [e1, e2]
        rfl
      · simp only [e1, e2]
        exact ih c1 info1 hS1

theorem same_tags_symm {a b : List CacheBlock} (h : same_tags a b) : same_tags b a := by
  unfold same_tags at *
  exact h.symm

theorem same_tags_of_index {blocks blocks' : List CacheBlock}
    (h : ∀ k : Nat, (blocks'[k]?).map (fun (b : CacheBlock) => b.addr) =
      (blocks[k]?).map (fun (b : CacheBlock) => b.addr)) : same_tags blocks blocks' := by
  unfold same_tags
  apply List.ext_getElem?
  intro k
  rw [List.getElem?_map, List.getElem?_map]
  exact h k

theorem stays_resident_refl (blocks : List CacheBlock) : stays_resident blocks blocks :=
  fun _ b hb hnb => ⟨b, hb, hnb⟩

theorem stays_resident_trans {a b c : List CacheBlock} (h1 : stays_resident a b)
    (h2 : stays_resident b c) : stays_resident a c := by
  intro i x hx hnb
  obtain ⟨y, hy, hynb⟩ := h1 i x hx hnb
  exact h2 i y hy hynb

theorem index_of_mem {α : Type} {l : List α} {x : α} (h : x ∈ l) :
    ∃ i : Nat, l[i]? = some x := by
  obtain ⟨i, hi, e⟩ := List.getElem_of_mem h
  exact ⟨i, by rw [List.getElem?_eq_getElem hi, e]⟩

theorem tag_inv_same {bs bc : Int} {blocks blocks' : List CacheBlock}
    (hinv : tag_inv bs bc blocks) (h : same_tags blocks blocks') :
    tag_inv bs bc blocks' ∧ stays_resident blocks blocks' := by
  obtain ⟨hbs, hlen, hal, hu⟩ := hinv
  have hl : blocks'.length = blocks.length := by
    have := congrArg List.length h
    simpa using this
  refine ⟨⟨hbs, by omega, ?_, ?_⟩, ?_⟩
  · intro b' hb' hnb
    obtain ⟨i, hi⟩ := index_of_mem hb'
    obtain ⟨b, hb, e⟩ := same_tags_get h hi
    rw [← e]
    exact hal b (mem_of_getElem? hb) (by rw [e]; exact hnb)
  · intro i j x y hx hy hxy hnb
    obtain ⟨x0, hx0, ex⟩ := same_tags_get h hx
    obtain ⟨y0, hy0, ey⟩ := same_tags_get h hy
    exact hu i j x0 y0 hx0 hy0 (by rw [ex, ey]; exact hxy) (by rw [ex]; exact hnb)
  · intro i b hb hnb
    obtain ⟨b', hb', e⟩ := same_tags_get (same_tags_symm h) hb
    exact ⟨b', hb', by rw [e]; exact hnb⟩

theorem tag_inv_retag {bs bc : Int} {blocks : List CacheBlock} {i : Nat} {b : CacheBlock}
    (b' : CacheBlock) (hinv : tag_inv bs bc blocks) (hb : blocks[i]? = some b)
    (hnr : not_resident blocks b'.addr) (hal : b'.addr % bs = 0) (hnb : b'.addr ≠ NO_BLOCK) :
    tag_inv bs bc (blocks.set i b') ∧ stays_resident blocks (blocks.set i b') := by
  obtain ⟨hbs, hlen, ha, hu⟩ := hinv
  refine ⟨⟨hbs, by simpa using hlen, ?_, ?_⟩, ?_⟩
  · intro x hx hxnb
    rcases List.mem_or_eq_of_mem_set hx with h | h
    · exact ha x h hxnb
    · rw [h]
      exact hal
  · intro j k bj bk hj hk hjk hjn
    rcases set_getElem?_cases _ _ _ _ _ hj with ⟨rfl, rfl⟩ | ⟨hji, hj'⟩
    · rcases set_getElem?_cases _ _ _ _ _ hk with ⟨rfl, rfl⟩ | ⟨hki, hk'⟩
      · rfl
      · exact absurd hjk.symm (hnr k bk hk')
    · rcases set_getElem?_cases _ _ _ _ _ hk with ⟨rfl, rfl⟩ | ⟨hki, hk'⟩
      · exact absurd hjk (hnr j bj hj')
      · exact hu j k bj bk hj' hk' hjk hjn
  · intro j x hx hxnb
    by_cases hji : j = i
    · subst hji
      refine ⟨b', ?_, hnb⟩
      rw [List.getElem?_set, if_pos rfl, if_pos (lt_length_of_getElem? hb)]
    · refine ⟨x, ?_, hxnb⟩
      rw [List.getElem?_set, if_neg (fun g => hji g.symm)]
      exact hx

theorem full_finalize_tags {L : Type} {ops : AbstractMemoryOps L} {c c1 : FullCache L}
    {info info1 : StatisticsInfo} {i : Nat}
    (h : full_ops_finalize ops c info i = some (c1, info1)) :
    c1.block_size = c.block_size ∧ c1.block_count = c.block_count ∧
    same_tags c.blocks c1.blocks := by
  obtain ⟨e1, e2, -, -, -, -, -, e⟩ := full_wb_finalize_params h
  exact ⟨e1, e2, same_tags_of_index e⟩

theorem full_place_tags {L : Type} {ops : AbstractMemoryOps L} {c c1 : FullCache L}
    {info info1 : StatisticsInfo} {a : Int} {i : Nat}
    (h : full_cache_random_place ops c info a = some (c1, info1, i)) :
    c1.block_size = c.block_size ∧ c1.block_count = c.block_count ∧
    ∃ blocks0 b1 b', same_tags c.blocks blocks0 ∧ blocks0[i]? = some b1 ∧ b'.addr = a ∧
      c1.blocks = blocks0.set i b' := by
  unfold full_cache_random_place at h
  split at h
  · cases h
  · split at h
    · cases h
    · rename_i c2 info2 i2 hsel
      have hc2 : c2.block_size = c.block_size ∧ c2.block_count = c.block_count ∧
          same_tags c.blocks c2.blocks := by
        split at hsel
        · cases hsel
          exact ⟨rfl, rfl, same_tags_refl _⟩
        · simp only [] at hsel
          split at hsel
          · cases hsel
          · split at hsel
            · cases hsel
            · rename_i c3 info3 hfin
              cases hsel
              have t := full_finalize_tags hfin
              exact ⟨t.1, t.2.1, t.2.2⟩
      obtain ⟨e1, e2, e3⟩ := hc2
      split at h
      · cases h
      · rename_i b1 hb1
        split at h
        · cases h
        · rename_i lower info3 d hr
          cases h
          exact ⟨e1, e2, c2.blocks, b1, _, e3, hb1, rfl, rfl⟩

theorem full_place_inv {L : Type} {ops : AbstractMemoryOps L} {c c1 : FullCache L}
    {info info1 : StatisticsInfo} {addr : Int} {i : Nat}
    (hinv : tag_inv c.block_size c.block_count c.blocks)
    (hmiss : full_cache_find c (int_and addr (-c.block_size)) = some none)
    (h : full_cache_random_place ops c info (int_and addr (-c.block_size)) =
      some (c1, info1, i)) :
    c1.block_size = c.block_size ∧ c1.block_count = c.block_count ∧
    tag_inv c1.block_size c1.block_count c1.blocks ∧ stays_resident c.blocks c1.blocks := by
  obtain ⟨e1, e2, blocks0, b1, b', ht, hb1, hb', hset⟩ := full_place_tags h
  have hnr := (full_find_none_iff c _ hinv.2.1).mp hmiss
  obtain ⟨hinv0, hs0⟩ := tag_inv_same hinv ht
  have hnr0 : not_resident blocks0 b'.addr := by
    intro k x hx
    obtain ⟨x0, hx0, e⟩ := same_tags_get ht hx
    rw [hb', ← e]
    exact hnr k x0 hx0
  obtain ⟨hinv1, hs1⟩ := tag_inv_retag b' hinv0 hb1 hnr0
    (by rw [hb']; exact aligned_multiple addr _ hinv.1)
    (by rw [hb']; exact aligned_ne_no_block addr _ hinv.1)
  rw [e1, e2, hset]
  exact ⟨rfl, rfl, hinv1, stays_resident_trans hs0 hs1⟩

theorem full_flush_loop_tags {L : Type} (ops : AbstractMemoryOps L) :
    ∀ (n i : Nat) (c : FullCache L) (info : StatisticsInfo) (c1 : FullCache L)
      (info1 : StatisticsInfo),
      full_cache_flush_loop ops n i c info = some (c1, info1) →
      c1.block_size = c.block_size ∧ c1.block_count = c.block_count ∧
      same_tags c.blocks c1.blocks := by
  intro n
  induction n with
  | zero =>
    intro i c info c1 info1 h
    cases h
    exact ⟨rfl, rfl, same_tags_refl _⟩
  | succ n ih =>
    intro i c info c1 info1 h
    unfold full_cache_flush_loop at h
    split at h
    · cases h
    · split at h
      · cases h
      · rename_i c2 info2 hfin
        have hc2 : c2.block_size = c.block_size ∧ c2.block_count = c.block_count ∧
            same_tags c.blocks c2.blocks := by
          split at hfin
          · exact full_finalize_tags hfin
          · cases hfin
            exact ⟨rfl, rfl, same_tags_refl _⟩
        obtain ⟨e1, e2, e3⟩ := ih _ _ _ _ _ h
        exact ⟨e1.trans hc2.1, e2.trans hc2.2.1, same_tags_trans hc2.2.2 e3⟩

theorem mirror_tags {blocks blocks1 : List CacheBlock} {found : Option Nat} {off size : Int}
    {src : List MemoryCell}
    (h : (match found with
          | some i =>
            match blocks[i]? with
            | none => none
            | some b =>
              match memcpy b.mem off src 0 size with
              | none => none
              | some cells => some (blocks.set i { b with mem := cells })
          | none => some blocks) = some blocks1) : same_tags blocks blocks1 := by
  split at h
  · split at h
    · cases h
    · rename_i b hb
      split at h
      · cases h
      · cases h
        exact same_tags_set hb rfl
  · cases h
    exact same_tags_refl _

theorem full_tag_step {L : Type} (ops : AbstractMemoryOps L) (c c' : FullCache L)
    (info info' : StatisticsInfo) (op : MemOp)
    (hinv : tag_inv c.block_size c.block_count c.blocks)
    (h : apply_op (full_cache_ops ops) (c, info) op = some (c', info')) :
    c'.block_size = c.block_size ∧ c'.block_count = c.block_count ∧
    tag_inv c'.block_size c'.block_count c'.blocks ∧ stays_resident c.blocks c'.blocks := by
  have hsame : ∀ blocks1 : List CacheBlock, same_tags c.blocks blocks1 →
      tag_inv c.block_size c.block_count blocks1 ∧ stays_resident c.blocks blocks1 :=
    fun blocks1 ht => tag_inv_same hinv ht
  cases op with
  | read a s dst =>
    unfold apply_op at h
    simp only [] at h
    split at h
    · cases h
    · rename_i r hr
      cases h
      change full_cache_read ops c info a s dst = some r at hr
      unfold full_cache_read at hr
      simp only [] at hr
      split at hr
      · cases hr
      · rename_i found hfind
        split at hr
        · cases hr
        · rename_i c1 info1 i hplace
          have hacc : c1.block_size = c.block_size ∧ c1.block_count = c.block_count ∧
              tag_inv c1.block_size c1.block_count c1.blocks ∧
              stays_resident c.blocks c1.blocks := by
            cases found with
            | some j =>
              cases hplace
              exact ⟨rfl, rfl, hinv, stays_resident_refl _⟩
            | none => exact full_place_inv hinv hfind hplace
          split at hr
          · cases hr
            exact hacc
          · split at hr
            · cases hr
            · split at hr
              · cases hr
              · cases hr
                exact hacc
  | write a s src =>
    change (full_cache_ops ops).write c info a s src = some (c', info') at h
    cases hws : c.write_strategy with
    | write_through =>
      rw [full_ops_write_wt ops c hws] at h
      unfold full_cache_wt_write at h
      simp only [] at h
      split at h
      · cases h
      · rename_i found hfind
        split at h
        · cases h
        · rename_i blocks1 hblocks
          split at h
          · cases h
          · rename_i lower info1 hw
            cases h
            obtain ⟨h1, h2⟩ := hsame blocks1 (mirror_tags hblocks)
            exact ⟨rfl, rfl, h1, h2⟩
    | write_back =>
      rw [full_ops_write_wb ops c hws] at h
      unfold full_cache_wb_write at h
      simp only [] at h
      split at h
      · cases h
      · rename_i found hfind
        split at h
        · cases h
        · rename_i c1 info1 i hplace
          have hacc : c1.block_size = c.block_size ∧ c1.block_count = c.block_count ∧
              tag_inv c1.block_size c1.block_count c1.blocks ∧
              stays_resident c.blocks c1.blocks := by
            cases found with
            | some j =>
              cases hplace
              exact ⟨rfl, rfl, hinv, stays_resident_refl _⟩
            | none => exact full_place_inv hinv hfind hplace
          split at h
          · cases h
          · rename_i b hb
            split at h
            · cases h
            · rename_i cells hcells
              cases h
              obtain ⟨e1, e2, hinv1, hs1⟩ := hacc
              have ht : same_tags c1.blocks
                  (c1.blocks.set i { b with mem := cells, dirty := 1 }) :=
                same_tags_set hb rfl
              obtain ⟨h1, h2⟩ := tag_inv_same hinv1 ht
              exact ⟨e1, e2, h1, stays_resident_trans hs1 h2⟩
  | reveal a s src =>
    change full_cache_reveal ops c info a s src = some (c', info') at h
    unfold full_cache_reveal at h
    simp only [] at h
    split at h
    · cases h
    · rename_i found hfind
      split at h
      · cases h
      · rename_i blocks1 hblocks
        split at h
        · cases h
        · rename_i lower info1 hw
          cases h
          obtain ⟨h1, h2⟩ := hsame blocks1 (mirror_tags hblocks)
          exact ⟨rfl, rfl, h1, h2⟩
  | flush =>
    change full_cache_flush ops c info = some (c', info') at h
    unfold full_cache_flush at h
    split at h
    · cases h
    · rename_i c1 info1 hloop
      obtain ⟨e1, e2, e3⟩ := full_flush_loop_tags ops _ _ _ _ _ _ hloop
      split at h
      · cases h
      · rename_i lower info2 hf
        cases h
        obtain ⟨h1, h2⟩ := hsame c1.blocks e3
        refine ⟨e1, e2, ?_, h2⟩
        show tag_inv c1.block_size c1.block_count c1.blocks
        rw [e1, e2]
        exact h1

theorem full_tag_run {L : Type} (ops : AbstractMemoryOps L) (l : List MemOp) :
    ∀ (c c' : FullCache L) (info info' : StatisticsInfo),
      tag_inv c.block_size c.block_count c.blocks →
      run_ops (full_cache_ops ops) l (c, info) = some (c', info') →
      c'.block_size = c.block_size ∧ c'.block_count = c.block_count ∧
      tag_inv c'.block_size c'.block_count c'.blocks ∧ stays_resident c.blocks c'.blocks := by
  induction l with
  | nil =>
    intro c c' info info' hinv h
    cases h
    exact ⟨rfl, rfl, hinv, stays_resident_refl _⟩
  | cons op rest ih =>
    intro c c' info info' hinv h
    unfold run_ops at h
    split at h
    · cases h
    · rename_i st1 hst
      obtain ⟨c1, info1⟩ := st1
      obtain ⟨e1, e2, hinv1, hs1⟩ := full_tag_step ops c c1 info info1 op hinv hst
      obtain ⟨e1', e2', hinv', hs'⟩ := ih c1 c' info1 info' hinv1 h
      exact ⟨e1'.trans e1, e2'.trans e2, hinv', stays_resident_trans hs1 hs'⟩

theorem fresh_tag_inv (bs cs : Int) (hbs : is_correct_block_size bs = true) (hcs : 0 < cs)
    (hmod : Int.tmod cs bs = 0) :
    tag_inv bs (Int.tdiv cs bs) (List.replicate (Int.tdiv cs bs).toNat (free_block bs)) := by
  obtain ⟨hbc, hcast⟩ := alloc_block_count bs cs (block_size_pos hbs) hcs hmod
  refine ⟨hbs, by rw [List.length_replicate]; exact hcast, ?_, ?_⟩
  · intro b hb hnb
    rw [List.eq_of_mem_replicate hb] at hnb
    exact absurd rfl hnb
  · intro i j b b' hi _ _ hnb
    rw [List.eq_of_mem_replicate (mem_of_getElem? hi)] at hnb
    exact absurd rfl hnb

theorem coh_inv_retag {ws : WriteStrategy} {bs bc : Int} {blocks : List CacheBlock}
    {m : Memory} {i : Nat} {b : CacheBlock} {a : Int} {d' : List MemoryCell} (dflag : Int)
    (hinv : coh_inv ws bs bc blocks m) (hb : blocks[i]? = some b)
    (hnr : not_resident blocks a) (ha : 0 ≤ a) (hal : a % bs = 0)
    (hld : loaded_from d' b.mem m.mem a bs m.memory_size)
    (hflag : ws = WriteStrategy.write_through → dflag = 0) :
    coh_inv ws bs bc (blocks.set i ⟨a, d', dflag⟩) m := by
  obtain ⟨hp, ht, hu, hc, hw⟩ := hinv
  have hlen : (d'.length : Int) = bs := by
    rw [hld.1]
    exact hp.2.2.2.1 b (mem_of_getElem? hb)
  obtain ⟨hp', ht', hu'⟩ := struct_set ⟨a, d', dflag⟩ m hp ht hu hb hlen
    (Or.inr ⟨ha, hal⟩) (Or.inr hnr) hp.2.2.2.2.1 hp.2.2.2.2.2
  refine ⟨hp', ht', hu', ?_, fun g => clean_set (hw g) (hflag g)⟩
  intro k x hx hnb hd o ho hlt
  rcases set_getElem?_cases _ _ _ _ _ hx with ⟨rfl, rfl⟩ | ⟨-, hx'⟩
  · show d'[o]? = m.mem[(a + (o : Int)).toNat]?
    rw [hld.2 o, if_pos ⟨ho, hlt⟩]
  · exact hc k x hx' hnb hd o ho hlt

theorem coh_inv_finalize {ws : WriteStrategy} {bs bc : Int} {blocks : List CacheBlock}
    {m : Memory} {i : Nat} {b : CacheBlock} {cells1 : List MemoryCell}
    (hinv : coh_inv ws bs bc blocks m) (hb : blocks[i]? = some b) (hnb : b.addr ≠ NO_BLOCK)
    (hst : stored_at cells1 m.mem b.addr bs m.memory_size b.mem) :
    coh_inv ws bs bc (blocks.set i { b with dirty := 0 }) { m with mem := cells1 } := by
  obtain ⟨hp, ht, hu, hc, hw⟩ := hinv
  have hbs := block_size_pos hp.1
  obtain ⟨hb0, hbal⟩ := (tagged_no_block ht hb).2 hnb
  have hwf' : ({ m with mem := cells1 } : Memory).wf := by
    refine ⟨?_, hp.2.2.2.2.1.2⟩
    show (cells1.length : Int) = m.memory_size
    rw [hst.1]
    exact hp.2.2.2.2.1.1
  obtain ⟨hp', ht', hu'⟩ := struct_set { b with dirty := 0 }
    { m with mem := cells1 } hp ht hu hb (hp.2.2.2.1 b (mem_of_getElem? hb))
    (Or.inr ⟨hb0, hbal⟩) (Or.inl rfl) hwf' hp.2.2.2.2.2
  refine ⟨hp', ht', hu', ?_, fun g => clean_set (hw g) rfl⟩
  intro k x hx hxnb hxd o ho hlt
  have hlt' : x.addr + (o : Int) < m.memory_size := hlt
  show x.mem[o]? = cells1[(x.addr + (o : Int)).toNat]?
  rcases set_getElem?_cases _ _ _ _ _ hx with ⟨rfl, rfl⟩ | ⟨hki, hx'⟩
  · show b.mem[o]? = cells1[(b.addr + (o : Int)).toNat]?
    have hlt'' : b.addr + (o : Int) < m.memory_size := hlt
    rw [hst.2, Int.toNat_of_nonneg (by omega), if_pos ⟨by omega, by omega, hlt''⟩,
      show ((b.addr + (o : Int)) - b.addr).toNat = o from by omega]
  · obtain ⟨hx0, hxal⟩ := (tagged_no_block ht hx').2 hxnb
    rw [hst.2, Int.toNat_of_nonneg (by omega)]
    by_cases hr : b.addr ≤ x.addr + o ∧ x.addr + (o : Int) < b.addr + bs ∧
        x.addr + (o : Int) < m.memory_size
    · have e1 := (block_of (x.addr + o) b.addr bs hbs hbal).mp ⟨hr.1, hr.2.1⟩
      have e2 := (block_of (x.addr + o) x.addr bs hbs hxal).mp ⟨by omega, by omega⟩
      exact absurd (hu i k b x hb hx' (e1.trans e2.symm) hnb) (fun g => hki g.symm)
    · rw [if_neg hr]
      exact hc k x hx' hxnb hxd o ho hlt'

theorem coh_inv_placed {ws : WriteStrategy} {bs bc : Int} {blocks : List CacheBlock}
    {m : Memory} {info : StatisticsInfo} {a : Int} {i : Nat}
    {blocks1 : List CacheBlock} {cells1 : List MemoryCell} {info1 : StatisticsInfo}
    (hinv : coh_inv ws bs bc blocks m) (hnr : not_resident blocks a) (ha : 0 ≤ a)
    (hal : a % bs = 0)
    (h : placed ws bs m blocks info a i blocks1 cells1 info1) :
    coh_inv ws bs bc blocks1 { m with mem := cells1 } := by
  obtain ⟨b, d', hb, hcase, hld, hblocks⟩ := h
  have hilt := lt_length_of_getElem? hb
  have hflag : ws = WriteStrategy.write_through →
      (if ws = WriteStrategy.write_back ∧ b.addr ≠ NO_BLOCK then 0 else b.dirty) = 0 := by
    intro g
    rw [if_neg (by rw [g]; simp)]
    exact hinv.2.2.2.2 g b (mem_of_getElem? hb)
  by_cases hwb : ws = WriteStrategy.write_back ∧ b.addr ≠ NO_BLOCK ∧ b.dirty ≠ 0
  · rw [if_pos hwb] at hcase
    have h1 := coh_inv_finalize hinv hb hwb.2.1 hcase.1
    have hb1 : (blocks.set i { b with dirty := 0 })[i]? = some { b with dirty := 0 } := by
      rw [List.getElem?_set, if_pos rfl, if_pos hilt]
    have hnr1 : not_resident (blocks.set i { b with dirty := 0 }) a := by
      intro j bj hj
      rcases set_getElem?_cases _ _ _ _ _ hj with ⟨rfl, rfl⟩ | ⟨-, hj'⟩
      · exact hnr j b hb
      · exact hnr j bj hj'
    have h2 := coh_inv_retag (m := { m with mem := cells1 })
      (if ws = WriteStrategy.write_back ∧ b.addr ≠ NO_BLOCK then 0 else b.dirty)
      h1 hb1 hnr1 ha hal hld hflag
    rw [List.set_set] at h2
    rw [hblocks]
    exact h2
  · rw [if_neg hwb] at hcase
    obtain ⟨hcells, -⟩ := hcase
    subst hcells
    rw [hblocks]
    exact coh_inv_retag
      (if ws = WriteStrategy.write_back ∧ b.addr ≠ NO_BLOCK then 0 else b.dirty)
      hinv hb hnr ha hal hld hflag

theorem coh_inv_block_store {bs bc : Int} {blocks : List CacheBlock} {m : Memory}
    {i : Nat} {b : CacheBlock} {off s : Int} {src cellsB : List MemoryCell}
    (hinv : coh_inv WriteStrategy.write_back bs bc blocks m) (hb : blocks[i]? = some b)
    (hnb : b.addr ≠ NO_BLOCK) (hst : stored_at cellsB b.mem off s bs src) :
    coh_inv WriteStrategy.write_back bs bc
      (blocks.set i { b with mem := cellsB, dirty := 1 }) m := by
  obtain ⟨hp, ht, hu, hc, hw⟩ := hinv
  have hlen : (cellsB.length : Int) = bs := by
    rw [hst.1]
    exact hp.2.2.2.1 b (mem_of_getElem? hb)
  obtain ⟨hp', ht', hu'⟩ := struct_set { b with mem := cellsB, dirty := 1 } m
    hp ht hu hb hlen (Or.inr ((tagged_no_block ht hb).2 hnb)) (Or.inl rfl)
    hp.2.2.2.2.1 hp.2.2.2.2.2
  refine ⟨hp', ht', hu', ?_, fun g => by cases g⟩
  intro k x hx hxnb hxd
  rcases set_getElem?_cases _ _ _ _ _ hx with ⟨rfl, rfl⟩ | ⟨-, hx'⟩
  · exact absurd hxd (show (1 : Int) ≠ 0 by decide)
  · exact hc k x hx' hxnb hxd

theorem coh_inv_mirror {ws : WriteStrategy} {bs bc : Int} {blocks : List CacheBlock}
    {m : Memory} {a s : Int} {src : List MemoryCell} {r : Option Nat}
    {blocks' : List CacheBlock} {cells' : List MemoryCell}
    (hinv : coh_inv ws bs bc blocks m) (hacc : access_ok bs m.memory_size a s)
    (hst : stored_at cells' m.mem a s m.memory_size src)
    (hm : mirrored bs blocks r (a % bs) s src blocks')
    (hhit : ∀ i, r = some i → ∃ b, blocks[i]? = some b ∧ b.addr = a - a % bs)
    (hmiss : r = none → not_resident blocks (a - a % bs)) :
    coh_inv ws bs bc blocks' { m with mem := cells' } := by
  obtain ⟨hp, ht, hu, hc, hw⟩ := hinv
  have hbs := block_size_pos hp.1
  obtain ⟨ha0, hs0, hend, hin⟩ := hacc
  have hmod0 := Int.emod_nonneg a (by omega : bs ≠ 0)
  have hmodlt := Int.emod_lt_of_pos a hbs
  have hmodle := emod_le_self_nonneg ha0 hbs
  have hwf' : ({ m with mem := cells' } : Memory).wf := by
    refine ⟨?_, hp.2.2.2.2.1.2⟩
    show (cells'.length : Int) = m.memory_size
    rw [hst.1]
    exact hp.2.2.2.2.1.1
  have htagof : ∀ (k : Nat) (x : CacheBlock) (o : Nat), blocks[k]? = some x →
      x.addr ≠ NO_BLOCK → (o : Int) < bs → a ≤ x.addr + o → x.addr + (o : Int) < a + s →
      x.addr = a - a % bs ∧ (o : Int) = a % bs + (x.addr + o - a) := by
    intro k x o hx hxnb ho h1 h2
    obtain ⟨hx0, hxal⟩ := (tagged_no_block ht hx).2 hxnb
    have e1 := (block_of (x.addr + o) x.addr bs hbs hxal).mp ⟨by omega, by omega⟩
    have e2 := (block_of (x.addr + o) (a - a % bs) bs hbs (aligned_mod a bs)).mp
      ⟨by omega, by omega⟩
    have e : x.addr = a - a % bs := e1.trans e2.symm
    exact ⟨e, by omega⟩
  cases r with
  | none =>
    have hbl : blocks' = blocks := hm
    subst hbl
    refine ⟨⟨hp.1, hp.2.1, hp.2.2.1, hp.2.2.2.1, hwf', hp.2.2.2.2.2⟩, ht, hu, ?_, hw⟩
    intro k x hx hxnb hxd o ho hlt
    have hlt' : x.addr + (o : Int) < m.memory_size := hlt
    show x.mem[o]? = cells'[(x.addr + (o : Int)).toNat]?
    obtain ⟨hx0, hxal⟩ := (tagged_no_block ht hx).2 hxnb
    rw [hst.2, Int.toNat_of_nonneg (by omega)]
    by_cases hr : a ≤ x.addr + o ∧ x.addr + (o : Int) < a + s ∧
        x.addr + (o : Int) < m.memory_size
    · exact absurd (htagof k x o hx hxnb ho hr.1 hr.2.1).1 (hmiss rfl k x hx)
    · rw [if_neg hr]
      exact hc k x hx hxnb hxd o ho hlt'
  | some i =>
    obtain ⟨b, cellsB, hb, hstB, rfl⟩ := hm
    obtain ⟨b0, hb0, hba⟩ := hhit i rfl
    rw [hb] at hb0
    cases hb0
    have hlen : (cellsB.length : Int) = bs := by
      rw [hstB.1]
      exact hp.2.2.2.1 b (mem_of_getElem? hb)
    have hnb : b.addr ≠ NO_BLOCK := by
      rw [hba]
      exact nonneg_ne_no_block (by omega)
    obtain ⟨hp', ht', hu'⟩ := struct_set { b with mem := cellsB }
      { m with mem := cells' }
      hp ht hu hb hlen (Or.inr ((tagged_no_block ht hb).2 hnb)) (Or.inl rfl)
      hwf' hp.2.2.2.2.2
    refine ⟨hp', ht', hu', ?_, fun g => clean_set (hw g) (hw g b (mem_of_getElem? hb))⟩
    intro k x hx hxnb hxd o ho hlt
    have hlt' : x.addr + (o : Int) < m.memory_size := hlt
    show x.mem[o]? = cells'[(x.addr + (o : Int)).toNat]?
    rcases set_getElem?_cases _ _ _ _ _ hx with ⟨rfl, rfl⟩ | ⟨hki, hx'⟩
    · show cellsB[o]? = cells'[(b.addr + (o : Int)).toNat]?
      have hlt'' : b.addr + (o : Int) < m.memory_size := hlt
      have hb0' : 0 ≤ b.addr := by omega
      rw [hst.2, hstB.2 o, Int.toNat_of_nonneg (by omega)]
      by_cases hr : a ≤ b.addr + o ∧ b.addr + (o : Int) < a + s ∧
          b.addr + (o : Int) < m.memory_size
      · rw [if_pos hr, if_pos ⟨by omega, by omega, ho⟩]
        congr 2
        omega
      · rw [if_neg hr, if_neg (by omega)]
        exact hc k b hb hnb hxd o ho hlt''
    · obtain ⟨hx0, hxal⟩ := (tagged_no_block ht hx').2 hxnb
      rw [hst.2, Int.toNat_of_nonneg (by omega)]
      by_cases hr : a ≤ x.addr + o ∧ x.addr + (o : Int) < a + s ∧
          x.addr + (o : Int) < m.memory_size
      · obtain ⟨e, -⟩ := htagof k x o hx' hxnb ho hr.1 hr.2.1
        exact absurd (hu k i x b hx' hb (e.trans hba.symm) hxnb) hki
      · rw [if_neg hr]
        exact hc k x hx' hxnb hxd o ho hlt'

theorem direct_coh_flush_iter (c : DirectCache Memory) (info : StatisticsInfo) (i : Nat)
    (b : CacheBlock)
    (hinv : coh_inv c.write_strategy c.block_size c.block_count c.blocks c.mem)
    (hidx : blocks_indexed c.block_size c.block_count c.blocks)
    (hb : c.blocks[i]? = some b) :
    ∃ c1 info1,
      (if b.addr ≠ NO_BLOCK then direct_ops_finalize memory_ops c info i
        else some (c, info)) = some (c1, info1) ∧
      c1.write_strategy = c.write_strategy ∧ c1.block_size = c.block_size ∧
      c1.block_count = c.block_count ∧ c1.mem.memory_size = c.mem.memory_size ∧
      coh_inv c1.write_strategy c1.block_size c1.block_count c1.blocks c1.mem ∧
      blocks_indexed c1.block_size c1.block_count c1.blocks ∧
      (∀ (j : Nat) (x : CacheBlock), c.blocks[j]? = some x → (j ≠ i → x.dirty = 0) →
        ∃ x', c1.blocks[j]? = some x' ∧ x'.dirty = 0) ∧
      (∀ (j : Nat) (x : CacheBlock), c.blocks[j]? = some x → j ≠ i →
        c1.blocks[j]? = some x) := by
  have hp := hinv.1
  have hsame : (b.addr ≠ NO_BLOCK → b.dirty = 0) → ∃ c1 info1,
      some (c, info) = some (c1, info1) ∧
      c1.write_strategy = c.write_strategy ∧ c1.block_size = c.block_size ∧
      c1.block_count = c.block_count ∧ c1.mem.memory_size = c.mem.memory_size ∧
      coh_inv c1.write_strategy c1.block_size c1.block_count c1.blocks c1.mem ∧
      blocks_indexed c1.block_size c1.block_count c1.blocks ∧
      (∀ (j : Nat) (x : CacheBlock), c.blocks[j]? = some x → (j ≠ i → x.dirty = 0) →
        ∃ x', c1.blocks[j]? = some x' ∧ x'.dirty = 0) ∧
      (∀ (j : Nat) (x : CacheBlock), c.blocks[j]? = some x → j ≠ i →
        c1.blocks[j]? = some x) := by
    intro hcl
    refine ⟨c, info, rfl, rfl, rfl, rfl, rfl, hinv, hidx, ?_, fun j x hx _ => hx⟩
    intro j x hx hd
    refine ⟨x, hx, ?_⟩
    by_cases hji : j = i
    · subst hji
      rw [hb] at hx
      cases hx
      by_cases hnb : b.addr ≠ NO_BLOCK
      · exact hcl hnb
      · exact (tagged_no_block hinv.2.1 hb).1 (not_not.mp hnb)
    · exact hd hji
  by_cases hnb : b.addr ≠ NO_BLOCK
  · rw [if_pos hnb]
    cases hws : c.write_strategy with
    | write_through =>
      have e : direct_ops_finalize memory_ops c info i = some (c, info) := by
        unfold direct_ops_finalize
        rw [hws]
        rfl
      rw [e, ← hws]
      exact hsame (fun _ => hinv.2.2.2.2 hws b (mem_of_getElem? hb))
    | write_back =>
      have e : direct_ops_finalize memory_ops c info i =
          direct_cache_wb_finalize memory_ops c info i := by
        unfold direct_ops_finalize
        rw [hws]
      rw [e]
      by_cases hd : b.dirty = 0
      · rw [direct_wb_finalize_clean memory_ops c info i b hb hd, ← hws]
        exact hsame (fun _ => hd)
      · obtain ⟨hb0, -⟩ := (tagged_no_block hinv.2.1 hb).2 hnb
        obtain ⟨cells, e2, hst⟩ := direct_wb_finalize_dirty c info i b hb hp.2.2.2.2.1 hb0
          (hp.2.2.2.1 b (mem_of_getElem? hb)) hd
        have hinv1 := coh_inv_finalize hinv hb hnb hst
        refine ⟨_, _, e2, hws, rfl, rfl, rfl, hinv1,
          indexed_set hidx (fun g => hidx i b hb g), ?_, ?_⟩
        · intro j x hx hdj
          by_cases hji : j = i
          · subst hji
            refine ⟨{ b with dirty := 0 }, ?_, rfl⟩
            show (c.blocks.set j _)[j]? = _
            rw [List.getElem?_set, if_pos rfl, if_pos (lt_length_of_getElem? hb)]
          · refine ⟨x, ?_, hdj hji⟩
            show (c.blocks.set i _)[j]? = _
            rw [List.getElem?_set, if_neg (fun g => hji g.symm)]
            exact hx
        · intro j x hx hji
          show (c.blocks.set i _)[j]? = _
          rw [List.getElem?_set, if_neg (fun g => hji g.symm)]
          exact hx
  · rw [if_neg hnb]
    exact hsame (fun g => absurd g hnb)

theorem direct_coh_flush_loop :
    ∀ (n i : Nat) (c : DirectCache Memory) (info : StatisticsInfo),
      coh_inv c.write_strategy c.block_size c.block_count c.blocks c.mem →
      blocks_indexed c.block_size c.block_count c.blocks →
      i + n ≤ c.blocks.length →
      (∀ (j : Nat) (x : CacheBlock), j < i → c.blocks[j]? = some x → x.dirty = 0) →
      ∃ c' info', direct_cache_flush_loop memory_ops n i c info = some (c', info') ∧
        c'.write_strategy = c.write_strategy ∧ c'.block_size = c.block_size ∧
        c'.block_count = c.block_count ∧ c'.mem.memory_size = c.mem.memory_size ∧
        coh_inv c'.write_strategy c'.block_size c'.block_count c'.blocks c'.mem ∧
        blocks_indexed c'.block_size c'.block_count c'.blocks ∧
        (∀ (j : Nat) (x : CacheBlock), j < i + n → c'.blocks[j]? = some x → x.dirty = 0) := by
  intro n
  induction n with
  | zero =>
    intro i c info hinv hidx _ hcl
    exact ⟨c, info, rfl, rfl, rfl, rfl, rfl, hinv, hidx, hcl⟩
  | succ n ih =>
    intro i c info hinv hidx hlen hcl
    obtain ⟨b, hb, hbm⟩ := getElem?_of_lt_length c.blocks i (by omega)
    obtain ⟨c1, info1, e1, hws1, hbs1, hbc1, hms1, hinv1, hidx1, hd1, hk1⟩ :=
      direct_coh_flush_iter c info i b hinv hidx hb
    have hl1 : c1.blocks.length = c.blocks.length := by
      have h1 := hinv1.1.2.2.1
      have h2 := hinv.1.2.2.1
      omega
    have hcl1 : ∀ (j : Nat) (x : CacheBlock), j < i + 1 → c1.blocks[j]? = some x →
        x.dirty = 0 := by
      intro j x hj hx
      obtain ⟨y, hy, -⟩ := getElem?_of_lt_length c.blocks j
        (by have := lt_length_of_getElem? hx; omega)
      by_cases hji : j = i
      · obtain ⟨x', hx', hd'⟩ := hd1 j y hy (fun g => absurd hji g)
        rw [hx] at hx'
        cases hx'
        exact hd'
      · have := hk1 j y hy hji
        rw [hx] at this
        cases this
        exact hcl j x (by omega) hy
    obtain ⟨c', info', e', hws', hbs', hbc', hms', hinv', hidx', hcl'⟩ :=
      ih (i + 1) c1 info1 hinv1 hidx1 (by omega) hcl1
    refine ⟨c', info', ?_, hws'.trans hws1, hbs'.trans hbs1, hbc'.trans hbc1,
      hms'.trans hms1, hinv', hidx', fun j x hj => hcl' j x (by omega)⟩
    unfold direct_cache_flush_loop
    simp only [hb, e1]
    exact e'

theorem direct_coh_flush (c : DirectCache Memory) (info : StatisticsInfo)
    (hinv : coh_inv c.write_strategy c.block_size c.block_count c.blocks c.mem)
    (hidx : blocks_indexed c.block_size c.block_count c.blocks) :
    ∃ c' info', direct_cache_flush memory_ops c info = some (c', info') ∧
      c'.write_strategy = c.write_strategy ∧ c'.block_size = c.block_size ∧
      c'.block_count = c.block_count ∧ c'.mem.memory_size = c.mem.memory_size ∧
      coh_inv c'.write_strategy c'.block_size c'.block_count c'.blocks c'.mem ∧
      blocks_indexed c'.block_size c'.block_count c'.blocks ∧
      ∀ b ∈ c'.blocks, b.dirty = 0 := by
  have hlen := hinv.1.2.2.1
  obtain ⟨c1, info1, e, hws, hbs, hbc, hms, hinv1, hidx1, hcl⟩ :=
    direct_coh_flush_loop c.block_count.toNat 0 c info hinv hidx (by omega)
      (fun j x hj => by omega)
  refine ⟨{ c1 with mem := c1.mem }, info1, ?_, hws, hbs, hbc, hms, hinv1, hidx1, ?_⟩
  · unfold direct_cache_flush
    rw [e]
    rfl
  · intro b hb
    have hb' : b ∈ c1.blocks := hb
    obtain ⟨j, hj⟩ := index_of_mem hb'
    have h1 := hinv1.1.2.2.1
    have := lt_length_of_getElem? hj
    exact hcl j b (by omega) hj

theorem direct_coh_step (c : DirectCache Memory) (info : StatisticsInfo) (op : MemOp)
    (hinv : coh_inv c.write_strategy c.block_size c.block_count c.blocks c.mem)
    (hidx : blocks_indexed c.block_size c.block_count c.blocks)
    (hok : op_ok c.block_size c.mem.memory_size op) :
    ∃ c' info', apply_op (direct_cache_ops memory_ops) (c, info) op = some (c', info') ∧
      c'.write_strategy = c.write_strategy ∧ c'.block_size = c.block_size ∧
      c'.block_count = c.block_count ∧ c'.mem.memory_size = c.mem.memory_size ∧
      coh_inv c'.write_strategy c'.block_size c'.block_count c'.blocks c'.mem ∧
      blocks_indexed c'.block_size c'.block_count c'.blocks := by
  have hp := hinv.1
  have hbs' := block_size_pos hp.1
  have hmax := hp.2.2.2.2.2
  have htag : ∀ b ∈ c.blocks, b.addr ≠ NO_BLOCK → b.dirty ≠ 0 → 0 ≤ b.addr := by
    intro b hb hnb _
    rcases hinv.2.1 b hb with ⟨h1, -⟩ | ⟨h1, -⟩
    · exact absurd h1 hnb
    · exact h1
  cases op with
  | flush =>
    obtain ⟨c', info', e, h1, h2, h3, h4, h5, h6, -⟩ := direct_coh_flush c info hinv hidx
    exact ⟨c', info', e, h1, h2, h3, h4, h5, h6⟩
  | read a s dst =>
    obtain ⟨hao, hdst⟩ := hok
    have h1 := access_int_max hao hmax
    obtain ⟨e1, e2, -, -, -, e6⟩ := aligned_offset a c.block_size hp.1 hao.1 h1
    rw [e1] at e2 e6
    obtain ⟨r, hfind, hhit, hmiss⟩ := direct_read_spec c info a s dst hp htag hao.1 h1
      (fun x hx => ⟨hao.2.1, hdst x hx, hao.2.2.2⟩)
    cases r with
    | some i =>
      obtain ⟨dst', e⟩ := hhit i rfl
      exact ⟨c, _, apply_op_read (direct_cache_ops memory_ops) c info a s dst _ _ _ e,
        rfl, rfl, rfl, rfl, hinv, hidx⟩
    | none =>
      obtain ⟨blocks1, cells1, info1, dst', -, hplaced, e⟩ := hmiss rfl
      have hnr := direct_miss_not_resident c _ hbs' hp.2.1 hp.2.2.1 e2 hidx hfind
      obtain ⟨b', hb'a, hb'⟩ := placed_ws_block hplaced
      have hinv1 := coh_inv_placed hinv hnr e2 e6 hplaced
      refine ⟨_, info1, apply_op_read (direct_cache_ops memory_ops) c info a s dst _ _ _ e,
        rfl, rfl, rfl, rfl, hinv1, ?_⟩
      show blocks_indexed c.block_size c.block_count blocks1
      rw [hb']
      exact indexed_set hidx (fun _ => by rw [hb'a])
  | write a s src =>
    obtain ⟨hao, hsrc⟩ := hok
    have h1 := access_int_max hao hmax
    obtain ⟨e1, e2, -, -, -, e6⟩ := aligned_offset a c.block_size hp.1 hao.1 h1
    rw [e1] at e2 e6
    cases hws : c.write_strategy with
    | write_through =>
      obtain ⟨r, blocks', cells', hfind, e, hst, hm⟩ := direct_wt_write_spec c info a s src hp
        hao.1 h1 hao.2.1 hsrc hao.2.2.2
      have hap : apply_op (direct_cache_ops memory_ops) (c, info) (MemOp.write a s src) =
          direct_cache_wt_write memory_ops c info a s src :=
        congrFun (congrFun (congrFun (congrFun (direct_ops_write_wt memory_ops c hws) info) a)
          s) src
      obtain ⟨r0, hfind0, hhit0, -⟩ := direct_find_lookup c (a - a % c.block_size) hbs'
        hp.2.1 hp.2.2.1 e2
      rw [hfind] at hfind0
      cases hfind0
      have hinv1 := coh_inv_mirror hinv hao hst hm
        (fun i hi => (hhit0 i hi).2)
        (fun hr => direct_miss_not_resident c _ hbs' hp.2.1 hp.2.2.1 e2 hidx (hr ▸ hfind))
      exact ⟨_, _, hap.trans e, hws, rfl, rfl, rfl, hinv1, indexed_mirror hm hidx⟩
    | write_back =>
      obtain ⟨r, hfind, hhit, hmiss⟩ := direct_wb_write_spec c info a s src hp htag hao.1 h1
        hao.2.1 hsrc hao.2.2.2
      have hap : apply_op (direct_cache_ops memory_ops) (c, info) (MemOp.write a s src) =
          direct_cache_wb_write memory_ops c info a s src :=
        congrFun (congrFun (congrFun (congrFun (direct_ops_write_wb memory_ops c hws) info) a)
          s) src
      have hinvb := hinv
      rw [hws] at hinvb
      cases r with
      | some i =>
        obtain ⟨b, cellsB, hb, hba, hst, e⟩ := hhit i rfl
        have hnb : b.addr ≠ NO_BLOCK := by
          rw [hba]
          exact nonneg_ne_no_block e2
        have hinv1 := coh_inv_block_store hinvb hb hnb hst
        refine ⟨_, _, hap.trans e, hws, rfl, rfl, rfl, ?_, ?_⟩
        · show coh_inv c.write_strategy _ _ _ _
          rw [hws]
          exact hinv1
        · exact indexed_set hidx (fun hnb => hidx i b hb hnb)
      | none =>
        obtain ⟨blocks1, cells1, info1, b1, cellsB, -, hplaced, hb1, hst, e⟩ := hmiss rfl
        have hnr := direct_miss_not_resident c _ hbs' hp.2.1 hp.2.2.1 e2 hidx hfind
        obtain ⟨b', hb'a, hb'⟩ := placed_ws_block hplaced
        obtain ⟨b1', hb1', hb1a, -, -⟩ := placed_block hplaced hp.2.2.2.1
        rw [hb1] at hb1'
        cases hb1'
        rw [hws] at hplaced
        have hinv1 := coh_inv_placed hinvb hnr e2 e6 hplaced
        have hnb1 : b1.addr ≠ NO_BLOCK := by
          rw [hb1a]
          exact nonneg_ne_no_block e2
        have hinv2 := coh_inv_block_store
          (m := { c.mem with mem := cells1 }) hinv1 hb1 hnb1 hst
        refine ⟨_, info1, hap.trans e, hws, rfl, rfl, rfl,
          (by show coh_inv c.write_strategy _ _ _ _; rw [hws]; exact hinv2), ?_⟩
        have hidx1 : blocks_indexed c.block_size c.block_count blocks1 := by
          rw [hb']
          exact indexed_set hidx (fun _ => by rw [hb'a])
        exact indexed_set hidx1 (fun _ => by show direct_index _ _ b1.addr = _; rw [hb1a])
  | reveal a s src =>
    obtain ⟨hao, hsrc⟩ := hok
    have h1 := access_int_max hao hmax
    obtain ⟨e1, e2, -, -, -, e6⟩ := aligned_offset a c.block_size hp.1 hao.1 h1
    rw [e1] at e2 e6
    obtain ⟨r, blocks', cells', hfind, e, hst, hm⟩ := direct_reveal_spec c info a s src hp
      hao.1 h1 hao.2.1 hsrc hao.2.2.2
    obtain ⟨r0, hfind0, hhit0, -⟩ := direct_find_lookup c (a - a % c.block_size) hbs'
      hp.2.1 hp.2.2.1 e2
    rw [hfind] at hfind0
    cases hfind0
    have hinv1 := coh_inv_mirror hinv hao hst hm
      (fun i hi => (hhit0 i hi).2)
      (fun hr => direct_miss_not_resident c _ hbs' hp.2.1 hp.2.2.1 e2 hidx (hr ▸ hfind))
    exact ⟨_, _, e, rfl, rfl, rfl, rfl, hinv1, indexed_mirror hm hidx⟩

theorem direct_coh_run (ops : List MemOp) :
    ∀ (c : DirectCache Memory) (info : StatisticsInfo),
      coh_inv c.write_strategy c.block_size c.block_count c.blocks c.mem →
      blocks_indexed c.block_size c.block_count c.blocks →
      (∀ op ∈ ops, op_ok c.block_size c.mem.memory_size op) →
      ∃ c' info', run_ops (direct_cache_ops memory_ops) ops (c, info) = some (c', info') ∧
        c'.write_strategy = c.write_strategy ∧ c'.block_size = c.block_size ∧
        c'.block_count = c.block_count ∧ c'.mem.memory_size = c.mem.memory_size ∧
        coh_inv c'.write_strategy c'.block_size c'.block_count c'.blocks c'.mem ∧
        blocks_indexed c'.block_size c'.block_count c'.blocks := by
  induction ops with
  | nil =>
    intro c info hinv hidx _
    exact ⟨c, info, rfl, rfl, rfl, rfl, rfl, hinv, hidx⟩
  | cons op rest ih =>
    intro c info hinv hidx hok
    obtain ⟨c1, info1, e1, hws1, hbs1, hbc1, hms1, hinv1, hidx1⟩ :=
      direct_coh_step c info op hinv hidx (hok op (List.mem_cons_self _ _))
    obtain ⟨c', info', e', hws', hbs', hbc', hms', hinv', hidx'⟩ := ih c1 info1 hinv1 hidx1
      (fun o ho => by
        rw [hbs1, hms1]
        exact hok o (List.mem_cons_of_mem _ ho))
    refine ⟨c', info', ?_, hws'.trans hws1, hbs'.trans hbs1, hbc'.trans hbc1, hms'.trans hms1,
      hinv', hidx'⟩
    unfold run_ops
    rw [e1]
    exact e'

theorem fresh_coh_inv (ws : WriteStrategy) (bs cs : Int) (m : Memory)
    (hbs : is_correct_block_size bs = true)
    (hcs : 0 < cs) (hmod : Int.tmod cs bs = 0) (hwf : m.wf)
    (hmax : m.memory_size ≤ MAX_MEM_SIZE) :
    coh_inv ws bs (Int.tdiv cs bs) (List.replicate (Int.tdiv cs bs).toNat (free_block bs)) m ∧
    blocks_indexed bs (Int.tdiv cs bs)
      (List.replicate (Int.tdiv cs bs).toNat (free_block bs)) := by
  obtain ⟨⟨hp, ht, hu, -⟩, hidx⟩ := fresh_blocks_inv bs cs m hbs hcs hmod hwf hmax
  refine ⟨⟨hp, ht, hu, ?_, ?_⟩, hidx⟩
  · intro i b hb hnb
    rw [List.eq_of_mem_replicate (mem_of_getElem? hb)] at hnb
    exact absurd rfl hnb
  · intro _ b hb
    rw [List.eq_of_mem_replicate hb]
    rfl

theorem same_block_offset {a s bs : Int} (hbs : 0 < bs) (hin : a % bs + s ≤ bs)
    (k : Nat) (hk : (k : Int) < s) :
    (a + k) - (a + k) % bs = a - a % bs ∧ (a + k) % bs = a % bs + k := by
  have hmod0 := Int.emod_nonneg a (by omega : bs ≠ 0)
  have e := (block_of (a + k) (a - a % bs) bs hbs (aligned_mod a bs)).mp
    ⟨by omega, by omega⟩
  exact ⟨e.symm, by omega⟩

theorem direct_find_block {L : Type} {c : DirectCache L} {a : Int} {i : Nat}
    (h : direct_cache_find c a = some (some i)) : ∃ b, c.blocks[i]? = some b ∧ b.addr = a := by
  unfold direct_cache_find at h
  split at h
  · cases h
  · simp only [] at h
    split at h
    · cases h
    · rename_i b hb
      split at h
      · cases h
      · rename_i hba
        cases h
        unfold at_index at hb
        split at hb
        · cases hb
        · exact ⟨b, hb, not_not.mp hba⟩

theorem direct_write_read (c : DirectCache Memory) (info : StatisticsInfo) (addr size : Int)
    (src dst : List MemoryCell)
    (hinv : coh_inv c.write_strategy c.block_size c.block_count c.blocks c.mem)
    (hidx : blocks_indexed c.block_size c.block_count c.blocks)
    (hacc : access_ok c.block_size c.mem.memory_size addr size)
    (hsrc : size ≤ (src.length : Int)) (hdst : size ≤ (dst.length : Int)) :
    ∃ c2 info2 c3 info3 dst',
      (direct_cache_ops memory_ops).write c info addr size src = some (c2, info2) ∧
      (direct_cache_ops memory_ops).read c2 info2 addr size (some dst) =
        some (c3, info3, some dst') ∧
      dst'.length = dst.length ∧
      ∀ k : Nat, dst'[k]? = if (k : Int) < size then src[k]? else dst[k]? := by
  have hp := hinv.1
  have hbs := block_size_pos hp.1
  have hmax := hp.2.2.2.2.2
  have h1 := access_int_max hacc hmax
  obtain ⟨e1, e2, e3, e4, e5, e6⟩ := aligned_offset addr c.block_size hp.1 hacc.1 h1
  -- the write, then the read
  obtain ⟨c2, info2, ew, hws2, hbs2, hbc2, hms2, hinv2, hidx2⟩ :=
    direct_coh_step c info (MemOp.write addr size src) hinv hidx ⟨hacc, hsrc⟩
  have hacc2 : access_ok c2.block_size c2.mem.memory_size addr size := by
    rw [hbs2, hms2]
    exact hacc
  obtain ⟨c3, info3, er, hws3, hbs3, hbc3, hms3, hinv3, hidx3⟩ :=
    direct_coh_step c2 info2 (MemOp.read addr size (some dst)) hinv2 hidx2
      ⟨hacc2, fun d hd => by cases hd; exact hdst⟩
  obtain ⟨d1, er'⟩ := apply_op_read_inv _ _ _ _ _ _ _ _ er
  have er'' : direct_cache_read memory_ops c2 info2 addr size (some dst) =
      some (c3, info3, d1) := er'
  obtain ⟨i, -, -, hfind3, hcopy⟩ := direct_read_inv er''
  rcases hcopy with ⟨hn, -⟩ | ⟨d, b, d', hd, hb, hmc, hd1⟩
  · cases hn
  cases hd
  subst hd1
  rw [hbs2, e1] at hfind3
  rw [hbs2, e3] at hmc
  obtain ⟨b', hb', hba⟩ := direct_find_block hfind3
  rw [hb] at hb'
  cases hb'
  -- the cells of the block that the read copies
  have hcells : ∀ k : Nat, (k : Int) < size →
      b.mem[(addr % c.block_size + (k : Int)).toNat]? = src[k]? := by
    intro k hk
    have hlt : k < src.length := by omega
    obtain ⟨v, hv⟩ : ∃ v, src[k]? = some v := ⟨src[k], List.getElem?_eq_getElem hlt⟩
    obtain ⟨hx1, hx2⟩ := same_block_offset hbs hacc.2.2.2 k hk
    have hrec : record_store (fun _ => none) addr size src (addr + k) = some v := by
      unfold record_store
      rw [if_pos ⟨by omega, by omega⟩, show ((addr + (k : Int)) - addr).toNat = k from by omega]
      exact hv
    rw [hv]
    cases hws : c.write_strategy with
    | write_back =>
      have hwb0 : wb_inv c.block_size c.block_count c.blocks c.mem (fun _ => none) :=
        ⟨hp, hinv.2.1, hinv.2.2.1, fun x v hx => by cases hx⟩
      obtain ⟨c2', info2', ew', hws2', -, -, -, hwb2, -⟩ := direct_wb_step c info
        (MemOp.write addr size src) (fun _ => none) hws hwb0 hidx ⟨hacc, hsrc⟩ trivial
      rw [ew] at ew'
      cases ew'
      obtain ⟨c3', info3', er3, -, -, -, -, hwb3, -⟩ := direct_wb_step c2 info2
        (MemOp.read addr size (some dst)) _ hws2' hwb2 hidx2
        ⟨hacc2, fun d hd => by cases hd; exact hdst⟩ trivial
      rw [er] at er3
      cases er3
      obtain ⟨-, -, hblk, -⟩ := hwb3.2.2.2 (addr + k) v hrec
      have := hblk i b hb (by rw [hba, hbs3, hbs2, hx1])
      rw [hbs3, hbs2, hx2] at this
      exact this
    | write_through =>
      have hwt0 : wt_inv c.block_size c.block_count c.blocks c.mem (fun _ => none) :=
        ⟨hp, hinv.2.2.2.2 hws, fun x v hx => by cases hx⟩
      obtain ⟨c2', info2', ew', hws2', -, -, hwt2⟩ := direct_wt_step c info
        (MemOp.write addr size src) (fun _ => none) hws hwt0 ⟨hacc, hsrc⟩ trivial
      rw [ew] at ew'
      cases ew'
      obtain ⟨c3', info3', er3, hws3', -, -, hwt3⟩ := direct_wt_step c2 info2
        (MemOp.read addr size (some dst)) _ hws2' hwt2
        ⟨hacc2, fun d hd => by cases hd; exact hdst⟩ trivial
      rw [er] at er3
      cases er3
      obtain ⟨-, hmem⟩ := hwt3.2.2 (addr + k) v hrec
      have hnb : b.addr ≠ NO_BLOCK := by
        rw [hba]
        exact nonneg_ne_no_block (by rw [← e1]; exact e2)
      have hmir := hinv3.2.2.2.1 i b hb hnb (hinv3.2.2.2.2 hws3' b (mem_of_getElem? hb))
        (addr % c.block_size + (k : Int)).toNat
        (by rw [hbs3, hbs2]; have := hacc.2.2.2; omega)
        (by rw [hms3, hms2, hba]; have := hacc.2.2.1; omega)
      rw [hmir, hba]
      rw [show (addr - addr % c.block_size +
        (((addr % c.block_size + (k : Int)).toNat : Nat) : Int)).toNat = (addr + (k : Int)).toNat
        from by congr 1; omega]
      exact hmem
  refine ⟨c2, info2, c3, info3, d', ew, er', memcpy_length hmc, ?_⟩
  intro k
  rw [memcpy_getElem? hmc k]
  by_cases hk : (k : Int) < size
  · rw [if_pos ⟨by omega, by omega⟩, if_pos hk, ← hcells k hk]
    congr 2
  · rw [if_neg (by omega), if_neg hk]

/-! ## Clock arithmetic and rounding -/

theorem add_counter_twice (info : StatisticsInfo) (x y : Int) :
    statistics_add_counter (statistics_add_counter info x) y =
      { info with clock_counter := int_wrap (info.clock_counter + x + y) } := by
  unfold statistics_add_counter
  simp only [int_wrap_wrap_add]

theorem round_to_double_ge_floor (a : Nat) : a / 2 ^ excess_bits a a * 2 ^ excess_bits a a ≤
    round_to_double a := by
  unfold round_to_double
  simp only []
  split
  · exact le_refl _
  · split
    · exact le_refl _
    · exact Nat.mul_le_mul_right _ (Nat.le_succ _)

theorem round_to_double_lower (a m : Nat) (hm : m * 2147483648 ≤ a)
    (ha : a < 4611686018427387904) : m * 2147483648 ≤ round_to_double a := by
  by_cases h0 : 0 < excess_bits a a
  · have hle := excess_bits_lower a a h0
    have he : excess_bits a a < 10 := by
      by_contra hc
      have : 2 ^ 62 ≤ 2 ^ (52 + excess_bits a a) :=
        Nat.pow_le_pow_right (by decide) (by omega)
      norm_num at this
      omega
    refine le_trans ?_ (round_to_double_ge_floor a)
    obtain ⟨d, hd⟩ : ∃ d, 31 = excess_bits a a + d := ⟨31 - excess_bits a a, by omega⟩
    have e31 : (2147483648 : Nat) = 2 ^ d * 2 ^ excess_bits a a := by
      rw [← pow_add, Nat.add_comm, ← hd]
      norm_num
    rw [e31, ← Nat.mul_assoc] at hm ⊢
    exact Nat.mul_le_mul_right _
      ((Nat.le_div_iff_mul_le (Nat.two_pow_pos _)).mpr hm)
  · have e0 : excess_bits a a = 0 := by omega
    have : round_to_double a = a := by
      unfold round_to_double
      simp [e0, Nat.mod_one]
    rw [this]
    exact hm

theorem random_next_near_floor (rnd : Random) (n : Int) (hn : 0 < n) (hmax : n ≤ 2147483647)
    (hr : 0 ≤ rnd.raw rnd.calls ∧ rnd.raw rnd.calls ≤ RAND_MAX) :
    rnd.raw rnd.calls * n / 2147483648 ≤ (random_next rnd n).1 ∧
    (random_next rnd n).1 ≤ rnd.raw rnd.calls * n / 2147483648 + 1 := by
  obtain ⟨h0, h1⟩ := hr
  unfold RAND_MAX at h1
  have hprod : 0 ≤ rnd.raw rnd.calls * n := Int.mul_nonneg h0 (le_of_lt hn)
  rw [random_next_nonneg rnd n hprod]
  have hple : rnd.raw rnd.calls * n ≤ 2147483647 * 2147483647 := by nlinarith
  obtain ⟨a, ha⟩ : ∃ a : Nat, rnd.raw rnd.calls * n = (a : Int) :=
    ⟨(rnd.raw rnd.calls * n).toNat, (Int.toNat_of_nonneg hprod).symm⟩
  rw [ha] at hple ⊢
  rw [Int.toNat_ofNat]
  have ha62 : a < 4611686018427387904 := by omega
  have hlow := round_to_double_lower a (a / 2147483648) (Nat.div_mul_le_self _ _) ha62
  have hb := round_to_double_bound a
  have hdm := Nat.div_add_mod a 2147483648
  have hml := Nat.mod_lt a (by decide : 0 < 2147483648)
  have e : ((a : Int) / 2147483648) = ((a / 2147483648 : Nat) : Int) := by norm_cast
  rw [e]
  constructor
  · exact_mod_cast (Nat.le_div_iff_mul_le (by decide)).mpr hlow
  · have : round_to_double a / 2147483648 < a / 2147483648 + 2 := by
      apply (Nat.div_lt_iff_lt_mul (by decide)).mpr
      omega
    have h2 : round_to_double a / 2147483648 ≤ a / 2147483648 + 1 := by omega
    exact_mod_cast h2

theorem floor_div_rand (p : Int) :
    ⌊((p : Int) : ℚ) / ((RAND_MAX + 1 : Int) : ℚ)⌋ = p / 2147483648 := by
  have := Rat.floor_intCast_div_natCast p 2147483648
  rw [show ((RAND_MAX + 1 : Int) : ℚ) = ((2147483648 : ℕ) : ℚ) by
    unfold RAND_MAX
    norm_num]
  rw [this]
  norm_num



/-! ## The claims -/

/-- C8 (reveal has no timing, statistics or placement effect).  Whenever a
reveal is defined, at a memory it returns the statistics record unchanged (so
the clock, read, write, hit and write-back counters keep their values), and at
a cache of either variant, over any lower layer whose reveal leaves the record
unchanged, it returns the record unchanged and leaves the tag and the dirty
flag of every block as they were, so that no block is placed. -/
theorem reveal_frame :
    (∀ (m : Memory) (info : StatisticsInfo) (addr size : Int) (src : List MemoryCell)
        (m' : Memory) (info' : StatisticsInfo),
        memory_reveal m info addr size src = some (m', info') → info' = info) ∧
    (∀ (L : Type) (ops : AbstractMemoryOps L),
        (∀ l info a s src l' info', ops.reveal l info a s src = some (l', info') →
          info' = info) →
        ∀ (c : DirectCache L) (info : StatisticsInfo) (addr size : Int)
          (src : List MemoryCell) (c' : DirectCache L) (info' : StatisticsInfo),
          direct_cache_reveal ops c info addr size src = some (c', info') →
          info' = info ∧
          c'.blocks.map (fun b => (b.addr, b.dirty)) =
            c.blocks.map (fun b => (b.addr, b.dirty))) ∧
    (∀ (L : Type) (ops : AbstractMemoryOps L),
        (∀ l info a s src l' info', ops.reveal l info a s src = some (l', info') →
          info' = info) →
        ∀ (c : FullCache L) (info : StatisticsInfo) (addr size : Int)
          (src : List MemoryCell) (c' : FullCache L) (info' : StatisticsInfo),
          full_cache_reveal ops c info addr size src = some (c', info') →
          info' = info ∧
          c'.blocks.map (fun b => (b.addr, b.dirty)) =
            c.blocks.map (fun b => (b.addr, b.dirty))) := by
  refine ⟨fun m info addr size src m' info' h => memory_reveal_info h, ?_, ?_⟩
  · intro L ops hlow c info addr size src c' info' h
    unfold direct_cache_reveal at h
    simp only at h
    split at h
    · cases h
    · rename_i found hfind
      split at h
      · cases h
      · rename_i blocks1 hblocks
        split at h
        · cases h
        · rename_i lower info1 hrev
          cases h
          refine ⟨hlow _ _ _ _ _ _ _ hrev, ?_⟩
          show blocks1.map _ = _
          split at hblocks
          · rename_i i
            split at hblocks
            · cases hblocks
            · rename_i b hb
              split at hblocks
              · cases hblocks
              · rename_i cells hcp
                cases hblocks
                exact tags_set_mem _ _ _ _ hb
          · cases hblocks
            rfl
  · intro L ops hlow c info addr size src c' info' h
    unfold full_cache_reveal at h
    simp only at h
    split at h
    · cases h
    · rename_i found hfind
      split at h
      · cases h
      · rename_i blocks1 hblocks
        split at h
        · cases h
        · rename_i lower info1 hrev
          cases h
          refine ⟨hlow _ _ _ _ _ _ _ hrev, ?_⟩
          show blocks1.map _ = _
          split at hblocks
          · rename_i i
            split at hblocks
            · cases hblocks
            · rename_i b hb
              split at hblocks
              · cases hblocks
              · rename_i cells hcp
                cases hblocks
                exact tags_set_mem _ _ _ _ hb
          · cases hblocks
            rfl

theorem reveal_frame_witness :
    ∃ c' info',
      direct_cache_reveal memory_ops sample_direct_wb sample_info 19 2 sample_src =
        some (c', info') ∧
      info' = sample_info ∧
      c'.blocks.map (fun b => (b.addr, b.dirty)) =
        sample_direct_wb.blocks.map (fun b => (b.addr, b.dirty)) := by
  cases h : direct_cache_reveal memory_ops sample_direct_wb sample_info 19 2 sample_src with
  | none =>
    have hs : (direct_cache_reveal memory_ops sample_direct_wb sample_info 19 2
        sample_src).isSome = true := by decide
    rw [h] at hs
    cases hs
  | some r =>
    exact ⟨r.1, r.2, rfl, reveal_frame.2.1 Memory memory_ops
      (fun _ _ _ _ _ _ _ hr => memory_reveal_info hr) sample_direct_wb sample_info 19 2
      sample_src r.1 r.2 h⟩

set_option maxRecDepth 100000 in
/-- C10 as stated fails.  `slow_direct_wb` is a write-back direct-mapped cache
over the memory that `memory_create` builds from
`memory_write_time = 2000000000` and `memory_width = 1`; its block 1 is dirty.
With the clock at 0, finalizing block 1 is defined, adds one to the write-back
counter and leaves the clock at 1935228928, where the write cost of the claim
gives `0 + ceil(16 / 1) * 2000000000 = 32000000000`: the product does not fit
an `int`. -/
theorem finalize_effect_counterexample :
    memory_create slow_memory_config none = some slow_memory ∧
    slow_direct_wb.blocks[1]? = some sample_dirty_block ∧ sample_dirty_block.dirty ≠ 0 ∧
    sample_info.clock_counter + ceil_div slow_direct_wb.block_size
      slow_direct_wb.mem.memory_width * slow_direct_wb.mem.memory_write_time = 32000000000 ∧
    (direct_cache_wb_finalize memory_ops slow_direct_wb sample_info 1).map (fun r => r.2) =
      some ⟨1935228928, 0, 0, 0, 1, 0, 0⟩ := by
  have hc : ceil_div slow_direct_wb.block_size slow_direct_wb.mem.memory_width = 16 :=
    (tdiv_ceil 16 1 (by decide) (by decide)).symm
  refine ⟨(memory_create_some slow_memory_config none _).mpr
      ⟨by unfold memory_params_valid; decide, rfl⟩, by decide, by decide, ?_, by decide⟩
  rw [hc]
  decide

/-- C10 (amended: finalize, the clock in `int` arithmetic).  Over a memory,
write-back finalize of a dirty block stores the `block_size` cells of the block
into the lower layer from the tag address on (the store is cut off at
`memory_size`), charges the write cost of the lower layer for `block_size`
cells, adds exactly one to the write-back counter and clears the dirty flag;
on a block that is not dirty it changes nothing; and write-through finalize
changes nothing in any case.  Both cache variants.  The charge is the one
`memory_write` makes: the clock becomes the 32-bit reduction of
`clock + blocks_count * memory_write_time`, where `blocks_count` is
`(block_size + memory_width - 1) / memory_width` in `int` arithmetic.  Whenever
`block_size + memory_width - 1` fits an `int`, `blocks_count` is
`ceil(block_size / memory_width)`, and whenever moreover
`clock + ceil(block_size / memory_width) * memory_write_time` fits an `int`,
this is the new clock. -/
theorem finalize_effect (info : StatisticsInfo) (i : Nat) (b : CacheBlock) :
    (∀ c : DirectCache Memory, c.blocks[i]? = some b → c.mem.wf → 0 ≤ b.addr →
      (b.mem.length : Int) = c.block_size →
      (b.dirty ≠ 0 → ∃ cells,
        direct_cache_wb_finalize memory_ops c info i =
          some ({ c with mem := { c.mem with mem := cells },
                         blocks := c.blocks.set i { b with dirty := 0 } },
                { info with
                  clock_counter := int_wrap (info.clock_counter +
                    blocks_count c.block_size c.mem.memory_width * c.mem.memory_write_time),
                  write_back_counter := info.write_back_counter + 1 }) ∧
        stored_at cells c.mem.mem b.addr c.block_size c.mem.memory_size b.mem ∧
        (c.block_size + c.mem.memory_width - 1 ≤ INT_MAX →
          in_int_range (info.clock_counter +
            ceil_div c.block_size c.mem.memory_width * c.mem.memory_write_time) →
          int_wrap (info.clock_counter +
            blocks_count c.block_size c.mem.memory_width * c.mem.memory_write_time) =
          info.clock_counter +
            ceil_div c.block_size c.mem.memory_width * c.mem.memory_write_time)) ∧
      (b.dirty = 0 → direct_cache_wb_finalize memory_ops c info i = some (c, info)) ∧
      direct_cache_wt_finalize c info i = some (c, info)) ∧
    (∀ c : FullCache Memory, c.blocks[i]? = some b → c.mem.wf → 0 ≤ b.addr →
      (b.mem.length : Int) = c.block_size →
      (b.dirty ≠ 0 → ∃ cells,
        full_cache_wb_finalize memory_ops c info i =
          some ({ c with mem := { c.mem with mem := cells },
                         blocks := c.blocks.set i { b with dirty := 0 } },
                { info with
                  clock_counter := int_wrap (info.clock_counter +
                    blocks_count c.block_size c.mem.memory_width * c.mem.memory_write_time),
                  write_back_counter := info.write_back_counter + 1 }) ∧
        stored_at cells c.mem.mem b.addr c.block_size c.mem.memory_size b.mem ∧
        (c.block_size + c.mem.memory_width - 1 ≤ INT_MAX →
          in_int_range (info.clock_counter +
            ceil_div c.block_size c.mem.memory_width * c.mem.memory_write_time) →
          int_wrap (info.clock_counter +
            blocks_count c.block_size c.mem.memory_width * c.mem.memory_write_time) =
          info.clock_counter +
            ceil_div c.block_size c.mem.memory_width * c.mem.memory_write_time)) ∧
      (b.dirty = 0 → full_cache_wb_finalize memory_ops c info i = some (c, info)) ∧
      full_cache_wt_finalize c info i = some (c, info)) ∧
    (∀ bs w : Int, 0 ≤ bs → 1 ≤ w → bs + w - 1 ≤ INT_MAX →
      blocks_count bs w = ceil_div bs w) := by
  have hexact : ∀ m : Memory, m.wf → ∀ bs : Int, (b.mem.length : Int) = bs →
      bs + m.memory_width - 1 ≤ INT_MAX →
      in_int_range (info.clock_counter + ceil_div bs m.memory_width * m.memory_write_time) →
      int_wrap (info.clock_counter + blocks_count bs m.memory_width * m.memory_write_time) =
      info.clock_counter + ceil_div bs m.memory_width * m.memory_write_time := by
    intro m hwf bs hbs hsum ht
    rw [blocks_count_ceil bs m.memory_width (by omega) hwf.2
      (by unfold INT_MAX at hsum; omega)]
    exact int_wrap_of_range _ ht
  refine ⟨?_, ?_, ?_⟩
  · intro c hb hwf ha hlen
    exact ⟨fun hd => by
        obtain ⟨cells, e, hst⟩ := direct_wb_finalize_dirty c info i b hb hwf ha hlen hd
        exact ⟨cells, e, hst, hexact c.mem hwf c.block_size hlen⟩,
      fun hd => direct_wb_finalize_clean memory_ops c info i b hb hd, rfl⟩
  · intro c hb hwf ha hlen
    exact ⟨fun hd => by
        obtain ⟨cells, e, hst⟩ := full_wb_finalize_dirty c info i b hb hwf ha hlen hd
        exact ⟨cells, e, hst, hexact c.mem hwf c.block_size hlen⟩,
      fun hd => full_wb_finalize_clean memory_ops c info i b hb hd, rfl⟩
  · intro bs w hbs hw hsum
    exact blocks_count_ceil bs w hbs (by omega) (by unfold INT_MAX at hsum; omega)

theorem finalize_effect_witness :
    ∃ cells,
        direct_cache_wb_finalize memory_ops sample_direct_wb ⟨0, 0, 0, 0, 0, 0, 0⟩ 1 =
          some ({ sample_direct_wb with
                  mem := { sample_direct_wb.mem with mem := cells },
                  blocks := sample_direct_wb.blocks.set 1 { sample_dirty_block with dirty := 0 } },
                ⟨int_wrap (0 + blocks_count sample_direct_wb.block_size
                    sample_direct_wb.mem.memory_width *
                  sample_direct_wb.mem.memory_write_time), 0, 0, 0, 0 + 1, 0, 0⟩) ∧
        stored_at cells sample_direct_wb.mem.mem sample_dirty_block.addr
          sample_direct_wb.block_size sample_direct_wb.mem.memory_size sample_dirty_block.mem ∧
        (sample_direct_wb.block_size + sample_direct_wb.mem.memory_width - 1 ≤ INT_MAX →
          in_int_range (0 + ceil_div sample_direct_wb.block_size
            sample_direct_wb.mem.memory_width * sample_direct_wb.mem.memory_write_time) →
          int_wrap (0 + blocks_count sample_direct_wb.block_size
            sample_direct_wb.mem.memory_width * sample_direct_wb.mem.memory_write_time) =
          0 + ceil_div sample_direct_wb.block_size
            sample_direct_wb.mem.memory_width * sample_direct_wb.mem.memory_write_time) :=
  ((finalize_effect ⟨0, 0, 0, 0, 0, 0, 0⟩ 1 sample_dirty_block).1 sample_direct_wb (by decide)
    (by unfold Memory.wf; decide) (by decide) (by decide)).1 (by decide)

set_option maxRecDepth 100000 in
/-- C6 as stated fails.  `slow_direct_wt` is a write-through direct-mapped
cache with validated parameters over the memory that `memory_create` builds
from `memory_write_time = 2000000000` and `memory_width = 1`.  A write of 2
cells at address 0 with the clock at 0 is defined and leaves the clock at
-294967295, where the claim gives
`0 + cache_write_time + ceil(2 / 1) * 2000000000 = 4000000001`: the product
does not fit an `int`. -/
theorem write_through_write_counterexample :
    memory_create slow_memory_config none = some slow_memory ∧
    cache_params_ok slow_direct_wt.block_size slow_direct_wt.block_count slow_direct_wt.blocks
      slow_direct_wt.mem ∧
    sample_info.clock_counter + slow_direct_wt.cache_write_time +
      ceil_div 2 slow_direct_wt.mem.memory_width * slow_direct_wt.mem.memory_write_time =
        4000000001 ∧
    (direct_cache_wt_write memory_ops slow_direct_wt sample_info 0 2 sample_src).map
      (fun r => r.2) = some { sample_info with clock_counter := -294967295 } := by
  have hc : ceil_div 2 slow_direct_wt.mem.memory_width = 2 :=
    (tdiv_ceil 2 1 (by decide) (by decide)).symm
  refine ⟨(memory_create_some slow_memory_config none _).mpr
      ⟨by unfold memory_params_valid; decide, rfl⟩,
    by unfold cache_params_ok blocks_sized Memory.wf; decide, ?_, by decide⟩
  rw [hc]
  decide

/-- C6 (amended: write-through write, the clock in `int` arithmetic).  For a
cache of either variant over a memory, in every state with validated
parameters and for every write of `size ≥ 0` cells at a non-negative address
that stays inside one block, the write-through write is defined and: the
lookup result `r` decides the mirroring (the cells are stored into the block
found, and no block changes when none is found), every tag and dirty flag is
unchanged, the lower state and the statistics are exactly those returned by
`memory_write` for the same arguments (the write is forwarded), no counter
other than the clock changes, and the clock becomes the 32-bit reduction of
`clock + cache_write_time + blocks_count * memory_write_time`, where
`blocks_count` is `(size + memory_width - 1) / memory_width` in `int`
arithmetic.  Whenever `size + memory_width - 1` fits an `int`, `blocks_count`
is `ceil(size / memory_width)`, and whenever moreover
`clock + cache_write_time + ceil(size / memory_width) * memory_write_time` fits
an `int`, this is the new clock: the clock then grows by exactly
`cache_write_time + ceil(size / memory_width) * memory_write_time`. -/
theorem write_through_write (info : StatisticsInfo) (addr size : Int) (src : List MemoryCell)
    (h0 : 0 ≤ addr) (h1 : addr ≤ INT_MAX) (hs : 0 ≤ size) (hsrc : size ≤ src.length) :
    (∀ c : DirectCache Memory, cache_params_ok c.block_size c.block_count c.blocks c.mem →
      addr % c.block_size + size ≤ c.block_size →
      ∃ r blocks' cells',
        direct_cache_find c (int_and addr (-c.block_size)) = some r ∧
        direct_cache_wt_write memory_ops c info addr size src =
          some ({ c with mem := { c.mem with mem := cells' }, blocks := blocks' },
            { info with clock_counter := int_wrap (info.clock_counter + c.cache_write_time +
                blocks_count size c.mem.memory_width * c.mem.memory_write_time) }) ∧
        memory_write c.mem (statistics_add_counter info c.cache_write_time) addr size src =
          some ({ c.mem with mem := cells' },
            { info with clock_counter := int_wrap (info.clock_counter + c.cache_write_time +
                blocks_count size c.mem.memory_width * c.mem.memory_write_time) }) ∧
        stored_at cells' c.mem.mem addr size c.mem.memory_size src ∧
        mirrored c.block_size c.blocks r (addr - int_and addr (-c.block_size)) size src
          blocks' ∧
        blocks'.map (fun b => (b.addr, b.dirty)) = c.blocks.map (fun b => (b.addr, b.dirty)) ∧
        (size + c.mem.memory_width - 1 ≤ INT_MAX →
          in_int_range (info.clock_counter + c.cache_write_time +
            ceil_div size c.mem.memory_width * c.mem.memory_write_time) →
          int_wrap (info.clock_counter + c.cache_write_time +
            blocks_count size c.mem.memory_width * c.mem.memory_write_time) =
          info.clock_counter + c.cache_write_time +
            ceil_div size c.mem.memory_width * c.mem.memory_write_time)) ∧
    (∀ c : FullCache Memory, cache_params_ok c.block_size c.block_count c.blocks c.mem →
      addr % c.block_size + size ≤ c.block_size →
      ∃ r blocks' cells',
        full_cache_find c (int_and addr (-c.block_size)) = some r ∧
        full_cache_wt_write memory_ops c info addr size src =
          some ({ c with mem := { c.mem with mem := cells' }, blocks := blocks' },
            { info with clock_counter := int_wrap (info.clock_counter + c.cache_write_time +
                blocks_count size c.mem.memory_width * c.mem.memory_write_time) }) ∧
        memory_write c.mem (statistics_add_counter info c.cache_write_time) addr size src =
          some ({ c.mem with mem := cells' },
            { info with clock_counter := int_wrap (info.clock_counter + c.cache_write_time +
                blocks_count size c.mem.memory_width * c.mem.memory_write_time) }) ∧
        stored_at cells' c.mem.mem addr size c.mem.memory_size src ∧
        mirrored c.block_size c.blocks r (addr - int_and addr (-c.block_size)) size src
          blocks' ∧
        blocks'.map (fun b => (b.addr, b.dirty)) = c.blocks.map (fun b => (b.addr, b.dirty)) ∧
        (size + c.mem.memory_width - 1 ≤ INT_MAX →
          in_int_range (info.clock_counter + c.cache_write_time +
            ceil_div size c.mem.memory_width * c.mem.memory_write_time) →
          int_wrap (info.clock_counter + c.cache_write_time +
            blocks_count size c.mem.memory_width * c.mem.memory_write_time) =
          info.clock_counter + c.cache_write_time +
            ceil_div size c.mem.memory_width * c.mem.memory_write_time)) ∧
    (∀ w : Int, 1 ≤ w → size + w - 1 ≤ INT_MAX → blocks_count size w = ceil_div size w) := by
  have hexact : ∀ m : Memory, m.wf → ∀ cwt : Int, size + m.memory_width - 1 ≤ INT_MAX →
      in_int_range (info.clock_counter + cwt +
        ceil_div size m.memory_width * m.memory_write_time) →
      int_wrap (info.clock_counter + cwt +
        blocks_count size m.memory_width * m.memory_write_time) =
      info.clock_counter + cwt + ceil_div size m.memory_width * m.memory_write_time := by
    intro m hwf cwt hsum ht
    rw [blocks_count_ceil size m.memory_width hs hwf.2 (by unfold INT_MAX at hsum; omega)]
    exact int_wrap_of_range _ ht
  refine ⟨?_, ?_, ?_⟩
  · intro c hp hin
    obtain ⟨e1, e2, e3, -⟩ := aligned_offset addr c.block_size hp.1 h0 h1
    obtain ⟨r, blocks', cells', hf, hw, hst, hm⟩ :=
      direct_wt_write_spec c info addr size src hp h0 h1 hs hsrc hin
    obtain ⟨cells2, hw2, hst2⟩ := memory_write_spec c.mem hp.2.2.2.2.1
      (statistics_add_counter info c.cache_write_time) addr size src h0 hs hsrc
    have hcells : cells2 = cells' := by
      apply List.ext_getElem?
      intro j
      rw [hst2.2 j, hst.2 j]
    subst hcells
    rw [add_counter_twice] at hw hw2
    rw [e3, e1]
    exact ⟨r, blocks', cells2, hf, hw, hw2, hst, hm, mirrored_tags _ _ _ _ _ _ _ hm,
      hexact c.mem hp.2.2.2.2.1 c.cache_write_time⟩
  · intro c hp hin
    obtain ⟨e1, e2, e3, -⟩ := aligned_offset addr c.block_size hp.1 h0 h1
    obtain ⟨r, blocks', cells', hf, hw, hst, hm⟩ :=
      full_wt_write_spec c info addr size src hp h0 h1 hs hsrc hin
    obtain ⟨cells2, hw2, hst2⟩ := memory_write_spec c.mem hp.2.2.2.2.1
      (statistics_add_counter info c.cache_write_time) addr size src h0 hs hsrc
    have hcells : cells2 = cells' := by
      apply List.ext_getElem?
      intro j
      rw [hst2.2 j, hst.2 j]
    subst hcells
    rw [add_counter_twice] at hw hw2
    rw [e3, e1]
    exact ⟨r, blocks', cells2, hf, hw, hw2, hst, hm, mirrored_tags _ _ _ _ _ _ _ hm,
      hexact c.mem hp.2.2.2.2.1 c.cache_write_time⟩
  · intro w hw hsum
    exact blocks_count_ceil size w hs (by omega) (by unfold INT_MAX at hsum; omega)

theorem write_through_write_witness :
    ∃ r blocks' cells',
      direct_cache_find sample_direct_wt (int_and 3 (-sample_direct_wt.block_size)) = some r ∧
      direct_cache_wt_write memory_ops sample_direct_wt sample_info 3 2 sample_src =
        some ({ sample_direct_wt with
                mem := { sample_direct_wt.mem with mem := cells' }, blocks := blocks' },
          { sample_info with
            clock_counter := int_wrap (sample_info.clock_counter +
              sample_direct_wt.cache_write_time +
              blocks_count 2 sample_direct_wt.mem.memory_width *
                sample_direct_wt.mem.memory_write_time) }) ∧
      memory_write sample_direct_wt.mem
          (statistics_add_counter sample_info sample_direct_wt.cache_write_time) 3 2 sample_src =
        some ({ sample_direct_wt.mem with mem := cells' },
          { sample_info with
            clock_counter := int_wrap (sample_info.clock_counter +
              sample_direct_wt.cache_write_time +
              blocks_count 2 sample_direct_wt.mem.memory_width *
                sample_direct_wt.mem.memory_write_time) }) ∧
      stored_at cells' sample_direct_wt.mem.mem 3 2 sample_direct_wt.mem.memory_size
        sample_src ∧
      mirrored sample_direct_wt.block_size sample_direct_wt.blocks r
        (3 - int_and 3 (-sample_direct_wt.block_size)) 2 sample_src blocks' ∧
      blocks'.map (fun b => (b.addr, b.dirty)) =
        sample_direct_wt.blocks.map (fun b => (b.addr, b.dirty)) ∧
      ((2 : Int) + sample_direct_wt.mem.memory_width - 1 ≤ INT_MAX →
        in_int_range (sample_info.clock_counter + sample_direct_wt.cache_write_time +
          ceil_div 2 sample_direct_wt.mem.memory_width *
            sample_direct_wt.mem.memory_write_time) →
        int_wrap (sample_info.clock_counter + sample_direct_wt.cache_write_time +
          blocks_count 2 sample_direct_wt.mem.memory_width *
            sample_direct_wt.mem.memory_write_time) =
        sample_info.clock_counter + sample_direct_wt.cache_write_time +
          ceil_div 2 sample_direct_wt.mem.memory_width *
            sample_direct_wt.mem.memory_write_time) :=
  (write_through_write sample_info 3 2 sample_src (by decide) (by decide) (by decide)
    (by decide)).1 sample_direct_wt
    (by unfold cache_params_ok blocks_sized Memory.wf; decide) (by decide)

/-- C9 (reveal injects ground truth).  For a cache of either variant over a
memory, in every state with validated parameters and for every reveal whose
range `[addr, addr + size)` starts at a non-negative address, ends inside the
memory and stays inside one block, the reveal is defined, leaves the statistics
unchanged, and afterwards cell `addr + k` of the backing store equals `src[k]`
for every `k < size`, whether or not the block is resident; and when the lookup
finds the block, the cells of that block at the same offsets equal `src` too. -/
theorem reveal_ground_truth (info : StatisticsInfo) (addr size : Int) (src : List MemoryCell)
    (hsrc : size ≤ src.length) :
    (∀ c : DirectCache Memory, cache_params_ok c.block_size c.block_count c.blocks c.mem →
      access_ok c.block_size c.mem.memory_size addr size →
      ∃ r c',
        direct_cache_find c (int_and addr (-c.block_size)) = some r ∧
        direct_cache_reveal memory_ops c info addr size src = some (c', info) ∧
        (∀ k : Nat, (k : Int) < size → c'.mem.mem[(addr + k).toNat]? = src[k]?) ∧
        (∀ i, r = some i → ∃ b', c'.blocks[i]? = some b' ∧
          b'.addr = int_and addr (-c.block_size) ∧
          ∀ k : Nat, (k : Int) < size → b'.mem[(addr - b'.addr + k).toNat]? = src[k]?)) ∧
    (∀ c : FullCache Memory, cache_params_ok c.block_size c.block_count c.blocks c.mem →
      access_ok c.block_size c.mem.memory_size addr size →
      ∃ r c',
        full_cache_find c (int_and addr (-c.block_size)) = some r ∧
        full_cache_reveal memory_ops c info addr size src = some (c', info) ∧
        (∀ k : Nat, (k : Int) < size → c'.mem.mem[(addr + k).toNat]? = src[k]?) ∧
        (∀ i, r = some i → ∃ b', c'.blocks[i]? = some b' ∧
          b'.addr = int_and addr (-c.block_size) ∧
          ∀ k : Nat, (k : Int) < size → b'.mem[(addr - b'.addr + k).toNat]? = src[k]?)) := by
  constructor
  · intro c hp ⟨h0, hs, hend, hin⟩
    have h1 : addr ≤ INT_MAX := by
      have := hp.2.2.2.2.2
      unfold MAX_MEM_SIZE GiB at this
      unfold INT_MAX
      omega
    obtain ⟨e1, e2, e3, e4, -⟩ := aligned_offset addr c.block_size hp.1 h0 h1
    obtain ⟨r, blocks', cells', hf, hw, hst, hm⟩ :=
      direct_reveal_spec c info addr size src hp h0 h1 hs hsrc hin
    rw [e1]
    refine ⟨r, _, hf, hw, fun k hk => stored_at_cell hst h0 hend k hk, ?_⟩
    intro i hi
    subst hi
    obtain ⟨r2, hf2, hr2, -⟩ := direct_find_lookup c (addr - addr % c.block_size)
      (block_size_pos hp.1) hp.2.1 hp.2.2.1 (by omega)
    rw [hf] at hf2
    cases hf2
    obtain ⟨-, b0, hb0, hb0a⟩ := hr2 i rfl
    obtain ⟨b, b', hb, hb', ha, -, hcells⟩ := mirrored_cell _ _ _ _ _ _ _ hm e4 hin
    rw [hb0] at hb
    cases hb
    refine ⟨b', hb', by rw [ha, hb0a], ?_⟩
    intro k hk
    rw [ha, hb0a, show addr - (addr - addr % c.block_size) = addr % c.block_size by omega]
    exact hcells k hk
  · intro c hp ⟨h0, hs, hend, hin⟩
    have h1 : addr ≤ INT_MAX := by
      have := hp.2.2.2.2.2
      unfold MAX_MEM_SIZE GiB at this
      unfold INT_MAX
      omega
    obtain ⟨e1, e2, e3, e4, -⟩ := aligned_offset addr c.block_size hp.1 h0 h1
    obtain ⟨r, blocks', cells', hf, hw, hst, hm⟩ :=
      full_reveal_spec c info addr size src hp h0 h1 hs hsrc hin
    rw [e1]
    refine ⟨r, _, hf, hw, fun k hk => stored_at_cell hst h0 hend k hk, ?_⟩
    intro i hi
    subst hi
    obtain ⟨r2, hf2, hr2, -⟩ := full_find_lookup c (addr - addr % c.block_size) hp.2.2.1
    rw [hf] at hf2
    cases hf2
    obtain ⟨-, b0, hb0, hb0a⟩ := hr2 i rfl
    obtain ⟨b, b', hb, hb', ha, -, hcells⟩ := mirrored_cell _ _ _ _ _ _ _ hm e4 hin
    rw [hb0] at hb
    cases hb
    refine ⟨b', hb', by rw [ha, hb0a], ?_⟩
    intro k hk
    rw [ha, hb0a, show addr - (addr - addr % c.block_size) = addr % c.block_size by omega]
    exact hcells k hk

theorem reveal_ground_truth_witness :
    ∃ r c',
      full_cache_find sample_full_wt (int_and 19 (-sample_full_wt.block_size)) = some r ∧
      full_cache_reveal memory_ops sample_full_wt sample_info 19 2 sample_src =
        some (c', sample_info) ∧
      (∀ k : Nat, (k : Int) < 2 → c'.mem.mem[((19 : Int) + k).toNat]? = sample_src[k]?) ∧
      (∀ i, r = some i → ∃ b', c'.blocks[i]? = some b' ∧
        b'.addr = int_and 19 (-sample_full_wt.block_size) ∧
        ∀ k : Nat, (k : Int) < 2 → b'.mem[((19 : Int) - b'.addr + k).toNat]? = sample_src[k]?) :=
  (reveal_ground_truth sample_info 19 2 sample_src (by decide)).2 sample_full_wt
    (by unfold cache_params_ok blocks_sized Memory.wf; decide)
    (by unfold access_ok; decide)

set_option maxRecDepth 100000 in
/-- C7 as stated fails.  `limit_direct_wb` is the write-back direct-mapped
cache that the constructor builds over the memory that `memory_create` builds
from `memory_read_time = 2147483646` and `memory_width = 16`.  With the clock
at 0, a read at address 0 misses and leaves the clock at
`1 + 1 * 2147483646 = 2147483647`, the largest `int`, with block 0 resident.
The write-back write of 2 cells at address 0 that follows finds its block and
leaves the clock at -2147483648, where the claim gives
`2147483647 + cache_write_time = 2147483648`. -/
theorem write_back_write_counterexample :
    memory_create limit_memory_config none = some limit_memory ∧
    (direct_cache_read memory_ops limit_direct_wb sample_info 0 1 none).map
      (fun r => r.2.1) = some ⟨2147483647, 0, 0, 0, 0, 0, 0⟩ ∧
    (direct_cache_read memory_ops limit_direct_wb sample_info 0 1 none).bind
      (fun r => direct_cache_find r.1 (int_and 0 (-r.1.block_size))) = some (some 0) ∧
    (2147483647 : Int) + limit_direct_wb.cache_write_time = 2147483648 ∧
    ((direct_cache_read memory_ops limit_direct_wb sample_info 0 1 none).bind
      (fun r => direct_cache_wb_write memory_ops r.1 r.2.1 0 2 sample_src)).map
      (fun r => r.2) = some ⟨-2147483648, 0, 0, 0, 0, 0, 0⟩ :=
  ⟨(memory_create_some limit_memory_config none _).mpr
      ⟨by unfold memory_params_valid; decide, rfl⟩,
    by decide, by decide, by decide, by decide⟩

/-- C7 (amended: write-back write, the clock in `int` arithmetic).  A
write-back write of `size ≥ 0` cells that finds its block (either variant, any
lower layer) stores the cells into the block at offset `addr - aligned_addr`,
sets the dirty flag, replaces the clock by the 32-bit reduction of
`clock + cache_write_time`, and leaves the lower layer and every other counter
(hit and write-back counters included) unchanged; whenever
`clock + cache_write_time` fits an `int`, this is the new clock, which then
grows by exactly `cache_write_time`.  When the lookup finds no block (over a
memory), the block is first placed by the placement function, charged after
`cache_write_time`, and the cells are then stored into the placed block, which
is marked dirty. -/
theorem write_back_write (info : StatisticsInfo) (addr size : Int) (src : List MemoryCell)
    (hs : 0 ≤ size) (hsrc : size ≤ src.length) :
    (∀ (L : Type) (ops : AbstractMemoryOps L) (c : DirectCache L) (i : Nat) (b : CacheBlock),
      direct_cache_find c (int_and addr (-c.block_size)) = some (some i) →
      c.blocks[i]? = some b → 0 ≤ addr - int_and addr (-c.block_size) →
      addr - int_and addr (-c.block_size) + size ≤ b.mem.length →
      ∃ cellsB,
        direct_cache_wb_write ops c info addr size src =
          some ({ c with blocks := c.blocks.set i { b with mem := cellsB, dirty := 1 } },
            { info with clock_counter := int_wrap (info.clock_counter + c.cache_write_time) }) ∧
        stored_at cellsB b.mem (addr - int_and addr (-c.block_size)) size b.mem.length src) ∧
    (∀ (L : Type) (ops : AbstractMemoryOps L) (c : FullCache L) (i : Nat) (b : CacheBlock),
      full_cache_find c (int_and addr (-c.block_size)) = some (some i) →
      c.blocks[i]? = some b → 0 ≤ addr - int_and addr (-c.block_size) →
      addr - int_and addr (-c.block_size) + size ≤ b.mem.length →
      ∃ cellsB,
        full_cache_wb_write ops c info addr size src =
          some ({ c with blocks := c.blocks.set i { b with mem := cellsB, dirty := 1 } },
            { info with clock_counter := int_wrap (info.clock_counter + c.cache_write_time) }) ∧
        stored_at cellsB b.mem (addr - int_and addr (-c.block_size)) size b.mem.length src) ∧
    (∀ c : DirectCache Memory, cache_params_ok c.block_size c.block_count c.blocks c.mem →
      (∀ b ∈ c.blocks, b.addr ≠ NO_BLOCK → b.dirty ≠ 0 → 0 ≤ b.addr) →
      0 ≤ addr → addr ≤ INT_MAX → addr % c.block_size + size ≤ c.block_size →
      direct_cache_find c (int_and addr (-c.block_size)) = some none →
      ∃ c1 info1 i b1 cellsB,
        direct_cache_place memory_ops c (statistics_add_counter info c.cache_write_time)
          (int_and addr (-c.block_size)) = some (c1, info1, i) ∧
        c1.blocks[i]? = some b1 ∧ b1.addr = int_and addr (-c.block_size) ∧
        stored_at cellsB b1.mem (addr - int_and addr (-c.block_size)) size c.block_size src ∧
        direct_cache_wb_write memory_ops c info addr size src =
          some ({ c1 with blocks := c1.blocks.set i { b1 with mem := cellsB, dirty := 1 } },
            info1)) ∧
    (∀ c : FullCache Memory, cache_params_ok c.block_size c.block_count c.blocks c.mem →
      (∀ b ∈ c.blocks, b.addr ≠ NO_BLOCK → b.dirty ≠ 0 → 0 ≤ b.addr) →
      (0 ≤ c.rnd.raw c.rnd.calls ∧ c.rnd.raw c.rnd.calls ≤ RAND_MAX) →
      0 ≤ addr → addr ≤ INT_MAX → addr % c.block_size + size ≤ c.block_size →
      full_cache_find c (int_and addr (-c.block_size)) = some none →
      ∃ c1 info1 i b1 cellsB,
        full_cache_random_place memory_ops c (statistics_add_counter info c.cache_write_time)
          (int_and addr (-c.block_size)) = some (c1, info1, i) ∧
        c1.blocks[i]? = some b1 ∧ b1.addr = int_and addr (-c.block_size) ∧
        stored_at cellsB b1.mem (addr - int_and addr (-c.block_size)) size c.block_size src ∧
        full_cache_wb_write memory_ops c info addr size src =
          some ({ c1 with blocks := c1.blocks.set i { b1 with mem := cellsB, dirty := 1 } },
            info1)) ∧
    (∀ cwt : Int, in_int_range (info.clock_counter + cwt) →
      int_wrap (info.clock_counter + cwt) = info.clock_counter + cwt) := by
  refine ⟨?_, ?_, ?_, ?_, fun cwt h => int_wrap_of_range _ h⟩
  · intro L ops c i b hf hb h0 hin
    exact direct_wb_write_hit ops c info addr size src i b hf hb h0 hs hin hsrc
  · intro L ops c i b hf hb h0 hin
    exact full_wb_write_hit ops c info addr size src i b hf hb h0 hs hin hsrc
  · intro c hp htag h0 h1 hin hf
    obtain ⟨e1, e2, e3, e4, -⟩ := aligned_offset addr c.block_size hp.1 h0 h1
    obtain ⟨r, hfind, -, hmiss⟩ := direct_wb_write_spec c info addr size src hp htag h0 h1 hs
      hsrc hin
    rw [e1] at hf
    rw [e3, e1]
    rw [hf] at hfind
    cases hfind
    obtain ⟨blocks1, cells1, info1, b1, cellsB, hpl, hplaced, hb1, hst, hw⟩ := hmiss rfl
    obtain ⟨b1', hb1', ha, -, -⟩ := placed_block hplaced hp.2.2.2.1
    rw [hb1] at hb1'
    cases hb1'
    exact ⟨_, info1, _, b1, cellsB, hpl, hb1, ha, hst, hw⟩
  · intro c hp htag hrnd h0 h1 hin hf
    obtain ⟨e1, e2, e3, e4, -⟩ := aligned_offset addr c.block_size hp.1 h0 h1
    obtain ⟨r, hfind, -, hmiss⟩ := full_wb_write_spec c info addr size src hp htag hrnd h0 h1
      hs hsrc hin
    rw [e1] at hf
    rw [e3, e1]
    rw [hf] at hfind
    cases hfind
    obtain ⟨i, blocks1, cells1, info1, rnd1, b1, cellsB, hpl, hplaced, -, -, hb1, hst, hw⟩ :=
      hmiss rfl
    obtain ⟨b1', hb1', ha, -, -⟩ := placed_block hplaced hp.2.2.2.1
    rw [hb1] at hb1'
    cases hb1'
    exact ⟨_, info1, i, b1, cellsB, hpl, hb1, ha, hst, hw⟩

theorem write_back_write_witness :
    ∃ cellsB,
      full_cache_wb_write memory_ops sample_full_wb sample_info 19 2 sample_src =
        some ({ sample_full_wb with
                blocks := sample_full_wb.blocks.set 1
                  { sample_dirty_block with mem := cellsB, dirty := 1 } },
          { sample_info with
            clock_counter :=
              int_wrap (sample_info.clock_counter + sample_full_wb.cache_write_time) }) ∧
      stored_at cellsB sample_dirty_block.mem (19 - int_and 19 (-sample_full_wb.block_size)) 2
        sample_dirty_block.mem.length sample_src :=
  (write_back_write sample_info 19 2 sample_src (by decide) (by decide)).2.1 Memory memory_ops
    sample_full_wb 1 sample_dirty_block (by decide) (by decide) (by decide) (by decide)

/-- C3 (two reads in immediate succession).  For a cache of either variant and
either write strategy over any lower layer, in every state and for every
address, size and destination: whenever the first read is defined, the second
read of the same address is defined too, it is a hit that leaves the cache
(every block, the lower layer, the generator) exactly as the first read left
it, so that nothing is placed, it adds 1 to the hit counter and
`cache_read_time` to the clock and changes no other counter, and it returns
the same destination contents as the first read.  For the fully-associative
cache the block count is positive and the library generator returns a value in
`[0, RAND_MAX]`.  The clock is an `int`: the new clock is the 32-bit reduction
of `clock + cache_read_time`, which is `clock + cache_read_time` whenever this
fits an `int`. -/
theorem read_twice :
    (∀ (L : Type) (ops : AbstractMemoryOps L) (c c1 : DirectCache L)
      (info info1 : StatisticsInfo) (addr size : Int) (dst d1 : Option (List MemoryCell)),
      direct_cache_read ops c info addr size dst = some (c1, info1, d1) →
      direct_cache_read ops c1 info1 addr size dst =
        some (c1, { info1 with
          clock_counter := int_wrap (info1.clock_counter + c.cache_read_time),
          hit_counter := info1.hit_counter + 1 }, d1)) ∧
    (∀ (L : Type) (ops : AbstractMemoryOps L) (c c1 : FullCache L)
      (info info1 : StatisticsInfo) (addr size : Int) (dst d1 : Option (List MemoryCell)),
      0 < c.block_count →
      (0 ≤ c.rnd.raw c.rnd.calls ∧ c.rnd.raw c.rnd.calls ≤ RAND_MAX) →
      full_cache_read ops c info addr size dst = some (c1, info1, d1) →
      full_cache_read ops c1 info1 addr size dst =
        some (c1, { info1 with
          clock_counter := int_wrap (info1.clock_counter + c.cache_read_time),
          hit_counter := info1.hit_counter + 1 }, d1)) ∧
    (∀ clock time : Int, in_int_range (clock + time) →
      int_wrap (clock + time) = clock + time) := by
  refine ⟨?_, ?_, fun clock time h => int_wrap_of_range _ h⟩
  · intro L ops c c1 info info1 addr size dst d1 h
    obtain ⟨i, e1, e2, hf, hc⟩ := direct_read_inv h
    rw [← e1] at hf hc
    rw [← e2]
    exact direct_read_again ops c1 info1 addr size dst d1 i hf hc
  · intro L ops c c1 info info1 addr size dst d1 hbc hr h
    obtain ⟨i, e1, e2, hf, hc⟩ := full_read_inv h hbc hr
    rw [← e1] at hf hc
    rw [← e2]
    exact full_read_again ops c1 info1 addr size dst d1 i hf hc

theorem read_twice_witness :
    direct_cache_read memory_ops sample_direct_wt sample_info 19 2 (some sample_src) =
        some (sample_direct_wt_read, ⟨13, 0, 0, 0, 0, 0, 0⟩, some [⟨0, 0⟩, ⟨0, 0⟩]) ∧
    direct_cache_read memory_ops sample_direct_wt_read ⟨13, 0, 0, 0, 0, 0, 0⟩ 19 2
        (some sample_src) =
      some (sample_direct_wt_read, ⟨14, 0, 0, 1, 0, 0, 0⟩, some [⟨0, 0⟩, ⟨0, 0⟩]) :=
  ⟨by decide, read_twice.1 Memory memory_ops sample_direct_wt sample_direct_wt_read sample_info
    ⟨13, 0, 0, 0, 0, 0, 0⟩ 19 2 (some sample_src) (some [⟨0, 0⟩, ⟨0, 0⟩]) (by decide)⟩

/-- C4 (direct-mapped collision).  In a direct-mapped cache over a memory, let
`a1` and `a2` be non-negative addresses in different aligned blocks with the
same index `(aligned_addr / block_size) % block_count`, and let the block of
`a1` be resident (the indexed block `b` carries its tag).  Then a read of `a2`,
and under write-back a write to `a2`, is defined and afterwards the block of
`a2` is found at that index and the block of `a1` is not found; the write-back
counter grows by exactly 1 when the cache is write-back and `b` was dirty, and
by 0 otherwise. -/
theorem direct_collision (c : DirectCache Memory) (info : StatisticsInfo) (a1 a2 size : Int)
    (b : CacheBlock)
    (hp : cache_params_ok c.block_size c.block_count c.blocks c.mem)
    (htag : ∀ x ∈ c.blocks, x.addr ≠ NO_BLOCK → x.dirty ≠ 0 → 0 ≤ x.addr)
    (h1 : 0 ≤ a1 ∧ a1 ≤ INT_MAX) (h2 : 0 ≤ a2 ∧ a2 ≤ INT_MAX)
    (hdiff : int_and a1 (-c.block_size) ≠ int_and a2 (-c.block_size))
    (hidx : Int.tmod (Int.tdiv (int_and a1 (-c.block_size)) c.block_size) c.block_count =
      Int.tmod (Int.tdiv (int_and a2 (-c.block_size)) c.block_size) c.block_count)
    (hb : c.blocks[direct_index c.block_size c.block_count (int_and a1 (-c.block_size))]? =
      some b)
    (hres : b.addr = int_and a1 (-c.block_size)) :
    (∀ dst : Option (List MemoryCell),
      (∀ x, dst = some x → 0 ≤ size ∧ size ≤ (x.length : Int) ∧
        a2 % c.block_size + size ≤ c.block_size) →
      ∃ c' info' d',
        direct_cache_read memory_ops c info a2 size dst = some (c', info', d') ∧
        direct_cache_find c' (int_and a2 (-c.block_size)) =
          some (some (direct_index c.block_size c.block_count (int_and a2 (-c.block_size)))) ∧
        direct_cache_find c' (int_and a1 (-c.block_size)) = some none ∧
        info'.write_back_counter = info.write_back_counter +
          (if c.write_strategy = WriteStrategy.write_back ∧ b.dirty ≠ 0 then 1 else 0)) ∧
    (∀ src : List MemoryCell, c.write_strategy = WriteStrategy.write_back →
      0 ≤ size → size ≤ (src.length : Int) → a2 % c.block_size + size ≤ c.block_size →
      ∃ c' info',
        direct_cache_wb_write memory_ops c info a2 size src = some (c', info') ∧
        direct_cache_find c' (int_and a2 (-c.block_size)) =
          some (some (direct_index c.block_size c.block_count (int_and a2 (-c.block_size)))) ∧
        direct_cache_find c' (int_and a1 (-c.block_size)) = some none ∧
        info'.write_back_counter = info.write_back_counter +
          (if b.dirty ≠ 0 then 1 else 0)) := by
  obtain ⟨hbs, hbc, hlen, hsz, hwf, hmax⟩ := hp
  have hbs' := block_size_pos hbs
  obtain ⟨e1, p1, -⟩ := aligned_offset a1 c.block_size hbs h1.1 h1.2
  obtain ⟨e2, p2, -⟩ := aligned_offset a2 c.block_size hbs h2.1 h2.2
  have hidx' : direct_index c.block_size c.block_count (int_and a1 (-c.block_size)) =
      direct_index c.block_size c.block_count (int_and a2 (-c.block_size)) := by
    unfold direct_index
    rw [hidx]
  rw [hidx'] at hb
  have hnb : b.addr ≠ NO_BLOCK := by
    intro h
    rw [hres] at h
    have hge : (0 : Int) ≤ NO_BLOCK := by rw [← h]; exact p1
    exact absurd hge (by decide)
  have hmissfind : direct_cache_find c (a2 - a2 % c.block_size) = some none := by
    rw [← e2, direct_find_at c _ b hbs' hbc hlen p2 hb, if_neg (by rw [hres]; exact hdiff)]
  have hcount : ∀ (info0 : Int) (info' : StatisticsInfo) (blocks1 : List CacheBlock)
      (cells1 : List MemoryCell),
      placed c.write_strategy c.block_size c.mem c.blocks
        (statistics_add_counter info info0) (a2 - a2 % c.block_size)
        (direct_index c.block_size c.block_count (a2 - a2 % c.block_size))
        blocks1 cells1 info' →
      info'.write_back_counter = info.write_back_counter +
        (if c.write_strategy = WriteStrategy.write_back ∧ b.dirty ≠ 0 then 1 else 0) := by
    intro info0 info' blocks1 cells1 hpl
    rw [placed_wb_counter hpl b (by rw [← e2]; exact hb)]
    show info.write_back_counter + _ = _
    congr 1
    by_cases hc : c.write_strategy = WriteStrategy.write_back ∧ b.dirty ≠ 0
    · rw [if_pos hc, if_pos ⟨hc.1, hnb, hc.2⟩]
    · rw [if_neg hc, if_neg (fun h => hc ⟨h.1, h.2.2⟩)]
  constructor
  · intro dst hdst
    obtain ⟨r, hfind, -, hmiss⟩ := direct_read_spec c info a2 size dst
      ⟨hbs, hbc, hlen, hsz, hwf, hmax⟩ htag h2.1 h2.2 hdst
    rw [hmissfind] at hfind
    cases hfind
    obtain ⟨blocks1, cells1, info1, dst', hpl, hplaced, hread⟩ := hmiss rfl
    obtain ⟨b1, hb1, hb1a, -, hlen1⟩ := placed_block hplaced hsz
    refine ⟨_, info1, dst', hread, ?_⟩
    rw [e1, e2]
    rw [e1, e2] at hdiff hidx'
    have hf := collision_finds
      ({ c with mem := { c.mem with mem := cells1 }, blocks := blocks1 } : DirectCache Memory)
      (a1 - a1 % c.block_size) (a2 - a2 % c.block_size) b1 hbs' hbc
      (by show (blocks1.length : Int) = c.block_count; rw [hlen1]; exact hlen)
      (by omega) (by omega) hdiff hidx' hb1 hb1a
    exact ⟨hf.1, hf.2, hcount _ _ _ _ hplaced⟩
  · intro src hws hs hsrc hin
    obtain ⟨r, hfind, -, hmiss⟩ := direct_wb_write_spec c info a2 size src
      ⟨hbs, hbc, hlen, hsz, hwf, hmax⟩ htag h2.1 h2.2 hs hsrc hin
    rw [hmissfind] at hfind
    cases hfind
    obtain ⟨blocks1, cells1, info1, b1, cellsB, hpl, hplaced, hb1, hst, hw⟩ := hmiss rfl
    obtain ⟨b1', hb1', hb1a, -, hlen1⟩ := placed_block hplaced hsz
    rw [hb1] at hb1'
    cases hb1'
    refine ⟨_, info1, hw, ?_⟩
    rw [e1, e2]
    rw [e1, e2] at hdiff hidx'
    have hf := collision_finds
      ({ c with
         mem := { c.mem with mem := cells1 },
         blocks := blocks1.set
           (direct_index c.block_size c.block_count (a2 - a2 % c.block_size))
           { b1 with mem := cellsB, dirty := 1 } } : DirectCache Memory)
      (a1 - a1 % c.block_size) (a2 - a2 % c.block_size) { b1 with mem := cellsB, dirty := 1 }
      hbs' hbc
      (by show ((blocks1.set _ _).length : Int) = c.block_count
          rw [List.length_set, hlen1]; exact hlen)
      (by omega) (by omega) hdiff hidx'
      (by show (blocks1.set _ _)[_]? = _
          rw [List.getElem?_set, if_pos rfl, if_pos (lt_length_of_getElem? hb1)])
      hb1a
    refine ⟨hf.1, hf.2, ?_⟩
    have := hcount _ _ _ _ hplaced
    rw [this]
    simp only [hws, true_and]

theorem direct_collision_witness :
    ∃ c' info',
      direct_cache_wb_write memory_ops sample_direct_wb sample_info 51 2 sample_src =
        some (c', info') ∧
      direct_cache_find c' (int_and 51 (-sample_direct_wb.block_size)) =
        some (some (direct_index sample_direct_wb.block_size sample_direct_wb.block_count
          (int_and 51 (-sample_direct_wb.block_size)))) ∧
      direct_cache_find c' (int_and 19 (-sample_direct_wb.block_size)) = some none ∧
      info'.write_back_counter = sample_info.write_back_counter +
        (if sample_dirty_block.dirty ≠ 0 then 1 else 0) :=
  (direct_collision sample_direct_wb sample_info 19 51 2 sample_dirty_block
    (by unfold cache_params_ok blocks_sized Memory.wf; decide) (by decide)
    (by decide) (by decide) (by decide) (by decide) (by decide) (by decide)).2 sample_src
    (by decide) (by decide) (by decide) (by decide)

/-- C5 (fully-associative capacity).  In a fully-associative cache over a
memory with `block_count = k` blocks that are all resident (each tag is
non-negative, no tag occurs twice), placing a non-negative address that is not
resident, with the library generator returning a value in `[0, RAND_MAX]`, is
defined: afterwards the new address is found, exactly one address that was
resident is no longer found, and the number of resident blocks (as the number
of blocks) is still `k`. -/
theorem full_capacity (c : FullCache Memory) (info : StatisticsInfo) (a : Int)
    (hp : cache_params_ok c.block_size c.block_count c.blocks c.mem)
    (hall : ∀ b ∈ c.blocks, 0 ≤ b.addr) (huniq : blocks_unique c.blocks) (ha : 0 ≤ a)
    (hmiss : full_cache_find c a = some none)
    (hr : 0 ≤ c.rnd.raw c.rnd.calls ∧ c.rnd.raw c.rnd.calls ≤ RAND_MAX) :
    ∃ c' info' i,
      full_cache_random_place memory_ops c info a = some (c', info', i) ∧
      full_cache_find c' a = some (some i) ∧
      (∃ t, (∃ j, resident_at c.blocks t j) ∧ full_cache_find c' t = some none ∧
        ∀ t', (∃ j, resident_at c.blocks t' j) → full_cache_find c' t' = some none → t' = t) ∧
      (c'.blocks.filter (fun b => decide (b.addr ≠ NO_BLOCK))).length = c.block_count.toNat ∧
      c'.blocks.length = c.block_count.toNat := by
  have hp' := hp
  obtain ⟨hbs, hbc, hlen, hsz, hwf, hmax⟩ := hp
  have hnr : not_resident c.blocks a := (full_find_none_iff c a hlen).mp hmiss
  have hno : ∀ x : Int, 0 ≤ x → x ≠ NO_BLOCK := by
    intro x hx h
    rw [h] at hx
    exact absurd hx (by decide)
  obtain ⟨i, blocks', cells', info', rnd', hpl, hplaced, -, -, -⟩ :=
    full_cache_place_spec c info a hp'
      (fun b hb _ _ => hall b hb) ha hr
  obtain ⟨hf1, hf2, hfind⟩ := full_place_then_find hpl hmiss hbc hr
  obtain ⟨b, d', hb, -, -, hblocks⟩ := hplaced
  have hilt := lt_length_of_getElem? hb
  have hlen' : (blocks'.length : Int) = c.block_count := by
    rw [hblocks, List.length_set]
    exact hlen
  have hget : ∀ j : Nat, j ≠ i → blocks'[j]? = c.blocks[j]? := by
    intro j hj
    rw [hblocks, List.getElem?_set, if_neg (fun h => hj h.symm)]
  have hgeti : ∃ bi, blocks'[i]? = some bi ∧ bi.addr = a := by
    refine ⟨⟨a, d', if c.write_strategy = WriteStrategy.write_back ∧ b.addr ≠ NO_BLOCK
      then 0 else b.dirty⟩, ?_, rfl⟩
    rw [hblocks, List.getElem?_set, if_pos rfl, if_pos hilt]
  have hab : a ≠ b.addr := fun h => hnr i b hb h.symm
  refine ⟨_, info', i, hpl, hfind, ⟨b.addr, ⟨i, b, hb, rfl⟩, ?_, ?_⟩, ?_, ?_⟩
  · rw [full_find_none_iff _ _ hlen']
    intro j bj hbj hbja
    by_cases hji : j = i
    · subst hji
      obtain ⟨bi, hbi, hbia⟩ := hgeti
      change blocks'[j]? = some bj at hbj
      rw [hbi] at hbj
      cases hbj
      exact hab (hbia.symm.trans hbja)
    · change blocks'[j]? = some bj at hbj
      rw [hget j hji] at hbj
      exact hji (huniq j i bj b hbj hb hbja (by rw [hbja]; exact hno _ (hall b (mem_of_getElem? hb))))
  · intro t' ⟨j, bj, hbj, hbja⟩ hnone
    rw [full_find_none_iff _ _ hlen'] at hnone
    by_cases hji : j = i
    · subst hji
      rw [hb] at hbj
      cases hbj
      exact hbja.symm
    · exact absurd hbja (hnone j bj (by
        show blocks'[j]? = some bj
        rw [hget j hji]; exact hbj))
  · show (blocks'.filter _).length = _
    have hallres : ∀ x ∈ blocks', decide (x.addr ≠ NO_BLOCK) = true := by
      intro x hx
      rw [hblocks] at hx
      rcases List.mem_or_eq_of_mem_set hx with h | h
      · simpa using hno _ (hall x h)
      · rw [h]
        simpa using hno _ ha
    rw [List.filter_eq_self.mpr hallres]
    omega
  · show blocks'.length = _
    omega

theorem full_capacity_witness :
    ∃ c' info' i,
      full_cache_random_place memory_ops sample_full_wb sample_info 32 = some (c', info', i) ∧
      full_cache_find c' 32 = some (some i) ∧
      (∃ t, (∃ j, resident_at sample_full_wb.blocks t j) ∧ full_cache_find c' t = some none ∧
        ∀ t', (∃ j, resident_at sample_full_wb.blocks t' j) →
          full_cache_find c' t' = some none → t' = t) ∧
      (c'.blocks.filter (fun b => decide (b.addr ≠ NO_BLOCK))).length =
        sample_full_wb.block_count.toNat ∧
      c'.blocks.length = sample_full_wb.block_count.toNat :=
  full_capacity sample_full_wb sample_info 32
    (by unfold cache_params_ok blocks_sized Memory.wf; decide) (by decide)
    (by
      intro i j b b' hi hj hab _
      have h1 := lt_length_of_getElem? hi
      have h2 := lt_length_of_getElem? hj
      have hl : sample_full_wb.blocks.length = 2 := rfl
      rw [hl] at h1 h2
      interval_cases i <;> interval_cases j <;> first
        | rfl
        | (cases hi; cases hj; exact absurd hab (by decide)))
    (by decide) (by decide) (by decide)

/-- C2 as stated fails: on a write-through direct-mapped cache, the write of
`0xAA` to address 0 followed by the reveal of `0xBB` at address 0 is a valid
sequence of in-range, in-block calls without flush, and it leaves the backing
store cell 0 different from the most recent cell written to address 0. -/
theorem write_through_invariant_counterexample :
    sample_direct_wt.write_strategy = WriteStrategy.write_through ∧
    (∀ op ∈ sample_write_then_reveal,
      op_ok sample_direct_wt.block_size sample_direct_wt.mem.memory_size op ∧ is_access op) ∧
    ¬ ∃ c' info',
      run_ops (direct_cache_ops memory_ops) sample_write_then_reveal
        (sample_direct_wt, sample_info) = some (c', info') ∧
      ∀ x v, last_written sample_write_then_reveal x = some v →
        c'.mem.mem[x.toNat]? = some v := by
  refine ⟨rfl, ?_, ?_⟩
  · unfold sample_write_then_reveal
    simp only [List.mem_cons, List.mem_singleton, List.not_mem_nil, or_false]
    rintro op (rfl | rfl)
    · exact ⟨⟨by unfold access_ok; decide, by decide⟩, trivial⟩
    · exact ⟨⟨by unfold access_ok; decide, by decide⟩, trivial⟩
  · rintro ⟨c', info', hrun, h⟩
    have h0 := h 0 ⟨170, 1⟩ (by decide)
    have hcell : (run_ops (direct_cache_ops memory_ops) sample_write_then_reveal
        (sample_direct_wt, sample_info)).map (fun st => st.1.mem.mem[(0 : Int).toNat]?) =
        some (some ⟨187, 1⟩) := by decide
    rw [hrun] at hcell
    simp only [Option.map_some', Option.some.injEq] at hcell
    rw [h0] at hcell
    exact absurd hcell (by decide)

/-- C2 (amended).  For a write-through cache of either variant over a memory,
in any state with validated parameters and no dirty block, and for any
sequence of read, write and reveal calls whose accesses lie inside the memory
and inside one block, every prefix of the sequence is defined without any
flush and leaves, at every address stored to by a write or a reveal, the cell
most recently stored there by a write or a reveal.  For the fully-associative
cache the library generator returns values in `[0, RAND_MAX]`. -/
theorem write_through_invariant (ops : List MemOp) (k : Nat) :
    (∀ (c : DirectCache Memory) (info : StatisticsInfo),
      c.write_strategy = WriteStrategy.write_through →
      cache_params_ok c.block_size c.block_count c.blocks c.mem →
      (∀ b ∈ c.blocks, b.dirty = 0) →
      (∀ op ∈ ops, op_ok c.block_size c.mem.memory_size op ∧ is_access op) →
      ∃ c' info',
        run_ops (direct_cache_ops memory_ops) (ops.take k) (c, info) = some (c', info') ∧
        ∀ x v, last_stored (ops.take k) x = some v → c'.mem.mem[x.toNat]? = some v) ∧
    (∀ (c : FullCache Memory) (info : StatisticsInfo),
      c.write_strategy = WriteStrategy.write_through →
      cache_params_ok c.block_size c.block_count c.blocks c.mem →
      (∀ b ∈ c.blocks, b.dirty = 0) →
      (∀ n, 0 ≤ c.rnd.raw n ∧ c.rnd.raw n ≤ RAND_MAX) →
      (∀ op ∈ ops, op_ok c.block_size c.mem.memory_size op ∧ is_access op) →
      ∃ c' info',
        run_ops (full_cache_ops memory_ops) (ops.take k) (c, info) = some (c', info') ∧
        ∀ x v, last_stored (ops.take k) x = some v → c'.mem.mem[x.toNat]? = some v) := by
  constructor
  · intro c info hws hp hd hok
    obtain ⟨c', info', e, hinv⟩ := direct_wt_run (ops.take k) c info (fun _ => none) hws
      ⟨hp, hd, fun x v h => by cases h⟩ (fun op hop => hok op (List.mem_of_mem_take hop))
    exact ⟨c', info', e, fun x v h => (hinv.2.2 x v h).2⟩
  · intro c info hws hp hd hrnd hok
    obtain ⟨c', info', e, hinv⟩ := full_wt_run (ops.take k) c info (fun _ => none) hws hrnd
      ⟨hp, hd, fun x v h => by cases h⟩ (fun op hop => hok op (List.mem_of_mem_take hop))
    exact ⟨c', info', e, fun x v h => (hinv.2.2 x v h).2⟩

theorem write_through_invariant_witness :
    ∃ c' info',
      run_ops (direct_cache_ops memory_ops) (sample_write_then_reveal.take 2)
        (sample_direct_wt, sample_info) = some (c', info') ∧
      ∀ x v, last_stored (sample_write_then_reveal.take 2) x = some v →
        c'.mem.mem[x.toNat]? = some v :=
  (write_through_invariant sample_write_then_reveal 2).1 sample_direct_wt sample_info rfl
    (by unfold cache_params_ok blocks_sized Memory.wf; decide) (by decide)
    (by
      unfold sample_write_then_reveal
      simp only [List.mem_cons, List.mem_singleton, List.not_mem_nil, or_false]
      rintro op (rfl | rfl)
      · exact ⟨⟨by unfold access_ok; decide, by decide⟩, trivial⟩
      · exact ⟨⟨by unfold access_ok; decide, by decide⟩, trivial⟩)

/-- C1.  Write-back invariant.  For a write-back cache of either variant as
constructed over a memory (block size a power of two accepted by
`is_correct_block_size`, positive cache size a multiple of the block size, all
blocks free), and for any sequence of reads and writes whose accesses start at
a non-negative address, end inside the memory and stay inside one block, the
sequence followed by `flush` is defined and leaves, at every address written,
the cell most recently written there.  For the fully-associative cache the
library generator returns values in `[0, RAND_MAX]`, so that every random index
lies in `[0, block_count)`. -/
theorem write_back_invariant (bs cs rt wt : Int) (m : Memory) (rnd : Random)
    (info : StatisticsInfo) (ops : List MemOp) (hbs : is_correct_block_size bs = true)
    (hcs : 0 < cs) (hmod : Int.tmod cs bs = 0) (hwf : m.wf)
    (hmax : m.memory_size ≤ MAX_MEM_SIZE)
    (hrnd : ∀ n, 0 ≤ rnd.raw n ∧ rnd.raw n ≤ RAND_MAX)
    (hok : ∀ op ∈ ops, op_ok bs m.memory_size op ∧ is_read_or_write op) :
    (∃ c' info',
      run_ops (direct_cache_ops memory_ops) (ops ++ [MemOp.flush])
        (direct_cache_alloc WriteStrategy.write_back bs cs rt wt m, info) = some (c', info') ∧
      ∀ x v, last_written ops x = some v → c'.mem.mem[x.toNat]? = some v) ∧
    (∃ c' info',
      run_ops (full_cache_ops memory_ops) (ops ++ [MemOp.flush])
        (full_cache_alloc WriteStrategy.write_back bs cs rt wt m rnd, info) =
          some (c', info') ∧
      ∀ x v, last_written ops x = some v → c'.mem.mem[x.toNat]? = some v) := by
  obtain ⟨hinv, hidx⟩ := fresh_blocks_inv bs cs m hbs hcs hmod hwf hmax
  constructor
  · obtain ⟨c1, info1, e1, hws1, hinv1⟩ := direct_wb_run ops
      (direct_cache_alloc WriteStrategy.write_back bs cs rt wt m) info (fun _ => none) rfl
      hinv hidx hok
    obtain ⟨c2, info2, e2, h2⟩ := direct_flush_spec _ c1 info1 hws1 hinv1
    refine ⟨c2, info2, ?_, h2⟩
    rw [run_ops_append, e1]
    simp only [Option.bind, run_ops, apply_op, direct_cache_ops]
    rw [e2]
  · obtain ⟨c1, info1, e1, hws1, hinv1⟩ := full_wb_run ops
      (full_cache_alloc WriteStrategy.write_back bs cs rt wt m rnd) info (fun _ => none) rfl
      hrnd hinv hok
    obtain ⟨c2, info2, e2, h2⟩ := full_flush_spec _ c1 info1 hws1 hinv1
    refine ⟨c2, info2, ?_, h2⟩
    rw [run_ops_append, e1]
    simp only [Option.bind, run_ops, apply_op, full_cache_ops]
    rw [e2]

theorem write_back_invariant_witness :
    (∃ c' info',
      run_ops (direct_cache_ops memory_ops) (sample_wb_trace ++ [MemOp.flush])
        (direct_cache_alloc WriteStrategy.write_back 16 16 1 2 sample_memory, sample_info) =
          some (c', info') ∧
      ∀ x v, last_written sample_wb_trace x = some v → c'.mem.mem[x.toNat]? = some v) ∧
    (∃ c' info',
      run_ops (full_cache_ops memory_ops) (sample_wb_trace ++ [MemOp.flush])
        (full_cache_alloc WriteStrategy.write_back 16 16 1 2 sample_memory sample_random,
          sample_info) = some (c', info') ∧
      ∀ x v, last_written sample_wb_trace x = some v → c'.mem.mem[x.toNat]? = some v) :=
  write_back_invariant 16 16 1 2 sample_memory sample_random sample_info sample_wb_trace
    (by decide) (by decide) (by decide) (by unfold Memory.wf; decide) (by decide)
    (fun _ => ⟨le_refl (0 : Int), show (0 : Int) ≤ RAND_MAX by decide⟩)
    (by
      unfold sample_wb_trace
      simp only [List.mem_cons, List.mem_singleton, List.not_mem_nil, or_false]
      rintro op (rfl | rfl | rfl | rfl)
      · exact ⟨⟨by unfold access_ok; decide, by decide⟩, trivial⟩
      · exact ⟨⟨by unfold access_ok; decide, by decide⟩, trivial⟩
      · exact ⟨⟨by unfold access_ok; decide, by simp⟩, trivial⟩
      · exact ⟨⟨by unfold access_ok; decide, by decide⟩, trivial⟩)

/-- C11 (flush is idempotent).  For a cache of either variant and either write
policy over a memory, in any state with validated parameters whose blocks are
free and clean or tagged with a non-negative aligned address (and, under
write-through, none dirty): flush is defined and leaves no block dirty, and a
second flush right after it is defined and returns the very same cache state
and statistics record, so that it adds zero to the write-back counter and to
the clock and changes no cell of the backing store. -/
theorem flush_idempotent :
    (∀ (c : DirectCache Memory) (info : StatisticsInfo),
      cache_params_ok c.block_size c.block_count c.blocks c.mem →
      blocks_tagged c.block_size c.blocks →
      (c.write_strategy = WriteStrategy.write_through → ∀ b ∈ c.blocks, b.dirty = 0) →
      ∃ c1 info1, direct_cache_flush memory_ops c info = some (c1, info1) ∧
        (∀ b ∈ c1.blocks, b.dirty = 0) ∧
        direct_cache_flush memory_ops c1 info1 = some (c1, info1)) ∧
    (∀ (c : FullCache Memory) (info : StatisticsInfo),
      cache_params_ok c.block_size c.block_count c.blocks c.mem →
      blocks_tagged c.block_size c.blocks →
      (c.write_strategy = WriteStrategy.write_through → ∀ b ∈ c.blocks, b.dirty = 0) →
      ∃ c1 info1, full_cache_flush memory_ops c info = some (c1, info1) ∧
        (∀ b ∈ c1.blocks, b.dirty = 0) ∧
        full_cache_flush memory_ops c1 info1 = some (c1, info1)) := by
  constructor
  · intro c info hp ht hwt
    cases hws : c.write_strategy with
    | write_through =>
      have e := direct_flush_noop memory_ops c info rfl hp.2.2.1
        (fun h => by rw [hws] at h; cases h)
      exact ⟨c, info, e, hwt hws, e⟩
    | write_back =>
      obtain ⟨c1, info1, e, hws1, hbs1, hbc1, hbl1, -⟩ := direct_flush_count c info hws hp ht
      have hclean : ∀ b ∈ c1.blocks, b.dirty = 0 := by
        intro b hb
        rw [hbl1] at hb
        obtain ⟨x, -, rfl⟩ := List.mem_map.mp hb
        rfl
      refine ⟨c1, info1, e, hclean, ?_⟩
      exact direct_flush_noop memory_ops c1 info1 rfl
        (by rw [hbl1, List.length_map, hbc1]; exact hp.2.2.1)
        (fun _ b hb _ => hclean b hb)
  · intro c info hp ht hwt
    cases hws : c.write_strategy with
    | write_through =>
      have e := full_flush_noop memory_ops c info rfl hp.2.2.1
        (fun h => by rw [hws] at h; cases h)
      exact ⟨c, info, e, hwt hws, e⟩
    | write_back =>
      obtain ⟨c1, info1, e, hws1, hbs1, hbc1, hbl1, -⟩ := full_flush_count c info hws hp ht
      have hclean : ∀ b ∈ c1.blocks, b.dirty = 0 := by
        intro b hb
        rw [hbl1] at hb
        obtain ⟨x, -, rfl⟩ := List.mem_map.mp hb
        rfl
      refine ⟨c1, info1, e, hclean, ?_⟩
      exact full_flush_noop memory_ops c1 info1 rfl
        (by rw [hbl1, List.length_map, hbc1]; exact hp.2.2.1)
        (fun _ b hb _ => hclean b hb)

theorem flush_idempotent_witness :
    ∃ c1 info1, direct_cache_flush memory_ops sample_direct_wb sample_info = some (c1, info1) ∧
      (∀ b ∈ c1.blocks, b.dirty = 0) ∧
      direct_cache_flush memory_ops c1 info1 = some (c1, info1) :=
  flush_idempotent.1 sample_direct_wb sample_info
    (by unfold cache_params_ok blocks_sized Memory.wf; decide)
    (by unfold blocks_tagged; decide) (fun h => by cases h)

/-- C12 (flush writes back exactly the dirty resident blocks).  For a
write-back cache of either variant over a memory, in any state with validated
parameters whose blocks are free and clean or tagged with a non-negative
aligned address, flush is defined, adds to the write-back counter exactly the
number of dirty resident blocks, and leaves the tag and the cells of every
block unchanged; when no resident block is dirty it returns the cache state
and the statistics record unchanged (no statistic, no block and no
backing-store cell changes).  The flush of a memory changes nothing. -/
theorem flush_writes_back_dirty :
    (∀ (c : DirectCache Memory) (info : StatisticsInfo),
      c.write_strategy = WriteStrategy.write_back →
      cache_params_ok c.block_size c.block_count c.blocks c.mem →
      blocks_tagged c.block_size c.blocks →
      ∃ c' info', direct_cache_flush memory_ops c info = some (c', info') ∧
        info'.write_back_counter =
          info.write_back_counter + (c.blocks.countP dirty_resident : Nat) ∧
        c'.blocks.map (fun b => (b.addr, b.mem)) = c.blocks.map (fun b => (b.addr, b.mem)) ∧
        ((∀ b ∈ c.blocks, b.addr ≠ NO_BLOCK → b.dirty = 0) → c' = c ∧ info' = info)) ∧
    (∀ (c : FullCache Memory) (info : StatisticsInfo),
      c.write_strategy = WriteStrategy.write_back →
      cache_params_ok c.block_size c.block_count c.blocks c.mem →
      blocks_tagged c.block_size c.blocks →
      ∃ c' info', full_cache_flush memory_ops c info = some (c', info') ∧
        info'.write_back_counter =
          info.write_back_counter + (c.blocks.countP dirty_resident : Nat) ∧
        c'.blocks.map (fun b => (b.addr, b.mem)) = c.blocks.map (fun b => (b.addr, b.mem)) ∧
        ((∀ b ∈ c.blocks, b.addr ≠ NO_BLOCK → b.dirty = 0) → c' = c ∧ info' = info)) ∧
    (∀ (m : Memory) (info : StatisticsInfo), memory_flush m info = some (m, info)) := by
  refine ⟨?_, ?_, fun m info => rfl⟩
  · intro c info hws hp ht
    obtain ⟨c', info', e, -, -, -, hbl, hcnt⟩ := direct_flush_count c info hws hp ht
    refine ⟨c', info', e, hcnt, ?_, ?_⟩
    · rw [hbl, List.map_map]
      rfl
    · intro hclean
      have e2 := direct_flush_noop memory_ops c info rfl hp.2.2.1 (fun _ => hclean)
      rw [e2] at e
      cases e
      exact ⟨rfl, rfl⟩
  · intro c info hws hp ht
    obtain ⟨c', info', e, -, -, -, hbl, hcnt⟩ := full_flush_count c info hws hp ht
    refine ⟨c', info', e, hcnt, ?_, ?_⟩
    · rw [hbl, List.map_map]
      rfl
    · intro hclean
      have e2 := full_flush_noop memory_ops c info rfl hp.2.2.1 (fun _ => hclean)
      rw [e2] at e
      cases e
      exact ⟨rfl, rfl⟩

theorem flush_writes_back_dirty_witness :
    ∃ c' info', full_cache_flush memory_ops sample_full_wb sample_info = some (c', info') ∧
      info'.write_back_counter =
        sample_info.write_back_counter + (sample_full_wb.blocks.countP dirty_resident : Nat) ∧
      c'.blocks.map (fun b => (b.addr, b.mem)) =
        sample_full_wb.blocks.map (fun b => (b.addr, b.mem)) ∧
      ((∀ b ∈ sample_full_wb.blocks, b.addr ≠ NO_BLOCK → b.dirty = 0) →
        c' = sample_full_wb ∧ info' = sample_info) :=
  flush_writes_back_dirty.2.1 sample_full_wb sample_info rfl
    (by unfold cache_params_ok blocks_sized Memory.wf; decide)
    (by unfold blocks_tagged; decide)

set_option maxRecDepth 100000 in
/-- C13 as stated fails.  `slow_direct_wt` is the direct-mapped cache that the
constructor builds over the memory that `memory_create` builds from
`memory_read_time = 2000000000` and `memory_width = 1`.  With the clock at 0, a
read at address 0 misses (the indexed block is free), leaves the hit counter
alone and leaves the clock at 1935228929, where the claim gives
`0 + cache_read_time + ceil(16 / 1) * 2000000000 = 32000000001`: the product
does not fit an `int`. -/
theorem read_accounting_counterexample :
    memory_create slow_memory_config none = some slow_memory ∧
    cache_params_ok slow_direct_wt.block_size slow_direct_wt.block_count slow_direct_wt.blocks
      slow_direct_wt.mem ∧
    direct_cache_find slow_direct_wt (int_and 0 (-slow_direct_wt.block_size)) = some none ∧
    sample_info.clock_counter + slow_direct_wt.cache_read_time +
      ceil_div slow_direct_wt.block_size slow_direct_wt.mem.memory_width *
        slow_direct_wt.mem.memory_read_time = 32000000001 ∧
    (direct_cache_read memory_ops slow_direct_wt sample_info 0 1 none).map (fun r => r.2.1) =
      some ⟨1935228929, 0, 0, 0, 0, 0, 0⟩ := by
  have hc : ceil_div slow_direct_wt.block_size slow_direct_wt.mem.memory_width = 16 :=
    (tdiv_ceil 16 1 (by decide) (by decide)).symm
  refine ⟨(memory_create_some slow_memory_config none _).mpr
      ⟨by unfold memory_params_valid; decide, rfl⟩,
    by unfold cache_params_ok blocks_sized Memory.wf; decide, by decide, ?_, by decide⟩
  rw [hc]
  decide

/-- C13 (amended: read accounting of the direct-mapped cache).  For a direct-mapped
cache over a memory, in every state with validated parameters whose dirty
resident blocks carry non-negative tags, for every address in `[0, INT_MAX]`
and every destination, null or not (a non-null one receives `size ≥ 0` cells
from inside one block): with `a = addr & -block_size` and `b` the block at
index `(a / block_size) % block_count`, the read is defined and, when `b` is
tagged `a` (hit), the cache is unchanged, the clock grows by `cache_read_time`,
the hit counter by 1, and no other counter changes; when it is not (miss), the
hit counter is unchanged, block `b` is re-tagged `a` and its cells are loaded
from the memory, and the clock grows by `cache_read_time` plus
`blocks_count * memory_read_time`, plus `blocks_count * memory_write_time`
exactly when the cache is write-back and the displaced block was resident and
dirty.  The clock grows in `int` arithmetic: the new clock is the 32-bit
reduction of the sum, and `blocks_count` is
`(block_size + memory_width - 1) / memory_width` in `int` arithmetic.  Whenever
`block_size + memory_width - 1` fits an `int`, `blocks_count` is
`ceil(block_size / memory_width)`, and whenever moreover the sum with
`ceil(block_size / memory_width)` fits an `int`, it is the new clock: the clock
then grows by exactly the amount stated. -/
theorem read_accounting (c : DirectCache Memory) (info : StatisticsInfo) (addr size : Int)
    (dst : Option (List MemoryCell))
    (hp : cache_params_ok c.block_size c.block_count c.blocks c.mem)
    (htag : ∀ b ∈ c.blocks, b.addr ≠ NO_BLOCK → b.dirty ≠ 0 → 0 ≤ b.addr)
    (h0 : 0 ≤ addr) (h1 : addr ≤ INT_MAX)
    (hd : ∀ x, dst = some x → 0 ≤ size ∧ size ≤ (x.length : Int) ∧
      addr % c.block_size + size ≤ c.block_size) :
    ∃ b, c.blocks[direct_index c.block_size c.block_count
        (int_and addr (-c.block_size))]? = some b ∧
      (b.addr = int_and addr (-c.block_size) → ∃ dst',
        direct_cache_read memory_ops c info addr size dst =
          some (c, { info with
            clock_counter := int_wrap (info.clock_counter + c.cache_read_time),
            hit_counter := info.hit_counter + 1 }, dst')) ∧
      (b.addr ≠ int_and addr (-c.block_size) → ∃ c' info' dst' d',
        direct_cache_read memory_ops c info addr size dst = some (c', info', dst') ∧
        info'.hit_counter = info.hit_counter ∧
        info'.read_counter = info.read_counter ∧ info'.write_counter = info.write_counter ∧
        c'.blocks = c.blocks.set
          (direct_index c.block_size c.block_count (int_and addr (-c.block_size)))
          { addr := int_and addr (-c.block_size), mem := d',
            dirty := if c.write_strategy = WriteStrategy.write_back ∧ b.addr ≠ NO_BLOCK
              then 0 else b.dirty } ∧
        loaded_from d' b.mem c'.mem.mem (int_and addr (-c.block_size)) c.block_size
          c.mem.memory_size ∧
        info'.write_back_counter = info.write_back_counter +
          (if c.write_strategy = WriteStrategy.write_back ∧ b.addr ≠ NO_BLOCK ∧ b.dirty ≠ 0
            then 1 else 0) ∧
        info'.clock_counter = int_wrap (info.clock_counter + c.cache_read_time +
          blocks_count c.block_size c.mem.memory_width * c.mem.memory_read_time +
          (if c.write_strategy = WriteStrategy.write_back ∧ b.addr ≠ NO_BLOCK ∧ b.dirty ≠ 0
            then blocks_count c.block_size c.mem.memory_width * c.mem.memory_write_time
            else 0)) ∧
        (c.block_size + c.mem.memory_width - 1 ≤ INT_MAX →
          in_int_range (info.clock_counter + c.cache_read_time +
            ceil_div c.block_size c.mem.memory_width * c.mem.memory_read_time +
            (if c.write_strategy = WriteStrategy.write_back ∧ b.addr ≠ NO_BLOCK ∧ b.dirty ≠ 0
              then ceil_div c.block_size c.mem.memory_width * c.mem.memory_write_time
              else 0)) →
          info'.clock_counter = info.clock_counter + c.cache_read_time +
            ceil_div c.block_size c.mem.memory_width * c.mem.memory_read_time +
            (if c.write_strategy = WriteStrategy.write_back ∧ b.addr ≠ NO_BLOCK ∧ b.dirty ≠ 0
              then ceil_div c.block_size c.mem.memory_width * c.mem.memory_write_time
              else 0))) ∧
      (in_int_range (info.clock_counter + c.cache_read_time) →
        int_wrap (info.clock_counter + c.cache_read_time) =
          info.clock_counter + c.cache_read_time) ∧
      (c.block_size + c.mem.memory_width - 1 ≤ INT_MAX →
        blocks_count c.block_size c.mem.memory_width =
          ceil_div c.block_size c.mem.memory_width) := by
  obtain ⟨e1, e2, -⟩ := aligned_offset addr c.block_size hp.1 h0 h1
  rw [e1] at e2 ⊢
  obtain ⟨b, hb, hfind⟩ := direct_cache_find_spec c (addr - addr % c.block_size)
    (block_size_pos hp.1) hp.2.1 hp.2.2.1 e2
  obtain ⟨r, hr, hhit, hmiss⟩ := direct_read_spec c info addr size dst hp htag h0 h1 hd
  rw [hfind] at hr
  have hceil : c.block_size + c.mem.memory_width - 1 ≤ INT_MAX →
      blocks_count c.block_size c.mem.memory_width =
        ceil_div c.block_size c.mem.memory_width := fun hsum =>
    blocks_count_ceil c.block_size c.mem.memory_width
      (le_of_lt (block_size_pos hp.1)) hp.2.2.2.2.1.2 (by unfold INT_MAX at hsum; omega)
  refine ⟨b, hb, ?_, ?_, fun h => int_wrap_of_range _ h, hceil⟩
  · intro hba
    rw [if_pos hba] at hr
    obtain ⟨dst', e⟩ := hhit _ (Option.some.inj hr).symm
    exact ⟨dst', e⟩
  · intro hba
    rw [if_neg hba] at hr
    obtain ⟨blocks1, cells1, info1, dst', -, hplaced, e⟩ := hmiss (Option.some.inj hr).symm
    obtain ⟨b', d', hb', hcase, hload, hblocks⟩ := hplaced
    rw [hb] at hb'
    cases hb'
    by_cases hc : c.write_strategy = WriteStrategy.write_back ∧ b.addr ≠ NO_BLOCK ∧ b.dirty ≠ 0
    · rw [if_pos hc] at hcase
      obtain ⟨-, hi⟩ := hcase
      have hclock : info1.clock_counter = int_wrap (info.clock_counter + c.cache_read_time +
          blocks_count c.block_size c.mem.memory_width * c.mem.memory_read_time +
          blocks_count c.block_size c.mem.memory_width * c.mem.memory_write_time) := by
        rw [hi]
        simp only [statistics_add_counter, statistics_add_write_back_counter,
          int_wrap_wrap_add]
        congr 1
        ring
      refine ⟨_, info1, dst', d', e, ?_, ?_, ?_, hblocks, hload, ?_, ?_, ?_⟩
      · rw [hi]; rfl
      · rw [hi]; rfl
      · rw [hi]; rfl
      · rw [hi, if_pos hc]; rfl
      · rw [if_pos hc]
        exact hclock
      · intro hsum ht
        rw [if_pos hc] at ht ⊢
        rw [hclock, hceil hsum]
        exact int_wrap_of_range _ ht
    · rw [if_neg hc] at hcase
      obtain ⟨-, hi⟩ := hcase
      have hclock : info1.clock_counter = int_wrap (info.clock_counter + c.cache_read_time +
          blocks_count c.block_size c.mem.memory_width * c.mem.memory_read_time + 0) := by
        rw [hi]
        simp only [statistics_add_counter, int_wrap_wrap_add]
        congr 1
        ring
      refine ⟨_, info1, dst', d', e, ?_, ?_, ?_, hblocks, hload, ?_, ?_, ?_⟩
      · rw [hi]; rfl
      · rw [hi]; rfl
      · rw [hi]; rfl
      · rw [hi, if_neg hc]
        exact (add_zero _).symm
      · rw [if_neg hc]
        exact hclock
      · intro hsum ht
        rw [if_neg hc] at ht ⊢
        rw [hclock, hceil hsum]
        exact int_wrap_of_range _ ht

theorem read_accounting_witness :
    ∃ b, sample_direct_wb.blocks[direct_index sample_direct_wb.block_size
        sample_direct_wb.block_count (int_and 51 (-sample_direct_wb.block_size))]? = some b ∧
      (b.addr = int_and 51 (-sample_direct_wb.block_size) → ∃ dst',
        direct_cache_read memory_ops sample_direct_wb sample_info 51 2 none =
          some (sample_direct_wb,
            { sample_info with
              clock_counter :=
                int_wrap (sample_info.clock_counter + sample_direct_wb.cache_read_time),
              hit_counter := sample_info.hit_counter + 1 }, dst')) ∧
      (b.addr ≠ int_and 51 (-sample_direct_wb.block_size) → ∃ c' info' dst' d',
        direct_cache_read memory_ops sample_direct_wb sample_info 51 2 none =
          some (c', info', dst') ∧
        info'.hit_counter = sample_info.hit_counter ∧
        info'.read_counter = sample_info.read_counter ∧
        info'.write_counter = sample_info.write_counter ∧
        c'.blocks = sample_direct_wb.blocks.set
          (direct_index sample_direct_wb.block_size sample_direct_wb.block_count
            (int_and 51 (-sample_direct_wb.block_size)))
          { addr := int_and 51 (-sample_direct_wb.block_size), mem := d',
            dirty := if sample_direct_wb.write_strategy = WriteStrategy.write_back ∧
              b.addr ≠ NO_BLOCK then 0 else b.dirty } ∧
        loaded_from d' b.mem c'.mem.mem (int_and 51 (-sample_direct_wb.block_size))
          sample_direct_wb.block_size sample_direct_wb.mem.memory_size ∧
        info'.write_back_counter = sample_info.write_back_counter +
          (if sample_direct_wb.write_strategy = WriteStrategy.write_back ∧
              b.addr ≠ NO_BLOCK ∧ b.dirty ≠ 0 then 1 else 0) ∧
        info'.clock_counter =
          int_wrap (sample_info.clock_counter + sample_direct_wb.cache_read_time +
            blocks_count sample_direct_wb.block_size sample_direct_wb.mem.memory_width *
              sample_direct_wb.mem.memory_read_time +
            (if sample_direct_wb.write_strategy = WriteStrategy.write_back ∧
                b.addr ≠ NO_BLOCK ∧ b.dirty ≠ 0
              then blocks_count sample_direct_wb.block_size sample_direct_wb.mem.memory_width *
                sample_direct_wb.mem.memory_write_time
              else 0)) ∧
        (sample_direct_wb.block_size + sample_direct_wb.mem.memory_width - 1 ≤ INT_MAX →
          in_int_range (sample_info.clock_counter + sample_direct_wb.cache_read_time +
            ceil_div sample_direct_wb.block_size sample_direct_wb.mem.memory_width *
              sample_direct_wb.mem.memory_read_time +
            (if sample_direct_wb.write_strategy = WriteStrategy.write_back ∧
                b.addr ≠ NO_BLOCK ∧ b.dirty ≠ 0
              then ceil_div sample_direct_wb.block_size sample_direct_wb.mem.memory_width *
                sample_direct_wb.mem.memory_write_time
              else 0)) →
          info'.clock_counter = sample_info.clock_counter + sample_direct_wb.cache_read_time +
            ceil_div sample_direct_wb.block_size sample_direct_wb.mem.memory_width *
              sample_direct_wb.mem.memory_read_time +
            (if sample_direct_wb.write_strategy = WriteStrategy.write_back ∧
                b.addr ≠ NO_BLOCK ∧ b.dirty ≠ 0
              then ceil_div sample_direct_wb.block_size sample_direct_wb.mem.memory_width *
                sample_direct_wb.mem.memory_write_time
              else 0))) ∧
      (in_int_range (sample_info.clock_counter + sample_direct_wb.cache_read_time) →
        int_wrap (sample_info.clock_counter + sample_direct_wb.cache_read_time) =
          sample_info.clock_counter + sample_direct_wb.cache_read_time) ∧
      (sample_direct_wb.block_size + sample_direct_wb.mem.memory_width - 1 ≤ INT_MAX →
        blocks_count sample_direct_wb.block_size sample_direct_wb.mem.memory_width =
          ceil_div sample_direct_wb.block_size sample_direct_wb.mem.memory_width) :=
  read_accounting sample_direct_wb sample_info 51 2 none
    (by unfold cache_params_ok blocks_sized Memory.wf; decide)
    (by decide) (by decide) (by decide) (fun x h => by cases h)

/-- C14 (address alignment).  For every block size in {16, 32, 64} and every
non-negative `int` address, the value `addr & -block_size` computed by the code
equals `addr & ~(block_size - 1)`, is a multiple of the block size, does not
exceed `addr`, lies less than one block below it, and is the largest multiple
of the block size that does not exceed `addr`. -/
theorem address_alignment (bs addr : Int) (hbs : is_correct_block_size bs = true)
    (h0 : 0 ≤ addr) (h1 : addr ≤ INT_MAX) :
    int_and addr (-bs) = int_and addr (int_not (bs - 1)) ∧
    bs ∣ int_and addr (-bs) ∧
    0 ≤ addr - int_and addr (-bs) ∧ addr - int_and addr (-bs) < bs ∧
    ∀ k : Int, k * bs ≤ addr → k * bs ≤ int_and addr (-bs) := by
  obtain ⟨e1, e2, e3, e4, e5, e6⟩ := aligned_offset addr bs hbs h0 h1
  have hpos := block_size_pos hbs
  have hnot : int_not (bs - 1) = -bs := by
    simp only [is_correct_block_size, Bool.or_eq_true, beq_iff_eq] at hbs
    rcases hbs with (rfl | rfl) | rfl <;> decide
  refine ⟨by rw [hnot], Int.dvd_of_emod_eq_zero e6, by omega, by omega, ?_⟩
  intro k hk
  rw [e1]
  have hq : k ≤ addr / bs := (Int.le_ediv_iff_mul_le hpos).mpr hk
  have hm : addr / bs * bs = addr - addr % bs := by
    have := Int.ediv_add_emod addr bs
    rw [mul_comm] at this
    omega
  rw [← hm]
  exact mul_le_mul_of_nonneg_right hq (le_of_lt hpos)

theorem address_alignment_witness :
    int_and 51 (-16) = int_and 51 (int_not (16 - 1)) ∧
    (16 : Int) ∣ int_and 51 (-16) ∧
    0 ≤ 51 - int_and 51 (-16) ∧ 51 - int_and 51 (-16) < 16 ∧
    ∀ k : Int, k * 16 ≤ 51 → k * 16 ≤ int_and 51 (-16) :=
  address_alignment 16 51 (by decide) (by decide) (by decide)

/-- C15 (direct-mapped lookup).  For a direct-mapped cache over any lower layer
with a positive block size and `block_count ≥ 1` blocks, and for every
non-negative address `a`: the index `(a / block_size) % block_count` lies in
`[0, block_count)`, `direct_cache_find` is defined and returns the block at
that index exactly when the tag stored there equals `a`, and the null pointer
otherwise; the answer depends on no other block, since every cache with the
same geometry and the same block at that index gives the same answer, and the
lookup returns no new state. -/
theorem direct_lookup {L : Type} (c : DirectCache L) (a : Int) (hbs : 0 < c.block_size)
    (hbc : 1 ≤ c.block_count) (hlen : (c.blocks.length : Int) = c.block_count)
    (ha : 0 ≤ a) :
    0 ≤ Int.tmod (Int.tdiv a c.block_size) c.block_count ∧
    Int.tmod (Int.tdiv a c.block_size) c.block_count < c.block_count ∧
    ∃ b, c.blocks[direct_index c.block_size c.block_count a]? = some b ∧
      direct_cache_find c a =
        some (if b.addr = a then some (direct_index c.block_size c.block_count a)
          else none) ∧
      ∀ c2 : DirectCache L, c2.block_size = c.block_size → c2.block_count = c.block_count →
        c2.blocks[direct_index c.block_size c.block_count a]? = some b →
        direct_cache_find c2 a = direct_cache_find c a := by
  obtain ⟨h1, h2, -⟩ := direct_index_lt c.block_size c.block_count a hbs (by omega) ha
  obtain ⟨b, hb, hfind⟩ := direct_cache_find_spec c a hbs (by omega) hlen ha
  refine ⟨h1, h2, b, hb, hfind, ?_⟩
  intro c2 e1 e2 hb2
  rw [hfind]
  unfold direct_cache_find
  rw [e1, e2, if_neg (by omega)]
  have hat : at_index c2.blocks (Int.tmod (Int.tdiv a c.block_size) c.block_count) = some b := by
    unfold at_index
    rw [if_neg (by omega)]
    exact hb2
  simp only [hat]
  by_cases h : b.addr = a
  · simp [h, direct_index]
  · simp [h]

theorem direct_lookup_witness :
    0 ≤ Int.tmod (Int.tdiv 16 sample_direct_wb.block_size) sample_direct_wb.block_count ∧
    Int.tmod (Int.tdiv 16 sample_direct_wb.block_size) sample_direct_wb.block_count <
      sample_direct_wb.block_count ∧
    ∃ b, sample_direct_wb.blocks[direct_index sample_direct_wb.block_size
        sample_direct_wb.block_count 16]? = some b ∧
      direct_cache_find sample_direct_wb 16 =
        some (if b.addr = 16 then some (direct_index sample_direct_wb.block_size
          sample_direct_wb.block_count 16) else none) ∧
      ∀ c2 : DirectCache Memory, c2.block_size = sample_direct_wb.block_size →
        c2.block_count = sample_direct_wb.block_count →
        c2.blocks[direct_index sample_direct_wb.block_size
          sample_direct_wb.block_count 16]? = some b →
        direct_cache_find c2 16 = direct_cache_find sample_direct_wb 16 :=
  direct_lookup sample_direct_wb 16 (by decide) (by decide) (by decide) (by decide)

set_option maxRecDepth 100000 in
/-- C16 as stated fails.  `slow_memory` is the memory that `memory_create`
builds from a configuration with `memory_read_time = memory_write_time =
2000000000` and `memory_width = 1`.  A read or a write of 2 cells on it with
the clock at 0 leaves the clock at -294967296: the product
`2 * 2000000000 = 4000000000` of the claim does not fit an `int`, and the
program adds its 32-bit reduction. -/
theorem memory_timing_counterexample :
    memory_create slow_memory_config none = some slow_memory ∧
    (0 : Int) ≤ 2 ∧ 1 ≤ slow_memory.memory_width ∧
    sample_info.clock_counter + ceil_div 2 slow_memory.memory_width *
      slow_memory.memory_read_time = 4000000000 ∧
    sample_info.clock_counter + ceil_div 2 slow_memory.memory_width *
      slow_memory.memory_write_time = 4000000000 ∧
    (memory_read slow_memory sample_info 0 2 none).map (fun r => r.2.1) =
      some { sample_info with clock_counter := -294967296 } ∧
    (memory_write slow_memory sample_info 0 2 sample_src).map (fun r => r.2) =
      some { sample_info with clock_counter := -294967296 } := by
  have hc : ceil_div 2 slow_memory.memory_width = 2 :=
    (tdiv_ceil 2 1 (by decide) (by decide)).symm
  refine ⟨(memory_create_some slow_memory_config none _).mpr
      ⟨by unfold memory_params_valid; decide, rfl⟩, by decide, by decide, ?_, ?_, ?_, ?_⟩
  · rw [hc]; decide
  · rw [hc]; decide
  · decide
  · decide

/-- C16 (amended: memory timing in `int` arithmetic).  For every `size ≥ 0` and
`memory_width ≥ 1`, whatever the address and the destination (null or not):
whenever `memory_read` is defined, the record it returns is the old one with
the clock replaced by the 32-bit reduction of
`clock + blocks_count * memory_read_time`, where `blocks_count` is
`(size + memory_width - 1) / memory_width` in `int` arithmetic, and no other
counter changed; `memory_read` is defined for a null destination and for every
destination of at least `size` cells at a non-negative address.  The same
holds of `memory_write` with `memory_write_time`, which is defined for every
source of at least `size` cells at a non-negative address.  Whenever
`size + memory_width - 1` fits an `int`, `blocks_count` is
`ceil(size / memory_width)`, and whenever moreover the clock increased by
`ceil(size / memory_width) * time` fits an `int`, this is the new clock: the
clock then grows by exactly `ceil(size / memory_width) * time`. -/
theorem memory_timing (m : Memory) (info : StatisticsInfo) (addr size : Int) (hs : 0 ≤ size)
    (hw : 1 ≤ m.memory_width) :
    (∀ dst r, memory_read m info addr size dst = some r →
      r.2.1 = { info with
        clock_counter := int_wrap (info.clock_counter +
          Int.tdiv (int_wrap (size + m.memory_width - 1)) m.memory_width *
            m.memory_read_time) }) ∧
    (∃ r, memory_read m info addr size none = some r) ∧
    (∀ d : List MemoryCell, (m.mem.length : Int) = m.memory_size → 0 ≤ addr →
      size ≤ d.length → ∃ r, memory_read m info addr size (some d) = some r) ∧
    (∀ src r, memory_write m info addr size src = some r →
      r.2 = { info with
        clock_counter := int_wrap (info.clock_counter +
          Int.tdiv (int_wrap (size + m.memory_width - 1)) m.memory_width *
            m.memory_write_time) }) ∧
    (∀ src : List MemoryCell, (m.mem.length : Int) = m.memory_size → 0 ≤ addr →
      size ≤ src.length → ∃ r, memory_write m info addr size src = some r) ∧
    (size + m.memory_width - 1 ≤ INT_MAX →
      Int.tdiv (int_wrap (size + m.memory_width - 1)) m.memory_width =
        ceil_div size m.memory_width ∧
      ∀ time : Int, in_int_range (info.clock_counter + ceil_div size m.memory_width * time) →
        int_wrap (info.clock_counter +
          Int.tdiv (int_wrap (size + m.memory_width - 1)) m.memory_width * time) =
          info.clock_counter + ceil_div size m.memory_width * time) := by
  have hw0 : m.memory_width ≠ 0 := by omega
  refine ⟨?_, ?_, ?_, ?_, ?_, ?_⟩
  · intro dst r h
    unfold memory_read blocks_count at h
    rw [if_neg hw0, statistics_add_counter_wrap] at h
    cases dst with
    | none =>
      simp only [Option.some.injEq] at h
      rw [← h]
      rfl
    | some d =>
      simp only at h
      split at h
      · cases h
      · simp only [Option.some.injEq] at h
        rw [← h]
        rfl
  · unfold memory_read
    rw [if_neg hw0]
    exact ⟨_, rfl⟩
  · intro d hlen ha hd
    obtain ⟨d', e, -⟩ := memory_read_spec m ⟨hlen, by omega⟩ info addr size d ha hs hd
    exact ⟨_, e⟩
  · intro src r h
    unfold memory_write blocks_count at h
    rw [if_neg hw0, statistics_add_counter_wrap] at h
    split at h
    · cases h
    · simp only [Option.some.injEq] at h
      rw [← h]
      rfl
  · intro src hlen ha hsrc
    obtain ⟨cells, e, -⟩ := memory_write_spec m ⟨hlen, by omega⟩ info addr size src ha hs hsrc
    exact ⟨_, e⟩
  · intro hsum
    have hc : Int.tdiv (int_wrap (size + m.memory_width - 1)) m.memory_width =
        ceil_div size m.memory_width :=
      blocks_count_ceil size m.memory_width hs (by omega) (by unfold INT_MAX at hsum; omega)
    exact ⟨hc, fun time ht => by rw [hc]; exact int_wrap_of_range _ ht⟩

theorem memory_timing_witness :
    (∀ dst r, memory_read sample_memory sample_info 30 6 dst = some r →
      r.2.1 = { sample_info with
        clock_counter := int_wrap (sample_info.clock_counter +
          Int.tdiv (int_wrap (6 + sample_memory.memory_width - 1))
            sample_memory.memory_width * sample_memory.memory_read_time) }) ∧
    (∃ r, memory_read sample_memory sample_info 30 6 none = some r) ∧
    (∀ d : List MemoryCell, (sample_memory.mem.length : Int) = sample_memory.memory_size →
      (0 : Int) ≤ 30 → (6 : Int) ≤ d.length →
      ∃ r, memory_read sample_memory sample_info 30 6 (some d) = some r) ∧
    (∀ src r, memory_write sample_memory sample_info 30 6 src = some r →
      r.2 = { sample_info with
        clock_counter := int_wrap (sample_info.clock_counter +
          Int.tdiv (int_wrap (6 + sample_memory.memory_width - 1))
            sample_memory.memory_width * sample_memory.memory_write_time) }) ∧
    (∀ src : List MemoryCell, (sample_memory.mem.length : Int) = sample_memory.memory_size →
      (0 : Int) ≤ 30 → (6 : Int) ≤ src.length →
      ∃ r, memory_write sample_memory sample_info 30 6 src = some r) ∧
    ((6 : Int) + sample_memory.memory_width - 1 ≤ INT_MAX →
      Int.tdiv (int_wrap (6 + sample_memory.memory_width - 1)) sample_memory.memory_width =
        ceil_div 6 sample_memory.memory_width ∧
      ∀ time : Int,
        in_int_range (sample_info.clock_counter + ceil_div 6 sample_memory.memory_width * time) →
        int_wrap (sample_info.clock_counter +
          Int.tdiv (int_wrap (6 + sample_memory.memory_width - 1))
            sample_memory.memory_width * time) =
          sample_info.clock_counter + ceil_div 6 sample_memory.memory_width * time) :=
  memory_timing sample_memory sample_info 30 6 (by decide) (by decide)

/-- C17 (memory truncation).  For a memory of `memory_size` cells, every
address `addr ≥ 0`, every `size ≥ 0` and every source of at least `size` cells,
`memory_write` and `memory_reveal` are both defined and produce the same cell
array: cell `j` holds `src[j - addr]` exactly when `addr ≤ j < addr + size` and
`j < memory_size`, and every other cell is unchanged, so that an access
starting at or beyond `memory_size` changes no cell.  Likewise `memory_read`
into a destination of at least `size` cells is defined, leaves the memory
unchanged, copies cell `addr + j` to position `j` exactly when `j < size` and
`addr + j < memory_size`, and leaves the rest of the destination unchanged. -/
theorem memory_truncation (m : Memory) (info : StatisticsInfo) (addr size : Int)
    (src d : List MemoryCell) (hwf : m.wf) (ha : 0 ≤ addr) (hs : 0 ≤ size)
    (hsrc : size ≤ src.length) (hd : size ≤ d.length) :
    ∃ cells d',
      (∃ info', memory_write m info addr size src = some ({ m with mem := cells }, info')) ∧
      memory_reveal m info addr size src = some ({ m with mem := cells }, info) ∧
      cells.length = m.mem.length ∧
      (∀ j : Nat, cells[j]? =
        if addr ≤ j ∧ (j : Int) < addr + size ∧ (j : Int) < m.memory_size
        then src[((j : Int) - addr).toNat]? else m.mem[j]?) ∧
      (m.memory_size ≤ addr → cells = m.mem) ∧
      (∃ info', memory_read m info addr size (some d) = some (m, info', some d')) ∧
      d'.length = d.length ∧
      ∀ j : Nat, d'[j]? =
        if (j : Int) < size ∧ addr + j < m.memory_size
        then m.mem[(addr + j).toNat]? else d[j]? := by
  obtain ⟨cells, e, hlen, hpt⟩ := memory_store_loop_spec m.memory_size src m.mem addr size ha hs
    hsrc (by rw [hwf.1])
  obtain ⟨d', e', hload⟩ := memory_read_spec m hwf info addr size d ha hs hd
  refine ⟨cells, d', ?_, ?_, hlen, hpt, ?_, ⟨_, e'⟩, hload.1, hload.2⟩
  · unfold memory_write
    rw [if_neg (by have := hwf.2; omega)]
    simp only [e]
    exact ⟨_, rfl⟩
  · unfold memory_reveal
    simp only [e]
  · intro hbeyond
    apply List.ext_getElem?
    intro j
    rw [hpt j]
    split
    · rename_i h
      omega
    · rfl

theorem memory_truncation_witness :
    ∃ cells d',
      (∃ info', memory_write sample_memory sample_info 31 2 sample_src =
        some ({ sample_memory with mem := cells }, info')) ∧
      memory_reveal sample_memory sample_info 31 2 sample_src =
        some ({ sample_memory with mem := cells }, sample_info) ∧
      cells.length = sample_memory.mem.length ∧
      (∀ j : Nat, cells[j]? =
        if (31 : Int) ≤ j ∧ (j : Int) < 31 + 2 ∧ (j : Int) < sample_memory.memory_size
        then sample_src[((j : Int) - 31).toNat]? else sample_memory.mem[j]?) ∧
      (sample_memory.memory_size ≤ 31 → cells = sample_memory.mem) ∧
      (∃ info', memory_read sample_memory sample_info 31 2 (some sample_src) =
        some (sample_memory, info', some d')) ∧
      d'.length = sample_src.length ∧
      ∀ j : Nat, d'[j]? =
        if (j : Int) < 2 ∧ (31 : Int) + j < sample_memory.memory_size
        then sample_memory.mem[((31 : Int) + j).toNat]? else sample_src[j]? :=
  memory_truncation sample_memory sample_info 31 2 sample_src sample_src
    (by unfold Memory.wf; decide) (by decide) (by decide) (by decide) (by decide)

/-- C18 as stated fails: on a freshly constructed write-through direct-mapped
cache with `block_size = 16` and `cache_size = 32`, after the write to address
0 and the write to address 16 the block of address 0 is not resident, and the
read of address 0 leaves the hit counter at the value it had before the read
(here 0): the read is a miss. -/
theorem write_write_read_counterexample :
    (run_ops (direct_cache_ops memory_ops) sample_two_writes
      (direct_cache_alloc WriteStrategy.write_through 16 32 1 2 sample_memory,
        sample_info)).bind
      (fun st => (direct_cache_read memory_ops st.1 st.2 0 1 none).map
        (fun r => (direct_cache_find st.1 0, st.2.hit_counter, r.2.1.hit_counter))) =
      some (some none, 0, 0) := by
  decide

/-- C18 (amended).  On a freshly constructed write-through direct-mapped cache
with `block_size = 16` and `cache_size = 32` over a memory, after a write to
address 0 and a write to address 16 (each of at most 16 cells) no block has
been placed, so that a read of address 0 is a miss: it is defined, leaves the
hit counter unchanged and places the block; a second read of address 0 right
after it is a hit and adds 1 to the hit counter. -/
theorem write_write_read (m : Memory) (rt wt : Int) (info : StatisticsInfo) (s1 s2 size : Int)
    (src1 src2 : List MemoryCell) (hwf : m.wf) (hmax : m.memory_size ≤ MAX_MEM_SIZE)
    (h1 : 0 ≤ s1 ∧ s1 ≤ 16 ∧ s1 ≤ src1.length) (h2 : 0 ≤ s2 ∧ s2 ≤ 16 ∧ s2 ≤ src2.length) :
    ∃ c2 info2 c3 info3,
      run_ops (direct_cache_ops memory_ops) [MemOp.write 0 s1 src1, MemOp.write 16 s2 src2]
        (direct_cache_alloc WriteStrategy.write_through 16 32 rt wt m, info) =
          some (c2, info2) ∧
      direct_cache_find c2 0 = some none ∧
      info2.hit_counter = info.hit_counter ∧
      direct_cache_read memory_ops c2 info2 0 size none = some (c3, info3, none) ∧
      info3.hit_counter = info2.hit_counter ∧
      direct_cache_find c3 0 = some (some 0) ∧
      ∃ info4, direct_cache_read memory_ops c3 info3 0 size none = some (c3, info4, none) ∧
        info4.hit_counter = info3.hit_counter + 1 := by
  have hp0 : cache_params_ok 16 2 (List.replicate 2 (free_block 16)) m :=
    (fresh_blocks_inv 16 32 m (by decide) (by decide) (by decide) hwf hmax).1.1
  have hfree : ∀ b ∈ List.replicate 2 (free_block 16), b.addr = NO_BLOCK := by
    intro b hb
    rw [List.eq_of_mem_replicate hb]
    rfl
  have k0 : (0 : Int) ≤ 0 := le_refl 0
  have k16 : (0 : Int) ≤ 16 := by decide
  have kmax0 : (0 : Int) ≤ INT_MAX := by decide
  have kmax16 : (16 : Int) ≤ INT_MAX := by decide
  obtain ⟨c1, info1, ea1, hws1, hbl1, hbs1, hbc1, hp1, hh1⟩ := direct_wt_write_fresh
    (direct_cache_alloc WriteStrategy.write_through 16 32 rt wt m) info 0 s1 src1 rfl hp0 hfree
    k0 kmax0 h1.1 h1.2.2 (by
      show (0 : Int) % 16 + s1 ≤ 16
      omega)
  have hbs1' : c1.block_size = 16 := hbs1
  have hbc1' : c1.block_count = 2 := hbc1
  have hbl1' : c1.blocks = List.replicate 2 (free_block 16) := hbl1
  obtain ⟨c2, info2, ea2, hws2, hbl2, hbs2, hbc2, hp2, hh2⟩ := direct_wt_write_fresh
    c1 info1 16 s2 src2 hws1 hp1 (by rw [hbl1']; exact hfree)
    k16 kmax16 h2.1 h2.2.2 (by
      rw [hbs1']
      omega)
  have hbs2' : c2.block_size = 16 := hbs2.trans hbs1'
  have hbc2' : c2.block_count = 2 := hbc2.trans hbc1'
  have hbl2' : c2.blocks = List.replicate 2 (free_block 16) := hbl2.trans hbl1'
  have hfree2 : ∀ b ∈ c2.blocks, b.addr = NO_BLOCK := by rw [hbl2']; exact hfree
  have hfind2 : ∀ a : Int, 0 ≤ a → direct_cache_find c2 a = some none := fun a ha =>
    direct_find_fresh c2 a (by rw [hbs2']; decide) (by rw [hbc2']; decide) hp2.2.2.1 ha hfree2
  obtain ⟨r3, hf3, -, hmiss⟩ := direct_read_spec c2 info2 0 size none hp2
    (fun b hb hnb => absurd (hfree2 b hb) hnb) k0 kmax0 (fun x h => by cases h)
  have hr3 : r3 = none := Option.some.inj (hf3.symm.trans (hfind2 _ (by rw [hbs2']; decide)))
  obtain ⟨blocks3, cells3, info3, dst', hplace, hplaced, e3⟩ := hmiss hr3
  obtain ⟨i, -, -, hfind3, hcopy⟩ := direct_read_inv e3
  have hdst : dst' = none := by
    rcases hcopy with ⟨-, h⟩ | ⟨d, b, d', h, -⟩
    · exact h
    · cases h
  subst hdst
  have hfind3' := (direct_place_then_find hplace).2.2
  have hidx : direct_index c2.block_size c2.block_count (0 - 0 % c2.block_size) = 0 := by
    rw [hbs2', hbc2']
    decide
  have ha0 : (0 : Int) - 0 % c2.block_size = 0 := by
    rw [hbs2']
    decide
  rw [hidx, ha0] at hfind3'
  have hinfo3 : info3.hit_counter = info2.hit_counter := by
    obtain ⟨b, d', -, hcase, -, -⟩ := hplaced
    rw [if_neg (by
      rintro ⟨h, -⟩
      rw [hws2, hws1] at h
      cases h)] at hcase
    rw [hcase.2]
    rfl
  exact ⟨c2, info2, _, info3, run_ops_two _ _ _ _ _ _ ea1 ea2, hfind2 0 k0, hh2.trans hh1, e3,
    hinfo3, hfind3', _, direct_read_again memory_ops _ info3 0 size none none i hfind3
      (Or.inl ⟨rfl, rfl⟩), rfl⟩

theorem write_write_read_witness :
    ∃ c2 info2 c3 info3,
      run_ops (direct_cache_ops memory_ops)
        [MemOp.write 0 1 [⟨1, 1⟩], MemOp.write 16 1 [⟨2, 1⟩]]
        (direct_cache_alloc WriteStrategy.write_through 16 32 1 2 sample_memory,
          sample_info) = some (c2, info2) ∧
      direct_cache_find c2 0 = some none ∧
      info2.hit_counter = sample_info.hit_counter ∧
      direct_cache_read memory_ops c2 info2 0 1 none = some (c3, info3, none) ∧
      info3.hit_counter = info2.hit_counter ∧
      direct_cache_find c3 0 = some (some 0) ∧
      ∃ info4, direct_cache_read memory_ops c3 info3 0 1 none = some (c3, info4, none) ∧
        info4.hit_counter = info3.hit_counter + 1 :=
  write_write_read sample_memory 1 2 sample_info 1 1 1 [⟨1, 1⟩] [⟨2, 1⟩]
    (by unfold Memory.wf; decide) (by decide) (by decide) (by decide)

/-- C20 (cache construction validation).  `direct_cache_create` yields a cache
exactly when the write strategy is `write-through` or `write-back`, the block
size is 16, 32 or 64, the cache size is positive, at most 16 MiB and an exact
multiple of the block size, and both times lie in `[1, 100000]`;
`full_cache_create` requires in addition that the replacement strategy is
`random`; otherwise they yield no layer.  A block size of 17 is rejected
whatever the other parameters are.  On success the cache holds the configured
write strategy, block size, cache size and times over the given lower layer
(and, fully-associative, the given generator), the block count is the
configured `cache_size / block_size`, there are that many blocks, and every
block is free, not dirty and has `block_size` zeroed cells. -/
theorem cache_create_validation {L : Type} (cfg : ConfigFile) (var_pfx : Option String)
    (info : StatisticsInfo) (mem : L) (rnd : Random) :
    ((direct_cache_create cfg var_pfx info mem).1.isSome = true ↔
      write_strategy_valid cfg var_pfx ∧ cache_params_valid cfg var_pfx) ∧
    ((full_cache_create cfg var_pfx info mem rnd).1.isSome = true ↔
      write_strategy_valid cfg var_pfx ∧
      config_file_get cfg (make_param_name PARAM_BUF_SIZE var_pfx "replacement_strategy") =
        some "random" ∧
      cache_params_valid cfg var_pfx) ∧
    ((config_file_get_int cfg (make_param_name PARAM_BUF_SIZE var_pfx "block_size") 0).2 = 17 →
      (direct_cache_create cfg var_pfx info mem).1 = none ∧
      (full_cache_create cfg var_pfx info mem rnd).1 = none) ∧
    (∀ c, (direct_cache_create cfg var_pfx info mem).1 = some c →
      created_from cfg var_pfx c.write_strategy c.block_size c.cache_size c.block_count
        c.cache_read_time c.cache_write_time c.blocks ∧
      c.mem = mem ∧ 0 < c.block_count ∧ c.block_count = c.cache_size / c.block_size) ∧
    (∀ c, (full_cache_create cfg var_pfx info mem rnd).1 = some c →
      created_from cfg var_pfx c.write_strategy c.block_size c.cache_size c.block_count
        c.cache_read_time c.cache_write_time c.blocks ∧
      c.mem = mem ∧ c.rnd = rnd ∧ 0 < c.block_count ∧
      c.block_count = c.cache_size / c.block_size) := by
  have hws := create_write_strategy_some cfg var_pfx info
  have hd : (direct_cache_create cfg var_pfx info mem).1.isSome = true ↔
      write_strategy_valid cfg var_pfx ∧ cache_params_valid cfg var_pfx := by
    unfold direct_cache_create
    cases h1 : create_write_strategy cfg var_pfx info with
    | none =>
      rw [h1] at hws
      simp only [Option.isSome_none, Bool.false_eq_true, false_iff] at hws ⊢
      exact fun h => hws h.1
    | some w =>
      rw [h1] at hws
      have hv := hws.mp rfl
      cases h2 : create_cache_params cfg var_pfx with
      | none =>
        simp only [Option.isSome_none, Bool.false_eq_true, false_iff]
        rintro ⟨-, hp⟩
        have := (create_cache_params_some cfg var_pfx _).mpr ⟨hp, rfl⟩
        rw [h2] at this
        cases this
      | some p =>
        simp only [Option.isSome_some, true_iff]
        exact ⟨hv, ((create_cache_params_some cfg var_pfx p).mp h2).1⟩
  have hf : (full_cache_create cfg var_pfx info mem rnd).1.isSome = true ↔
      write_strategy_valid cfg var_pfx ∧
      config_file_get cfg (make_param_name PARAM_BUF_SIZE var_pfx "replacement_strategy") =
        some "random" ∧
      cache_params_valid cfg var_pfx := by
    unfold full_cache_create
    cases h1 : create_write_strategy cfg var_pfx info with
    | none =>
      rw [h1] at hws
      simp only [Option.isSome_none, Bool.false_eq_true, false_iff] at hws ⊢
      exact fun h => hws h.1
    | some w =>
      rw [h1] at hws
      have hv := hws.mp rfl
      cases h3 : config_file_get cfg
          (make_param_name PARAM_BUF_SIZE var_pfx "replacement_strategy") with
      | none => simp
      | some s =>
        simp only []
        by_cases hs : s = "random"
        · rw [if_pos hs]
          cases h2 : create_cache_params cfg var_pfx with
          | none =>
            simp only [Option.isSome_none, Bool.false_eq_true, false_iff]
            rintro ⟨-, -, hp⟩
            have := (create_cache_params_some cfg var_pfx _).mpr ⟨hp, rfl⟩
            rw [h2] at this
            cases this
          | some p =>
            simp only [Option.isSome_some, true_iff]
            exact ⟨hv, by rw [hs], ((create_cache_params_some cfg var_pfx p).mp h2).1⟩
        · rw [if_neg hs]
          simp only [Option.isSome_none, Bool.false_eq_true, false_iff]
          rintro ⟨-, h, -⟩
          exact hs (Option.some.inj h)
  have hblocks : ∀ (bs cs : Int), (bs = 16 ∨ bs = 32 ∨ bs = 64) → 0 < cs → cs % bs = 0 →
      Int.tdiv cs bs = cs / bs ∧ 0 < Int.tdiv cs bs ∧
      ((List.replicate (Int.tdiv cs bs).toNat (free_block bs)).length : Int) =
        Int.tdiv cs bs ∧
      ∀ b ∈ List.replicate (Int.tdiv cs bs).toNat (free_block bs),
        b.addr = NO_BLOCK ∧ b.dirty = 0 ∧ (b.mem.length : Int) = bs ∧
          ∀ cell ∈ b.mem, cell = ⟨0, 0⟩ := by
    intro bs cs hbs hcs hmod
    have hpos : 0 < bs := by omega
    obtain ⟨hq, hcast⟩ := alloc_block_count bs cs hpos hcs (by
      rw [Int.tmod_eq_emod (le_of_lt hcs) (le_of_lt hpos)]
      exact hmod)
    refine ⟨Int.tdiv_eq_ediv (le_of_lt hcs) (le_of_lt hpos), hq, ?_, ?_⟩
    · rw [List.length_replicate]
      exact hcast
    · intro b hb
      rw [List.eq_of_mem_replicate hb]
      refine ⟨rfl, rfl, ?_, ?_⟩
      · show ((List.replicate bs.toNat (⟨0, 0⟩ : MemoryCell)).length : Int) = bs
        rw [List.length_replicate]
        omega
      · intro cell hcell
        exact List.eq_of_mem_replicate hcell
  have hstrategy : ∀ w, create_write_strategy cfg var_pfx info = some w →
      (config_file_get cfg (make_param_name PARAM_BUF_SIZE var_pfx "write_strategy") =
        some "write-through" → w.1 = WriteStrategy.write_through) ∧
      (config_file_get cfg (make_param_name PARAM_BUF_SIZE var_pfx "write_strategy") =
        some "write-back" → w.1 = WriteStrategy.write_back) := by
    intro w hw
    unfold create_write_strategy at hw
    constructor
    · intro hcfg
      rw [hcfg] at hw
      simp only [if_true] at hw
      rw [← Option.some.inj hw]
    · intro hcfg
      rw [hcfg] at hw
      simp only [if_true] at hw
      rw [← Option.some.inj hw]
  refine ⟨hd, hf, ?_, ?_, ?_⟩
  · intro h17
    have hnv : ¬ cache_params_valid cfg var_pfx := by
      rintro ⟨-, hb, -⟩
      omega
    constructor
    · cases h : (direct_cache_create cfg var_pfx info mem).1 with
      | none => rfl
      | some c => exact absurd (hd.mp (by rw [h]; rfl)).2 hnv
    · cases h : (full_cache_create cfg var_pfx info mem rnd).1 with
      | none => rfl
      | some c => exact absurd (hf.mp (by rw [h]; rfl)).2.2 hnv
  · intro c hc
    unfold direct_cache_create at hc
    cases h1 : create_write_strategy cfg var_pfx info with
    | none => rw [h1] at hc; cases hc
    | some w =>
      cases h2 : create_cache_params cfg var_pfx with
      | none => rw [h1, h2] at hc; cases hc
      | some p =>
        rw [h1, h2] at hc
        obtain ⟨hv, hp⟩ := (create_cache_params_some cfg var_pfx p).mp h2
        obtain ⟨-, hb, -, hcs, -, hm, -⟩ := hv
        subst hp
        simp only [Option.some.injEq] at hc
        subst hc
        obtain ⟨q1, q2, q3, q4⟩ := hblocks _ _ hb hcs hm
        obtain ⟨s1, s2⟩ := hstrategy w h1
        exact ⟨⟨s1, s2, rfl, rfl, rfl, rfl, q1, q3, q4⟩, rfl, q2, q1⟩
  · intro c hc
    unfold full_cache_create at hc
    cases h1 : create_write_strategy cfg var_pfx info with
    | none => rw [h1] at hc; cases hc
    | some w =>
      cases h3 : config_file_get cfg
          (make_param_name PARAM_BUF_SIZE var_pfx "replacement_strategy") with
      | none => rw [h1, h3] at hc; cases hc
      | some s =>
        rw [h1, h3] at hc
        simp only [] at hc
        by_cases hs : s = "random"
        · rw [if_pos hs] at hc
          cases h2 : create_cache_params cfg var_pfx with
          | none => rw [h2] at hc; cases hc
          | some p =>
            rw [h2] at hc
            obtain ⟨hv, hp⟩ := (create_cache_params_some cfg var_pfx p).mp h2
            obtain ⟨-, hb, -, hcs, -, hm, -⟩ := hv
            subst hp
            simp only [Option.some.injEq] at hc
            subst hc
            obtain ⟨q1, q2, q3, q4⟩ := hblocks _ _ hb hcs hm
            obtain ⟨s1, s2⟩ := hstrategy w h1
            exact ⟨⟨s1, s2, rfl, rfl, rfl, rfl, q1, q3, q4⟩, rfl, rfl, q2, q1⟩
        · rw [if_neg hs] at hc
          cases hc

theorem cache_create_validation_witness :
    (write_strategy_valid sample_config none ∧ cache_params_valid sample_config none) ∧
    ∃ c : DirectCache Memory,
      (direct_cache_create sample_config none sample_info sample_memory).1 = some c ∧
      created_from sample_config none c.write_strategy c.block_size c.cache_size c.block_count
        c.cache_read_time c.cache_write_time c.blocks ∧
      c.mem = sample_memory ∧ 0 < c.block_count ∧
      c.block_count = c.cache_size / c.block_size ∧
      c.write_strategy = WriteStrategy.write_back ∧ c.block_size = 16 ∧ c.cache_size = 32 ∧
      c.block_count = 2 ∧ c.cache_read_time = 1 ∧ c.cache_write_time = 2 ∧
      c.blocks = [⟨-1, List.replicate 16 ⟨0, 0⟩, 0⟩, ⟨-1, List.replicate 16 ⟨0, 0⟩, 0⟩] := by
  refine ⟨(cache_create_validation sample_config none sample_info sample_memory
    sample_random).1.mp (by decide), ?_⟩
  cases h : (direct_cache_create sample_config none sample_info sample_memory).1 with
  | none =>
    have hs : (direct_cache_create sample_config none sample_info sample_memory).1.isSome =
        true := by decide
    rw [h] at hs
    cases hs
  | some c =>
    obtain ⟨hc, hm, hpos, hq⟩ := (cache_create_validation sample_config none sample_info
      sample_memory sample_random).2.2.2.1 c h
    have hval : (direct_cache_create sample_config none sample_info sample_memory).1 =
        some ⟨WriteStrategy.write_back,
          [⟨-1, List.replicate 16 ⟨0, 0⟩, 0⟩, ⟨-1, List.replicate 16 ⟨0, 0⟩, 0⟩],
          sample_memory, 32, 16, 2, 1, 2⟩ := by decide
    rw [h] at hval
    cases hval
    exact ⟨_, rfl, hc, hm, hpos, hq, rfl, rfl, rfl, rfl, rfl, rfl, rfl⟩

set_option maxRecDepth 20000 in
/-- C19 as stated fails: with the memory built from `memory_size = 1024`,
`memory_read_time = 1`, `memory_write_time = 1`, `memory_width = 1` and no
cache, replaying the lines `W D 0 1 FF` and `R D 0 1` does not succeed.  The
parser rejects the first line (`%c%c` reads `W` and the blank, `%x` reads `D`
as the address, and the size character is `0`), the replay ends with
`EXIT_FAILURE`, no write and no read have been counted, and cell 0 of the
backing store is still unknown. -/
theorem end_to_end_memory_counterexample :
    (trace_step_parse sample_step "W D 0 1 FF".toList).map (fun r => r.1) = some (-1) ∧
    (memory_create memory_config none).bind
      (fun m => (replay_trace memory_ops 3 ⟨spec_trace_lines, 0, sample_step⟩
        (m, sample_info)).map
        (fun r => (r.1, r.2.2.write_counter, r.2.2.read_counter, r.2.1.mem[0]?))) =
      some (EXIT_FAILURE, 0, 0, some ⟨0, 0⟩) := by
  decide

set_option maxRecDepth 20000 in
/-- C19 (amended).  With the memory built from `memory_size = 1024`,
`memory_read_time = 1`, `memory_write_time = 1`, `memory_width = 1` and no
cache, replaying the trace lines `WD 0 1 255` then `RD 0 1 255` (the format
the parser reads, 255 being `0xFF`) succeeds with exit code 0 and yields a
write counter of 1, a read counter of 1 and a known cell of value `0xFF` at
address 0 of the backing store. -/
theorem end_to_end_memory :
    (memory_create memory_config none).bind
      (fun m => (replay_trace memory_ops 3 ⟨code_trace_lines, 0, sample_step⟩
        (m, sample_info)).map
        (fun r => (r.1, r.2.2.write_counter, r.2.2.read_counter, r.2.1.mem[0]?))) =
      some (0, 1, 1, some ⟨255, 1⟩) := by
  decide

/-- C21 (memory construction validation).  `memory_create` yields no layer
whenever `memory_size` is missing or not a valid integer, non-positive,
greater than 1 GiB or not a multiple of 1024, or `memory_read_time` or
`memory_write_time` is missing, invalid or non-positive, or `memory_width` is
missing, invalid or non-positive; and when `memory_size` is a positive
multiple of 1024 not above 1 GiB, the times are positive and the width is
positive and not above 1 GiB, it yields a memory with these parameters and
`memory_size` cells, all of them unknown. -/
theorem memory_create_validation (cfg : ConfigFile) (var_pfx : Option String) :
    (((read_param cfg var_pfx "memory_size").1 ≠ 1 ∨
      (read_param cfg var_pfx "memory_size").2 ≤ 0 ∨
      (read_param cfg var_pfx "memory_size").2 > 1024 * 1024 * 1024 ∨
      (read_param cfg var_pfx "memory_size").2 % 1024 ≠ 0 ∨
      (read_param cfg var_pfx "memory_read_time").1 ≠ 1 ∨
      (read_param cfg var_pfx "memory_read_time").2 ≤ 0 ∨
      (read_param cfg var_pfx "memory_write_time").1 ≠ 1 ∨
      (read_param cfg var_pfx "memory_write_time").2 ≤ 0 ∨
      (read_param cfg var_pfx "memory_width").1 ≠ 1 ∨
      (read_param cfg var_pfx "memory_width").2 ≤ 0) →
      memory_create cfg var_pfx = none) ∧
    (memory_params_valid cfg var_pfx (1024 * 1024 * 1024) →
      ∃ m, memory_create cfg var_pfx = some m ∧
        m.memory_size = (read_param cfg var_pfx "memory_size").2 ∧
        (m.mem.length : Int) = m.memory_size ∧
        (∀ cell ∈ m.mem, cell.flags = 0) ∧
        m.memory_read_time = (read_param cfg var_pfx "memory_read_time").2 ∧
        m.memory_write_time = (read_param cfg var_pfx "memory_write_time").2 ∧
        m.memory_width = (read_param cfg var_pfx "memory_width").2) := by
  have hmax : MAX_MEM_SIZE = 1024 * 1024 * 1024 := by decide
  constructor
  · intro hbad
    cases h : memory_create cfg var_pfx with
    | none => rfl
    | some m =>
      obtain ⟨hv, -⟩ := (memory_create_some cfg var_pfx m).mp h
      unfold memory_params_valid at hv
      unfold read_param at hbad
      simp only [] at hv
      omega
  · intro hv
    rw [← hmax] at hv
    refine ⟨_, (memory_create_some cfg var_pfx _).mpr ⟨hv, rfl⟩, rfl, ?_, ?_, rfl, rfl, rfl⟩
    · show ((List.replicate _ _).length : Int) =
        (config_file_get_int cfg (make_param_name PARAM_BUF_SIZE var_pfx "memory_size") 0).2
      rw [List.length_replicate]
      have := hv.2.1
      simp only [] at this
      omega
    · intro cell hc
      rw [List.eq_of_mem_replicate hc]

set_option maxRecDepth 20000 in
theorem memory_create_validation_witness :
    ∃ m, memory_create memory_config none = some m ∧
      m.memory_size = (read_param memory_config none "memory_size").2 ∧
      (m.mem.length : Int) = m.memory_size ∧
      (∀ cell ∈ m.mem, cell.flags = 0) ∧
      m.memory_read_time = (read_param memory_config none "memory_read_time").2 ∧
      m.memory_write_time = (read_param memory_config none "memory_write_time").2 ∧
      m.memory_width = (read_param memory_config none "memory_width").2 :=
  (memory_create_validation memory_config none).2 (by unfold memory_params_valid; decide)

/-- C30: the code accepts a `memory_width` above `MAX_WIDTH`.  `memory_create`
compares the width with `MAX_MEM_SIZE`, so that every configuration that is
otherwise valid is accepted with any width in `[1, 1 GiB]`; with
`memory_width = 2048`, which exceeds `MAX_WIDTH = 1024`, it builds a memory of
that width. -/
theorem memory_width_accepted :
    (∀ (cfg : ConfigFile) (var_pfx : Option String), memory_params_valid cfg var_pfx MAX_MEM_SIZE →
      ∃ m, memory_create cfg var_pfx = some m ∧
        m.memory_width = (read_param cfg var_pfx "memory_width").2) ∧
    MAX_WIDTH < 2048 ∧
    (memory_create wide_memory_config none).map (fun m => m.memory_width) = some 2048 := by
  refine ⟨fun cfg var_pfx hv =>
    ⟨_, (memory_create_some cfg var_pfx _).mpr ⟨hv, rfl⟩, rfl⟩, by decide, ?_⟩
  obtain ⟨m, hm, hw⟩ : ∃ m, memory_create wide_memory_config none = some m ∧
      m.memory_width = 2048 :=
    ⟨_, (memory_create_some wide_memory_config none _).mpr
      ⟨by unfold memory_params_valid; decide, rfl⟩, by decide⟩
  rw [hm]
  simp only [Option.map_some', hw]

/-- C22 (dispatcher step).  For every layer and every trace step: an `R` step
adds exactly 1 to the read counter, then calls `read(addr, size, NULL)` on the
top layer and then `reveal(addr, size, value)` on the state that the read
returns; a `W` step adds exactly 1 to the write counter and then calls
`write(addr, size, value)`, and no reveal; a step with any other operation
returns the state unchanged.  Hence, over a layer whose operations leave the
two counters alone, which the memory and both caches over such a layer do,
replaying the steps of a trace adds to the read counter the number of `R`
steps and to the write counter the number of `W` steps, so that their sum
grows by the number of `R` and `W` steps. -/
theorem dispatcher_step {L : Type} (ops : AbstractMemoryOps L) :
    (∀ (ts : TraceStep) (l : L) (info : StatisticsInfo), ts.op = 'R' →
      operation_on_memory ops ts (l, info) =
        (ops.read l { info with read_counter := info.read_counter + 1 } ts.addr ts.size
          none).bind (fun r => ops.reveal r.1 r.2.1 ts.addr ts.size ts.value)) ∧
    (∀ (ts : TraceStep) (l : L) (info : StatisticsInfo), ts.op = 'W' →
      operation_on_memory ops ts (l, info) =
        ops.write l { info with write_counter := info.write_counter + 1 } ts.addr ts.size
          ts.value) ∧
    (∀ (ts : TraceStep) (st : L × StatisticsInfo), ts.op ≠ 'R' → ts.op ≠ 'W' →
      operation_on_memory ops ts st = some st) ∧
    (keeps_access_counters ops →
      ∀ (steps : List TraceStep) (st st' : L × StatisticsInfo),
        run_steps ops steps st = some st' →
        st'.2.read_counter = st.2.read_counter + count_op 'R' steps ∧
        st'.2.write_counter = st.2.write_counter + count_op 'W' steps ∧
        st'.2.read_counter + st'.2.write_counter =
          st.2.read_counter + st.2.write_counter +
            (count_op 'R' steps + count_op 'W' steps : Nat)) ∧
    keeps_access_counters memory_ops ∧
    (keeps_access_counters ops → keeps_access_counters (direct_cache_ops ops) ∧
      keeps_access_counters (full_cache_ops ops)) := by
  have hR : ∀ (ts : TraceStep) (l : L) (info : StatisticsInfo), ts.op = 'R' →
      operation_on_memory ops ts (l, info) =
        (ops.read l { info with read_counter := info.read_counter + 1 } ts.addr ts.size
          none).bind (fun r => ops.reveal r.1 r.2.1 ts.addr ts.size ts.value) := by
    intro ts l info h
    unfold operation_on_memory
    rw [if_pos h]
    show (match ops.read l (statistics_add_read info) ts.addr ts.size none with
      | none => none
      | some r => ops.reveal r.1 r.2.1 ts.addr ts.size ts.value) =
      (ops.read l (statistics_add_read info) ts.addr ts.size none).bind
        (fun r => ops.reveal r.1 r.2.1 ts.addr ts.size ts.value)
    generalize ops.read l (statistics_add_read info) ts.addr ts.size none = x
    cases x <;> rfl
  have hW : ∀ (ts : TraceStep) (l : L) (info : StatisticsInfo), ts.op = 'W' →
      operation_on_memory ops ts (l, info) =
        ops.write l { info with write_counter := info.write_counter + 1 } ts.addr ts.size
          ts.value := by
    intro ts l info h
    unfold operation_on_memory
    have hne : ts.op ≠ 'R' := by
      rw [h]
      decide
    rw [if_neg hne, if_pos h]
    rfl
  have hX : ∀ (ts : TraceStep) (st : L × StatisticsInfo), ts.op ≠ 'R' → ts.op ≠ 'W' →
      operation_on_memory ops ts st = some st := by
    intro ts st h1 h2
    unfold operation_on_memory
    rw [if_neg h1, if_neg h2]
  refine ⟨hR, hW, hX, ?_, memory_keeps_access,
    fun hk => ⟨direct_keeps_access ops hk, full_keeps_access ops hk⟩⟩
  intro hk steps
  have hcount : ∀ (steps : List TraceStep) (st st' : L × StatisticsInfo),
      run_steps ops steps st = some st' →
      st'.2.read_counter = st.2.read_counter + count_op 'R' steps ∧
      st'.2.write_counter = st.2.write_counter + count_op 'W' steps := by
    intro steps
    induction steps with
    | nil =>
      intro st st' h
      cases h
      simp [count_op]
    | cons ts rest ih =>
      intro st st' h
      unfold run_steps at h
      split at h
      · cases h
      · rename_i st1 hop
        obtain ⟨e1, e2⟩ := ih st1 st' h
        obtain ⟨l, info⟩ := st
        by_cases hr : ts.op = 'R'
        · rw [hR ts l info hr] at hop
          cases hread : ops.read l { info with read_counter := info.read_counter + 1 }
              ts.addr ts.size none with
          | none => rw [hread] at hop; cases hop
          | some r =>
            rw [hread] at hop
            have a1 := hk.1 _ _ _ _ _ _ hread
            have a2 := hk.2.2.1 _ _ _ _ _ _ hop
            have hne : ¬ ts.op = 'W' := by
              rw [hr]
              decide
            have c1 : count_op 'R' (ts :: rest) = count_op 'R' rest + 1 := by
              simp [count_op, hr]
            have c2 : count_op 'W' (ts :: rest) = count_op 'W' rest := by
              simp [count_op, hne]
            rw [e1, e2, c1, c2, a2.1, a2.2, a1.1, a1.2]
            push_cast
            constructor
            · show info.read_counter + 1 + _ = info.read_counter + _
              ring
            · rfl
        · by_cases hw : ts.op = 'W'
          · rw [hW ts l info hw] at hop
            have a1 := hk.2.1 _ _ _ _ _ _ hop
            have c1 : count_op 'R' (ts :: rest) = count_op 'R' rest := by
              simp [count_op, hr]
            have c2 : count_op 'W' (ts :: rest) = count_op 'W' rest + 1 := by
              simp [count_op, hw]
            rw [e1, e2, c1, c2, a1.1, a1.2]
            push_cast
            constructor
            · rfl
            · show info.write_counter + 1 + _ = info.write_counter + _
              ring
          · rw [hX ts (l, info) hr hw] at hop
            cases hop
            have c1 : count_op 'R' (ts :: rest) = count_op 'R' rest := by
              simp [count_op, hr]
            have c2 : count_op 'W' (ts :: rest) = count_op 'W' rest := by
              simp [count_op, hw]
            rw [e1, e2, c1, c2]
            exact ⟨rfl, rfl⟩
  intro st st' h
  obtain ⟨e1, e2⟩ := hcount steps st st' h
  refine ⟨e1, e2, ?_⟩
  rw [e1, e2]
  push_cast
  ring

theorem dispatcher_step_witness :
    ∃ st', run_steps memory_ops sample_steps (sample_memory, sample_info) = some st' ∧
      st'.2.read_counter = sample_info.read_counter + count_op 'R' sample_steps ∧
      st'.2.write_counter = sample_info.write_counter + count_op 'W' sample_steps ∧
      st'.2.read_counter + st'.2.write_counter =
        sample_info.read_counter + sample_info.write_counter +
          (count_op 'R' sample_steps + count_op 'W' sample_steps : Nat) := by
  cases h : run_steps memory_ops sample_steps (sample_memory, sample_info) with
  | none =>
    have hs : (run_steps memory_ops sample_steps (sample_memory, sample_info)).isSome = true := by
      decide
    rw [h] at hs
    cases hs
  | some st' =>
    exact ⟨st', rfl, (dispatcher_step memory_ops).2.2.2.1 memory_keeps_access sample_steps
      (sample_memory, sample_info) st' h⟩

/-- C23 as stated fails.  With the raw generator output `r = 1804289383` and
`n = 1782774185`, both in range, `floor(r * n / (RAND_MAX + 1))` is
1497864971, but `random_next` returns 1497864972: the product
`r / 2^31 * n` has more than 53 significant bits and the `double`
multiplication rounds it up to the next integer. -/
theorem random_range_counterexample :
    (1 : Int) ≤ 1782774185 ∧ (1782774185 : Int) ≤ INT_MAX ∧
    0 ≤ large_random.raw large_random.calls ∧
    large_random.raw large_random.calls ≤ RAND_MAX ∧
    ⌊((large_random.raw large_random.calls * 1782774185 : Int) : ℚ) /
      ((RAND_MAX + 1 : Int) : ℚ)⌋ = 1497864971 ∧
    (random_next large_random 1782774185).1 = 1497864972 := by
  refine ⟨by decide, by decide, by decide, by decide, ?_, by decide⟩
  rw [floor_div_rand]
  decide

/-- C23 (amended: random range).  For every `n ≥ 1` and every raw generator
output `r` with `0 ≤ r ≤ RAND_MAX`, `random_next` returns an integer in
`[0, n)`.  It is `floor(r * n / (RAND_MAX + 1))` whenever `r * n < 2^53`, the
range in which the `double` product is exact, hence for every `n ≤ 2^22`; for
every `n` that fits an `int` it is that floor or the floor plus one.
Consequently, when a fully-associative cache over a memory with no free block
places an address, the placement is defined and the victim index is the value
of `random_next` for `block_count`, a valid block index in
`[0, block_count)`. -/
theorem random_range (rnd : Random) (n : Int) (hn : 1 ≤ n)
    (hr : 0 ≤ rnd.raw rnd.calls ∧ rnd.raw rnd.calls ≤ RAND_MAX) :
    0 ≤ (random_next rnd n).1 ∧ (random_next rnd n).1 < n ∧
    (rnd.raw rnd.calls * n < 9007199254740992 →
      (random_next rnd n).1 =
        ⌊((rnd.raw rnd.calls * n : Int) : ℚ) / ((RAND_MAX + 1 : Int) : ℚ)⌋) ∧
    (n ≤ 4194304 →
      (random_next rnd n).1 =
        ⌊((rnd.raw rnd.calls * n : Int) : ℚ) / ((RAND_MAX + 1 : Int) : ℚ)⌋) ∧
    (n ≤ INT_MAX →
      ⌊((rnd.raw rnd.calls * n : Int) : ℚ) / ((RAND_MAX + 1 : Int) : ℚ)⌋ ≤
        (random_next rnd n).1 ∧
      (random_next rnd n).1 ≤
        ⌊((rnd.raw rnd.calls * n : Int) : ℚ) / ((RAND_MAX + 1 : Int) : ℚ)⌋ + 1) ∧
    ∀ (c : FullCache Memory) (info : StatisticsInfo) (a : Int), c.rnd = rnd →
      c.block_count = n → cache_params_ok c.block_size c.block_count c.blocks c.mem →
      (∀ b ∈ c.blocks, b.addr ≠ NO_BLOCK → b.dirty ≠ 0 → 0 ≤ b.addr) →
      not_resident c.blocks NO_BLOCK → 0 ≤ a →
      ∃ c' info' i, full_cache_random_place memory_ops c info a = some (c', info', i) ∧
        (i : Int) = (random_next rnd n).1 ∧ (i : Int) < c.block_count ∧
        i < c.blocks.length := by
  obtain ⟨h0, h1⟩ := random_next_range rnd n (by omega) hr
  have hprod : 0 ≤ rnd.raw rnd.calls * n := Int.mul_nonneg hr.1 (by omega)
  refine ⟨h0, h1, ?_, ?_, ?_, ?_⟩
  · intro hlt
    rw [floor_div_rand]
    exact random_next_exact rnd n hprod hlt
  · intro hmax
    rw [floor_div_rand]
    refine random_next_exact rnd n hprod ?_
    have := hr.2
    unfold RAND_MAX at this
    nlinarith
  · intro hmax
    rw [floor_div_rand]
    exact random_next_near_floor rnd n (by omega) hmax hr
  · intro c info a hrnd hbc hp htag hfull ha
    subst hrnd
    obtain ⟨i, blocks', cells', info', rnd', e, hplaced, hcase, -⟩ :=
      full_cache_place_spec c info a hp htag ha hr
    have hi : (i : Int) = (random_next c.rnd c.block_count).1 := by
      rcases hcase with ⟨⟨b, hb, hba⟩, -⟩ | ⟨-, h, -⟩
      · exact absurd hba (hfull i b hb)
      · exact h
    rw [hbc] at hi
    refine ⟨_, _, i, e, hi, by rw [hi, hbc]; exact h1, ?_⟩
    have := hp.2.2.1
    omega

theorem random_range_witness :
    0 ≤ (random_next large_random 2).1 ∧
    (random_next large_random 2).1 < 2 ∧
    (large_random.raw large_random.calls * 2 < 9007199254740992 →
      (random_next large_random 2).1 =
        ⌊((large_random.raw large_random.calls * 2 : Int) : ℚ) /
          ((RAND_MAX + 1 : Int) : ℚ)⌋) ∧
    ((2 : Int) ≤ 4194304 →
      (random_next large_random 2).1 =
        ⌊((large_random.raw large_random.calls * 2 : Int) : ℚ) /
          ((RAND_MAX + 1 : Int) : ℚ)⌋) ∧
    ((2 : Int) ≤ INT_MAX →
      ⌊((large_random.raw large_random.calls * 2 : Int) : ℚ) /
          ((RAND_MAX + 1 : Int) : ℚ)⌋ ≤ (random_next large_random 2).1 ∧
      (random_next large_random 2).1 ≤
        ⌊((large_random.raw large_random.calls * 2 : Int) : ℚ) /
          ((RAND_MAX + 1 : Int) : ℚ)⌋ + 1) ∧
    ∀ (c : FullCache Memory) (info : StatisticsInfo) (a : Int), c.rnd = large_random →
      c.block_count = 2 →
      cache_params_ok c.block_size c.block_count c.blocks c.mem →
      (∀ b ∈ c.blocks, b.addr ≠ NO_BLOCK → b.dirty ≠ 0 → 0 ≤ b.addr) →
      not_resident c.blocks NO_BLOCK → 0 ≤ a →
      ∃ c' info' i, full_cache_random_place memory_ops c info a = some (c', info', i) ∧
        (i : Int) = (random_next large_random 2).1 ∧ (i : Int) < c.block_count ∧
        i < c.blocks.length :=
  random_range large_random 2 (by decide) ⟨by decide, by decide⟩

/-- C24 as stated fails: the empty argument list is an argument error in the
sense of the claim (it does not contain exactly one non-flag argument), yet
`main` returns 0 for it, whatever the file system and the rest of the run. -/
theorem cli_argument_errors_counterexample :
    bad_arguments [] ∧
    ∀ (config_file_parse : String → Option ConfigFile)
      (simulate : ConfigFile → MainFlags → Int), main config_file_parse simulate [] = 0 :=
  ⟨Or.inl (by decide), fun _ _ => rfl⟩

/-- C24 (amended).  For every non-empty argument list that does not contain
exactly one argument without a leading `-` (the configuration file path), or
that contains an argument with a leading `-` that is not a known flag, or that
combines `--print-config` with `--statistics`, `--disable-cache` or
`--dump-memory`, `main` exits with a nonzero code (`EXIT_FAILURE`), whatever
the file system and the rest of the run; for the empty argument list it
returns 0. -/
theorem cli_argument_errors (config_file_parse : String → Option ConfigFile)
    (simulate : ConfigFile → MainFlags → Int) (args : List String) (hne : args ≠ [])
    (hbad : bad_arguments args) :
    main config_file_parse simulate args = EXIT_FAILURE ∧
    main config_file_parse simulate args ≠ 0 ∧
    main config_file_parse simulate [] = 0 := by
  have hmain : main config_file_parse simulate args = EXIT_FAILURE := by
    unfold main
    have hlen : ¬ ((args.length : Int) + 1 < 2) := by
      cases args with
      | nil => exact absurd rfl hne
      | cons a rest =>
        simp only [List.length_cons]
        push_cast
        omega
    rw [if_neg hlen]
    obtain ⟨hnone, hsome⟩ := main_scan_spec args ⟨none, false, false, false, false, 0⟩
    cases hscan : main_scan_args args ⟨none, false, false, false, false, 0⟩ with
    | none => rfl
    | some f =>
      obtain ⟨e0, e1, e2, e3, e4⟩ := hsome f hscan
      simp only []
      by_cases hc : f.fnames_count ≠ 1
      · rw [if_pos hc]
      · rw [if_neg hc]
        rcases hbad with hb | hb | ⟨hp, hb⟩
        · exfalso
          apply hc
          rw [e0]
          intro h
          apply hb
          have : (0 : Int) + (List.countP (fun a => !is_dashed a) args : Nat) = 1 := h
          omega
        · rw [hnone hb] at hscan
          cases hscan
        · cases hcfg : f.fname.bind config_file_parse with
          | none => rfl
          | some cfg =>
            simp only []
            rw [if_pos (e1 (Or.inr hp))]
            have hany : (f.statistics || f.disable_cache || f.dump_memory ||
                f.fname.isNone) = true := by
              rcases hb with hb | hb | hb
              · rw [e2 (Or.inr hb)]
                rfl
              · rw [e3 (Or.inr hb)]
                simp
              · rw [e4 (Or.inr hb)]
                simp
            rw [if_pos hany]
  refine ⟨hmain, ?_, rfl⟩
  rw [hmain]
  decide

theorem cli_argument_errors_witness :
    main (fun _ => some sample_config) (fun _ _ => 0)
      ["--print-config", "cachesim.cfg", "--statistics"] = EXIT_FAILURE ∧
    main (fun _ => some sample_config) (fun _ _ => 0)
      ["--print-config", "cachesim.cfg", "--statistics"] ≠ 0 ∧
    main (fun _ => some sample_config) (fun _ _ => 0) [] = 0 :=
  cli_argument_errors (fun _ => some sample_config) (fun _ _ => 0)
    ["--print-config", "cachesim.cfg", "--statistics"] (by decide)
    (Or.inr (Or.inr ⟨by decide, Or.inl (by decide)⟩))

/-- C25 (write-through never writes back).  For a write-through cache of
either variant constructed over a memory, every state reached by a sequence of
read, write, reveal and flush calls has the write-back counter of the start
(0 after `statistics_create`) and no dirty block, and a flush in that state,
whenever defined, returns the cache, the backing store and the statistics
record (the clock included) unchanged. -/
theorem write_through_no_write_back (bs cs rt wt : Int) (m : Memory) (rnd : Random)
    (info : StatisticsInfo) (ops : List MemOp) :
    (∀ c' info',
      run_ops (direct_cache_ops memory_ops) ops
        (direct_cache_alloc WriteStrategy.write_through bs cs rt wt m, info) =
          some (c', info') →
      info'.write_back_counter = info.write_back_counter ∧
      (∀ b ∈ c'.blocks, b.dirty = 0) ∧
      ∀ r, direct_cache_flush memory_ops c' info' = some r → r = (c', info')) ∧
    (∀ c' info',
      run_ops (full_cache_ops memory_ops) ops
        (full_cache_alloc WriteStrategy.write_through bs cs rt wt m rnd, info) =
          some (c', info') →
      info'.write_back_counter = info.write_back_counter ∧
      (∀ b ∈ c'.blocks, b.dirty = 0) ∧
      ∀ r, full_cache_flush memory_ops c' info' = some r → r = (c', info')) := by
  have hfresh : ∀ b ∈ List.replicate (Int.tdiv cs bs).toNat (free_block bs), b.dirty = 0 := by
    intro b hb
    rw [List.eq_of_mem_replicate hb]
    rfl
  have hd : ∀ (ops : List MemOp) (c c' : DirectCache Memory) (info info' : StatisticsInfo),
      c.write_strategy = WriteStrategy.write_through → (∀ b ∈ c.blocks, b.dirty = 0) →
      run_ops (direct_cache_ops memory_ops) ops (c, info) = some (c', info') →
      c'.write_strategy = WriteStrategy.write_through ∧ (∀ b ∈ c'.blocks, b.dirty = 0) ∧
      info'.write_back_counter = info.write_back_counter := by
    intro ops
    induction ops with
    | nil =>
      intro c c' info info' hws hcl h
      cases h
      exact ⟨hws, hcl, rfl⟩
    | cons op rest ih =>
      intro c c' info info' hws hcl h
      unfold run_ops at h
      split at h
      · cases h
      · rename_i st1 hop
        obtain ⟨c1, info1⟩ := st1
        obtain ⟨e1, -, -, e4, e5⟩ := direct_wt_keeps memory_ops memory_keeps_write_back c c1
          info info1 op hws hop
        obtain ⟨f1, f2, f3⟩ := ih c1 c' info1 info' (e1.trans hws) (e4 hcl) h
        exact ⟨f1, f2, f3.trans e5⟩
  have hf : ∀ (ops : List MemOp) (c c' : FullCache Memory) (info info' : StatisticsInfo),
      c.write_strategy = WriteStrategy.write_through → (∀ b ∈ c.blocks, b.dirty = 0) →
      run_ops (full_cache_ops memory_ops) ops (c, info) = some (c', info') →
      c'.write_strategy = WriteStrategy.write_through ∧ (∀ b ∈ c'.blocks, b.dirty = 0) ∧
      info'.write_back_counter = info.write_back_counter := by
    intro ops
    induction ops with
    | nil =>
      intro c c' info info' hws hcl h
      cases h
      exact ⟨hws, hcl, rfl⟩
    | cons op rest ih =>
      intro c c' info info' hws hcl h
      unfold run_ops at h
      split at h
      · cases h
      · rename_i st1 hop
        obtain ⟨c1, info1⟩ := st1
        obtain ⟨e1, -, -, e4, e5⟩ := full_wt_keeps memory_ops memory_keeps_write_back c c1
          info info1 op hws hop
        obtain ⟨f1, f2, f3⟩ := ih c1 c' info1 info' (e1.trans hws) (e4 hcl) h
        exact ⟨f1, f2, f3.trans e5⟩
  constructor
  · intro c' info' h
    obtain ⟨f1, f2, f3⟩ := hd ops _ c' info info' rfl hfresh h
    exact ⟨f3, f2, fun r hr => direct_wt_flush_id c' info' r f1 hr⟩
  · intro c' info' h
    obtain ⟨f1, f2, f3⟩ := hf ops _ c' info info' rfl hfresh h
    exact ⟨f3, f2, fun r hr => full_wt_flush_id c' info' r f1 hr⟩

theorem write_through_no_write_back_witness :
    ∃ c' info',
      run_ops (direct_cache_ops memory_ops) sample_wt_trace
        (direct_cache_alloc WriteStrategy.write_through 16 16 1 2 sample_memory, sample_info) =
          some (c', info') ∧
      info'.write_back_counter = sample_info.write_back_counter ∧
      (∀ b ∈ c'.blocks, b.dirty = 0) ∧
      ∀ r, direct_cache_flush memory_ops c' info' = some r → r = (c', info') := by
  cases h : run_ops (direct_cache_ops memory_ops) sample_wt_trace
      (direct_cache_alloc WriteStrategy.write_through 16 16 1 2 sample_memory, sample_info) with
  | none =>
    have hs : (run_ops (direct_cache_ops memory_ops) sample_wt_trace
        (direct_cache_alloc WriteStrategy.write_through 16 16 1 2 sample_memory,
          sample_info)).isSome = true := by decide
    rw [h] at hs
    cases hs
  | some st =>
    exact ⟨st.1, st.2, rfl, (write_through_no_write_back 16 16 1 2 sample_memory sample_random
      sample_info sample_wt_trace).1 st.1 st.2 h⟩

/-- C26 (placement prefers an empty block).  In a fully-associative cache
over a memory with validated parameters, placing a non-negative address: when
at least one block is free, the placement is defined and uses the
lowest-indexed free block; the generator is left as it was (it is not
consulted), the backing store is unchanged, the statistics change only by the
read cost added to the clock (nothing is finalized, the write-back counter is
unchanged), and every other block keeps its tag, cells and dirty flag.  When
no block is free, the block at the index drawn by `random_next` for
`block_count` is finalized and re-tagged, and the generator has advanced.  The
clock is an `int`: the read cost is `blocks_count * memory_read_time` with
`blocks_count = (block_size + memory_width - 1) / memory_width` in `int`
arithmetic, and the new clock is the 32-bit reduction of the sum; whenever
`block_size + memory_width - 1` and
`clock + ceil(block_size / memory_width) * memory_read_time` fit an `int`, the
latter is the new clock. -/
theorem full_place_prefers_empty (c : FullCache Memory) (info : StatisticsInfo) (a : Int)
    (hp : cache_params_ok c.block_size c.block_count c.blocks c.mem) (ha : 0 ≤ a) :
    ((∃ (k : Nat) (b : CacheBlock), c.blocks[k]? = some b ∧ b.addr = NO_BLOCK) →
      ∃ i b d', c.blocks[i]? = some b ∧ b.addr = NO_BLOCK ∧
        (∀ k b', k < i → c.blocks[k]? = some b' → b'.addr ≠ NO_BLOCK) ∧
        full_cache_random_place memory_ops c info a =
          some ({ c with blocks := c.blocks.set i { addr := a, mem := d', dirty := b.dirty } },
            { info with
              clock_counter := int_wrap (info.clock_counter +
                blocks_count c.block_size c.mem.memory_width * c.mem.memory_read_time) }, i) ∧
        loaded_from d' b.mem c.mem.mem a c.block_size c.mem.memory_size ∧
        (c.block_size + c.mem.memory_width - 1 ≤ INT_MAX →
          in_int_range (info.clock_counter +
            ceil_div c.block_size c.mem.memory_width * c.mem.memory_read_time) →
          int_wrap (info.clock_counter +
            blocks_count c.block_size c.mem.memory_width * c.mem.memory_read_time) =
          info.clock_counter +
            ceil_div c.block_size c.mem.memory_width * c.mem.memory_read_time)) ∧
    (not_resident c.blocks NO_BLOCK →
      (∀ b ∈ c.blocks, b.addr ≠ NO_BLOCK → b.dirty ≠ 0 → 0 ≤ b.addr) →
      (0 ≤ c.rnd.raw c.rnd.calls ∧ c.rnd.raw c.rnd.calls ≤ RAND_MAX) →
      ∃ i blocks' cells' info',
        full_cache_random_place memory_ops c info a =
          some ({ c with rnd := (random_next c.rnd c.block_count).2,
                         mem := { c.mem with mem := cells' }, blocks := blocks' }, info', i) ∧
        (i : Int) = (random_next c.rnd c.block_count).1 ∧
        (random_next c.rnd c.block_count).2.calls = c.rnd.calls + 1 ∧
        placed c.write_strategy c.block_size c.mem c.blocks info a i blocks' cells' info') := by
  constructor
  · intro hfree
    obtain ⟨i, b, d', hb, hba, hlow, e, hld⟩ := full_place_free c info a hp ha hfree
    refine ⟨i, b, d', hb, hba, hlow, e, hld, fun hsum ht => ?_⟩
    rw [blocks_count_ceil c.block_size c.mem.memory_width (le_of_lt (block_size_pos hp.1))
      hp.2.2.2.2.1.2 (by unfold INT_MAX at hsum; omega)]
    exact int_wrap_of_range _ ht
  · intro hfull htag hr
    obtain ⟨i, blocks', cells', info', rnd', e, hplaced, hcase, -⟩ :=
      full_cache_place_spec c info a hp htag ha hr
    rcases hcase with ⟨⟨b, hb, hba⟩, -⟩ | ⟨-, hi, hrnd⟩
    · exact absurd hba (hfull i b hb)
    · subst hrnd
      exact ⟨i, blocks', cells', info', e, hi, rfl, hplaced⟩

theorem full_place_prefers_empty_witness :
    ∃ i b d', sample_full_wt.blocks[i]? = some b ∧ b.addr = NO_BLOCK ∧
      (∀ k b', k < i → sample_full_wt.blocks[k]? = some b' → b'.addr ≠ NO_BLOCK) ∧
      full_cache_random_place memory_ops sample_full_wt sample_info 0 =
        some ({ sample_full_wt with
                blocks := sample_full_wt.blocks.set i { addr := 0, mem := d', dirty := b.dirty } },
          { sample_info with
            clock_counter := int_wrap (sample_info.clock_counter +
              blocks_count sample_full_wt.block_size sample_full_wt.mem.memory_width *
                sample_full_wt.mem.memory_read_time) }, i) ∧
      loaded_from d' b.mem sample_full_wt.mem.mem 0 sample_full_wt.block_size
        sample_full_wt.mem.memory_size ∧
      (sample_full_wt.block_size + sample_full_wt.mem.memory_width - 1 ≤ INT_MAX →
        in_int_range (sample_info.clock_counter +
          ceil_div sample_full_wt.block_size sample_full_wt.mem.memory_width *
            sample_full_wt.mem.memory_read_time) →
        int_wrap (sample_info.clock_counter +
          blocks_count sample_full_wt.block_size sample_full_wt.mem.memory_width *
            sample_full_wt.mem.memory_read_time) =
        sample_info.clock_counter +
          ceil_div sample_full_wt.block_size sample_full_wt.mem.memory_width *
            sample_full_wt.mem.memory_read_time) :=
  (full_place_prefers_empty sample_full_wt sample_info 0
    (by unfold cache_params_ok blocks_sized Memory.wf; decide) (by decide)).1
    ⟨0, ⟨-1, List.replicate 16 ⟨0, 0⟩, 0⟩, by decide, by decide⟩

/-- C28: the code accepts steps that are not well-formed.  Every step that
`trace_step_parse` accepts has a size in {1, 2, 4, 8}, but the operation and
the memory kind are not validated, the check of `op` and `mem` standing after
the last `return`: the line `XQ 0 2 1` is accepted, with code 1, as a step of
operation `X` and memory kind `Q`. -/
theorem trace_step_not_validated :
    (∀ (step step1 : TraceStep) (line : List Char),
      trace_step_parse step line = some (1, step1) →
      step1.size = 1 ∨ step1.size = 2 ∨ step1.size = 4 ∨ step1.size = 8) ∧
    (trace_step_parse sample_step "XQ 0 2 1".toList).map
      (fun r => (r.1, r.2.op, r.2.mem, r.2.size)) = some (1, 'X', 'Q', 2) := by
  refine ⟨?_, by decide⟩
  intro step step1 line h
  unfold trace_step_parse at h
  split at h
  · cases h
  · rename_i n s1 size v hscan
    split at h
    · split at h
      · cases h
      · cases h
        exact Or.inl rfl
    · split at h
      · rename_i hc
        have hs := hc.2
        split at h
        · cases h
        · cases h
          simp only [is_size, Bool.or_eq_true, beq_iff_eq] at hs
          rcases hs with ((rfl | rfl) | rfl) | rfl
          · exact Or.inl rfl
          · exact Or.inr (Or.inl rfl)
          · exact Or.inr (Or.inr (Or.inl rfl))
          · exact Or.inr (Or.inr (Or.inr rfl))
      · cases h

/-- C29 (byte layout of the trace value).  For a line on which `sscanf` assigns
all five items, with a size character `s` in {1, 2, 4, 8} and the value `v`, and
a value array of at least `s` cells, the step is accepted with size `s`, and for
every `i < s` cell `i` of the value holds the byte `(v >> (8 * (s - 1 - i))) &
0xFF` (the most significant byte first) and is flagged known, while the cells
at the indices `i ≥ s` are as before. -/
theorem trace_value_layout (step step1 : TraceStep) (line : List Char) (size : Char) (v : Int)
    (hscan : sscanf_step line step = some (5, step1, size, v)) (hsize : is_size size = true)
    (hlen : size.toNat - 48 ≤ step.value.length) :
    ∃ step2, trace_step_parse step line = some (1, step2) ∧
      step2.size = ((size.toNat - 48 : Nat) : Int) ∧
      (∀ i : Nat, i < size.toNat - 48 →
        step2.value[i]? =
          some ⟨((v / 2 ^ (8 * (size.toNat - 48 - 1 - i))) % 256).toNat, 1⟩) ∧
      (∀ i : Nat, size.toNat - 48 ≤ i → step2.value[i]? = step.value[i]?) := by
  have hval := sscanf_step_value line step step1 5 size v hscan
  obtain ⟨cells', e, -, hpt⟩ := fill_value_spec (size.toNat - 48) v step1.value (by
    rw [hval]
    exact hlen)
  refine ⟨{ step1 with size := ((size.toNat - 48 : Nat) : Int), value := cells' }, ?_, rfl,
    ?_, ?_⟩
  · unfold trace_step_parse
    rw [hscan]
    simp only []
    rw [if_neg (by decide), if_pos ⟨trivial, hsize⟩, e]
  · intro i hi
    show cells'[i]? = _
    rw [hpt i, if_pos hi, pow_mul]
    norm_num
  · intro i hi
    show cells'[i]? = _
    rw [hpt i, if_neg (by omega), hval]

theorem trace_value_layout_witness :
    ∃ step2, trace_step_parse sample_step "WD 10 4 305419896".toList = some (1, step2) ∧
      step2.size = ((('4' : Char).toNat - 48 : Nat) : Int) ∧
      (∀ i : Nat, i < ('4' : Char).toNat - 48 →
        step2.value[i]? =
          some ⟨(((305419896 : Int) / 2 ^ (8 * (('4' : Char).toNat - 48 - 1 - i))) % 256).toNat,
            1⟩) ∧
      (∀ i : Nat, ('4' : Char).toNat - 48 ≤ i → step2.value[i]? = sample_step.value[i]?) :=
  trace_value_layout sample_step
    { sample_step with op := 'W', mem := 'D', addr := 16 } "WD 10 4 305419896".toList '4'
    305419896 (by decide) (by decide) (by decide)

/-- C27 Known-flag monotonicity.  A cell is known when its `flags` field is not
0.  (1) A call on a `Memory` layer that returns and that is a read, a flush, or
a write or reveal of a non-negative number of known cells leaves every known
cell of the memory known.  (2) In every state that a direct-mapped or a
fully-associative cache (either write strategy) over a `Memory` reaches from
construction by in-bounds calls with known source cells, one more such call
returns, leaves every known cell of the backing store known, and leaves known
every known cell of each resident block whose tag it does not change.  (3)
Replaying in-bounds trace steps with known value cells through a bare `Memory`,
or through either cache over a `Memory`, returns, and so does the final flush;
every cell of the backing store that was known at the start is known after the
steps and after the flush. -/
theorem known_flag_monotone (ws : WriteStrategy) (bs cs rt wt : Int) (m : Memory)
    (rnd : Random) (info : StatisticsInfo) (pre : List MemOp) (op : MemOp)
    (steps : List TraceStep)
    (hbs : is_correct_block_size bs = true) (hcs : 0 < cs) (hmod : Int.tmod cs bs = 0)
    (hwf : m.wf) (hmax : m.memory_size ≤ MAX_MEM_SIZE)
    (hrnd : ∀ n, 0 ≤ rnd.raw n ∧ rnd.raw n ≤ RAND_MAX)
    (hops : ∀ o ∈ pre ++ [op], op_ok bs m.memory_size o ∧ op_known o)
    (hsteps : ∀ ts ∈ steps, step_ok bs m.memory_size ts) :
    (∀ (m0 m1 : Memory) (i0 i1 : StatisticsInfo) (o : MemOp), op_known o →
      apply_op memory_ops (m0, i0) o = some (m1, i1) → flags_kept m0.mem m1.mem) ∧
    (∃ c1 info1 c2 info2,
      run_ops (direct_cache_ops memory_ops) pre
        (direct_cache_alloc ws bs cs rt wt m, info) = some (c1, info1) ∧
      apply_op (direct_cache_ops memory_ops) (c1, info1) op = some (c2, info2) ∧
      block_kept c1.blocks c2.blocks ∧ flags_kept c1.mem.mem c2.mem.mem) ∧
    (∃ c1 info1 c2 info2,
      run_ops (full_cache_ops memory_ops) pre
        (full_cache_alloc ws bs cs rt wt m rnd, info) = some (c1, info1) ∧
      apply_op (full_cache_ops memory_ops) (c1, info1) op = some (c2, info2) ∧
      block_kept c1.blocks c2.blocks ∧ flags_kept c1.mem.mem c2.mem.mem) ∧
    (∃ m1 info1 m2 info2,
      run_steps memory_ops steps (m, info) = some (m1, info1) ∧
      memory_ops.flush m1 info1 = some (m2, info2) ∧
      flags_kept m.mem m1.mem ∧ flags_kept m.mem m2.mem) ∧
    (∃ c1 info1 c2 info2,
      run_steps (direct_cache_ops memory_ops) steps
        (direct_cache_alloc ws bs cs rt wt m, info) = some (c1, info1) ∧
      (direct_cache_ops memory_ops).flush c1 info1 = some (c2, info2) ∧
      flags_kept m.mem c1.mem.mem ∧ flags_kept m.mem c2.mem.mem) ∧
    (∃ c1 info1 c2 info2,
      run_steps (full_cache_ops memory_ops) steps
        (full_cache_alloc ws bs cs rt wt m rnd, info) = some (c1, info1) ∧
      (full_cache_ops memory_ops).flush c1 info1 = some (c2, info2) ∧
      flags_kept m.mem c1.mem.mem ∧ flags_kept m.mem c2.mem.mem) := by
  obtain ⟨hinv, hidx⟩ := fresh_known_inv bs cs m hbs hcs hmod hwf hmax
  have hpre : ∀ o ∈ pre, op_ok bs m.memory_size o ∧ op_known o :=
    fun o ho => hops o (List.mem_append_left _ ho)
  obtain ⟨hop1, hop2⟩ := hops op (List.mem_append_right _ (List.mem_singleton_self _))
  refine ⟨fun m0 m1 i0 i1 o hk h => memory_op_kept m0 m1 i0 i1 o hk h, ?_, ?_, ?_, ?_, ?_⟩
  · obtain ⟨c1, info1, e1, -, hbs1, -, hms1, hinv1, hidx1, -⟩ := direct_known_run pre
      (direct_cache_alloc ws bs cs rt wt m) info hinv hidx hpre
    obtain ⟨c2, info2, e2, -, -, -, -, -, -, hf2, hbk2⟩ := direct_known_step c1 info1 op hinv1
      hidx1 (by rw [hbs1, hms1]; exact hop1) hop2
    exact ⟨c1, info1, c2, info2, e1, e2, hbk2, hf2⟩
  · obtain ⟨c1, info1, e1, -, hbs1, -, hms1, hr1, hinv1, -⟩ := full_known_run pre
      (full_cache_alloc ws bs cs rt wt m rnd) info hrnd hinv hpre
    obtain ⟨c2, info2, e2, -, -, -, -, -, -, hf2, hbk2⟩ := full_known_step c1 info1 op
      (fun n => by rw [hr1]; exact hrnd n) hinv1 (by rw [hbs1, hms1]; exact hop1) hop2
    exact ⟨c1, info1, c2, info2, e1, e2, hbk2, hf2⟩
  · obtain ⟨m1, info1, e1, -, hf1⟩ := memory_known_steps steps m info hwf
      (fun ts hts => step_ok_known (hsteps ts hts))
    exact ⟨m1, info1, m1, info1, e1, rfl, hf1, hf1⟩
  · obtain ⟨c1, info1, e1, -, -, -, -, hinv1, hidx1, hf1⟩ := direct_known_steps steps
      (direct_cache_alloc ws bs cs rt wt m) info hinv hidx hsteps
    obtain ⟨c2, info2, e2, -, -, -, -, -, -, hf2, -⟩ := direct_known_flush c1 info1 hinv1 hidx1
    exact ⟨c1, info1, c2, info2, e1, e2, hf1, flags_kept_trans hf1 hf2⟩
  · obtain ⟨c1, info1, e1, -, -, -, -, -, hinv1, hf1⟩ := full_known_steps steps
      (full_cache_alloc ws bs cs rt wt m rnd) info hrnd hinv hsteps
    obtain ⟨c2, info2, e2, -, -, -, -, -, -, hf2, -⟩ := full_known_flush c1 info1 hinv1
    exact ⟨c1, info1, c2, info2, e1, e2, hf1, flags_kept_trans hf1 hf2⟩

/-- C27 instance: a write-back cache of one block of 16 cells over
`sample_known_memory`, after the calls of `sample_wb_trace`, one more write to
address 19; and the replay of `sample_steps`. -/
theorem known_flag_monotone_witness :
    (∀ (m0 m1 : Memory) (i0 i1 : StatisticsInfo) (o : MemOp), op_known o →
      apply_op memory_ops (m0, i0) o = some (m1, i1) → flags_kept m0.mem m1.mem) ∧
    (∃ c1 info1 c2 info2,
      run_ops (direct_cache_ops memory_ops) sample_wb_trace
        (direct_cache_alloc WriteStrategy.write_back 16 16 1 2 sample_known_memory,
          sample_info) = some (c1, info1) ∧
      apply_op (direct_cache_ops memory_ops) (c1, info1) (MemOp.write 19 1 [⟨9, 1⟩]) =
        some (c2, info2) ∧
      block_kept c1.blocks c2.blocks ∧ flags_kept c1.mem.mem c2.mem.mem) ∧
    (∃ c1 info1 c2 info2,
      run_ops (full_cache_ops memory_ops) sample_wb_trace
        (full_cache_alloc WriteStrategy.write_back 16 16 1 2 sample_known_memory
          sample_random, sample_info) = some (c1, info1) ∧
      apply_op (full_cache_ops memory_ops) (c1, info1) (MemOp.write 19 1 [⟨9, 1⟩]) =
        some (c2, info2) ∧
      block_kept c1.blocks c2.blocks ∧ flags_kept c1.mem.mem c2.mem.mem) ∧
    (∃ m1 info1 m2 info2,
      run_steps memory_ops sample_steps (sample_known_memory, sample_info) =
        some (m1, info1) ∧
      memory_ops.flush m1 info1 = some (m2, info2) ∧
      flags_kept sample_known_memory.mem m1.mem ∧
      flags_kept sample_known_memory.mem m2.mem) ∧
    (∃ c1 info1 c2 info2,
      run_steps (direct_cache_ops memory_ops) sample_steps
        (direct_cache_alloc WriteStrategy.write_back 16 16 1 2 sample_known_memory,
          sample_info) = some (c1, info1) ∧
      (direct_cache_ops memory_ops).flush c1 info1 = some (c2, info2) ∧
      flags_kept sample_known_memory.mem c1.mem.mem ∧
      flags_kept sample_known_memory.mem c2.mem.mem) ∧
    (∃ c1 info1 c2 info2,
      run_steps (full_cache_ops memory_ops) sample_steps
        (full_cache_alloc WriteStrategy.write_back 16 16 1 2 sample_known_memory
          sample_random, sample_info) = some (c1, info1) ∧
      (full_cache_ops memory_ops).flush c1 info1 = some (c2, info2) ∧
      flags_kept sample_known_memory.mem c1.mem.mem ∧
      flags_kept sample_known_memory.mem c2.mem.mem) :=
  known_flag_monotone WriteStrategy.write_back 16 16 1 2 sample_known_memory sample_random
    sample_info sample_wb_trace (MemOp.write 19 1 [⟨9, 1⟩]) sample_steps
    (by decide) (by decide) (by decide) (by unfold Memory.wf; decide) (by decide)
    (fun _ => ⟨le_refl (0 : Int), show (0 : Int) ≤ RAND_MAX by decide⟩)
    (by
      unfold sample_wb_trace
      simp only [List.cons_append, List.nil_append, List.mem_cons, List.mem_singleton,
        List.not_mem_nil, or_false]
      rintro o (rfl | rfl | rfl | rfl | rfl)
      · exact ⟨⟨by unfold access_ok; decide, by decide⟩, by decide,
          known_cells_of_all _ (by decide)⟩
      · exact ⟨⟨by unfold access_ok; decide, by decide⟩, by decide,
          known_cells_of_all _ (by decide)⟩
      · exact ⟨⟨by unfold access_ok; decide, by simp⟩, trivial⟩
      · exact ⟨⟨by unfold access_ok; decide, by decide⟩, by decide,
          known_cells_of_all _ (by decide)⟩
      · exact ⟨⟨by unfold access_ok; decide, by decide⟩, by decide,
          known_cells_of_all _ (by decide)⟩)
    (by
      unfold sample_steps
      simp only [List.mem_cons, List.mem_singleton, List.not_mem_nil, or_false]
      rintro ts (rfl | rfl | rfl)
      · exact ⟨by unfold access_ok; decide, by decide, known_cells_of_all _ (by decide)⟩
      · exact ⟨by unfold access_ok; decide, by decide, known_cells_of_all _ (by decide)⟩
      · exact ⟨by unfold access_ok; decide, by decide, known_cells_of_all _ (by decide)⟩)

/-- C37: `random_create` reads through a null pointer when the seed is
rejected.  With the parameter `seed` absent the generator is created with the
time-derived seed, and with a valid positive seed it is created with exactly
that seed.  When the parameter is present but is not a valid integer or is not
positive, the code frees the generator, sets `rnd = NULL` and then evaluates
`srand(rnd->seed)`: the behaviour is undefined, and no null pointer is
returned.  The configurations `seed = 0` and `seed = abc` are instances. -/
theorem random_create_null_deref :
    (∀ (cfg : ConfigFile) (now : Int) (stream : Int → Nat → Int),
      (read_param cfg none "seed").1 = 0 →
      random_create cfg now stream = some (some ⟨now, stream now, 0⟩)) ∧
    (∀ (cfg : ConfigFile) (now : Int) (stream : Int → Nat → Int),
      (read_param cfg none "seed").1 = 1 → 0 < (read_param cfg none "seed").2 →
      random_create cfg now stream =
        some (some ⟨(read_param cfg none "seed").2, stream (read_param cfg none "seed").2, 0⟩)) ∧
    (∀ (cfg : ConfigFile) (now : Int) (stream : Int → Nat → Int),
      (read_param cfg none "seed").1 ≠ 0 →
      (read_param cfg none "seed").1 < 0 ∨ (read_param cfg none "seed").2 ≤ 0 →
      random_create cfg now stream = none) ∧
    (∀ (now : Int) (stream : Int → Nat → Int),
      random_create zero_seed_config now stream = none ∧
      random_create text_seed_config now stream = none ∧
      random_create zero_seed_config now stream ≠ some none ∧
      random_create valid_seed_config now stream = some (some ⟨42, stream 42, 0⟩) ∧
      random_create ⟨[]⟩ now stream = some (some ⟨now, stream now, 0⟩)) := by
  have gen0 : ∀ (cfg : ConfigFile) (now : Int) (stream : Int → Nat → Int),
      (read_param cfg none "seed").1 = 0 →
      random_create cfg now stream = some (some ⟨now, stream now, 0⟩) := by
    intro cfg now stream h
    unfold read_param at h
    unfold random_create
    simp only []
    rw [if_pos h]
  have gen1 : ∀ (cfg : ConfigFile) (now : Int) (stream : Int → Nat → Int),
      (read_param cfg none "seed").1 = 1 → 0 < (read_param cfg none "seed").2 →
      random_create cfg now stream =
        some (some ⟨(read_param cfg none "seed").2, stream (read_param cfg none "seed").2,
          0⟩) := by
    intro cfg now stream h1 h2
    unfold read_param at h1 h2 ⊢
    unfold random_create
    simp only []
    rw [if_neg (by omega), if_neg (by omega)]
  have bad : ∀ (cfg : ConfigFile) (now : Int) (stream : Int → Nat → Int),
      (read_param cfg none "seed").1 ≠ 0 →
      (read_param cfg none "seed").1 < 0 ∨ (read_param cfg none "seed").2 ≤ 0 →
      random_create cfg now stream = none := by
    intro cfg now stream h1 h2
    unfold read_param at h1 h2
    unfold random_create
    simp only []
    rw [if_neg h1, if_pos h2]
  refine ⟨gen0, gen1, bad, ?_⟩
  intro now stream
  have z : random_create zero_seed_config now stream = none :=
    bad zero_seed_config now stream (by decide) (by decide)
  refine ⟨z, bad text_seed_config now stream (by decide) (by decide), ?_, ?_, ?_⟩
  · rw [z]
    exact fun h => Option.noConfusion h
  · exact gen1 valid_seed_config now stream (by decide) (by decide)
  · exact gen0 ⟨[]⟩ now stream (by decide)

/-- C32 In-block bounds.  For a block size in {16, 32, 64}, a size in
{1, 2, 4, 8} and a non-negative address that is a multiple of the size, the
offset `addr - aligned_addr` is non-negative and the copied range ends inside
the block: `(addr - aligned_addr) + size <= block_size`.  Hence the copy out of
a block of `block_size` cells that `read` makes and the copy into it that
`write` and `reveal` make are defined, for buffers of at least `size` cells. -/
theorem in_block_bounds (bs size addr : Int) (hbs : is_correct_block_size bs = true)
    (hsize : size = 1 ∨ size = 2 ∨ size = 4 ∨ size = 8) (h0 : 0 ≤ addr)
    (h1 : addr ≤ INT_MAX) (hal : addr % size = 0) :
    0 ≤ addr - int_and addr (-bs) ∧ (addr - int_and addr (-bs)) + size ≤ bs ∧
    ∀ (cells buf : List MemoryCell), (cells.length : Int) = bs → size ≤ (buf.length : Int) →
      (∃ d', memcpy buf 0 cells (addr - int_and addr (-bs)) size = some d' ∧
        d'.length = buf.length) ∧
      (∃ cells', memcpy cells (addr - int_and addr (-bs)) buf 0 size = some cells' ∧
        cells'.length = cells.length) := by
  obtain ⟨-, -, e3, e4, e5, -⟩ := aligned_offset addr bs hbs h0 h1
  have hb : addr % bs + size ≤ bs := by
    simp only [is_correct_block_size, Bool.or_eq_true, beq_iff_eq] at hbs
    rcases hbs with (rfl | rfl) | rfl <;> rcases hsize with rfl | rfl | rfl | rfl <;> omega
  have hs : 0 ≤ size := by
    rcases hsize with rfl | rfl | rfl | rfl <;> decide
  rw [e3]
  refine ⟨e4, hb, ?_⟩
  intro cells buf hc hbuf
  constructor
  · obtain ⟨d', hd⟩ := memcpy_read_defined buf cells (addr % bs) size e4 hs hbuf (by omega)
    exact ⟨d', hd, memcpy_length hd⟩
  · obtain ⟨r, hr, -⟩ := memcpy_stored cells buf (addr % bs) size e4 hs (by omega) hbuf
    exact ⟨r, hr, memcpy_length hr⟩

/-- C32 instance: block size 16, size 8, address 24 (offset 8). -/
theorem in_block_bounds_witness :
    0 ≤ 24 - int_and 24 (-16) ∧ (24 - int_and 24 (-16)) + 8 ≤ 16 ∧
    ∀ (cells buf : List MemoryCell), (cells.length : Int) = 16 → 8 ≤ (buf.length : Int) →
      (∃ d', memcpy buf 0 cells (24 - int_and 24 (-16)) 8 = some d' ∧
        d'.length = buf.length) ∧
      (∃ cells', memcpy cells (24 - int_and 24 (-16)) buf 0 8 = some cells' ∧
        cells'.length = cells.length) :=
  in_block_bounds 16 8 24 (by decide) (by decide) (by decide) (by decide) (by decide)

/-- C36 With a single block the two placement strategies coincide.  A
fully-associative and a direct-mapped cache are constructed with the same
write strategy, block size in {16, 32, 64}, `cache_size = block_size`,
timings and lower layer (of any kind), the generator returning values in
`[0, RAND_MAX]`.  Both caches have one block, and every sequence of read,
write, reveal and flush calls, at any addresses, has the same outcome on both:
it is undefined on both or defined on both, with the same destinations
returned by the reads, the same statistics record, the same state of the
lower layer and the same blocks. -/
theorem single_block_equivalence (L : Type) (lower : AbstractMemoryOps L)
    (ws : WriteStrategy) (bs rt wt : Int) (m : L) (rnd : Random) (info : StatisticsInfo)
    (ops : List MemOp) (hbs : is_correct_block_size bs = true)
    (hrnd : ∀ n, 0 ≤ rnd.raw n ∧ rnd.raw n ≤ RAND_MAX) :
    (full_cache_alloc ws bs bs rt wt m rnd).block_count = 1 ∧
    (direct_cache_alloc ws bs bs rt wt m).block_count = 1 ∧
    (run_reads (full_cache_ops lower) ops (full_cache_alloc ws bs bs rt wt m rnd, info)).map
        forget_generator =
      run_reads (direct_cache_ops lower) ops (direct_cache_alloc ws bs bs rt wt m, info) := by
  have hpos := block_size_pos hbs
  have h1 : Int.tdiv bs bs = 1 := Int.tdiv_self (by omega)
  have hS : single_block (full_cache_alloc ws bs bs rt wt m rnd) := by
    refine ⟨h1, (by show bs ≠ 0; omega), ?_, hrnd⟩
    show (List.replicate (Int.tdiv bs bs).toNat (free_block bs)).length = 1
    rw [List.length_replicate, h1]
    rfl
  exact ⟨h1, h1, run_reads_same lower ops _ info hS⟩

/-- C36 instance: write-back caches of one block of 16 cells over
`sample_memory`, on the calls of `sample_wt_trace` followed by a read into a
buffer; the run is defined. -/
theorem single_block_equivalence_witness :
    ((full_cache_alloc WriteStrategy.write_back 16 16 1 2 sample_memory
        sample_random).block_count = 1 ∧
      (direct_cache_alloc WriteStrategy.write_back 16 16 1 2 sample_memory).block_count = 1 ∧
      (run_reads (full_cache_ops memory_ops) (sample_wt_trace ++ [MemOp.read 3 2 (some sample_src)])
          (full_cache_alloc WriteStrategy.write_back 16 16 1 2 sample_memory sample_random,
            sample_info)).map forget_generator =
        run_reads (direct_cache_ops memory_ops)
          (sample_wt_trace ++ [MemOp.read 3 2 (some sample_src)])
          (direct_cache_alloc WriteStrategy.write_back 16 16 1 2 sample_memory,
            sample_info)) ∧
    (run_reads (direct_cache_ops memory_ops)
      (sample_wt_trace ++ [MemOp.read 3 2 (some sample_src)])
      (direct_cache_alloc WriteStrategy.write_back 16 16 1 2 sample_memory,
        sample_info)).isSome = true :=
  ⟨single_block_equivalence Memory memory_ops WriteStrategy.write_back 16 1 2 sample_memory
    sample_random sample_info (sample_wt_trace ++ [MemOp.read 3 2 (some sample_src)])
    (by decide) (fun _ => ⟨le_refl (0 : Int), show (0 : Int) ≤ RAND_MAX by decide⟩),
   by decide⟩

/-- C33 Tag uniqueness in the fully-associative cache.  The cache is
constructed with validated parameters over any lower layer; `c1` is a state
that a sequence of read, write, reveal and flush calls reaches from it and
`c2` a state that further calls reach from `c1` (a call whose random index
falls outside the array of blocks is undefined and reaches no state).  In
`c1` no two blocks hold the same non-empty tag and every non-empty tag is a
multiple of the block size; every block that is non-empty in `c1` is non-empty
in `c2`. -/
theorem full_tag_uniqueness (L : Type) (lower : AbstractMemoryOps L) (ws : WriteStrategy)
    (bs cs rt wt : Int) (m : L) (rnd : Random) (info : StatisticsInfo)
    (pre post : List MemOp) (c1 c2 : FullCache L) (info1 info2 : StatisticsInfo)
    (hbs : is_correct_block_size bs = true) (hcs : 0 < cs) (hmod : Int.tmod cs bs = 0)
    (h1 : run_ops (full_cache_ops lower) pre (full_cache_alloc ws bs cs rt wt m rnd, info) =
      some (c1, info1))
    (h2 : run_ops (full_cache_ops lower) post (c1, info1) = some (c2, info2)) :
    blocks_unique c1.blocks ∧ tags_aligned bs c1.blocks ∧
    stays_resident c1.blocks c2.blocks := by
  have h0 : tag_inv (full_cache_alloc ws bs cs rt wt m rnd).block_size
      (full_cache_alloc ws bs cs rt wt m rnd).block_count
      (full_cache_alloc ws bs cs rt wt m rnd).blocks := fresh_tag_inv bs cs hbs hcs hmod
  obtain ⟨e1, -, hinv1, -⟩ := full_tag_run lower pre _ c1 info info1 h0 h1
  obtain ⟨-, -, -, hs2⟩ := full_tag_run lower post c1 c2 info1 info2 hinv1 h2
  have e1' : c1.block_size = bs := e1
  rw [e1'] at hinv1
  exact ⟨hinv1.2.2.2, hinv1.2.2.1, hs2⟩

/-- C33 instance: a write-back cache of two blocks of 16 cells over
`sample_memory`, after the calls of `sample_wb_trace`, followed by a flush and
a reveal. -/
theorem full_tag_uniqueness_witness :
    ∃ (c1 c2 : FullCache Memory) (info1 info2 : StatisticsInfo),
      run_ops (full_cache_ops memory_ops) sample_wb_trace
        (full_cache_alloc WriteStrategy.write_back 16 32 1 2 sample_memory sample_random,
          sample_info) = some (c1, info1) ∧
      run_ops (full_cache_ops memory_ops) [MemOp.flush, MemOp.reveal 19 1 [⟨9, 1⟩]]
        (c1, info1) = some (c2, info2) ∧
      blocks_unique c1.blocks ∧ tags_aligned 16 c1.blocks ∧
      stays_resident c1.blocks c2.blocks := by
  have hs : (run_ops (full_cache_ops memory_ops)
      (sample_wb_trace ++ [MemOp.flush, MemOp.reveal 19 1 [⟨9, 1⟩]])
      (full_cache_alloc WriteStrategy.write_back 16 32 1 2 sample_memory sample_random,
        sample_info)).isSome = true := by decide
  rw [run_ops_append] at hs
  cases h1 : run_ops (full_cache_ops memory_ops) sample_wb_trace
      (full_cache_alloc WriteStrategy.write_back 16 32 1 2 sample_memory sample_random,
        sample_info) with
  | none =>
    rw [h1] at hs
    cases hs
  | some r1 =>
    rw [h1] at hs
    obtain ⟨c1, info1⟩ := r1
    cases h2 : run_ops (full_cache_ops memory_ops) [MemOp.flush, MemOp.reveal 19 1 [⟨9, 1⟩]]
        (c1, info1) with
    | none =>
      change (run_ops (full_cache_ops memory_ops) [MemOp.flush, MemOp.reveal 19 1 [⟨9, 1⟩]]
        (c1, info1)).isSome = true at hs
      rw [h2] at hs
      cases hs
    | some r2 =>
      obtain ⟨c2, info2⟩ := r2
      exact ⟨c1, c2, info1, info2, rfl, h2,
        full_tag_uniqueness Memory memory_ops WriteStrategy.write_back 16 32 1 2 sample_memory
          sample_random sample_info sample_wb_trace [MemOp.flush, MemOp.reveal 19 1 [⟨9, 1⟩]]
          c1 c2 info1 info2 (by decide) (by decide) (by decide) h1 h2⟩

/-- C34 Cache coherence invariant.  A direct-mapped cache is constructed with
validated parameters over a `Memory`, and read, write, reveal and flush calls
whose accesses end inside `memory_size` and stay inside one block are made on
it.  The calls return, and in the state reached every resident block that is
not dirty holds, at each offset whose address the memory has, exactly the cell
(value and flag) of the backing store at `tag + offset`; under write-through
no block is dirty, so this holds for every resident block. -/
theorem cache_coherence (ws : WriteStrategy) (bs cs rt wt : Int) (m : Memory)
    (info : StatisticsInfo) (ops : List MemOp)
    (hbs : is_correct_block_size bs = true) (hcs : 0 < cs) (hmod : Int.tmod cs bs = 0)
    (hwf : m.wf) (hmax : m.memory_size ≤ MAX_MEM_SIZE)
    (hok : ∀ op ∈ ops, op_ok bs m.memory_size op) :
    ∃ c' info',
      run_ops (direct_cache_ops memory_ops) ops (direct_cache_alloc ws bs cs rt wt m, info) =
        some (c', info') ∧
      (∀ (i : Nat) (b : CacheBlock), c'.blocks[i]? = some b → b.addr ≠ NO_BLOCK →
        b.dirty = 0 → block_mirrors bs c'.mem b) ∧
      (ws = WriteStrategy.write_through →
        ∀ (i : Nat) (b : CacheBlock), c'.blocks[i]? = some b → b.addr ≠ NO_BLOCK →
          b.dirty = 0 ∧ block_mirrors bs c'.mem b) := by
  obtain ⟨hinv, hidx⟩ := fresh_coh_inv ws bs cs m hbs hcs hmod hwf hmax
  obtain ⟨c', info', e, hws, hbs', -, -, hinv', -⟩ := direct_coh_run ops
    (direct_cache_alloc ws bs cs rt wt m) info hinv hidx hok
  have hbs'' : c'.block_size = bs := hbs'
  have hws' : c'.write_strategy = ws := hws
  rw [hbs'', hws'] at hinv'
  refine ⟨c', info', e, hinv'.2.2.2.1, ?_⟩
  intro g i b hb hnb
  have hd := hinv'.2.2.2.2 g b (mem_of_getElem? hb)
  exact ⟨hd, hinv'.2.2.2.1 i b hb hnb hd⟩

/-- C34 instance: a write-back cache of one block of 16 cells over
`sample_known_memory` on the calls of `sample_wt_trace`. -/
theorem cache_coherence_witness :
    ∃ c' info',
      run_ops (direct_cache_ops memory_ops) sample_wt_trace
        (direct_cache_alloc WriteStrategy.write_back 16 16 1 2 sample_known_memory,
          sample_info) = some (c', info') ∧
      (∀ (i : Nat) (b : CacheBlock), c'.blocks[i]? = some b → b.addr ≠ NO_BLOCK →
        b.dirty = 0 → block_mirrors 16 c'.mem b) ∧
      (WriteStrategy.write_back = WriteStrategy.write_through →
        ∀ (i : Nat) (b : CacheBlock), c'.blocks[i]? = some b → b.addr ≠ NO_BLOCK →
          b.dirty = 0 ∧ block_mirrors 16 c'.mem b) :=
  cache_coherence WriteStrategy.write_back 16 16 1 2 sample_known_memory sample_info
    sample_wt_trace (by decide) (by decide) (by decide) (by unfold Memory.wf; decide)
    (by decide)
    (by
      unfold sample_wt_trace
      simp only [List.mem_cons, List.mem_singleton, List.not_mem_nil, or_false]
      rintro op (rfl | rfl | rfl | rfl | rfl | rfl | rfl)
      · exact ⟨by unfold access_ok; decide, by simp⟩
      · exact ⟨by unfold access_ok; decide, by decide⟩
      · trivial
      · exact ⟨by unfold access_ok; decide, by simp⟩
      · exact ⟨by unfold access_ok; decide, by decide⟩
      · exact ⟨by unfold access_ok; decide, by decide⟩
      · trivial)

/-- C35 Read-your-writes.  A direct-mapped cache of either write strategy is
constructed with validated parameters over a `Memory`; in the state that any
in-bounds calls reach, a write of `src[0 .. size)` at `addr`, with
`0 <= addr`, `addr + size <= memory_size` and the access inside one block,
followed at once by a read of the same range into `dst` returns: the first
`size` cells of the destination are exactly the cells of `src`, and the cells
of `dst` from index `size` on are unchanged. -/
theorem read_your_writes (ws : WriteStrategy) (bs cs rt wt : Int) (m : Memory)
    (info : StatisticsInfo) (ops : List MemOp) (addr size : Int) (src dst : List MemoryCell)
    (hbs : is_correct_block_size bs = true) (hcs : 0 < cs) (hmod : Int.tmod cs bs = 0)
    (hwf : m.wf) (hmax : m.memory_size ≤ MAX_MEM_SIZE)
    (hok : ∀ op ∈ ops, op_ok bs m.memory_size op)
    (hacc : access_ok bs m.memory_size addr size)
    (hsrc : size ≤ (src.length : Int)) (hdst : size ≤ (dst.length : Int)) :
    ∃ c1 info1 c2 info2 c3 info3 dst',
      run_ops (direct_cache_ops memory_ops) ops (direct_cache_alloc ws bs cs rt wt m, info) =
        some (c1, info1) ∧
      (direct_cache_ops memory_ops).write c1 info1 addr size src = some (c2, info2) ∧
      (direct_cache_ops memory_ops).read c2 info2 addr size (some dst) =
        some (c3, info3, some dst') ∧
      dst'.length = dst.length ∧
      ∀ k : Nat, dst'[k]? = if (k : Int) < size then src[k]? else dst[k]? := by
  obtain ⟨hinv, hidx⟩ := fresh_coh_inv ws bs cs m hbs hcs hmod hwf hmax
  obtain ⟨c1, info1, e, -, hbs1, -, hms1, hinv1, hidx1⟩ := direct_coh_run ops
    (direct_cache_alloc ws bs cs rt wt m) info hinv hidx hok
  obtain ⟨c2, info2, c3, info3, dst', ew, er, hl, hc⟩ := direct_write_read c1 info1 addr size
    src dst hinv1 hidx1 (by rw [hbs1, hms1]; exact hacc) hsrc hdst
  exact ⟨c1, info1, c2, info2, c3, info3, dst', e, ew, er, hl, hc⟩

/-- C35 instance: a write-through cache of one block of 16 cells over
`sample_memory`, after the calls of `sample_wt_trace`, a write of two cells at
address 19 and a read of them into a buffer of three cells. -/
theorem read_your_writes_witness :
    ∃ c1 info1 c2 info2 c3 info3 dst',
      run_ops (direct_cache_ops memory_ops) sample_wt_trace
        (direct_cache_alloc WriteStrategy.write_through 16 16 1 2 sample_memory,
          sample_info) = some (c1, info1) ∧
      (direct_cache_ops memory_ops).write c1 info1 19 2 sample_src = some (c2, info2) ∧
      (direct_cache_ops memory_ops).read c2 info2 19 2 (some (List.replicate 3 ⟨0, 0⟩)) =
        some (c3, info3, some dst') ∧
      dst'.length = (List.replicate 3 (⟨0, 0⟩ : MemoryCell)).length ∧
      ∀ k : Nat, dst'[k]? =
        if (k : Int) < 2 then sample_src[k]? else (List.replicate 3 (⟨0, 0⟩ : MemoryCell))[k]? :=
  read_your_writes WriteStrategy.write_through 16 16 1 2 sample_memory sample_info
    sample_wt_trace 19 2 sample_src (List.replicate 3 ⟨0, 0⟩)
    (by decide) (by decide) (by decide) (by unfold Memory.wf; decide) (by decide)
    (by
      unfold sample_wt_trace
      simp only [List.mem_cons, List.mem_singleton, List.not_mem_nil, or_false]
      rintro op (rfl | rfl | rfl | rfl | rfl | rfl | rfl)
      · exact ⟨by unfold access_ok; decide, by simp⟩
      · exact ⟨by unfold access_ok; decide, by decide⟩
      · trivial
      · exact ⟨by unfold access_ok; decide, by simp⟩
      · exact ⟨by unfold access_ok; decide, by decide⟩
      · exact ⟨by unfold access_ok; decide, by decide⟩
      · trivial)
    (by unfold access_ok; decide) (by decide) (by decide)

end CacheSim
